import Mathlib

/-!
Rank-based Büchi complementation (`BuchiAutomatonSpec`).

A shallow embedding of the successor functions and drivers of
`src/Complement/BuchiAutomatonSpec.cpp` and of the earlier
`src/BuchiAutomatonSpec.cpp`.

Conventions of the embedding.

* `std::set<int>` is a strictly increasing list of naturals (`IntSet`); the
  loops of the source iterate it in that order.
* `std::map<int, T>` is a key-sorted association list; `operator[]` on an
  absent key reads the value-initialised `T` (`0`, the empty set).
* `std::vector<int>` indexed by automaton state is a total map `Nat → Int`
  carrying the initial fill value everywhere.
* `int` is `Int`; the source's `%` is the truncating `Int.tmod`.
* `std::set<Macrostate>` is a duplicate-free list in insertion order: the
  order induced by the macrostates' `operator<`, declared outside these
  sources, is not modelled.
* A `while` loop is run for a bounded number of rounds (`whileLoop`); the
  drivers return `none` when the bound is too small.
* Code outside these sources is either modelled from the specification (the
  queries of `RankFunc`, marked as such) or taken as a parameter (the rank
  enumerators inside the successor functions, the analyses in `ReducedEnv`).
-/

namespace BaInclusion

/-! ## Containers -/

/-- The type `std::set<int>`: a strictly increasing list. -/
abbrev IntSet := List Nat

/-- The call `s.insert(x)` on a `std::set<int>`. -/
def setInsert (x : Nat) : IntSet → IntSet
  | [] => [x]
  | y :: ys =>
    if x < y then x :: y :: ys
    else if x = y then y :: ys
    else y :: setInsert x ys

/-- The call `s.insert(dst.begin(), dst.end())`. -/
def setInsertAll (dst : IntSet) (s : IntSet) : IntSet :=
  dst.foldl (fun acc d => setInsert d acc) s

/-- The algorithm `std::set_difference(a, b)` on sorted ranges. -/
def setDifference (a b : IntSet) : IntSet :=
  a.filter (fun x => decide (x ∉ b))

/-- The algorithm `std::set_intersection(a, b)` on sorted ranges. -/
def setIntersection (a b : IntSet) : IntSet :=
  a.filter (fun x => decide (x ∈ b))

/-- The assignment `m[k] = v` on a `std::map<int, T>`. -/
def mapAssign {β : Type} (m : List (Nat × β)) (k : Nat) (v : β) : List (Nat × β) :=
  match m with
  | [] => [(k, v)]
  | (k', v') :: rest =>
    if k < k' then (k, v) :: (k', v') :: rest
    else if k = k' then (k, v) :: rest
    else (k', v') :: mapAssign rest k v

/-- Insertion into a `std::set` of macrostates. -/
def insertNew {α : Type} [DecidableEq α] (l : List α) (x : α) : List α :=
  if x ∈ l then l else l ++ [x]

/-- The assignment `v[i] = x` on a vector indexed by state. -/
def vecSet (v : Nat → Int) (i : Nat) (x : Int) : Nat → Int :=
  fun j => if j = i then x else v j

/-- The assignment `m[k] = v` on a `std::map` with arbitrary keys. -/
def assocAssign {κ β : Type} [DecidableEq κ] (m : List (κ × β)) (k : κ) (v : β) :
    List (κ × β) :=
  match m with
  | [] => [(k, v)]
  | (k', v') :: rest =>
    if k' = k then (k, v) :: rest else (k', v') :: assocAssign rest k v

/-- The read `m[k]` on a `std::map` whose values are containers. -/
def assocGet {κ β : Type} [DecidableEq κ] (m : List (κ × List β)) (k : κ) : List β :=
  match m with
  | [] => []
  | (k', v') :: rest => if k' = k then v' else assocGet rest k

/-- The lookup `m.find(k)` on a `std::map`. -/
def assocFind {κ β : Type} [DecidableEq κ] (m : List (κ × β)) (k : κ) : Option β :=
  match m with
  | [] => none
  | (k', v') :: rest => if k' = k then some v' else assocFind rest k

/-! ## Rank functions

`RankFunc.h`/`RankFunc.cpp` are not among the sources. The class derives from
`std::map<int,int>`; its queries are modelled from §3 and §4.1 of the
specification. -/

/-- The class `RankFunc`, a `std::map<int,int>` from states to ranks. -/
abbrev RankFunc := List (Nat × Int)

/-- The reads `f[q]` and `f.find(q)->second`; an absent key reads `0`. -/
def RankFunc.get (f : RankFunc) (q : Nat) : Int :=
  match f with
  | [] => 0
  | (k, v) :: rest => if k = q then v else RankFunc.get rest q

/-- The domain of a rank function, in key order. -/
def RankFunc.keys (f : RankFunc) : IntSet := f.map Prod.fst

/-- Modelled from the spec: `RankFunc::getMaxRank` (RankFunc.cpp is missing),
"max rank = max r(q)" over non-negative ranks; `0` on the empty rank. -/
def RankFunc.getMaxRank (f : RankFunc) : Int :=
  f.foldl (fun m kv => max m kv.2) 0

/-- Modelled from the spec: `RankFunc::getOddStates` (RankFunc.cpp is missing),
"odd-states(r) = {q : r(q) odd}". -/
def RankFunc.getOddStates (f : RankFunc) : IntSet :=
  (f.filter (fun kv => decide (kv.2 % 2 = 1))).map Prod.fst

/-- Modelled from the spec: `RankFunc::inverseRank` (RankFunc.cpp is missing),
"inverse(r, i) = {q : r(q) = i}". -/
def RankFunc.inverseRank (f : RankFunc) (i : Int) : IntSet :=
  (f.filter (fun kv => decide (kv.2 = i))).map Prod.fst

/-- Modelled from the spec: `RankFunc::isTightRank` (RankFunc.cpp is missing),
"Tight iff max rank is odd and every odd value in {1, 3, …, max} is
attained". -/
def RankFunc.isTightRank (f : RankFunc) : Bool :=
  decide (f.getMaxRank % 2 = 1) &&
    (List.range (f.getMaxRank.toNat + 1)).all
      (fun v => decide (v % 2 = 0) || f.any (fun kv => decide (kv.2 = (v : Int))))

/-- Modelled from the spec: `RankFunc::isAllLeq` (RankFunc.cpp is missing),
"r ≤ r0 pointwise". -/
def RankFunc.isAllLeq (f other : RankFunc) : Bool :=
  f.all (fun kv => decide (kv.2 ≤ other.get kv.1))

/-- Modelled from the spec: `RankFunc::isSuccValid` (RankFunc.cpp is missing),
"the result is compatible with parent r on each successor (rank never
increases along δ)". -/
def RankFunc.isSuccValid (f parent : RankFunc) (succ : List (Nat × IntSet)) : Bool :=
  succ.all (fun ps => ps.2.all (fun d => decide (f.get d ≤ parent.get ps.1)))

/-- Modelled from the spec: `RankFunc::isMaxRankValid` (RankFunc.cpp is
missing), the test against the per-state ceilings, listed in state order. -/
def RankFunc.isMaxRankValid (f : RankFunc) (ceilings : List Int) : Bool :=
  (f.zip ceilings).all (fun p => decide (p.1.2 ≤ p.2))

/-- The type `RankConstr`: per state, the admissible (state, rank) pairs. -/
abbrev RankConstr := List (List (Nat × Int))

/-- Modelled from the spec: `RankFunc::fromRankConstr` (RankFunc.cpp is
missing), "enumerate every total function r selecting one value per q",
lexicographic by state index. -/
def fromRankConstr : RankConstr → List RankFunc
  | [] => [[]]
  | c :: cs => c.flatMap (fun p => (fromRankConstr cs).map (fun r => p :: r))

/-- The type `BackRel`: per state, the related earlier states with a direction. -/
abbrev BackRel := List (List (Nat × Bool))

/-- The signature of `RankFunc::tightSuccFromRankConstr(constr, dirRel, oddRel,
parentMaxRank, reachCons, reachMax, cutPoint)`, whose body is outside these
sources. The successor functions take the enumerator as a parameter. -/
abbrev TightEnum :=
  RankConstr → BackRel → BackRel → Int → (Nat → Int) → Int → Bool → List RankFunc

/-- Modelled from the spec: the simulation prune of §4.1 (RankFunc.cpp is
missing), "if q' directly simulates q then r(q') ≥ r(q)": the entry
`(p, false)` in the list of `q` stands for the pair (p, q) of the relation, the
entry `(p, true)` for the pair (q, p). -/
def respectsRel (r : RankFunc) (rel : BackRel) : Bool :=
  r.all (fun kv =>
    (rel.getD kv.1 []).all (fun e =>
      if e.1 ∈ r.keys then
        (if e.2 then decide (r.get e.1 ≤ kv.2) else decide (kv.2 ≤ r.get e.1))
      else true))

/-- Modelled from the spec: `RankFunc::tightSuccFromRankConstr` (RankFunc.cpp
is missing), §4.1: the tight rank functions selecting one value per state,
whose "max equals parentMaxRank", kept under the simulation prunes and the
reach bound "r(q) ≤ reachMax − reachCons(q)". The specification does not say
how `cutPoint` changes the ranks kept; the flag is not used. -/
def tightSuccFromRankConstr : TightEnum :=
  fun constr dirRel oddRel parentMaxRank reachCons reachMax _ =>
    (fromRankConstr constr).filter (fun r =>
      r.isTightRank && decide (r.getMaxRank = parentMaxRank) &&
        r.all (fun kv => decide (kv.2 ≤ reachMax - reachCons kv.1)) &&
        respectsRel r dirRel && respectsRel r oddRel)

/-- Modelled from the spec: `RankFunc::tightFromRankConstr` (RankFunc.cpp is
missing), §4.1: the tight rank functions selecting one value per state, kept
under the simulation prunes and the reach bound
"r(q) ≤ reachMax − reachCons(q)". The flag `cutPoint` is not used. -/
def tightFromRankConstr (constr : RankConstr) (dirRel oddRel : BackRel)
    (reachCons : Nat → Int) (reachMax : Int) (_cutPoint : Bool) : List RankFunc :=
  (fromRankConstr constr).filter (fun r =>
    r.isTightRank && r.all (fun kv => decide (kv.2 ≤ reachMax - reachCons kv.1)) &&
      respectsRel r dirRel && respectsRel r oddRel)

/-! ## Automata and macrostates -/

/-- The input automaton `BuchiAutomaton<int,int>` behind `BuchiAutomatonSpec`. -/
structure BuchiAutomaton where
  /-- The value of `getStates()`. -/
  states : IntSet
  /-- The value of `getAlphabet()`. -/
  alphabet : IntSet
  /-- The value of `getTransitions()[{q, a}]`. -/
  trans : Nat → Nat → IntSet
  /-- The value of `getInitials()`. -/
  initials : IntSet
  /-- The value of `getFinals()`. -/
  finals : IntSet

/-- The macrostate `StateKV` = ⟨S, O, f⟩. -/
structure StateKV where
  S : IntSet
  O : IntSet
  f : RankFunc
deriving DecidableEq, Repr

/-- The macrostate `StateSch` = ⟨S, O, f, i, tight⟩. -/
structure StateSch where
  S : IntSet
  O : IntSet
  f : RankFunc
  i : Int
  tight : Bool
deriving DecidableEq, Repr

/-- The record `ComplOptions` (fields as initialised in `ranker-sim.cpp`). -/
structure ComplOptions where
  cutPoint : Bool
  succEmptyCheck : Bool
  ROMinState : Nat
  ROMinRank : Int
  CacheMaxState : Nat
  CacheMaxRank : Int
  semidetOpt : Bool

/-- The key `(S, symbol, maxRank)` of the rank cache. -/
abbrev CacheKey := IntSet × Nat × Int

/-- The member `rankCache`: per key, the (parent rank, successor ranks) pairs. -/
abbrev RankCache := List (CacheKey × List (RankFunc × List RankFunc))

/-- Modelled from the spec: `isSchFinal` (declared in the missing header),
"A Schewe macrostate is accepting iff tight ∧ O = ∅". -/
def isSchFinal (st : StateSch) : Bool := st.tight && decide (st.O.length = 0)

/-- Modelled from the spec: `isKVFinal` (declared in the missing header),
"A KV macrostate is accepting iff O = ∅". -/
def isKVFinal (st : StateKV) : Bool := decide (st.O.length = 0)

/-! ## Successor sets -/

/-- The function `BuchiAutomatonSpec::succSet`. -/
def succSet (A : BuchiAutomaton) (states : IntSet) (symbol : Nat) : IntSet :=
  states.foldl (fun ret st => setInsertAll (A.trans st symbol) ret) []

/-- The inner loop `for(int d : dst) maxRank[d] = std::min(maxRank[d], f[st])`. -/
def lowerCeilings (maxRank : Nat → Int) (dst : IntSet) (v : Int) : Nat → Int :=
  dst.foldl (fun mr d => vecSet mr d (min (mr d) v)) maxRank

/-- The loop `if(fin.find(st) != fin.end() && maxRank[st] % 2 != 0)
maxRank[st] -= 1` over `sprime`. -/
def evenCeilings (A : BuchiAutomaton) (maxRank : Nat → Int) (sprime : IntSet) : Nat → Int :=
  sprime.foldl
    (fun mr st =>
      if st ∈ A.finals ∧ Int.tmod (mr st) 2 ≠ 0 then vecSet mr st (mr st - 1) else mr)
    maxRank

/-- The values `lo, lo+inc, …` not exceeding `hi`: the counting loops
`for(int i = lo; i <= hi; i += inc)`. -/
def countUp (lo inc : Nat) (hi : Int) : List Int :=
  if hi < lo then []
  else (List.range ((hi.toNat - lo) / inc + 1)).map (fun k => ((lo + k * inc : Nat) : Int))

/-! ## The KV construction -/

/-- The function `BuchiAutomatonSpec::rankConstr` of
`src/Complement/BuchiAutomatonSpec.cpp`. -/
def rankConstr (A : BuchiAutomaton) (max : Nat → Int) (states : IntSet) : RankConstr :=
  states.map (fun st =>
    (countUp 0 (if st ∈ A.finals then 2 else 1) (max st)).map (fun i => (st, i)))

/-- The function `BuchiAutomatonSpec::getKVRanks`. -/
def getKVRanks (A : BuchiAutomaton) (max : Nat → Int) (states : IntSet) : List RankFunc :=
  fromRankConstr (rankConstr A max states)

/-- The body of `for(int st : state.S)` in `succSetKV`, on the pair
(`maxRank`, `sprime`). -/
def kvStep (A : BuchiAutomaton) (f : RankFunc) (symbol : Nat) (acc : (Nat → Int) × IntSet)
    (st : Nat) : (Nat → Int) × IntSet :=
  let dst := A.trans st symbol
  (lowerCeilings acc.1 dst (f.get st), setInsertAll dst acc.2)

/-- The first loop of `succSetKV`, from
`maxRank(getStates().size(), 2*getStates().size())`. -/
def kvLoop (A : BuchiAutomaton) (state : StateKV) (symbol : Nat) : (Nat → Int) × IntSet :=
  state.S.foldl (kvStep A state.f symbol) (fun _ => 2 * (A.states.length : Int), [])

/-- The macrostate `{sprime, oprime_tmp, r}` inserted by `succSetKV`. -/
def kvSucc (sprime oprime : IntSet) (r : RankFunc) : StateKV :=
  { S := sprime, O := setDifference oprime r.getOddStates, f := r }

/-- The function `BuchiAutomatonSpec::succSetKV`. -/
def succSetKV (A : BuchiAutomaton) (state : StateKV) (symbol : Nat) : List StateKV :=
  let acc := kvLoop A state symbol
  let sprime := acc.2
  let maxRank := evenCeilings A acc.1 sprime
  let oprime := if state.O.length = 0 then sprime else succSet A state.O symbol
  let ranks := getKVRanks A maxRank sprime
  ranks.foldl (fun ret r => insertNew ret (kvSucc sprime oprime r)) []

/-! ## Rank cache -/

/-- The function `BuchiAutomatonSpec::getRankSuccCache`: the returned flag,
the out-parameter and the cache afterwards. -/
def getRankSuccCache (cache : RankCache) (out : List RankFunc) (state : StateSch)
    (symbol : Nat) : Bool × List RankFunc × RankCache :=
  let key : CacheKey := (state.S, symbol, state.f.getMaxRank)
  match assocFind cache key with
  | none => (false, out, assocAssign cache key [])
  | some items =>
    match items.find? (fun item => state.f.isAllLeq item.1) with
    | some item => (true, item.2, cache)
    | none => (false, out, cache)

/-- The statement `rankCache[key].push_back(item)`. -/
def cachePush (cache : RankCache) (key : CacheKey) (item : RankFunc × List RankFunc) :
    RankCache :=
  assocAssign cache key (assocGet cache key ++ [item])

/-! ## Machine arithmetic of `int` -/

/-- The value of a 32-bit `int` expression whose exact value is `x`: the
representative of `x` modulo 2^32 between −2^31 and 2^31 − 1. -/
def wrapInt (x : Int) : Int := (x + 2 ^ 31) % 2 ^ 32 - 2 ^ 31

/-- The `int` expression `bound*2-1` of the rank-bound guards of
`succSetSchTightReduced` and `succSetSchTightOpt`, and `2*rankBound - 1` of
the start-successor functions. -/
def doubleBound (bound : Int) : Int := wrapInt (wrapInt (bound * 2) - 1)

/-- The value of the expression `2*schfinal.size() - 1`, computed in the
64-bit unsigned type of `size()`, after its conversion to `int`: the low 32
bits read as a two's complement number. -/
def sizeCeilToInt (size : Nat) : Int :=
  let u : Nat := (2 * size + 2 ^ 64 - 1) % 2 ^ 64
  let w : Nat := u % 2 ^ 32
  if w < 2 ^ 31 then (w : Int) else (w : Int) - 2 ^ 32

/-! ## Tight successors, reduced variant -/

/-- The accumulators of the first loop of the tight successor functions. -/
structure SuccAcc where
  maxRank : Nat → Int
  sprime : IntSet
  succ : List (Nat × IntSet)

/-- The body of `for(int st : state.S)` in `succSetSchTightReduced`. The read
`state.f[st]` is the rank of `st` (`RankFunc.get`, 0 without an entry); with
an entry for every state of `S` it leaves the macrostate of the caller as it
is. -/
def succStep (A : BuchiAutomaton) (f : RankFunc) (symbol : Nat) (acc : SuccAcc) (st : Nat) :
    SuccAcc :=
  let dst := A.trans st symbol
  { maxRank := lowerCeilings acc.maxRank dst (f.get st)
    sprime := setInsertAll dst acc.sprime
    succ := if st ∉ A.finals then mapAssign acc.succ st dst else acc.succ }

/-- The first loop of `succSetSchTightReduced`, from
`maxRank(getStates().size(), state.f.getMaxRank())`. -/
def succLoop (A : BuchiAutomaton) (state : StateSch) (symbol : Nat) : SuccAcc :=
  state.S.foldl (succStep A state.f symbol)
    { maxRank := fun _ => state.f.getMaxRank, sprime := [], succ := [] }

/-- The per-state constraint list built in `getSchRanksTight*`. -/
def singleConst (A : BuchiAutomaton) (max : Nat → Int) (st : Nat) : List (Nat × Int) :=
  ((if st ∉ A.finals then countUp 0 1 (max st - 1) else countUp 0 2 (max st - 1)).map
      (fun i => (st, i))) ++ [(st, max st)]

/-- The map `sngmap` built by `sngmap[st] = max[st]` over `states`. -/
def sngMap (max : Nat → Int) (states : IntSet) : RankFunc :=
  states.foldl (fun m st => mapAssign m st (max st)) []

/-- The block `if(opt.succEmptyCheck && S.size() <= opt.CacheMaxState &&
f.getMaxRank() <= opt.CacheMaxRank) { … }` of `getSchRanksTightReduced`: the
value of `rankSetSize` and the cache afterwards. -/
def rankSetSize (opt : ComplOptions) (tightSucc : TightEnum) (cache : RankCache)
    (constr : RankConstr) (rnkBnd : List Int) (symbol : Nat) (macrostate : StateSch)
    (reachCons : Nat → Int) (reachMax : Int) (dirRel oddRel : BackRel) : Int × RankCache :=
  if opt.succEmptyCheck ∧ macrostate.S.length ≤ opt.CacheMaxState ∧
      macrostate.f.getMaxRank ≤ opt.CacheMaxRank then
    match getRankSuccCache cache [] macrostate symbol with
    | (false, _, cache1) =>
      let tmp := tightSucc constr dirRel oddRel macrostate.f.getMaxRank reachCons reachMax
        opt.cutPoint
      ((tmp.length : Int),
        cachePush cache1 (macrostate.S, symbol, macrostate.f.getMaxRank) (macrostate.f, tmp))
    | (true, tmp, cache1) =>
      ((tmp.length : Int) - ((tmp.filter (fun r => !r.isMaxRankValid rnkBnd)).length : Int),
        cache1)
  else (1, cache)

/-- The function `BuchiAutomatonSpec::getSchRanksTightReduced`: the
out-parameter and the cache afterwards. -/
def getSchRanksTightReduced (A : BuchiAutomaton) (opt : ComplOptions) (tightSucc : TightEnum)
    (cache : RankCache) (max : Nat → Int) (states : IntSet) (symbol : Nat)
    (macrostate : StateSch) (reachCons : Nat → Int) (reachMax : Int)
    (dirRel oddRel : BackRel) : List RankFunc × RankCache :=
  let constr : RankConstr := states.map (singleConst A max)
  let sngmap := sngMap max states
  let rnkBnd : List Int := states.map max
  let res := rankSetSize opt tightSucc cache constr rnkBnd symbol macrostate reachCons
    reachMax dirRel oddRel
  let sng : RankFunc := sngmap
  if sng.isTightRank ∧ sng.getMaxRank = macrostate.f.getMaxRank ∧ res.1 > 0 then
    ([sng], res.2)
  else ([], res.2)

/-- The body of the loop `if(rnkMap[o] > 0 && fin.find(o) == fin.end())
rnkMap[o]--; else no.insert(o);`, on the pair (`rnkMap`, `no`); the read
`rnkMap[o]` first inserts an absent key with rank `0`. -/
def decreaseStep (A : BuchiAutomaton) (acc : RankFunc × IntSet) (o : Nat) : RankFunc × IntSet :=
  let m := if o ∈ acc.1.keys then acc.1 else mapAssign acc.1 o 0
  if m.get o > 0 ∧ o ∉ A.finals then (mapAssign m o (m.get o - 1), acc.2)
  else (m, setInsert o acc.2)

/-- The loop `for(int o : st.O)` over the O-set of a successor. -/
def decreaseO (A : BuchiAutomaton) (rnkMap : RankFunc) (O : IntSet) : RankFunc × IntSet :=
  O.foldl (decreaseStep A) (rnkMap, [])

/-- The macrostate `{st.S, no, RankFunc(rnkMap, cutPoint), st.i, true}`: the
successor `st` with the ranks of its O-states decremented. -/
def decreased (A : BuchiAutomaton) (st : StateSch) : StateSch :=
  { S := st.S, O := (decreaseO A st.f st.O).2, f := (decreaseO A st.f st.O).1,
    i := st.i, tight := true }

/-- The body of `for(const StateSch& st : ret)` in `succSetSchTightReduced`. -/
def retAllStep (A : BuchiAutomaton) (opt : ComplOptions) (state : StateSch) (eta4 : Bool)
    (retAll : List StateSch) (st : StateSch) : List StateSch :=
  let retAll1 := insertNew retAll st
  if eta4 ∧ (setIntersection st.S A.finals).length = 0 then retAll1
  else if state.O.length = 0 then retAll1
  else if opt.cutPoint then
    if st.i ≠ 0 ∨ st.O.length = 0 then insertNew retAll1 (decreased A st)
    else retAll1
  else insertNew retAll1 (decreased A st)

/-- The values `iprime` and `oprime` of the tight successor functions. -/
def nextIndex (state : StateSch) : Int :=
  if state.O.length = 0 then Int.tmod (state.i + 2) (state.f.getMaxRank + 1) else state.i

/-- The body of `for (auto& r : maxRanks)` in `succSetSchTightReduced`: the
successor pushed to `ret` for the rank `r`. -/
def mainSucc (A : BuchiAutomaton) (opt : ComplOptions) (state : StateSch) (symbol : Nat)
    (sprime : IntSet) (r : RankFunc) : StateSch :=
  let iprime : Int := nextIndex state
  let oprime : IntSet := if state.O.length = 0 then [] else succSet A state.O symbol
  if opt.cutPoint then
    let inverseRank := r.inverseRank iprime
    let oprime_tmp :=
      if state.O.length = 0 then inverseRank else setIntersection oprime inverseRank
    { S := sprime, O := oprime_tmp, f := r, i := iprime, tight := true }
  else
    let odd := r.getOddStates
    let oprime_tmp :=
      if state.O.length = 0 then setDifference sprime odd else setDifference oprime odd
    { S := sprime, O := oprime_tmp, f := r, i := 0, tight := true }

/-- The function `BuchiAutomatonSpec::succSetSchTightReduced`: the returned
successors and the cache afterwards. -/
def succSetSchTightReduced (A : BuchiAutomaton) (opt : ComplOptions)
    (rankBound : IntSet → Int) (tightSucc : TightEnum) (cache : RankCache)
    (state : StateSch) (symbol : Nat) (reachCons : Nat → Int) (maxReach : IntSet → Int)
    (dirRel oddRel : BackRel) (eta4 : Bool) : List StateSch × RankCache :=
  let acc := succLoop A state symbol
  let sprime := acc.sprime
  if doubleBound (rankBound state.S) < state.f.getMaxRank ∨
      doubleBound (rankBound sprime) < state.f.getMaxRank then ([], cache)
  else
    let maxRank := evenCeilings A acc.maxRank sprime
    let maxReachAct := maxReach sprime
    let rc := getSchRanksTightReduced A opt tightSucc cache maxRank sprime symbol state
      reachCons maxReachAct dirRel oddRel
    let ret : List StateSch := rc.1.map (mainSucc A opt state symbol sprime)
    (ret.foldl (retAllStep A opt state eta4) [], rc.2)

/-- The rank assigning every state of `sprime` its ceiling (`sng`). -/
def ceilRank (A : BuchiAutomaton) (state : StateSch) (symbol : Nat) : RankFunc :=
  sngMap (evenCeilings A (succLoop A state symbol).maxRank (succLoop A state symbol).sprime)
    (succLoop A state symbol).sprime

/-! ## Tight successors, baseline variant (`src/Complement`) -/

/-- The function `BuchiAutomatonSpec::getSchRanksTight` of
`src/Complement/BuchiAutomatonSpec.cpp`. -/
def getSchRanksTight (A : BuchiAutomaton) (tightSucc : TightEnum) (max : Nat → Int)
    (states : IntSet) (macrostate : StateSch) (reachCons : Nat → Int) (reachMax : Int)
    (dirRel oddRel : BackRel) : List RankFunc :=
  let constr : RankConstr := states.map (singleConst A max)
  let sngmap := sngMap max states
  let tmp := tightSucc constr dirRel oddRel macrostate.f.getMaxRank reachCons reachMax true
  let sng : RankFunc := sngmap
  if sng.isTightRank ∧ sng.getMaxRank = macrostate.f.getMaxRank ∧ tmp.length > 0 then [sng]
  else []

/-- The body of `for(int st : state.S)` in `succSetSchTight`; `none` is the
early `return ret`. The reads `state.f[st]` and `state.f.find(st)->second` are
the rank of `st` (`RankFunc.get`, 0 without an entry); with an entry for every
state of `S` they leave the macrostate of the caller as it is. -/
def tightStep (A : BuchiAutomaton) (f : RankFunc) (symbol : Nat) (reachCons : Nat → Int)
    (acc : SuccAcc) (st : Nat) : Option SuccAcc :=
  let dst := A.trans st symbol
  let acc1 : SuccAcc :=
    { maxRank := lowerCeilings acc.maxRank dst (f.get st)
      sprime := setInsertAll dst acc.sprime
      succ := if st ∉ A.finals then mapAssign acc.succ st dst else acc.succ }
  if f.get st = 0 ∧ reachCons st > 0 then none
  else if dst.length = 0 ∧ f.get st ≠ 0 then none
  else some acc1

/-- The first loop of `succSetSchTight`. -/
def tightLoop (A : BuchiAutomaton) (state : StateSch) (symbol : Nat) (reachCons : Nat → Int) :
    Option SuccAcc :=
  state.S.foldl (fun acc st => acc.bind (fun a => tightStep A state.f symbol reachCons a st))
    (some { maxRank := fun _ => state.f.getMaxRank, sprime := [], succ := [] })

/-- The successor `{sprime, oprime_tmp, r, iprime, true}` of the cut-point
constructions. -/
def cutSucc (A : BuchiAutomaton) (state : StateSch) (symbol : Nat) (sprime : IntSet)
    (r : RankFunc) : StateSch :=
  let iprime : Int := nextIndex state
  let oprime : IntSet := if state.O.length = 0 then [] else succSet A state.O symbol
  let inverseRank := r.inverseRank iprime
  let oprime_tmp :=
    if state.O.length = 0 then inverseRank else setIntersection oprime inverseRank
  { S := sprime, O := oprime_tmp, f := r, i := iprime, tight := true }

/-- The function `BuchiAutomatonSpec::succSetSchTight` of
`src/Complement/BuchiAutomatonSpec.cpp`: the returned successors and the cache
afterwards. -/
def succSetSchTight (A : BuchiAutomaton) (rankBound : IntSet → Int) (tightSucc : TightEnum)
    (cache : RankCache) (state : StateSch) (symbol : Nat) (reachCons : Nat → Int)
    (maxReach : IntSet → Int) (dirRel oddRel : BackRel) : List StateSch × RankCache :=
  match tightLoop A state symbol reachCons with
  | none => ([], cache)
  | some acc =>
    let sprime := acc.sprime
    if rankBound state.S > state.f.getMaxRank ∨ rankBound sprime > state.f.getMaxRank then
      ([], cache)
    else
      let rnkBnd : List Int := sprime.map acc.maxRank
      let maxRank := evenCeilings A acc.maxRank sprime
      let maxReachAct := maxReach sprime
      let look := getRankSuccCache cache [] state symbol
      let res : List RankFunc × RankCache :=
        if look.1 = false then
          let tmp := getSchRanksTight A tightSucc maxRank sprime state reachCons maxReachAct
            dirRel oddRel
          (tmp, cachePush look.2.2 (state.S, symbol, state.f.getMaxRank) (state.f, tmp))
        else (look.2.1, look.2.2)
      let kept := res.1.filter (fun r => r.isSuccValid state.f acc.succ && r.isMaxRankValid rnkBnd)
      (kept.map (cutSucc A state symbol sprime), res.2)

/-! ## The earlier construction (`src/BuchiAutomatonSpec.cpp`) -/

namespace Legacy

/-- The function `BuchiAutomatonSpec::rankConstr` of `src/BuchiAutomatonSpec.cpp`,
whose loop starts at `i = inc`. -/
def rankConstr (A : BuchiAutomaton) (max : Nat → Int) (states : IntSet) : RankConstr :=
  states.map (fun st =>
    (countUp (if st ∈ A.finals then 2 else 1) (if st ∈ A.finals then 2 else 1) (max st)).map
      (fun i => (st, i)))

/-- The function `BuchiAutomatonSpec::getSchRanksTight` of
`src/BuchiAutomatonSpec.cpp`. -/
def getSchRanksTight (A : BuchiAutomaton) (max : Nat → Int) (states : IntSet)
    (macrostate : StateSch) (succ : List (Nat × IntSet)) : List RankFunc :=
  (fromRankConstr (rankConstr A max states)).filter (fun item =>
    item.isSuccValid macrostate.f succ &&
      (decide (item.getMaxRank = macrostate.f.getMaxRank) && item.isTightRank))

/-- The body of `for(int st : state.S)` in the earlier `succSetSchTight`;
`none` is the early `return ret`. -/
def tightStep (A : BuchiAutomaton) (f : RankFunc) (symbol : Nat) (acc : SuccAcc) (st : Nat) :
    Option SuccAcc :=
  let dst := A.trans st symbol
  let acc1 : SuccAcc :=
    { maxRank := lowerCeilings acc.maxRank dst (f.get st)
      sprime := setInsertAll dst acc.sprime
      succ := mapAssign acc.succ st dst }
  if f.get st = 0 then none
  else if dst.length = 0 ∧ f.get st ≠ 0 then none
  else some acc1

/-- The first loop of the earlier `succSetSchTight`. -/
def tightLoop (A : BuchiAutomaton) (state : StateSch) (symbol : Nat) : Option SuccAcc :=
  state.S.foldl (fun acc st => acc.bind (fun a => tightStep A state.f symbol a st))
    (some { maxRank := fun _ => state.f.getMaxRank, sprime := [], succ := [] })

/-- The function `BuchiAutomatonSpec::succSetSchTight` of
`src/BuchiAutomatonSpec.cpp`. -/
def succSetSchTight (A : BuchiAutomaton) (state : StateSch) (symbol : Nat) : List StateSch :=
  match tightLoop A state symbol with
  | none => []
  | some acc =>
    let sprime := acc.sprime
    let maxRank := evenCeilings A acc.maxRank sprime
    let ranks := getSchRanksTight A maxRank sprime state acc.succ
    ranks.foldl (fun ret r => insertNew ret (cutSucc A state symbol sprime r)) []

end Legacy

/-! ## Drivers -/

/-- The loop `while(cond) body`, run for at most `fuel` rounds; `none` when the
bound is exhausted before the condition fails. -/
def whileLoop {σ : Type} (cond : σ → Bool) (body : σ → σ) : Nat → σ → Option σ
  | 0, s => if cond s then none else some s
  | fuel + 1, s => if cond s then whileLoop cond body fuel (body s) else some s

/-- The locals `stack`, `comst`, `finals` and `mp` of the complementation
drivers; the top of the `std::stack` is the head of the list. -/
structure Search (σ : Type) where
  stack : List σ
  comst : List σ
  finals : List σ
  mp : List ((σ × Nat) × List σ)

/-- The value `BuchiAutomaton<State, int>(comst, finals, initials, mp, alph)`
returned by the drivers. -/
structure MacroAut (σ : Type) where
  states : List σ
  finals : List σ
  initials : List σ
  trans : List ((σ × Nat) × List σ)
  alphabet : IntSet
deriving DecidableEq

/-- The waiting-part macrostate `{T, set<int>(), RankFunc(), 0, false}`. -/
def waiting (T : IntSet) : StateSch := { S := T, O := [], f := [], i := 0, tight := false }

/-- The body of `for(int sym : alph)` in `complementSchNFA`, for the popped
macrostate `st`. -/
def nfaSymStep (A : BuchiAutomaton) (st : StateSch) (s : Search StateSch) (sym : Nat) :
    Search StateSch :=
  if st.tight = false then
    let nt := waiting (succSet A st.S sym)
    let dst := insertNew [] nt
    let s1 : Search StateSch :=
      if nt ∉ s.comst then { s with stack := nt :: s.stack, comst := insertNew s.comst nt }
      else s
    { s1 with mp := assocAssign s1.mp (st, sym) dst }
  else { s with mp := assocAssign s.mp (st, sym) [] }

/-- The body of `while(stack.size() > 0)` in `complementSchNFA`. -/
def nfaBody (A : BuchiAutomaton) (s : Search StateSch) : Search StateSch :=
  match s.stack with
  | [] => s
  | st :: rest =>
    let s1 : Search StateSch :=
      { s with stack := rest
               finals := if isSchFinal st then insertNew s.finals st else s.finals }
    A.alphabet.foldl (nfaSymStep A st) s1

/-- The state of the search before the first round of `complementSchNFA`. -/
def nfaInit (start : IntSet) : Search StateSch :=
  { stack := [waiting start], comst := [waiting start], finals := [], mp := [] }

/-- The function `BuchiAutomatonSpec::complementSchNFA`, its loop run for at
most `fuel` rounds. -/
def complementSchNFA (A : BuchiAutomaton) (start : IntSet) (fuel : Nat) :
    Option (MacroAut StateSch) :=
  (whileLoop (fun s => decide (s.stack.length > 0)) (nfaBody A) fuel (nfaInit start)).map
    (fun s =>
      { states := s.comst, finals := s.finals, initials := [waiting start], trans := s.mp,
        alphabet := A.alphabet })

/-- The sets reachable from `start` by repeatedly applying `succSet` over
alphabet symbols. -/
inductive Reach (A : BuchiAutomaton) (start : IntSet) : IntSet → Prop
  | base : Reach A start start
  | step (T : IntSet) (a : Nat) : Reach A start T → a ∈ A.alphabet →
      Reach A start (succSet A T a)

/-- The statements `if(comst.find(s) == comst.end()) { stack.push(s);
comst.insert(s); }`. -/
def pushNew {σ : Type} [DecidableEq σ] (s : Search σ) (x : σ) : Search σ :=
  if x ∉ s.comst then { s with stack := x :: s.stack, comst := insertNew s.comst x } else s

/-- The loop `for (auto s : succ) { dst.insert(s); if(…) { stack.push(s);
comst.insert(s); } }`: the set `dst` and the search afterwards. -/
def visitSuccs {σ : Type} [DecidableEq σ] (succ : List σ) (s : Search σ) : List σ × Search σ :=
  succ.foldl (fun acc x => (insertNew acc.1 x, pushNew acc.2 x)) ([], s)

/-- The body of `for(int sym : alph)` in `complementKV`, for the popped
macrostate `st`. -/
def kvSymStep (A : BuchiAutomaton) (st : StateKV) (s : Search StateKV) (sym : Nat) :
    Search StateKV :=
  let r := visitSuccs (succSetKV A st sym) s
  { r.2 with mp := assocAssign r.2.mp (st, sym) r.1 }

/-- The body of `while(stack.size() > 0)` in `complementKV`. -/
def kvBody (A : BuchiAutomaton) (s : Search StateKV) : Search StateKV :=
  match s.stack with
  | [] => s
  | st :: rest =>
    let s1 : Search StateKV :=
      { s with stack := rest
               finals := if isKVFinal st then insertNew s.finals st else s.finals }
    A.alphabet.foldl (kvSymStep A st) s1

/-- The loop `for (auto r : ranks)` of `complementKV` that pushes the initial
macrostates: the search and the set `initials` afterwards. -/
def kvInit (A : BuchiAutomaton) : Search StateKV × List StateKV :=
  let maxRank : Nat → Int := fun _ => 2 * (A.states.length : Int)
  let ranks := getKVRanks A maxRank A.initials
  ranks.foldl
    (fun acc r =>
      let tmp : StateKV := { S := A.initials, O := [], f := r }
      ({ acc.1 with stack := tmp :: acc.1.stack, comst := insertNew acc.1.comst tmp },
        insertNew acc.2 tmp))
    ({ stack := [], comst := [], finals := [], mp := [] }, [])

/-- The function `BuchiAutomatonSpec::complementKV`, its loop run for at most
`fuel` rounds. -/
def complementKV (A : BuchiAutomaton) (fuel : Nat) : Option (MacroAut StateKV) :=
  (whileLoop (fun s => decide (s.stack.length > 0)) (kvBody A) fuel (kvInit A).1).map
    (fun s =>
      { states := s.comst, finals := s.finals, initials := (kvInit A).2, trans := s.mp,
        alphabet := A.alphabet })

/-- The searches only grow: from `s` to `s'` the visited set and the stack
keep their elements, every newly visited macrostate is on the stack, the stack
holds old or visited elements only, and `finals` is untouched. -/
structure Grows {σ : Type} (s s' : Search σ) : Prop where
  mono : ∀ x ∈ s.comst, x ∈ s'.comst
  stack_mono : ∀ x ∈ s.stack, x ∈ s'.stack
  fresh : ∀ x ∈ s'.comst, x ∉ s.comst → x ∈ s'.stack
  stack_new : ∀ x ∈ s'.stack, x ∈ s.stack ∨ x ∈ s'.comst
  finals_eq : s'.finals = s.finals

/-- The invariant of the loop of `complementKV`. -/
structure KVInv (s : Search StateKV) : Prop where
  stack_sub : ∀ x ∈ s.stack, x ∈ s.comst
  finals_sound : ∀ x ∈ s.finals, x ∈ s.comst ∧ x.O = []
  finals_complete : ∀ x ∈ s.comst, x ∉ s.stack → x.O = [] → x ∈ s.finals

/-! ## Self-loops of the waiting part -/

/-- The order `operator<` of `std::set<int>`: lexicographic. -/
def lexLt : List Nat → List Nat → Bool
  | [], [] => false
  | [], _ :: _ => true
  | _ :: _, [] => false
  | a :: as, b :: bs => if a < b then true else if b < a then false else lexLt as bs

/-- The order `operator<` of `std::pair<DFAState, int>`. -/
def pairLt (p q : IntSet × Nat) : Bool :=
  lexLt p.1 q.1 || (!lexLt q.1 p.1 && decide (p.2 < q.2))

/-- Insertion into a `std::set<pair<DFAState, int>>`. -/
def pairInsert (x : IntSet × Nat) : List (IntSet × Nat) → List (IntSet × Nat)
  | [] => [x]
  | y :: ys =>
    if pairLt x y then x :: y :: ys
    else if pairLt y x then y :: pairInsert x ys
    else y :: ys

/-- Modelled from the spec: `BuchiAutomaton::containsSelfLoop` (the class
template is missing), the symbols on which the macrostate has "a self-loop". -/
def containsSelfLoop (aut : MacroAut StateSch) (st : StateSch) : List Nat :=
  aut.alphabet.filter (fun a => decide (st ∈ assocGet aut.trans (st, a)))

/-- The locals of the inner search of `acceptSl`; `found` is the flag `all`. -/
structure SlSearch where
  stack : List IntSet
  comst : List IntSet
  found : Bool

/-- The body of the inner `while(stack.size() > 0)` of `acceptSl`, for the
accepting state `st` and the symbol `a`; setting `found` is the `break`. -/
def slBody (A : BuchiAutomaton) (st a : Nat) (s : SlSearch) : SlSearch :=
  match s.stack with
  | [] => s
  | pst :: rest =>
    if st ∈ pst then { stack := rest, comst := s.comst, found := true }
    else
      let dst := succSet A pst a
      if dst ∉ s.comst then
        { stack := dst :: rest, comst := insertNew s.comst dst, found := false }
      else { stack := rest, comst := s.comst, found := false }

/-- The inner search of `acceptSl` for one accepting state `st` and one symbol
`a`: the value of `all` after the `while` loop. -/
def slReturns (A : BuchiAutomaton) (st a : Nat) (fuel : Nat) : Option Bool :=
  (whileLoop (fun s => decide (s.stack.length > 0) && !s.found) (slBody A st a) fuel
    { stack := [succSet A [st] a], comst := [succSet A [st] a], found := false }).map
    (fun s => s.found)

/-- The loop `for(int st : rel)` of `acceptSl` with its `if(all) break;`:
whether the symbol `a` enters `symAcc`. -/
def slSymbol (A : BuchiAutomaton) (rel : IntSet) (a : Nat) (fuel : Nat) : Option Bool :=
  rel.foldl
    (fun acc st =>
      match acc with
      | none => none
      | some true => some true
      | some false => slReturns A st a fuel)
    (some false)

/-- The function `BuchiAutomatonSpec::acceptSl`, its searches run for at most
`fuel` rounds each. -/
def acceptSl (A : BuchiAutomaton) (state : StateSch) (alp : List Nat) (fuel : Nat) :
    Option Bool :=
  if state.S.length = 0 then some false
  else
    let rel : IntSet := state.S.foldl (fun r st => if st ∈ A.finals then setInsert st r else r) []
    if rel.length = 0 then some false
    else
      (alp.foldl
        (fun acc a =>
          match acc with
          | none => none
          | some symAcc =>
            match slSymbol A rel a fuel with
            | none => none
            | some true => some (setInsert a symAcc)
            | some false => some symAcc)
        (some [])).map (fun symAcc => decide (symAcc.length = alp.length))

/-- The function `BuchiAutomatonSpec::nfaSlAccept`. -/
def nfaSlAccept (A : BuchiAutomaton) (nfaSchewe : MacroAut StateSch) (fuel : Nat) :
    Option (List StateSch) :=
  nfaSchewe.states.foldl
    (fun acc st =>
      match acc with
      | none => none
      | some slAccept =>
        if st.tight then some slAccept
        else
          let alph := containsSelfLoop nfaSchewe st
          if alph.length = 1 then
            match acceptSl A st alph fuel with
            | none => none
            | some true => some (insertNew slAccept st)
            | some false => some slAccept
          else some slAccept)
    (some [])

/-- The function `BuchiAutomatonSpec::nfaSingleSlNoAccept`. -/
def nfaSingleSlNoAccept (A : BuchiAutomaton) (nfaSchewe : MacroAut StateSch) (fuel : Nat) :
    Option (List (IntSet × Nat)) :=
  nfaSchewe.states.foldl
    (fun acc st =>
      match acc with
      | none => none
      | some slNoAccept =>
        if st.tight then some slNoAccept
        else
          let alph := containsSelfLoop nfaSchewe st
          if alph.length = 1 then
            match acceptSl A st alph fuel with
            | none => none
            | some true => some slNoAccept
            | some false => some (pairInsert (st.S, alph.headD 0) slNoAccept)
          else some slNoAccept)
    (some [])

/-! ## The reduced Schewe driver -/

/-- The analyses that `complementSchReduced` consumes and whose code is outside
these sources, as the values they return: the rank enumerators of
`RankFunc`, the order of `set<RankFunc>`, the tables of `getMinReachSize`,
`getMaxReachSize` and `getRankBound` (after `elevatorRank`), the result of
`getCycleClosingStates` (plain and delayed), and the two back-relations. -/
structure ReducedEnv where
  tightSucc : TightEnum
  tightFrom : RankConstr → BackRel → BackRel → (Nat → Int) → Int → Bool → List RankFunc
  getRORanks : Int → IntSet → IntSet → Bool → List RankFunc
  rankLt : RankFunc → RankFunc → Bool
  reachCons : Nat → Int
  maxReach : IntSet → Int
  rankBound : IntSet → Int
  tightStart : List StateSch
  tightStartDelay : List (StateSch × IntSet)
  dirRel : BackRel
  oddRel : BackRel

/-- The locals changed by the loop `for(const auto& pr : slNonEmpty)` of
`complementSchReduced`. -/
structure SinkAcc where
  newState : Nat
  slTrans : List ((IntSet × Nat) × StateSch)
  mp : List ((StateSch × Nat) × List StateSch)
  finals : List StateSch
  comst : List StateSch

/-- The body of `for(const auto& pr : slNonEmpty)`: one sink macrostate. -/
def installSink (acc : SinkAcc) (pr : IntSet × Nat) : SinkAcc :=
  let ns := waiting [acc.newState]
  let src := waiting pr.1
  let mp1 := assocAssign acc.mp (ns, pr.2) (insertNew [] ns)
  let mp2 := assocAssign mp1 (src, pr.2) (insertNew (assocGet mp1 (src, pr.2)) ns)
  { newState := acc.newState + 1, slTrans := assocAssign acc.slTrans pr ns, mp := mp2
    finals := insertNew acc.finals ns, comst := insertNew acc.comst ns }

/-- The search of `complementSchReduced` before its `while` loop, given the
waiting part and the pairs of `nfaSingleSlNoAccept`: the sinks are installed
and the entry macrostates with non-empty S are pushed. -/
def reducedInit (A : BuchiAutomaton) (env : ReducedEnv) (delay : Bool)
    (comp : MacroAut StateSch) (slNonEmpty : List (IntSet × Nat)) : SinkAcc × List StateSch :=
  let sinks := slNonEmpty.foldl installSink
    { newState := A.states.length, slTrans := [], mp := comp.trans, finals := comp.finals
      comst := comp.states }
  let start : List StateSch :=
    if delay then env.tightStartDelay.foldl (fun l item => insertNew l item.1) []
    else env.tightStart
  (sinks, start.foldl (fun stk tmp => if tmp.S.length > 0 then tmp :: stk else stk) [])

/-- A `std::map<int,int>` holds each key once, in increasing order. -/
def RankFunc.WF (f : RankFunc) : Prop := (f.map Prod.fst).Pairwise (· < ·)

/-- A `std::set<int>` holds each element once, in increasing order. -/
def IntSet.WF (s : IntSet) : Prop := s.Pairwise (· < ·)

/-- The rank invariants of §8 for a tight macrostate ⟨S, O, r, i, true⟩: r is
tight; max r is odd; i ∈ {0, 2, …, max r − 1}; O ⊆ inverseRank(r, i); every
accepting q ∈ S has even rank. -/
def RankInv (A : BuchiAutomaton) (st : StateSch) : Prop :=
  st.tight = true ∧
  st.f.isTightRank = true ∧
  st.f.getMaxRank % 2 = 1 ∧
  (st.i % 2 = 0 ∧ 0 ≤ st.i ∧ st.i ≤ st.f.getMaxRank - 1) ∧
  (∀ o ∈ st.O, o ∈ st.f.inverseRank st.i) ∧
  (∀ q ∈ st.S, q ∈ A.finals → st.f.get q % 2 = 0)

/-- The rank functions over S' = δ(S, a) admitted by the KV successor of
⟨S, O, r⟩: defined exactly on S', non-negative, at most 2|Q| and at most the
rank of every predecessor, even on accepting states. -/
def KVCeil (A : BuchiAutomaton) (state : StateKV) (symbol : Nat) (r' : RankFunc) : Prop :=
  r'.keys = succSet A state.S symbol ∧
  (∀ q' ∈ succSet A state.S symbol,
    0 ≤ r'.get q' ∧ r'.get q' ≤ 2 * (A.states.length : Int) ∧
      ∀ p ∈ state.S, q' ∈ A.trans p symbol → r'.get q' ≤ state.f.get p) ∧
  (∀ q' ∈ succSet A state.S symbol, q' ∈ A.finals → r'.get q' % 2 = 0)

/-! ## Invariants of the searches -/

/-- The invariant of the loop of `complementSchNFA`. -/
structure NfaInv (A : BuchiAutomaton) (start : IntSet) (s : Search StateSch) : Prop where
  stack_sub : ∀ x ∈ s.stack, x ∈ s.comst
  sound : ∀ x ∈ s.comst, ∃ T, Reach A start T ∧ x = waiting T
  init_mem : waiting start ∈ s.comst
  closed : ∀ x ∈ s.comst, x ∉ s.stack → ∀ a ∈ A.alphabet,
    waiting (succSet A x.S a) ∈ s.comst ∧
      assocGet s.mp (x, a) = [waiting (succSet A x.S a)]
  no_final : s.finals = []

/-- The invariant of the loop over the alphabet inside `complementSchNFA`,
after the symbols `done`, started in `s1` for the popped macrostate `st`. -/
structure NfaFold (A : BuchiAutomaton) (start : IntSet) (st : StateSch)
    (s1 : Search StateSch) (done : List Nat) (s' : Search StateSch) : Prop where
  sound : ∀ x ∈ s'.comst, ∃ T, Reach A start T ∧ x = waiting T
  mono : ∀ x ∈ s1.comst, x ∈ s'.comst
  stack_mono : ∀ x ∈ s1.stack, x ∈ s'.stack
  stack_sub : ∀ x ∈ s'.stack, x ∈ s'.comst
  fresh : ∀ x ∈ s'.comst, x ∉ s1.comst → x ∈ s'.stack
  done_ok : ∀ a ∈ done, waiting (succSet A st.S a) ∈ s'.comst ∧
    assocGet s'.mp (st, a) = [waiting (succSet A st.S a)]
  other : ∀ x a, x ≠ st → assocGet s'.mp (x, a) = assocGet s1.mp (x, a)
  finals_eq : s'.finals = s1.finals

/-- The macrostates the waiting-part search can meet: the start set and the
subsets of Q. -/
def nfaUniverse (A : BuchiAutomaton) (start : IntSet) : List StateSch :=
  waiting start :: (A.states.sublists.map waiting)

/-- The input automaton is well formed: Q is a `std::set` and δ ⊆ Q × Σ × Q. -/
def BuchiAutomaton.WF (A : BuchiAutomaton) : Prop :=
  IntSet.WF A.states ∧ ∀ q a, ∀ q' ∈ A.trans q a, q' ∈ A.states

/-- The measure that decreases in every round of the waiting-part search. -/
def nfaMeasure (A : BuchiAutomaton) (start : IntSet) (s : Search StateSch) : Nat :=
  2 * ((nfaUniverse A start).length - s.comst.length) + s.stack.length

/-- The counting relation between two states of a search: the visited set
stays duplicate-free and grows by exactly the macrostates pushed. -/
structure Counted {σ : Type} (s s' : Search σ) : Prop where
  nodup : s.comst.Nodup → s'.comst.Nodup
  count : s'.comst.length + s.stack.length = s.comst.length + s'.stack.length
  mono : s.comst.length ≤ s'.comst.length

/-- The KV macrostates the search of `complementKV` can meet: S the initial
set or a subset of Q, O a subset of Q, r a rank over S with values up to
2|Q|, even on accepting states. -/
def kvUniverse (A : BuchiAutomaton) : List StateKV :=
  (A.initials :: A.states.sublists).flatMap (fun S =>
    A.states.sublists.flatMap (fun O =>
      (getKVRanks A (fun _ => 2 * (A.states.length : Int)) S).map (fun r =>
        ({ S := S, O := O, f := r } : StateKV))))

/-- The state invariant of the KV construction for a macrostate ⟨S, O, r⟩: r
is defined exactly on S, 0 ≤ r(q) ≤ 2|Q| on S, r is even on the accepting
states of S, O ⊆ S, and r is even on O. -/
def KVStateInv (A : BuchiAutomaton) (x : StateKV) : Prop :=
  x.f.keys = x.S ∧
  (∀ q ∈ x.S, 0 ≤ x.f.get q ∧ x.f.get q ≤ 2 * (A.states.length : Int)) ∧
  (∀ q ∈ x.S, q ∈ A.finals → x.f.get q % 2 = 0) ∧
  (∀ q ∈ x.O, q ∈ x.S) ∧
  (∀ q ∈ x.O, x.f.get q % 2 = 0)

/-! ## Back-relations -/

/-- The statement `bRel[i].push_back(x)` on a vector of lists; an index past
the end, which the source never writes, leaves the vector as it is. -/
def vecPush {α : Type} : List (List α) → Nat → α → List (List α)
  | [], _, _ => []
  | l :: ls, 0, x => (l ++ [x]) :: ls
  | l :: ls, i + 1, x => l :: vecPush ls i x

/-- The body of `for(auto p : rel)` in `createBackRel`. -/
def backRelStep (bRel : BackRel) (p : Nat × Nat) : BackRel :=
  if p.1 = p.2 then bRel
  else if p.1 ≤ p.2 then vecPush bRel p.2 (p.1, false)
  else vecPush bRel p.1 (p.2, true)

/-- The function `BuchiAutomatonSpec::createBackRel`, on the pairs of `rel` in
iteration order. -/
def createBackRel (A : BuchiAutomaton) (rel : List (Nat × Nat)) : BackRel :=
  rel.foldl backRelStep (List.replicate A.states.length [])

/-! ## The command line (`ranker-sim.cpp`) -/

/-- The function `main` of `ranker-sim.cpp`, as a function of the argument
vector `argv` (with `argc = argv.length`), of whether `os.open(argv[1])`
succeeds, of whether `complementSchReduced` raises `std::bad_alloc`, and of
whether `ch.open(params.output)` succeeds: the returned exit code. -/
def main (argv : List String) (inputOpens badAlloc outputOpens : Bool) : Int :=
  if argv.length = 2 ∨ (argv.length = 4 ∧ argv.getD 2 "" = "-o") then
    let output : String := if argv.length = 2 then "" else argv.getD 3 ""
    if inputOpens then
      if badAlloc then 2
      else if output ≠ "" then
        if !outputOpens then 1 else 0
      else 0
    else 0
  else 1

/-! ## The baseline driver (`src/Complement`) -/

/-- The function `BuchiAutomatonSpec::succSetSchStart` of
`src/Complement/BuchiAutomatonSpec.cpp`; `tightFrom` stands for
`RankFunc::tightFromRankConstr`. -/
def succSetSchStart (A : BuchiAutomaton)
    (tightFrom : RankConstr → BackRel → BackRel → (Nat → Int) → Int → Bool → List RankFunc)
    (state : IntSet) (rankBound : Int) (reachCons : Nat → Int) (maxReach : IntSet → Int)
    (dirRel oddRel : BackRel) : List StateSch :=
  let sprime := state
  let schfinal := setDifference sprime A.finals
  let m : Int := min (sizeCeilToInt schfinal.length) (doubleBound rankBound)
  let maxRank := evenCeilings A (fun _ => m) sprime
  let reachMaxAct := maxReach sprime
  let constr := rankConstr A maxRank sprime
  (tightFrom constr dirRel oddRel reachCons reachMaxAct true).map
    (fun item => { S := sprime, O := [], f := item, i := 0, tight := true })

/-- The locals changed by the loop of `complementSch`: the search (whose field
`mp` is the local `mp`), the rank cache and the local `mpVect`. -/
structure SchSearch where
  search : Search StateSch
  cache : RankCache
  mpVect : List ((StateSch × Nat) × List StateSch)

/-- The loop `for (const StateSch& s : succ) { if(comst.find(s) == comst.end())
{ stack.push(s); comst.insert(s); } }` of `complementSch`. -/
def pushSuccs (succ : List StateSch) (s : Search StateSch) : Search StateSch :=
  succ.foldl pushNew s

/-- The body of `for(int sym : alph)` in `complementSch` for a popped tight
macrostate `st`. -/
def schTightStep (A : BuchiAutomaton) (env : ReducedEnv) (st : StateSch) (s : SchSearch)
    (sym : Nat) : SchSearch :=
  let r := succSetSchTight A env.rankBound env.tightSucc s.cache st sym env.reachCons
    env.maxReach env.dirRel env.oddRel
  { search := pushSuccs r.1 s.search, cache := r.2
    mpVect := assocAssign s.mpVect (st, sym) r.1 }

/-- The body of `for(int sym : alph)` in `complementSch` for a popped waiting
macrostate `st`; the loop ends after this first symbol. -/
def schEntryStep (A : BuchiAutomaton) (env : ReducedEnv) (st : StateSch) (s : SchSearch)
    (sym : Nat) : SchSearch :=
  let succ := succSetSchStart A env.tightFrom st.S (env.rankBound st.S) env.reachCons
    env.maxReach env.dirRel env.oddRel
  { search := pushSuccs succ s.search, cache := s.cache
    mpVect := assocAssign s.mpVect (st, sym) succ }

/-- The body of `while(stack.size() > 0)` in `complementSch`. -/
def schBody (A : BuchiAutomaton) (env : ReducedEnv) (s : SchSearch) : SchSearch :=
  match s.search.stack with
  | [] => s
  | st :: rest =>
    let s1 : SchSearch :=
      { s with search :=
          { s.search with
              stack := rest
              finals := if isSchFinal st then insertNew s.search.finals st
                else s.search.finals } }
    if st.tight then A.alphabet.foldl (schTightStep A env st) s1
    else
      match A.alphabet with
      | [] => s1
      | sym :: _ => schEntryStep A env st s1 sym

/-- The function `BuchiAutomatonSpec::complementSch` of
`src/Complement/BuchiAutomatonSpec.cpp`, every loop run for at most `fuel`
rounds; the analyses outside `src/` are the fields of `env`
(`getCycleClosingStates` is `env.tightStart`). The returned automaton is
built from the local `mp`. -/
def complementSch (A : BuchiAutomaton) (env : ReducedEnv) (fuel : Nat) :
    Option (MacroAut StateSch) :=
  match complementSchNFA A A.initials fuel with
  | none => none
  | some comp =>
    match nfaSlAccept A comp fuel with
    | none => none
    | some _ =>
      let stack := env.tightStart.foldl
        (fun stk tmp => if tmp.S.length > 0 then tmp :: stk else stk) []
      (whileLoop (fun s => decide (s.search.stack.length > 0)) (schBody A env) fuel
        { search := { stack := stack, comst := comp.states, finals := [], mp := [] }
          cache := [], mpVect := [] }).map
        (fun s =>
          { states := s.search.comst, finals := s.search.finals
            initials := [waiting A.initials], trans := s.search.mp, alphabet := A.alphabet })

/-! ## Rank bounds (`getRankBound`) -/

/-- The struct `LabelState<StateSch>` of the graph propagation. -/
structure LabelState where
  state : StateSch
  label : Int
deriving DecidableEq

/-- The struct `RankBound`. -/
structure RankBound where
  bound : Int
  stateBound : List (Nat × Int)
deriving DecidableEq

/-- The parts of `getRankBound` that lie outside `src/`: the value of
`isSemiDeterministic()`, the function `Aux::getAllSubsets`, the number of
classes `Aux::countEqClasses` reports after `computeRankSim(st)`, the constant
`INF`, and the rounds of `propagateGraphValues` (the macrostates relabelled in
each round). -/
structure BoundEnv where
  semiDet : Bool
  getAllSubsets : List Nat → List (List Nat)
  classes : IntSet → Int
  inf : Int
  schedule : List (List StateSch)

/-- The flag `sd` of `getRankBound`. -/
def sdFlag (opt : ComplOptions) (env : BoundEnv) : Bool := opt.semidetOpt && env.semiDet

/-- The body of `for(vector<int>& sub : Aux::getAllSubsets(…))` in
`getRankBound`, on the value `rnkmap[s]`; `classesMap` is never written, so
the number of classes is computed on every round. -/
def rnkmapStep (env : BoundEnv) (sd : Bool) (r : Int) (sub : List Nat) : Int :=
  let classes := env.classes (setInsertAll sub [])
  let r1 := max r classes
  if sd then min r1 3 else r1

/-- The value `rnkmap[s]` after the first two loops of `getRankBound`; a
macrostate outside `nfaSchewe.getStates()` reads `0`. -/
def rnkmap (opt : ComplOptions) (env : BoundEnv) (nfaSchewe : MacroAut StateSch)
    (s : StateSch) : Int :=
  if s ∈ nfaSchewe.states then
    (env.getAllSubsets s.S).foldl (rnkmapStep env (sdFlag opt env)) 0
  else 0

/-- The lambda `updMaxFnc` of `getRankBound`. -/
def updMaxFnc (slignore : List StateSch) (a : LabelState) (sts : List LabelState) : Int :=
  let m := sts.foldl
    (fun m tmp => if tmp.state.S = a.state.S ∧ a.state ∈ slignore then m else max m tmp.label)
    (0 : Int)
  min a.label m

/-- The entry `rechCount[i]` after the loop `for(int st : ret)` of
`initMaxFnc`. -/
def rechCount (minReachSize : Nat → Int) (maxReach : Int) (ret : IntSet) (i : Nat) : Int :=
  ((ret.filter (fun st =>
    decide (minReachSize st ≤ maxReach) && decide (minReachSize st = (i : Int)))).length : Int)

/-- The lambda `initMaxFnc` of `getRankBound`. -/
def initMaxFnc (A : BuchiAutomaton) (inf : Int) (maxReachSize : IntSet → Int)
    (minReachSize : Nat → Int) (rnk : StateSch → Int) (act : StateSch) : Int :=
  let ret := setDifference act.S A.finals
  let maxReach := maxReachSize act.S
  let maxCnt : Int := ((ret.filter (fun st => decide (minReachSize st = maxReach))).length : Int)
  let minReach := ret.foldl (fun m st => min m (minReachSize st)) inf
  let tmp := (List.range (maxReach + 1).toNat).foldl
    (fun tmp i =>
      if rechCount minReachSize maxReach ret i > maxReach - (i : Int) then
        min tmp (((ret.length : Int) - rechCount minReachSize maxReach ret i) + maxReach
          - (i : Int) + 1)
      else tmp)
    inf
  let rank0 := min (ret.length : Int) tmp
  if act.S.any (fun st => decide (st ∈ A.finals) && decide (minReachSize st = maxReach)) then 0
  else
    let rank1 := if maxCnt > 2 then min rank0 ((ret.length : Int) - maxCnt + 1) else rank0
    let rank2 := if minReach ≠ inf then max (min rank1 (maxReach - minReach + 1)) 0 else rank1
    min rank2 (rnk act)

/-- The neighbours of a macrostate handed to the update function, with their
current labels: its successors in the waiting graph. -/
def labelledSuccs (nfaSchewe : MacroAut StateSch) (labels : List (StateSch × Int))
    (a : StateSch) : List LabelState :=
  (nfaSchewe.alphabet.flatMap (fun sym => assocGet nfaSchewe.trans (a, sym))).map
    (fun t => { state := t, label := (assocFind labels t).getD 0 })

/-- One round of the propagation: the macrostates of `round` are relabelled by
the update function, each from the labels before the round. -/
def propagateRound (upd : LabelState → List LabelState → Int) (nfaSchewe : MacroAut StateSch)
    (labels : List (StateSch × Int)) (round : List StateSch) : List (StateSch × Int) :=
  labels.map (fun e =>
    if e.1 ∈ round then
      (e.1, upd { state := e.1, label := e.2 } (labelledSuccs nfaSchewe labels e.1))
    else e)

/-- Modelled from the spec: `BuchiAutomaton::propagateGraphValues` (the class
template is missing), "Propagate via fixed-point over the waiting graph": the
labels start at the initial values and are relabelled by the update function
round after round. Which macrostates a round relabels is the parameter
`schedule`: one macrostate per round is the in-place iteration, all
macrostates per round the simultaneous one. -/
def propagateGraphValues (upd : LabelState → List LabelState → Int) (init : StateSch → Int)
    (schedule : List (List StateSch)) (nfaSchewe : MacroAut StateSch) :
    List (StateSch × Int) :=
  schedule.foldl (propagateRound upd nfaSchewe) (nfaSchewe.states.map (fun s => (s, init s)))

/-- The function `BuchiAutomatonSpec::getRankBound`. -/
def getRankBound (A : BuchiAutomaton) (opt : ComplOptions) (env : BoundEnv)
    (nfaSchewe : MacroAut StateSch) (slignore : List StateSch) (maxReachSize : IntSet → Int)
    (minReachSize : Nat → Int) : List (IntSet × RankBound) :=
  let tmp := propagateGraphValues (updMaxFnc slignore)
    (initMaxFnc A env.inf maxReachSize minReachSize (rnkmap opt env nfaSchewe))
    env.schedule nfaSchewe
  tmp.foldl (fun ret t => assocAssign ret t.1.S { bound := t.2, stateBound := [] }) []

/-- The input automaton has its states numbered 0..n−1, and δ and I stay
within them. -/
def BuchiAutomaton.Numbered (A : BuchiAutomaton) : Prop :=
  A.states = List.range A.states.length ∧
  (∀ q a, ∀ q' ∈ A.trans q a, q' ∈ A.states) ∧
  (∀ q ∈ A.initials, q ∈ A.states)

/-- The function `BuchiAutomatonSpec::getSchRanksTightOpt`; `tightSuccPure`
stands for `RankFunc::tightSuccFromRankConstrPure`. -/
def getSchRanksTightOpt (A : BuchiAutomaton) (tightSuccPure : TightEnum) (max : Nat → Int)
    (states : IntSet) (macrostate : StateSch) (reachCons : Nat → Int) (reachMax : Int)
    (dirRel oddRel : BackRel) : List RankFunc :=
  let constr : RankConstr := states.map (singleConst A max)
  tightSuccPure constr dirRel oddRel macrostate.f.getMaxRank reachCons reachMax true

/-- The function `BuchiAutomatonSpec::succSetSchTightOpt`: the returned
successors and the cache afterwards. -/
def succSetSchTightOpt (A : BuchiAutomaton) (rankBound : IntSet → Int)
    (tightSuccPure : TightEnum) (cache : RankCache) (state : StateSch) (symbol : Nat)
    (reachCons : Nat → Int) (maxReach : IntSet → Int) (dirRel oddRel : BackRel) :
    List StateSch × RankCache :=
  match tightLoop A state symbol reachCons with
  | none => ([], cache)
  | some acc =>
    let sprime := acc.sprime
    if doubleBound (rankBound state.S) < state.f.getMaxRank ∨
        doubleBound (rankBound sprime) < state.f.getMaxRank then
      ([], cache)
    else
      let rnkBnd : List Int := sprime.map acc.maxRank
      let maxRank := evenCeilings A acc.maxRank sprime
      let maxReachAct := maxReach sprime
      let look := getRankSuccCache cache [] state symbol
      let res : List RankFunc × RankCache :=
        if look.1 = false then
          let tmp := getSchRanksTightOpt A tightSuccPure maxRank sprime state reachCons
            maxReachAct dirRel oddRel
          (tmp, cachePush look.2.2 (state.S, symbol, state.f.getMaxRank) (state.f, tmp))
        else (look.2.1, look.2.2)
      let kept := res.1.filter (fun r => r.isSuccValid state.f acc.succ && r.isMaxRankValid rnkBnd)
      (kept.map (cutSucc A state symbol sprime), res.2)

/-! ## Elevator analysis (`topologicalSort`, `elevatorStates`, `elevatorRank`) -/

/-- The enum `sccType`; its declaration is in a header outside `src/`, the
source names its enumerators D, ND, BAD and BOTH. -/
inductive SccType where
  | D
  | ND
  | BAD
  | BOTH
deriving DecidableEq, Repr

/-- The locals `visited` (the components mapped to `true`) and `Stack` of the
topological sort; the top of the `std::stack` is the head of the list. -/
structure TopoState where
  visited : List IntSet
  stack : List IntSet

/-- The function `BuchiAutomatonSpec::topologicalSortUtil`, its recursion at
most `fuel` calls deep. The test `not visited[scc]` is made once for each
component, before the loops over the states of `currentScc` and the
symbols. -/
def topologicalSortUtil (A : BuchiAutomaton) :
    Nat → IntSet → List IntSet → TopoState → Option TopoState
  | 0, _, _, _ => none
  | fuel + 1, currentScc, allSccs, st =>
    let st1 : TopoState := { st with visited := insertNew st.visited currentScc }
    let st2 := allSccs.foldl
      (fun acc scc =>
        acc.bind (fun s =>
          if scc ∉ s.visited then
            currentScc.foldl
              (fun acc state =>
                A.alphabet.foldl
                  (fun acc a =>
                    acc.bind (fun s2 =>
                      if scc.any (fun succ => decide (succ ∈ A.trans state a)) then
                        topologicalSortUtil A fuel scc allSccs s2
                      else some s2))
                  acc)
              (some s)
          else some s))
      (some st1)
    st2.map (fun s => { s with stack := currentScc :: s.stack })

/-- The function `BuchiAutomatonSpec::topologicalSort`, on the components
`sccs` returned by `getAutGraphSCCs` (outside `src/`). -/
def topologicalSort (A : BuchiAutomaton) (sccs : List IntSet) (fuel : Nat) :
    Option (List IntSet) :=
  (sccs.foldl
    (fun acc scc =>
      acc.bind (fun s =>
        if scc ∉ s.visited then topologicalSortUtil A fuel scc sccs s else some s))
    (some { visited := [], stack := [] })).map (fun s => s.stack)

/-- The loop `for (auto succ : getTransitions()[{state, a}])` of the
determinism tests, on the pair (`trans`, `det`); once `det` is false the loop
has been left by `break`. -/
def detInner (scc : IntSet) (succs : IntSet) : Nat × Bool :=
  succs.foldl
    (fun acc succ =>
      if acc.2 = false then acc
      else if succ ∈ scc then
        if acc.1 > 0 then (acc.1, false) else (acc.1 + 1, true)
      else acc)
    (0, true)

/-- The determinism test of the classification loop: the flag `det` after the
loops over the states of `scc` and the symbols, both left as soon as `det` is
false. -/
def sccDet (A : BuchiAutomaton) (scc : IntSet) : Bool :=
  scc.foldl
    (fun det state =>
      if det = false then det
      else A.alphabet.foldl
        (fun det a => if det = false then det else (detInner scc (A.trans state a)).2)
        det)
    true

/-- The determinism test of the merge step, made on the component
`sortedComponents[i-1]`: the flag `det` after the loops over its states and
the symbols. -/
def crossDet (A : BuchiAutomaton) (scc : IntSet) : Bool :=
  scc.foldl
    (fun det state =>
      A.alphabet.foldl (fun det a => det && (detInner scc (A.trans state a)).2) det)
    true

/-- The type given to a component by the classification loop. -/
def classify (A : BuchiAutomaton) (scc : IntSet) : SccType :=
  let det := sccDet A scc
  let finalStates := scc.any (fun state => decide (state ∈ A.finals))
  if det ∧ finalStates then SccType.D
  else if ¬ det ∧ ¬ finalStates then SccType.ND
  else if det ∧ ¬ finalStates then SccType.BOTH
  else SccType.BAD

/-- The call `m.insert({k, v})` on a `std::map`: an existing entry is kept. -/
def mapInsertNew {κ β : Type} [DecidableEq κ] (m : List (κ × β)) (k : κ) (v : β) :
    List (κ × β) :=
  if (assocFind m k).isSome then m else m ++ [(k, v)]

/-- The map `typeMap` after the classification loop of `elevatorRank` and
`elevatorStates`. -/
def classifyAll (A : BuchiAutomaton) (sortedComponents : List IntSet) :
    List (IntSet × SccType) :=
  sortedComponents.foldl (fun typeMap scc => mapInsertNew typeMap scc (classify A scc)) []

/-- The read `typeMap[scc]`. The source reads only components entered by the
classification loop; an absent key would read the enumerator declared first. -/
def typeOf (typeMap : List (IntSet × SccType)) (scc : IntSet) : SccType :=
  (assocFind typeMap scc).getD SccType.D

/-- The value of `unsigned i = sortedComponents.size() - 1`, for a size `n`
below 2^32. -/
def unsignedPred (n : Nat) : Nat := (n + 2 ^ 32 - 1) % 2 ^ 32

/-- The loop `for (unsigned j = 0; j < i; j++) typeMap[sortedComponents[j]] =
BAD`. -/
def markBad (sortedComponents : List IntSet) (i : Nat) (typeMap : List (IntSet × SccType)) :
    List (IntSet × SccType) :=
  (sortedComponents.take i).foldl (fun tm c => assocAssign tm c SccType.BAD) typeMap

/-- The loop `for (unsigned i = …; i >= 0; i--)` that propagates BAD back,
from the index `i`; `none` is an access to `sortedComponents` past its end. -/
def badLoop (sortedComponents : List IntSet) :
    Nat → List (IntSet × SccType) → Option (List (IntSet × SccType))
  | 0, typeMap =>
    match sortedComponents[0]? with
    | none => none
    | some c =>
      if typeOf typeMap c = SccType.BAD then some (markBad sortedComponents 0 typeMap)
      else some typeMap
  | i + 1, typeMap =>
    match sortedComponents[i + 1]? with
    | none => none
    | some c =>
      if typeOf typeMap c = SccType.BAD then some (markBad sortedComponents (i + 1) typeMap)
      else badLoop sortedComponents i typeMap

/-- The step "propagate BAD back" of `elevatorRank` and `elevatorStates`. -/
def propagateBad (sortedComponents : List IntSet) (typeMap : List (IntSet × SccType)) :
    Option (List (IntSet × SccType)) :=
  badLoop sortedComponents (unsignedPred sortedComponents.length) typeMap

/-- The function `BuchiAutomatonSpec::elevatorStates`, on the components
`sccs` returned by `getAutGraphSCCs`. -/
def elevatorStates (A : BuchiAutomaton) (sccs : List IntSet) (fuel : Nat) : Option Nat :=
  (topologicalSort A sccs fuel).bind (fun sortedComponents =>
    (propagateBad sortedComponents (classifyAll A sortedComponents)).map (fun typeMap =>
      sortedComponents.foldl
        (fun n scc => if typeOf typeMap scc ≠ SccType.BAD then n + scc.length else n) 0))

/-- The locals changed by the merge loop of `elevatorRank`; `stop` records the
`break`. -/
structure MergeState where
  typeMap : List (IntSet × SccType)
  partition : List (IntSet × SccType)
  tmpComponent : IntSet × SccType
  stop : Bool

/-- The statements `std::set_union(tmpComponent.first, sortedComponents[i-1]);
tmpComponent.second = t; typeMap[sortedComponents[i-1]] = t;`. -/
def mergeInto (s : MergeState) (prev : IntSet) (t : SccType) : MergeState :=
  { s with tmpComponent := (setInsertAll prev s.tmpComponent.1, t)
           typeMap := assocAssign s.typeMap prev t }

/-- The statements `partition.push_back({tmpComponent.first,
tmpComponent.second}); tmpComponent.first.clear();`. -/
def closePart (s : MergeState) : MergeState :=
  { s with partition := s.partition ++ [s.tmpComponent]
           tmpComponent := ([], s.tmpComponent.2) }

/-- The body of the merge loop of `elevatorRank` at the index `i`; `none` is
an access to `sortedComponents` past its end. -/
def mergeBody (A : BuchiAutomaton) (sortedComponents : List IntSet) (i : Nat)
    (s : MergeState) : Option MergeState :=
  match sortedComponents[i]?, sortedComponents[i - 1]? with
  | some cur, some prev =>
    if typeOf s.typeMap cur = SccType.BAD ∨ typeOf s.typeMap prev = SccType.BAD then
      some { s with tmpComponent := (s.tmpComponent.1, SccType.BAD), stop := true }
    else
      let s1 : MergeState :=
        if s.tmpComponent.1.length = 0 then
          { s with tmpComponent := (setInsertAll cur s.tmpComponent.1, typeOf s.typeMap cur) }
        else s
      let s2 : MergeState :=
        if i = sortedComponents.length ∧ typeOf s1.typeMap cur = SccType.BOTH then
          { s1 with tmpComponent := (s1.tmpComponent.1, SccType.D)
                    typeMap := assocAssign s1.typeMap cur SccType.D }
        else s1
      if typeOf s2.typeMap cur = SccType.ND then
        if typeOf s2.typeMap prev = SccType.ND ∨ typeOf s2.typeMap prev = SccType.BOTH then
          some (mergeInto s2 prev SccType.ND)
        else some (closePart s2)
      else if typeOf s2.typeMap cur = SccType.D then
        if typeOf s2.typeMap prev = SccType.D ∨ typeOf s2.typeMap prev = SccType.BOTH then
          if crossDet A prev then some (mergeInto s2 prev SccType.D)
          else some (closePart s2)
        else some (closePart s2)
      else if typeOf s2.typeMap cur = SccType.BOTH then
        if typeOf s2.typeMap prev = SccType.D then
          if crossDet A prev then some (mergeInto s2 prev SccType.D)
          else some (closePart s2)
        else if typeOf s2.typeMap prev = SccType.ND then some (mergeInto s2 prev SccType.ND)
        else some (closePart s2)
      else some s2
  | _, _ => none

/-- The loop `for (unsigned i = …; i > 0; i--)` of the merge step, from the
index `i`. -/
def mergeLoop (A : BuchiAutomaton) (sortedComponents : List IntSet) :
    Nat → MergeState → Option MergeState
  | 0, s => some s
  | i + 1, s =>
    match mergeBody A sortedComponents (i + 1) s with
    | none => none
    | some s1 => if s1.stop then some s1 else mergeLoop A sortedComponents i s1

/-- The vector `partition` of `elevatorRank` after the merge step and the
final `push_back`, for the sorted components `sortedComponents`; the pair
`tmpComponent` starts value-initialised. -/
def elevatorPartition (A : BuchiAutomaton) (sortedComponents : List IntSet) :
    Option (List (IntSet × SccType)) :=
  (propagateBad sortedComponents (classifyAll A sortedComponents)).bind (fun typeMap =>
    (mergeLoop A sortedComponents (unsignedPred sortedComponents.length)
      { typeMap := typeMap, partition := [], tmpComponent := ([], SccType.D), stop := false }).map
      (fun s => s.partition ++ [s.tmpComponent]))

/-- The body of `for (auto part : partition)` in `elevatorRank`, on the pair
(`rank`, `newRank`). -/
def rankStep (acc : Nat × List (Nat × Nat)) (part : IntSet × SccType) :
    Nat × List (Nat × Nat) :=
  if part.2 = SccType.D ∧ acc.1 % 2 = 1 then
    (acc.1 + 2, part.1.foldl (fun m state => mapInsertNew m state (acc.1 + 1)) acc.2)
  else if part.2 = SccType.ND ∧ acc.1 % 2 = 0 then
    (acc.1 + 2, part.1.foldl (fun m state => mapInsertNew m state (acc.1 + 1)) acc.2)
  else if part.2 = SccType.BAD then acc
  else (acc.1 + 1, part.1.foldl (fun m state => mapInsertNew m state acc.1) acc.2)

/-- The map `newRank` of `elevatorRank` after the loop over `partition`. -/
def assignRanks (partition : List (IntSet × SccType)) : List (Nat × Nat) :=
  (partition.foldl rankStep (2, [])).2

/-- The map `newRank` of `elevatorRank`, on the components `sccs` returned by
`getAutGraphSCCs`. -/
def elevatorNewRank (A : BuchiAutomaton) (sccs : List IntSet) (fuel : Nat) :
    Option (List (Nat × Nat)) :=
  (topologicalSort A sccs fuel).bind (fun sortedComponents =>
    (elevatorPartition A sortedComponents).map assignRanks)

/-- Equal entries of the list are next to each other: between two occurrences
of a component only that component occurs. A list without repetition is of
this kind, and so is one in which a component is repeated in a row. -/
def AdjacentRepeats (l : List IntSet) : Prop :=
  ∀ i j k : Fin l.length, i ≤ k → k ≤ j → l.get i = l.get j → l.get k = l.get i

instance (l : List IntSet) : Decidable (AdjacentRepeats l) := by
  unfold AdjacentRepeats
  exact inferInstance

/-- The set δ(T, a^k) of the specification: `succSet` on the symbol `a`
applied `k` times to `T`. -/
def succPow (A : BuchiAutomaton) (T : IntSet) (a : Nat) : Nat → IntSet
  | 0 => T
  | k + 1 => succSet A (succPow A T a k) a

/-- The invariant of the inner search of `acceptSl` for the accepting state
`st`: the sets seen are δ({st}, a^1), …, δ({st}, a^j), none before the j-th
contains `st`, and the search either holds the j-th set on its stack, or has
found `st` in it, or has found its successor among the sets seen. -/
def SlInv (A : BuchiAutomaton) (st a : Nat) (s : SlSearch) : Prop :=
  ∃ j, 1 ≤ j ∧
    (∀ X, X ∈ s.comst ↔ ∃ i, 1 ≤ i ∧ i ≤ j ∧ X = succPow A [st] a i) ∧
    (∀ i, 1 ≤ i → i < j → st ∉ succPow A [st] a i) ∧
    s.comst.Nodup ∧
    ((s.found = false ∧ s.stack = [succPow A [st] a j]) ∨
      (s.found = true ∧ st ∈ succPow A [st] a j) ∨
      (s.found = false ∧ s.stack = [] ∧ st ∉ succPow A [st] a j ∧
        succPow A [st] a (j + 1) ∈ s.comst))

/-- The measure that decreases in every round of the inner search of
`acceptSl`. -/
def slMeasure (A : BuchiAutomaton) (s : SlSearch) : Nat :=
  2 * (A.states.sublists.length - s.comst.length) + s.stack.length

/-! ## The entry of the tight part in the earlier construction -/

namespace Legacy

/-- The function `BuchiAutomatonSpec::succSetSchStart` of
`src/BuchiAutomatonSpec.cpp`. -/
def succSetSchStart (A : BuchiAutomaton) (state : IntSet) (symbol : Nat) : List StateSch :=
  let sprime := succSet A state symbol
  let schfinal := setDifference sprime A.finals
  let maxRank := evenCeilings A (fun _ => sizeCeilToInt schfinal.length) sprime
  let constr := rankConstr A maxRank sprime
  (fromRankConstr constr).foldl
    (fun ret item =>
      if item.isTightRank then
        insertNew ret { S := sprime, O := [], f := item, i := 0, tight := true }
      else ret)
    []

end Legacy

/-! ## The update of the rank bounds by the elevator ranks -/

/-- The conversion of an `int` to `unsigned` in a mixed comparison. -/
def intToUnsigned (x : Int) : Nat := (x % 2 ^ 32).toNat

/-- The conversion of an `unsigned` to `int` in an assignment: the 32 bits read
as a two's complement number. -/
def unsignedToInt (n : Nat) : Int :=
  if n % 2 ^ 32 < 2 ^ 31 then ((n % 2 ^ 32 : Nat) : Int) else ((n % 2 ^ 32 : Nat) : Int) - 2 ^ 32

/-- The read `rankBound[S]` of the member map: an absent key reads the
value-initialised `RankBound`. -/
def boundEntry (rankBound : List (IntSet × RankBound)) (S : IntSet) : RankBound :=
  (assocFind rankBound S).getD { bound := 0, stateBound := [] }

/-- The effect of `rankBound[S]` on the map: an absent key is inserted with the
value-initialised `RankBound`. -/
def touchBound (rankBound : List (IntSet × RankBound)) (S : IntSet) :
    List (IntSet × RankBound) :=
  if (assocFind rankBound S).isSome then rankBound
  else assocAssign rankBound S { bound := 0, stateBound := [] }

/-- The locals `first`, `max` and `bad` of the update loop of `elevatorRank`. -/
structure MaxAcc where
  first : Bool
  max : Nat
  bad : Bool

/-- The body of `for (auto state : macrostate.S)` in the update loop of
`elevatorRank`; once `bad` is set the loop has been left by `break`. -/
def maxStep (newRank : List (Nat × Nat)) (acc : MaxAcc) (state : Nat) : MaxAcc :=
  if acc.bad then acc
  else
    match assocFind newRank state with
    | none => { acc with bad := true }
    | some r =>
      if acc.first then { first := false, max := r, bad := false }
      else if r > acc.max then { acc with max := r }
      else acc

/-- The body of the loop `for (auto macrostate : nfaSchewe.getStates())` that
updates the rank bounds in `elevatorRank`. The local `max` is declared without
a value; it is read only after the first state has set it. -/
def elevUpdateOne (newRank : List (Nat × Nat)) (rankBound : List (IntSet × RankBound))
    (macrostate : StateSch) : List (IntSet × RankBound) :=
  if macrostate.S.length > 0 then
    let acc := macrostate.S.foldl (maxStep newRank) { first := true, max := 0, bad := false }
    if acc.bad then rankBound
    else
      let rb1 := touchBound rankBound macrostate.S
      if intToUnsigned (boundEntry rb1 macrostate.S).bound > acc.max then
        assocAssign rb1 macrostate.S
          { boundEntry rb1 macrostate.S with bound := unsignedToInt acc.max }
      else rb1
  else rankBound

/-- The member `rankBound` after the two loops over `nfaSchewe.getStates()`
that end `elevatorRank`: the update of the bounds, and the loop that prints
the largest bound, which reads `rankBound[macrostate.S]` for every
macrostate. -/
def elevatorUpdate (newRank : List (Nat × Nat)) (rankBound : List (IntSet × RankBound))
    (states : List StateSch) : List (IntSet × RankBound) :=
  states.foldl (fun rb macrostate => touchBound rb macrostate.S)
    (states.foldl (elevUpdateOne newRank) rankBound)

/-- The function `BuchiAutomatonSpec::elevatorRank`: the member `rankBound`
afterwards, on the components `sccs` returned by `getAutGraphSCCs`. -/
def elevatorRank (A : BuchiAutomaton) (sccs : List IntSet) (fuel : Nat)
    (nfaSchewe : MacroAut StateSch) (rankBound : List (IntSet × RankBound)) :
    Option (List (IntSet × RankBound)) :=
  (elevatorNewRank A sccs fuel).map (fun newRank =>
    elevatorUpdate newRank rankBound nfaSchewe.states)

/-- The conversion `vector<StateSch>(retAll.begin(), retAll.end())` of a
`std::set<StateSch>`: its elements in increasing order. The order is
`operator<` of `StateSch`, declared outside the sources; it is the parameter
`lt`. -/
def setToVector (lt : StateSch → StateSch → Bool) (retAll : List StateSch) : List StateSch :=
  retAll.insertionSort (fun a b => lt a b = true)

/-- The search of `complementSchOpt` before its `while` loop, given the
waiting part and the pairs of `nfaSingleSlNoAccept`: the same statements as in
`complementSchReduced`, but the sinks are numbered from
`getTransitions().size()`, the number of entries of the transition map of the
input automaton. The map belongs to the class template outside the sources;
its size at this point is the parameter `transSize`. -/
def optInit (transSize : Nat) (env : ReducedEnv) (delay : Bool) (comp : MacroAut StateSch)
    (slNonEmpty : List (IntSet × Nat)) : SinkAcc × List StateSch :=
  let sinks := slNonEmpty.foldl installSink
    { newState := transSize, slTrans := [], mp := comp.trans, finals := comp.finals
      comst := comp.states }
  let start : List StateSch :=
    if delay then env.tightStartDelay.foldl (fun l item => insertNew l item.1) []
    else env.tightStart
  (sinks, start.foldl (fun stk tmp => if tmp.S.length > 0 then tmp :: stk else stk) [])

/-! ## Sample inputs -/

/-- A four-state automaton over one symbol, each state looping on itself;
state 3 is accepting. -/
def loopAut : BuchiAutomaton :=
  { states := [0, 1, 2, 3], alphabet := [0]
    trans := fun q a => if a = 0 then [q] else []
    initials := [0], finals := [3] }

/-- The options set in `ranker-sim.cpp`, with the cache switched off. -/
def plainOpt : ComplOptions :=
  { cutPoint := true, succEmptyCheck := false, ROMinState := 8, ROMinRank := 6,
    CacheMaxState := 6, CacheMaxRank := 8, semidetOpt := false }

/-- A tight macrostate of `loopAut` with maximal rank 3 and breakpoint index 2. -/
def loopState : StateSch :=
  { S := [0, 1, 2, 3], O := [1, 3], f := [(0, 3), (1, 2), (2, 1), (3, 2)], i := 2,
    tight := true }

/-- The successor of `loopState` in which the rank of the pending state 1 is
decremented. -/
def loopSuccLow : StateSch :=
  { S := [0, 1, 2, 3], O := [3], f := [(0, 3), (1, 1), (2, 1), (3, 2)], i := 2,
    tight := true }

/-- A KV macrostate of `loopAut`. -/
def loopKV : StateKV :=
  { S := [0, 1, 2, 3], O := [1, 3], f := [(0, 3), (1, 2), (2, 1), (3, 2)] }

/-- A KV successor of `loopKV` on the symbol 0. -/
def loopKVSucc : StateKV :=
  { S := [0, 1, 2, 3], O := [3], f := [(0, 2), (1, 1), (2, 1), (3, 2)] }

/-- An enumerator that finds no rank; unused when the cache is switched off. -/
def noRanks : TightEnum := fun _ _ _ _ _ _ _ => []

/-- A three-state automaton over one symbol, each state looping on itself,
without accepting states. -/
def idAut : BuchiAutomaton :=
  { states := [0, 1, 2], alphabet := [0]
    trans := fun q a => if a = 0 then [q] else []
    initials := [0], finals := [] }

/-- A tight macrostate of `idAut` with maximal rank 3. -/
def idParent : StateSch :=
  { S := [0, 1, 2], O := [], f := [(0, 3), (1, 3), (2, 1)], i := 0, tight := true }

/-- A tight macrostate of `idAut` over the same states, with a pointwise
smaller rank of the same maximal rank. -/
def idQuery : StateSch :=
  { S := [0, 1, 2], O := [], f := [(0, 3), (1, 2), (2, 1)], i := 0, tight := true }

/-- The rank cache left by `succSetSchTight` on `idParent` and the symbol 0,
started with an empty cache. -/
def idCache : RankCache :=
  (succSetSchTight idAut (fun _ => 0) tightSuccFromRankConstr [] idParent 0 (fun _ => 0)
    (fun _ => 3) [] []).2

/-- The automaton of scenario 2 in §8 of the specification: states 0 and 1,
symbols a = 0 and b = 1, δ(0, a) = {0, 1}, δ(0, b) = {0}, δ(1, ·) = {1},
I = {0}, F = {1}. -/
def scenario2 : BuchiAutomaton :=
  { states := [0, 1], alphabet := [0, 1]
    trans := fun q a =>
      if q = 0 ∧ a = 0 then [0, 1] else if q = 0 ∧ a = 1 then [0]
      else if q = 1 ∧ (a = 0 ∨ a = 1) then [1] else []
    initials := [0], finals := [1] }

/-- The waiting part of `scenario2`. -/
def scenario2Waiting : MacroAut StateSch :=
  { states := [waiting [0], waiting [0, 1]], finals := [], initials := [waiting [0]]
    trans := [((waiting [0], 0), [waiting [0, 1]]), ((waiting [0], 1), [waiting [0]]),
      ((waiting [0, 1], 0), [waiting [0, 1]]), ((waiting [0, 1], 1), [waiting [0, 1]])]
    alphabet := [0, 1] }

/-- The automaton of scenario 1 in §8 without its accepting state: one state
looping on the single symbol. -/
def oneAut : BuchiAutomaton :=
  { states := [0], alphabet := [0]
    trans := fun q a => if q = 0 ∧ a = 0 then [0] else []
    initials := [0], finals := [] }

/-- The KV macrostate ⟨{0}, O, 0 ↦ v⟩ of `oneAut`. -/
def oneKV (O : IntSet) (v : Int) : StateKV := { S := [0], O := O, f := [(0, v)] }

/-- The KV complement of `oneAut`. -/
def oneAutKV : MacroAut StateKV :=
  { states := [oneKV [] 0, oneKV [] 1, oneKV [] 2, oneKV [0] 0, oneKV [0] 2]
    finals := [oneKV [] 2, oneKV [] 1, oneKV [] 0]
    initials := [oneKV [] 0, oneKV [] 1, oneKV [] 2]
    trans := [((oneKV [] 2, 0), [oneKV [0] 0, oneKV [] 1, oneKV [0] 2]),
      ((oneKV [0] 2, 0), [oneKV [0] 0, oneKV [] 1, oneKV [0] 2]),
      ((oneKV [0] 0, 0), [oneKV [0] 0]),
      ((oneKV [] 1, 0), [oneKV [0] 0, oneKV [] 1]),
      ((oneKV [] 0, 0), [oneKV [0] 0])]
    alphabet := [0] }

/-- Analyses for `oneAut`: no entry macrostate, rank bound 1, and the modelled
enumerator. -/
def oneEnv : ReducedEnv :=
  { tightSucc := tightSuccFromRankConstr
    tightFrom := fun _ _ _ _ _ _ => []
    getRORanks := fun _ _ _ _ => []
    rankLt := fun _ _ => false
    reachCons := fun _ => 1
    maxReach := fun _ => 1
    rankBound := fun _ => 1
    tightStart := []
    tightStartDelay := []
    dirRel := []
    oddRel := [] }

/-- Analyses for `scenario2`: the tight part is entered at {0, 1}, every rank
bound is 1, and the enumerators are the modelled ones. -/
def scenario2Env : ReducedEnv :=
  { tightSucc := tightSuccFromRankConstr
    tightFrom := tightFromRankConstr
    getRORanks := fun _ _ _ _ => []
    rankLt := fun _ _ => false
    reachCons := fun _ => 0
    maxReach := fun _ => 2
    rankBound := fun _ => 1
    tightStart := [waiting [0, 1]]
    tightStartDelay := []
    dirRel := []
    oddRel := [] }

/-- A tight macrostate of `idAut` with maximal rank 3 whose state 1 is pending
at the breakpoint index 2. -/
def idPending : StateSch :=
  { S := [0, 1, 2], O := [1], f := [(0, 3), (1, 2), (2, 1)], i := 2, tight := true }

/-- An automaton with one state and one symbol and no transition. -/
def deadAut : BuchiAutomaton :=
  { states := [0], alphabet := [0], trans := fun _ _ => [], initials := [0], finals := [] }

/-- The automaton returned by `complementSch` on `scenario2` under
`scenario2Env`. -/
def scenario2Baseline : MacroAut StateSch :=
  { states := [waiting [0], waiting [0, 1],
      { S := [0, 1], O := [], f := [(0, 1), (1, 0)], i := 0, tight := true },
      { S := [0, 1], O := [1], f := [(0, 1), (1, 0)], i := 0, tight := true }]
    finals := [{ S := [0, 1], O := [], f := [(0, 1), (1, 0)], i := 0, tight := true }]
    initials := [waiting [0]]
    trans := []
    alphabet := [0, 1] }

/-- The options of `plainOpt` with the semideterministic clamp switched on. -/
def semidetOptions : ComplOptions := { plainOpt with semidetOpt := true }

/-- A waiting part with the single macrostate {0, 1, 2, 3, 4}, looping on the
symbol 0. -/
def wideWaiting : MacroAut StateSch :=
  { states := [waiting [0, 1, 2, 3, 4]], finals := [], initials := [waiting [0, 1, 2, 3, 4]]
    trans := [((waiting [0, 1, 2, 3, 4], 0), [waiting [0, 1, 2, 3, 4]])], alphabet := [0] }

/-- Analyses of a semideterministic input for `getRankBound`: every subset of
a macrostate counts five classes per state, and the propagation relabels the
macrostate of `wideWaiting` in each of two rounds. -/
def clampEnv : BoundEnv :=
  { semiDet := true
    getAllSubsets := fun l => l.sublists
    classes := fun st => 5 * (st.length : Int)
    inf := 1000000
    schedule := [wideWaiting.states, wideWaiting.states] }

/-- A tight macrostate of `loopAut` whose state 1 has rank 0. -/
def zeroState : StateSch :=
  { S := [0, 1], O := [], f := [(0, 1), (1, 0)], i := 0, tight := true }

/-- An automaton with two states and one symbol: state 0 loops, state 1 has
no successor; no accepting state. -/
def halfAut : BuchiAutomaton :=
  { states := [0, 1], alphabet := [0]
    trans := fun q a => if q = 0 ∧ a = 0 then [0] else []
    initials := [0, 1], finals := [] }

/-- A tight macrostate of `halfAut` ranking both states 1. -/
def halfState : StateSch :=
  { S := [0, 1], O := [], f := [(0, 1), (1, 1)], i := 0, tight := true }

/-- An automaton with two states and two symbols whose only transitions lead
from state 0 to state 1, one on each symbol. -/
def forkAut : BuchiAutomaton :=
  { states := [0, 1], alphabet := [0, 1]
    trans := fun q a => if q = 0 ∧ (a = 0 ∨ a = 1) then [1] else []
    initials := [0], finals := [] }

/-- An automaton with the components {0} and {1, 2}: state 0 leads to state 1,
the accepting state 1 has the successors 1 and 2, and state 2 leads back to
state 1. -/
def badAut : BuchiAutomaton :=
  { states := [0, 1, 2], alphabet := [0]
    trans := fun q a =>
      if a ≠ 0 then [] else if q = 0 then [1] else if q = 1 then [1, 2]
      else if q = 2 then [1] else []
    initials := [0], finals := [1] }

/-- An automaton with the components {0}, {1} and {2}: the accepting state 0
leads to state 1 on both symbols, and state 1 leads to state 2 on the symbol
0. -/
def liftAut : BuchiAutomaton :=
  { states := [0, 1, 2], alphabet := [0, 1]
    trans := fun q a =>
      if q = 0 ∧ (a = 0 ∨ a = 1) then [1] else if q = 1 ∧ a = 0 then [2] else []
    initials := [0], finals := [0] }

/-- An automaton with two accepting states, both leading to state 0 on the
only symbol. -/
def twinAut : BuchiAutomaton :=
  { states := [0, 1], alphabet := [0]
    trans := fun q a => if a = 0 ∧ (q = 0 ∨ q = 1) then [0] else []
    initials := [0, 1], finals := [0, 1] }

/-- An automaton whose only state is accepting and loops on the only symbol. -/
def accAut : BuchiAutomaton :=
  { states := [0], alphabet := [0], trans := fun q a => if q = 0 ∧ a = 0 then [0] else []
    initials := [0], finals := [0] }

/-- Rank bounds for the waiting part of `scenario2`: 3 for {0}, 1 for {0, 1}. -/
def scenario2Bounds : List (IntSet × RankBound) :=
  [([0], { bound := 3, stateBound := [] }), ([0, 1], { bound := 1, stateBound := [] })]

/-- A sample order of macrostates in the place of `operator<`: of two
different macrostates the one with the smaller O comes first. -/
def shortOFirst (x y : StateSch) : Bool := decide (x ≠ y) && decide (x.O.length ≤ y.O.length)

/-- An automaton with the states 0 and 1 whose only transition is the loop of
the initial state 1. -/
def lateAut : BuchiAutomaton :=
  { states := [0, 1], alphabet := [0], trans := fun q a => if q = 1 ∧ a = 0 then [1] else []
    initials := [1], finals := [] }

/-- The options of `plainOpt` with `cutPoint` disabled. -/
def oddOpt : ComplOptions := { plainOpt with cutPoint := false }

/-- The successor of `idQuery` under `oddOpt`: the states of even rank are
pending and the index is 0. -/
def idOddSucc : StateSch :=
  { S := [0, 1, 2], O := [1], f := [(0, 3), (1, 2), (2, 1)], i := 0, tight := true }

/-- The macrostate `loopState` with only the accepting state 3 pending. -/
def loopLate : StateSch :=
  { S := [0, 1, 2, 3], O := [3], f := [(0, 3), (1, 2), (2, 1), (3, 2)], i := 2,
    tight := true }

/-- The successor of `loopLate` under `oddOpt` on the ceiling rank. -/
def loopOddSucc : StateSch :=
  { S := [0, 1, 2, 3], O := [3], f := [(0, 3), (1, 2), (2, 1), (3, 2)], i := 0,
    tight := true }

/-- The macrostate `idQuery` at the breakpoint index 2, the last even index
below its maximal rank 3. -/
def idLate : StateSch :=
  { S := [0, 1, 2], O := [], f := [(0, 3), (1, 2), (2, 1)], i := 2, tight := true }


/-! ## Basic facts about the containers -/

theorem tmod_two_eq_zero_iff (x : Int) : Int.tmod x 2 = 0 ↔ x % 2 = 0 := by
  constructor
  · intro h
    have := Int.dvd_of_tmod_eq_zero h
    omega
  · intro h
    apply Int.tmod_eq_zero_of_dvd
    omega

theorem mem_setInsert (x y : Nat) (s : IntSet) : y ∈ setInsert x s ↔ y = x ∨ y ∈ s := by
  induction s with
  | nil => simp [setInsert]
  | cons z zs ih =>
    unfold setInsert
    split
    · simp
    · split
      · rename_i h1 h2
        subst h2
        simp
      · simp [ih]
        tauto

theorem mem_setInsertAll (dst s : IntSet) (y : Nat) :
    y ∈ setInsertAll dst s ↔ y ∈ dst ∨ y ∈ s := by
  unfold setInsertAll
  induction dst generalizing s with
  | nil => simp
  | cons d ds ih =>
    simp only [List.foldl_cons, ih, mem_setInsert, List.mem_cons]
    tauto

theorem mem_setIntersection (a b : IntSet) (y : Nat) :
    y ∈ setIntersection a b ↔ y ∈ a ∧ y ∈ b := by
  simp [setIntersection]

theorem mem_setDifference (a b : IntSet) (y : Nat) :
    y ∈ setDifference a b ↔ y ∈ a ∧ y ∉ b := by
  simp [setDifference]

theorem mem_insertNew {α : Type} [DecidableEq α] (l : List α) (x y : α) :
    y ∈ insertNew l x ↔ y ∈ l ∨ y = x := by
  unfold insertNew
  split
  · constructor
    · intro h; exact Or.inl h
    · rintro (h | h)
      · exact h
      · subst h; assumption
  · simp

theorem get_mapAssign (m : RankFunc) (k : Nat) (v : Int) (q : Nat) :
    RankFunc.get (mapAssign m k v) q = if q = k then v else RankFunc.get m q := by
  induction m with
  | nil =>
    simp only [mapAssign, RankFunc.get]
    by_cases h : q = k
    · simp [h]
    · have : ¬ k = q := fun e => h e.symm
      simp [h, this]
  | cons kv rest ih =>
    obtain ⟨k', v'⟩ := kv
    unfold mapAssign
    by_cases h1 : k < k'
    · simp only [h1, if_true, RankFunc.get]
      by_cases h : q = k
      · simp [h]
      · have : ¬ k = q := fun e => h e.symm
        simp [h, this]
    · by_cases h2 : k = k'
      · subst h2
        simp only [lt_irrefl, if_false, if_true, RankFunc.get]
        by_cases h : q = k
        · simp [h]
        · have : ¬ k = q := fun e => h e.symm
          simp [h, this]
      · simp only [h1, h2, if_false, RankFunc.get, ih]
        by_cases h : q = k
        · subst h
          have : ¬ k' = q := fun e => h2 e.symm
          simp [this]
        · simp [h]

theorem keys_mapAssign (m : RankFunc) (k : Nat) (v : Int) (q : Nat) :
    q ∈ RankFunc.keys (mapAssign m k v) ↔ q = k ∨ q ∈ RankFunc.keys m := by
  induction m with
  | nil => simp [mapAssign, RankFunc.keys]
  | cons kv rest ih =>
    obtain ⟨k', v'⟩ := kv
    unfold mapAssign
    by_cases h1 : k < k'
    · simp [h1, RankFunc.keys]
    · by_cases h2 : k = k'
      · subst h2
        simp [RankFunc.keys]
      · simp only [h1, h2, if_false]
        simp only [RankFunc.keys, List.map_cons, List.mem_cons] at ih ⊢
        rw [ih]
        tauto

/-! ## Ceilings computed by the successor loops -/

theorem lowerCeilings_le (mr : Nat → Int) (dst : IntSet) (v : Int) (q : Nat) :
    lowerCeilings mr dst v q ≤ mr q := by
  unfold lowerCeilings
  induction dst generalizing mr with
  | nil => simp
  | cons d ds ih =>
    simp only [List.foldl_cons]
    refine le_trans (ih _) ?_
    unfold vecSet
    split
    · rename_i h; subst h; exact min_le_left _ _
    · exact le_refl _

theorem lowerCeilings_le_of_mem (mr : Nat → Int) (dst : IntSet) (v : Int) (q : Nat)
    (h : q ∈ dst) : lowerCeilings mr dst v q ≤ v := by
  unfold lowerCeilings
  induction dst generalizing mr with
  | nil => simp at h
  | cons d ds ih =>
    simp only [List.foldl_cons]
    rcases List.mem_cons.mp h with h | h
    · subst h
      refine le_trans (lowerCeilings_le _ ds v q) ?_
      simp [vecSet]
    · exact ih _ h

theorem lowerCeilings_eq (mr : Nat → Int) (dst : IntSet) (v : Int) (q : Nat) :
    lowerCeilings mr dst v q = if q ∈ dst then min (mr q) v else mr q := by
  unfold lowerCeilings
  induction dst generalizing mr with
  | nil => simp
  | cons d ds ih =>
    simp only [List.foldl_cons, ih, List.mem_cons]
    unfold vecSet
    by_cases h1 : q = d
    · subst h1
      simp only [if_true, true_or]
      split <;> simp [min_assoc]
    · simp [h1]

/-- The accumulators after the loop over a prefix, started anywhere. -/
theorem succStep_foldl_maxRank_le (A : BuchiAutomaton) (f : RankFunc) (symbol : Nat)
    (S : IntSet) (acc : SuccAcc) (q : Nat) :
    (S.foldl (succStep A f symbol) acc).maxRank q ≤ acc.maxRank q := by
  induction S generalizing acc with
  | nil => simp
  | cons s ss ih =>
    simp only [List.foldl_cons]
    exact le_trans (ih _) (lowerCeilings_le _ _ _ _)

theorem succStep_foldl_maxRank_le_of_mem (A : BuchiAutomaton) (f : RankFunc) (symbol : Nat)
    (S : IntSet) (acc : SuccAcc) (p q : Nat) (hp : p ∈ S) (hq : q ∈ A.trans p symbol) :
    (S.foldl (succStep A f symbol) acc).maxRank q ≤ f.get p := by
  induction S generalizing acc with
  | nil => simp at hp
  | cons s ss ih =>
    simp only [List.foldl_cons]
    rcases List.mem_cons.mp hp with h | h
    · subst h
      exact le_trans (succStep_foldl_maxRank_le A f symbol ss _ q)
        (lowerCeilings_le_of_mem _ _ _ _ hq)
    · exact ih _ h

theorem succStep_foldl_sprime (A : BuchiAutomaton) (f : RankFunc) (symbol : Nat)
    (S : IntSet) (acc : SuccAcc) :
    (S.foldl (succStep A f symbol) acc).sprime
      = S.foldl (fun ret st => setInsertAll (A.trans st symbol) ret) acc.sprime := by
  induction S generalizing acc with
  | nil => simp
  | cons s ss ih =>
    simp only [List.foldl_cons, ih]
    rfl

theorem succLoop_sprime (A : BuchiAutomaton) (state : StateSch) (symbol : Nat) :
    (succLoop A state symbol).sprime = succSet A state.S symbol := by
  unfold succLoop succSet
  rw [succStep_foldl_sprime]

theorem evenCeilings_le (A : BuchiAutomaton) (mr : Nat → Int) (sprime : IntSet) (q : Nat) :
    evenCeilings A mr sprime q ≤ mr q := by
  unfold evenCeilings
  induction sprime generalizing mr with
  | nil => simp
  | cons s ss ih =>
    simp only [List.foldl_cons]
    refine le_trans (ih _) ?_
    split
    · unfold vecSet
      split
      · rename_i h; subst h; omega
      · exact le_refl _
    · exact le_refl _

theorem evenCeilings_even_stays (A : BuchiAutomaton) (mr : Nat → Int) (sprime : IntSet)
    (q : Nat) (h : mr q % 2 = 0) : evenCeilings A mr sprime q % 2 = 0 := by
  unfold evenCeilings
  induction sprime generalizing mr with
  | nil => simpa using h
  | cons s ss ih =>
    simp only [List.foldl_cons]
    apply ih
    split
    · rename_i hc
      unfold vecSet
      split
      · rename_i e
        subst e
        have := hc.2
        rw [Ne, tmod_two_eq_zero_iff] at this
        omega
      · exact h
    · exact h

theorem evenCeilings_even (A : BuchiAutomaton) (mr : Nat → Int) (sprime : IntSet)
    (q : Nat) (hq : q ∈ sprime) (hf : q ∈ A.finals) :
    evenCeilings A mr sprime q % 2 = 0 := by
  induction sprime generalizing mr with
  | nil => simp at hq
  | cons s ss ih =>
    rcases List.mem_cons.mp hq with h | h
    · subst h
      have step : evenCeilings A mr (q :: ss) =
          evenCeilings A (if q ∈ A.finals ∧ Int.tmod (mr q) 2 ≠ 0
            then vecSet mr q (mr q - 1) else mr) ss := by
        simp [evenCeilings]
      rw [step]
      apply evenCeilings_even_stays
      by_cases hc : Int.tmod (mr q) 2 ≠ 0
      · rw [if_pos ⟨hf, hc⟩]
        rw [Ne, tmod_two_eq_zero_iff] at hc
        show (if q = q then mr q - 1 else mr q) % 2 = 0
        rw [if_pos rfl]
        omega
      · rw [if_neg (fun hh => hc hh.2)]
        rw [Ne, not_not, tmod_two_eq_zero_iff] at hc
        exact hc
    · have step : evenCeilings A mr (s :: ss) =
          evenCeilings A (if s ∈ A.finals ∧ Int.tmod (mr s) 2 ≠ 0
            then vecSet mr s (mr s - 1) else mr) ss := by
        simp [evenCeilings]
      rw [step]
      exact ih _ h

theorem get_sngMap_aux (max : Nat → Int) (states : IntSet) (m : RankFunc) (q : Nat) :
    RankFunc.get (states.foldl (fun m st => mapAssign m st (max st)) m) q
      = if q ∈ states then max q else RankFunc.get m q := by
  induction states generalizing m with
  | nil => simp
  | cons s ss ih =>
    simp only [List.foldl_cons, ih, get_mapAssign, List.mem_cons]
    by_cases h1 : q ∈ ss
    · simp [h1]
    · by_cases h2 : q = s
      · subst h2; simp
      · simp [h1, h2]

theorem get_sngMap (max : Nat → Int) (states : IntSet) (q : Nat) :
    RankFunc.get (sngMap max states) q = if q ∈ states then max q else 0 := by
  unfold sngMap
  rw [get_sngMap_aux]
  rfl

theorem keys_sngMap_aux (max : Nat → Int) (states : IntSet) (m : RankFunc) (q : Nat) :
    q ∈ RankFunc.keys (states.foldl (fun m st => mapAssign m st (max st)) m)
      ↔ q ∈ states ∨ q ∈ RankFunc.keys m := by
  induction states generalizing m with
  | nil => simp
  | cons s ss ih =>
    simp only [List.foldl_cons, ih, keys_mapAssign, List.mem_cons]
    tauto

theorem keys_sngMap (max : Nat → Int) (states : IntSet) (q : Nat) :
    q ∈ RankFunc.keys (sngMap max states) ↔ q ∈ states := by
  unfold sngMap
  rw [keys_sngMap_aux]
  simp [RankFunc.keys]

/-! ## The reduced tight successor: shape of the result -/

theorem get_of_not_mem_keys (m : RankFunc) (q : Nat) (h : q ∉ RankFunc.keys m) :
    RankFunc.get m q = 0 := by
  induction m with
  | nil => rfl
  | cons kv rest ih =>
    obtain ⟨k, v⟩ := kv
    simp only [RankFunc.keys, List.map_cons, List.mem_cons, not_or] at h
    simp only [RankFunc.get]
    rw [if_neg (fun e => h.1 e.symm)]
    exact ih h.2

theorem decreaseO_eq (A : BuchiAutomaton) (rnkMap : RankFunc) (O : IntSet) :
    decreaseO A rnkMap O = O.foldl (decreaseStep A) (rnkMap, []) := rfl

theorem touch_get (m : RankFunc) (o q : Nat) :
    RankFunc.get (if o ∈ m.keys then m else mapAssign m o 0) q = RankFunc.get m q := by
  split
  · rfl
  · rename_i h
    rw [get_mapAssign]
    split
    · rename_i e; subst e; exact (get_of_not_mem_keys m q h).symm
    · rfl

theorem decreaseStep_get (A : BuchiAutomaton) (acc : RankFunc × IntSet) (o q : Nat) :
    RankFunc.get (decreaseStep A acc o).1 q
      = if q = o ∧ RankFunc.get acc.1 o > 0 ∧ o ∉ A.finals then RankFunc.get acc.1 o - 1
        else RankFunc.get acc.1 q := by
  unfold decreaseStep
  simp only [touch_get]
  by_cases hc : RankFunc.get acc.1 o > 0 ∧ o ∉ A.finals
  · rw [if_pos hc]
    simp only [get_mapAssign, touch_get]
    by_cases e : q = o
    · rw [if_pos e, if_pos ⟨e, hc⟩]
    · rw [if_neg e, if_neg (fun hh => e hh.1)]
  · rw [if_neg hc]
    simp only [touch_get]
    rw [if_neg (fun hh => hc hh.2)]

theorem decreaseStep_snd (A : BuchiAutomaton) (acc : RankFunc × IntSet) (o : Nat) :
    (decreaseStep A acc o).2
      = if RankFunc.get acc.1 o > 0 ∧ o ∉ A.finals then acc.2 else setInsert o acc.2 := by
  unfold decreaseStep
  simp only [touch_get]
  split <;> rfl

theorem decreaseFold_get_le (A : BuchiAutomaton) (O : IntSet) (acc : RankFunc × IntSet)
    (q : Nat) :
    RankFunc.get (O.foldl (decreaseStep A) acc).1 q ≤ RankFunc.get acc.1 q := by
  induction O generalizing acc with
  | nil => simp
  | cons o os ih =>
    simp only [List.foldl_cons]
    refine le_trans (ih _) ?_
    rw [decreaseStep_get]
    split
    · rename_i h; rw [h.1]; omega
    · exact le_refl _

theorem decreaseFold_get_final (A : BuchiAutomaton) (O : IntSet) (acc : RankFunc × IntSet)
    (q : Nat) (hq : q ∈ A.finals) :
    RankFunc.get (O.foldl (decreaseStep A) acc).1 q = RankFunc.get acc.1 q := by
  induction O generalizing acc with
  | nil => simp
  | cons o os ih =>
    simp only [List.foldl_cons]
    rw [ih, decreaseStep_get]
    rw [if_neg]
    rintro ⟨e, _, hn⟩
    subst e
    exact hn hq

theorem decreaseO_get_le (A : BuchiAutomaton) (f : RankFunc) (O : IntSet) (q : Nat) :
    RankFunc.get (decreaseO A f O).1 q ≤ RankFunc.get f q := by
  rw [decreaseO_eq]
  exact decreaseFold_get_le A O _ q

theorem decreaseO_get_final (A : BuchiAutomaton) (f : RankFunc) (O : IntSet) (q : Nat)
    (hq : q ∈ A.finals) :
    RankFunc.get (decreaseO A f O).1 q = RankFunc.get f q := by
  rw [decreaseO_eq]
  exact decreaseFold_get_final A O _ q hq

theorem mem_retAllStep (A : BuchiAutomaton) (opt : ComplOptions) (state : StateSch)
    (eta4 : Bool) (retAll : List StateSch) (st x : StateSch)
    (h : x ∈ retAllStep A opt state eta4 retAll st) :
    x ∈ retAll ∨ x = st ∨
      (state.O.length ≠ 0 ∧ (opt.cutPoint = true → st.i ≠ 0 ∨ st.O.length = 0) ∧
        x = decreased A st) := by
  unfold retAllStep at h
  simp only at h
  split at h
  · rw [mem_insertNew] at h; tauto
  · split at h
    · rw [mem_insertNew] at h; tauto
    · rename_i hO
      split at h
      · split at h
        · rename_i hc hi
          rw [mem_insertNew, mem_insertNew] at h
          rcases h with (h | h) | h
          · exact Or.inl h
          · exact Or.inr (Or.inl h)
          · exact Or.inr (Or.inr ⟨hO, fun _ => hi, h⟩)
        · rw [mem_insertNew] at h; tauto
      · rename_i hc
        rw [mem_insertNew, mem_insertNew] at h
        rcases h with (h | h) | h
        · exact Or.inl h
        · exact Or.inr (Or.inl h)
        · exact Or.inr (Or.inr ⟨hO, fun hh => absurd hh hc, h⟩)

theorem mem_retAll_foldl (A : BuchiAutomaton) (opt : ComplOptions) (state : StateSch)
    (eta4 : Bool) (ret : List StateSch) (retAll : List StateSch) (x : StateSch)
    (h : x ∈ ret.foldl (retAllStep A opt state eta4) retAll) :
    x ∈ retAll ∨ ∃ st ∈ ret, x = st ∨
      (state.O.length ≠ 0 ∧ (opt.cutPoint = true → st.i ≠ 0 ∨ st.O.length = 0) ∧
        x = decreased A st) := by
  induction ret generalizing retAll with
  | nil => exact Or.inl (by simpa using h)
  | cons r rs ih =>
    simp only [List.foldl_cons] at h
    rcases ih _ h with h1 | ⟨st, hst, h2⟩
    · rcases mem_retAllStep A opt state eta4 retAll r x h1 with h3 | h3
      · exact Or.inl h3
      · exact Or.inr ⟨r, List.mem_cons_self _ _, h3⟩
    · exact Or.inr ⟨st, List.mem_cons_of_mem _ hst, h2⟩

theorem getSchRanksTightReduced_out (A : BuchiAutomaton) (opt : ComplOptions)
    (tightSucc : TightEnum) (cache : RankCache) (max : Nat → Int) (states : IntSet)
    (symbol : Nat) (macrostate : StateSch) (reachCons : Nat → Int) (reachMax : Int)
    (dirRel oddRel : BackRel) (r : RankFunc)
    (h : r ∈ (getSchRanksTightReduced A opt tightSucc cache max states symbol macrostate
      reachCons reachMax dirRel oddRel).1) :
    r = sngMap max states ∧ r.isTightRank = true ∧
      r.getMaxRank = macrostate.f.getMaxRank := by
  unfold getSchRanksTightReduced at h
  simp only at h
  split at h
  · rename_i hc
    simp only [List.mem_singleton] at h
    subst h
    exact ⟨rfl, hc.1, hc.2.1⟩
  · simp at h

/-- Every returned successor is the main successor on the ceiling rank, or that
successor with the ranks of its O-states decremented. -/
theorem mem_succSetSchTightReduced (A : BuchiAutomaton) (opt : ComplOptions)
    (rankBound : IntSet → Int) (tightSucc : TightEnum) (cache : RankCache)
    (state : StateSch) (symbol : Nat) (reachCons : Nat → Int) (maxReach : IntSet → Int)
    (dirRel oddRel : BackRel) (eta4 : Bool) (x : StateSch)
    (h : x ∈ (succSetSchTightReduced A opt rankBound tightSucc cache state symbol reachCons
      maxReach dirRel oddRel eta4).1) :
    state.f.getMaxRank ≤ doubleBound (rankBound state.S) ∧
    state.f.getMaxRank ≤ doubleBound (rankBound (succSet A state.S symbol)) ∧
    (ceilRank A state symbol).isTightRank = true ∧
    (ceilRank A state symbol).getMaxRank = state.f.getMaxRank ∧
    (x = mainSucc A opt state symbol (succSet A state.S symbol) (ceilRank A state symbol) ∨
      (state.O.length ≠ 0 ∧
        (opt.cutPoint = true →
          (mainSucc A opt state symbol (succSet A state.S symbol) (ceilRank A state symbol)).i ≠ 0 ∨
          (mainSucc A opt state symbol (succSet A state.S symbol)
            (ceilRank A state symbol)).O.length = 0) ∧
        x = decreased A
          (mainSucc A opt state symbol (succSet A state.S symbol) (ceilRank A state symbol)))) := by
  unfold succSetSchTightReduced at h
  simp only at h
  split at h
  · simp at h
  · rename_i hb
    rw [not_or, not_lt, not_lt] at hb
    rcases mem_retAll_foldl A opt state eta4 _ _ x h with h1 | ⟨st, hst, h2⟩
    · simp at h1
    · rw [List.mem_map] at hst
      obtain ⟨r1, hr1, hst⟩ := hst
      obtain ⟨e, ht, hm⟩ := getSchRanksTightReduced_out _ _ _ _ _ _ _ _ _ _ _ _ r1 hr1
      have e1 : r1 = ceilRank A state symbol := e
      subst hst
      rw [e1] at ht hm h2
      rw [succLoop_sprime] at hb h2
      exact ⟨hb.1, hb.2, ht, hm, h2⟩

/-! ## C1: monotonicity of the reduced tight successor -/

theorem get_ceilRank (A : BuchiAutomaton) (state : StateSch) (symbol : Nat) (q : Nat)
    (hq : q ∈ succSet A state.S symbol) :
    RankFunc.get (ceilRank A state symbol) q
      = evenCeilings A (succLoop A state symbol).maxRank (succSet A state.S symbol) q := by
  unfold ceilRank
  rw [get_sngMap, succLoop_sprime, if_pos hq]

theorem mainSucc_S (A : BuchiAutomaton) (opt : ComplOptions) (state : StateSch) (symbol : Nat)
    (sprime : IntSet) (r : RankFunc) : (mainSucc A opt state symbol sprime r).S = sprime := by
  unfold mainSucc
  simp only
  split <;> rfl

theorem mainSucc_f (A : BuchiAutomaton) (opt : ComplOptions) (state : StateSch) (symbol : Nat)
    (sprime : IntSet) (r : RankFunc) : (mainSucc A opt state symbol sprime r).f = r := by
  unfold mainSucc
  simp only
  split <;> rfl

theorem mainSucc_tight (A : BuchiAutomaton) (opt : ComplOptions) (state : StateSch)
    (symbol : Nat) (sprime : IntSet) (r : RankFunc) :
    (mainSucc A opt state symbol sprime r).tight = true := by
  unfold mainSucc
  simp only
  split <;> rfl

theorem ceilRank_le_parent (A : BuchiAutomaton) (state : StateSch) (symbol : Nat)
    (q p : Nat) (hq : q ∈ succSet A state.S symbol) (hp : p ∈ state.S)
    (hqp : q ∈ A.trans p symbol) :
    RankFunc.get (ceilRank A state symbol) q ≤ state.f.get p := by
  rw [get_ceilRank A state symbol q hq]
  refine le_trans (evenCeilings_le _ _ _ _) ?_
  unfold succLoop
  exact succStep_foldl_maxRank_le_of_mem A state.f symbol state.S _ p q hp hqp

theorem ceilRank_even (A : BuchiAutomaton) (state : StateSch) (symbol : Nat)
    (q : Nat) (hq : q ∈ succSet A state.S symbol) (hf : q ∈ A.finals) :
    RankFunc.get (ceilRank A state symbol) q % 2 = 0 := by
  rw [get_ceilRank A state symbol q hq]
  exact evenCeilings_even A _ _ q hq hf

/-- C1. Every successor of a macrostate returned by `succSetSchTightReduced`,
the one with decremented O-ranks included, is tight, carries on each
`q' ∈ S'` a rank not above the rank of any predecessor `p ∈ S` with
`q' ∈ δ(p, a)`, and ranks every accepting `q' ∈ S'` evenly. No assumption on
the source macrostate is needed: a rank read at an absent key is `0`, in the
source as in the embedding. -/
theorem reduced_step_monotone (A : BuchiAutomaton) (opt : ComplOptions)
    (rankBound : IntSet → Int) (tightSucc : TightEnum) (cache : RankCache)
    (state : StateSch) (symbol : Nat) (reachCons : Nat → Int) (maxReach : IntSet → Int)
    (dirRel oddRel : BackRel) (eta4 : Bool)
    (x : StateSch)
    (hx : x ∈ (succSetSchTightReduced A opt rankBound tightSucc cache state symbol reachCons
      maxReach dirRel oddRel eta4).1) :
    x.tight = true ∧
    (∀ q' ∈ x.S, ∀ p ∈ state.S, q' ∈ A.trans p symbol → x.f.get q' ≤ state.f.get p) ∧
    (∀ q' ∈ x.S, q' ∈ A.finals → x.f.get q' % 2 = 0) := by
  obtain ⟨_, _, _, _, hcase⟩ := mem_succSetSchTightReduced A opt rankBound tightSucc cache
    state symbol reachCons maxReach dirRel oddRel eta4 x hx
  rcases hcase with h | ⟨_, _, h⟩
  · subst h
    rw [mainSucc_S, mainSucc_f, mainSucc_tight]
    refine ⟨rfl, ?_, ?_⟩
    · intro q hq p hp hqp
      exact ceilRank_le_parent A state symbol q p hq hp hqp
    · intro q hq hf
      exact ceilRank_even A state symbol q hq hf
  · subst h
    unfold decreased
    simp only [mainSucc_S, mainSucc_f]
    refine ⟨trivial, ?_, ?_⟩
    · intro q hq p hp hqp
      exact le_trans (decreaseO_get_le A _ _ q) (ceilRank_le_parent A state symbol q p hq hp hqp)
    · intro q hq hf
      rw [decreaseO_get_final A _ _ q hf]
      exact ceilRank_even A state symbol q hq hf

theorem reduced_step_monotone_witness :
    loopSuccLow ∈ (succSetSchTightReduced loopAut plainOpt (fun _ => 2) noRanks [] loopState 0
      (fun _ => 0) (fun _ => 4) [] [] false).1 ∧
    loopSuccLow.tight = true ∧
    (∀ q' ∈ loopSuccLow.S, ∀ p ∈ loopState.S, q' ∈ loopAut.trans p 0 →
      loopSuccLow.f.get q' ≤ loopState.f.get p) ∧
    (∀ q' ∈ loopSuccLow.S, q' ∈ loopAut.finals → loopSuccLow.f.get q' % 2 = 0) :=
  ⟨by decide,
    reduced_step_monotone loopAut plainOpt (fun _ => 2) noRanks [] loopState 0
      (fun _ => 0) (fun _ => 4) [] [] false loopSuccLow (by decide)⟩

/-! ## Sorted containers -/

theorem setInsert_lower (x b : Nat) (s : IntSet) (hb : b < x) (hs : ∀ y ∈ s, b < y) :
    ∀ y ∈ setInsert x s, b < y := by
  intro y hy
  rw [mem_setInsert] at hy
  rcases hy with h | h
  · subst h; exact hb
  · exact hs y h

theorem setInsert_WF (x : Nat) (s : IntSet) (h : IntSet.WF s) : IntSet.WF (setInsert x s) := by
  unfold IntSet.WF at *
  induction s with
  | nil => simp [setInsert]
  | cons y ys ih =>
    unfold setInsert
    rw [List.pairwise_cons] at h
    split
    · rename_i hlt
      rw [List.pairwise_cons, List.pairwise_cons]
      refine ⟨?_, h.1, h.2⟩
      intro z hz
      rcases List.mem_cons.mp hz with e | hz
      · subst e; exact hlt
      · exact lt_trans hlt (h.1 z hz)
    · split
      · rw [List.pairwise_cons]; exact h
      · rename_i h1 h2
        rw [List.pairwise_cons]
        refine ⟨?_, ih h.2⟩
        apply setInsert_lower x y ys _ h.1
        omega

theorem setInsertAll_WF (dst s : IntSet) (h : IntSet.WF s) : IntSet.WF (setInsertAll dst s) := by
  unfold setInsertAll
  induction dst generalizing s with
  | nil => simpa using h
  | cons d ds ih =>
    simp only [List.foldl_cons]
    exact ih _ (setInsert_WF d s h)

theorem succSet_WF_aux (A : BuchiAutomaton) (states : IntSet) (symbol : Nat) (s : IntSet)
    (h : IntSet.WF s) :
    IntSet.WF (states.foldl (fun ret st => setInsertAll (A.trans st symbol) ret) s) := by
  induction states generalizing s with
  | nil => simpa using h
  | cons q qs ih =>
    simp only [List.foldl_cons]
    exact ih _ (setInsertAll_WF _ s h)

theorem succSet_WF (A : BuchiAutomaton) (states : IntSet) (symbol : Nat) :
    IntSet.WF (succSet A states symbol) := by
  unfold succSet
  exact succSet_WF_aux A states symbol [] List.Pairwise.nil

theorem IntSet.WF.nodup {s : IntSet} (h : IntSet.WF s) : s.Nodup := by
  unfold IntSet.WF at h
  exact h.imp (fun hlt => Nat.ne_of_lt hlt)

theorem mapAssign_WF (m : RankFunc) (k : Nat) (v : Int) (h : RankFunc.WF m) :
    RankFunc.WF (mapAssign m k v) := by
  unfold RankFunc.WF at *
  induction m with
  | nil => simp [mapAssign]
  | cons kv rest ih =>
    obtain ⟨k', v'⟩ := kv
    unfold mapAssign
    simp only [List.map_cons, List.pairwise_cons] at h
    by_cases h1 : k < k'
    · simp only [h1, if_true, List.map_cons, List.pairwise_cons]
      refine ⟨?_, h.1, h.2⟩
      intro z hz
      rcases List.mem_cons.mp hz with e | hz
      · rw [e]; exact h1
      · exact lt_trans h1 (h.1 z hz)
    · by_cases h2 : k = k'
      · subst h2
        simp only [lt_irrefl, if_false, if_true, List.map_cons, List.pairwise_cons]
        exact h
      · simp only [h1, h2, if_false, List.map_cons, List.pairwise_cons]
        refine ⟨?_, ih h.2⟩
        intro z hz
        have hz' : z ∈ RankFunc.keys (mapAssign rest k v) := hz
        rw [keys_mapAssign] at hz'
        rcases hz' with e | hz'
        · subst e; omega
        · exact h.1 z hz'

theorem sngMap_WF (max : Nat → Int) (states : IntSet) : RankFunc.WF (sngMap max states) := by
  unfold sngMap
  have aux : ∀ (l : IntSet) (m : RankFunc), RankFunc.WF m →
      RankFunc.WF (l.foldl (fun m st => mapAssign m st (max st)) m) := by
    intro l
    induction l with
    | nil => intro m hm; simpa using hm
    | cons s ss ih => intro m hm; simp only [List.foldl_cons]; exact ih _ (mapAssign_WF m s _ hm)
  exact aux states [] List.Pairwise.nil

theorem mem_iff_get (f : RankFunc) (h : RankFunc.WF f) (k : Nat) (v : Int) :
    (k, v) ∈ f ↔ k ∈ RankFunc.keys f ∧ RankFunc.get f k = v := by
  unfold RankFunc.WF at h
  induction f with
  | nil => simp [RankFunc.keys]
  | cons kv rest ih =>
    obtain ⟨k', v'⟩ := kv
    simp only [List.map_cons, List.pairwise_cons] at h
    simp only [List.mem_cons, Prod.mk.injEq, RankFunc.keys, List.map_cons, RankFunc.get]
    by_cases e : k' = k
    · subst e
      simp only [if_true, true_or, true_and, true_and]
      constructor
      · rintro (h1 | h1)
        · exact h1.symm
        · have := (ih h.2).mp h1
          have := h.1 k' this.1
          omega
      · intro h1; exact Or.inl h1.symm
    · have e' : ¬ k = k' := fun x => e x.symm
      simp only [e, e', if_false, false_and, false_or]
      exact ih h.2

theorem mem_inverseRank (f : RankFunc) (h : RankFunc.WF f) (i : Int) (q : Nat) :
    q ∈ RankFunc.inverseRank f i ↔ q ∈ RankFunc.keys f ∧ RankFunc.get f q = i := by
  unfold RankFunc.inverseRank
  simp only [List.mem_map, List.mem_filter, decide_eq_true_eq, Prod.exists]
  constructor
  · rintro ⟨a, b, ⟨hm, hb⟩, rfl⟩
    have := (mem_iff_get f h a b).mp hm
    exact ⟨this.1, this.2.trans hb⟩
  · rintro ⟨hk, hg⟩
    exact ⟨q, i, ⟨(mem_iff_get f h q i).mpr ⟨hk, hg⟩, rfl⟩, rfl⟩

theorem inverseRank_subset_keys (f : RankFunc) (i : Int) (q : Nat)
    (h : q ∈ RankFunc.inverseRank f i) : q ∈ RankFunc.keys f := by
  unfold RankFunc.inverseRank at h
  unfold RankFunc.keys
  simp only [List.mem_map, List.mem_filter] at h ⊢
  obtain ⟨a, ⟨hm, _⟩, e⟩ := h
  exact ⟨a, hm, e⟩

/-! ## Maximal rank and tightness -/

theorem foldl_max_ge_init (f : RankFunc) (init : Int) :
    init ≤ f.foldl (fun m kv => max m kv.2) init := by
  induction f generalizing init with
  | nil => simp
  | cons kv rest ih =>
    simp only [List.foldl_cons]
    exact le_trans (le_max_left _ _) (ih _)

theorem foldl_max_ge_mem (f : RankFunc) (init : Int) (kv : Nat × Int) (h : kv ∈ f) :
    kv.2 ≤ f.foldl (fun m kv => max m kv.2) init := by
  induction f generalizing init with
  | nil => simp at h
  | cons kv' rest ih =>
    simp only [List.foldl_cons]
    rcases List.mem_cons.mp h with e | h
    · subst e
      exact le_trans (le_max_right _ _) (foldl_max_ge_init rest _)
    · exact ih _ h

theorem foldl_max_attained (f : RankFunc) (init : Int) :
    f.foldl (fun m kv => max m kv.2) init = init ∨
      ∃ kv ∈ f, kv.2 = f.foldl (fun m kv => max m kv.2) init := by
  induction f generalizing init with
  | nil => simp
  | cons kv' rest ih =>
    simp only [List.foldl_cons]
    rcases ih (max init kv'.2) with h | ⟨kv, hkv, h⟩
    · rw [h]
      rcases max_choice init kv'.2 with e | e
      · exact Or.inl e
      · exact Or.inr ⟨kv', List.mem_cons_self _ _, e.symm⟩
    · exact Or.inr ⟨kv, List.mem_cons_of_mem _ hkv, h⟩

theorem getMaxRank_nonneg (f : RankFunc) : 0 ≤ f.getMaxRank :=
  foldl_max_ge_init f 0

theorem le_getMaxRank (f : RankFunc) (kv : Nat × Int) (h : kv ∈ f) : kv.2 ≤ f.getMaxRank :=
  foldl_max_ge_mem f 0 kv h

theorem getMaxRank_attained (f : RankFunc) :
    f.getMaxRank = 0 ∨ ∃ kv ∈ f, kv.2 = f.getMaxRank :=
  foldl_max_attained f 0

theorem isTightRank_iff (f : RankFunc) :
    f.isTightRank = true ↔
      f.getMaxRank % 2 = 1 ∧
        ∀ v : Nat, (v : Int) ≤ f.getMaxRank → v % 2 = 1 → ∃ kv ∈ f, kv.2 = (v : Int) := by
  unfold RankFunc.isTightRank
  simp only [Bool.and_eq_true, decide_eq_true_eq, List.all_eq_true, List.mem_range,
    Bool.or_eq_true, List.any_eq_true]
  have hn := getMaxRank_nonneg f
  constructor
  · rintro ⟨h1, h2⟩
    refine ⟨h1, ?_⟩
    intro v hv hodd
    rcases h2 v (by omega) with h | h
    · omega
    · exact h
  · rintro ⟨h1, h2⟩
    refine ⟨h1, ?_⟩
    intro v hv
    by_cases hodd : v % 2 = 0
    · exact Or.inl hodd
    · exact Or.inr (h2 v (by omega) (by omega))

/-- Lowering only even ranks keeps an odd maximal rank. -/
theorem getMaxRank_eq_of_lowered (f g : RankFunc)
    (hdom : ∀ kv ∈ g, ∃ kv' ∈ f, kv.2 ≤ kv'.2)
    (hodd : ∀ kv ∈ f, kv.2 % 2 = 1 → ∃ kv' ∈ g, kv'.2 = kv.2)
    (hmax : f.getMaxRank % 2 = 1) : g.getMaxRank = f.getMaxRank := by
  apply le_antisymm
  · rcases getMaxRank_attained g with h | ⟨kv, hkv, h⟩
    · rw [h]; exact getMaxRank_nonneg f
    · obtain ⟨kv', hkv', hle⟩ := hdom kv hkv
      rw [← h]
      exact le_trans hle (le_getMaxRank f kv' hkv')
  · rcases getMaxRank_attained f with h | ⟨kv, hkv, h⟩
    · omega
    · obtain ⟨kv', hkv', e⟩ := hodd kv hkv (by rw [h]; exact hmax)
      rw [← h, ← e]
      exact le_getMaxRank g kv' hkv'

theorem isTightRank_of_lowered (f g : RankFunc)
    (hdom : ∀ kv ∈ g, ∃ kv' ∈ f, kv.2 ≤ kv'.2)
    (hodd : ∀ kv ∈ f, kv.2 % 2 = 1 → ∃ kv' ∈ g, kv'.2 = kv.2)
    (ht : f.isTightRank = true) : g.isTightRank = true := by
  rw [isTightRank_iff] at ht ⊢
  have e := getMaxRank_eq_of_lowered f g hdom hodd ht.1
  rw [e]
  refine ⟨ht.1, ?_⟩
  intro v hv hvo
  obtain ⟨kv, hkv, hk⟩ := ht.2 v hv hvo
  obtain ⟨kv', hkv', e'⟩ := hodd kv hkv (by rw [hk]; omega)
  exact ⟨kv', hkv', e'.trans hk⟩

/-! ## The decrement loop on a duplicate-free O-set -/

theorem decreaseStep_keys (A : BuchiAutomaton) (acc : RankFunc × IntSet) (o q : Nat) :
    q ∈ RankFunc.keys (decreaseStep A acc o).1 ↔ q = o ∨ q ∈ RankFunc.keys acc.1 := by
  unfold decreaseStep
  simp only
  by_cases hk : o ∈ RankFunc.keys acc.1
  · simp only [hk, if_true]
    split
    · rw [keys_mapAssign]
    · constructor
      · intro h; exact Or.inr h
      · rintro (h | h)
        · subst h; exact hk
        · exact h
  · simp only [hk, if_false]
    split
    · rw [keys_mapAssign, keys_mapAssign]; tauto
    · rw [keys_mapAssign]

theorem decreaseStep_WF (A : BuchiAutomaton) (acc : RankFunc × IntSet) (o : Nat)
    (h : RankFunc.WF acc.1) : RankFunc.WF (decreaseStep A acc o).1 := by
  have h1 : RankFunc.WF (if o ∈ RankFunc.keys acc.1 then acc.1 else mapAssign acc.1 o 0) := by
    split
    · exact h
    · exact mapAssign_WF _ _ _ h
  unfold decreaseStep
  simp only
  by_cases hc : RankFunc.get (if o ∈ RankFunc.keys acc.1 then acc.1 else mapAssign acc.1 o 0) o > 0
      ∧ o ∉ A.finals
  · rw [if_pos hc]
    exact mapAssign_WF _ _ _ h1
  · rw [if_neg hc]
    exact h1

theorem decreaseFold_WF (A : BuchiAutomaton) (O : IntSet) (acc : RankFunc × IntSet)
    (h : RankFunc.WF acc.1) : RankFunc.WF (O.foldl (decreaseStep A) acc).1 := by
  induction O generalizing acc with
  | nil => simpa using h
  | cons o os ih =>
    simp only [List.foldl_cons]
    exact ih _ (decreaseStep_WF A acc o h)

theorem decreaseFold_keys (A : BuchiAutomaton) (O : IntSet) (acc : RankFunc × IntSet)
    (q : Nat) :
    q ∈ RankFunc.keys (O.foldl (decreaseStep A) acc).1 ↔ q ∈ O ∨ q ∈ RankFunc.keys acc.1 := by
  induction O generalizing acc with
  | nil => simp
  | cons o os ih =>
    simp only [List.foldl_cons, ih, decreaseStep_keys, List.mem_cons]
    tauto

theorem decreaseFold_get (A : BuchiAutomaton) (O : IntSet) (acc : RankFunc × IntSet)
    (hO : O.Nodup) (q : Nat) :
    RankFunc.get (O.foldl (decreaseStep A) acc).1 q
      = if q ∈ O ∧ RankFunc.get acc.1 q > 0 ∧ q ∉ A.finals then RankFunc.get acc.1 q - 1
        else RankFunc.get acc.1 q := by
  induction O generalizing acc with
  | nil => simp
  | cons o os ih =>
    rw [List.nodup_cons] at hO
    simp only [List.foldl_cons]
    rw [ih _ hO.2, decreaseStep_get]
    by_cases e : q = o
    · subst e
      have hq : ¬ (q ∈ os ∧ (if q = q ∧ RankFunc.get acc.1 q > 0 ∧ q ∉ A.finals
          then RankFunc.get acc.1 q - 1 else RankFunc.get acc.1 q) > 0 ∧ q ∉ A.finals) :=
        fun hh => hO.1 hh.1
      rw [if_neg hq]
      by_cases hc : RankFunc.get acc.1 q > 0 ∧ q ∉ A.finals
      · rw [if_pos ⟨rfl, hc⟩, if_pos ⟨List.mem_cons_self _ _, hc⟩]
      · rw [if_neg (fun hh => hc hh.2), if_neg (fun hh => hc hh.2)]
    · have h1 : ¬ (q = o ∧ RankFunc.get acc.1 o > 0 ∧ o ∉ A.finals) := fun hh => e hh.1
      rw [if_neg h1]
      by_cases hc : q ∈ os ∧ RankFunc.get acc.1 q > 0 ∧ q ∉ A.finals
      · rw [if_pos hc, if_pos ⟨List.mem_cons_of_mem _ hc.1, hc.2⟩]
      · rw [if_neg hc, if_neg]
        rintro ⟨hm, hr⟩
        rcases List.mem_cons.mp hm with hm | hm
        · exact e hm
        · exact hc ⟨hm, hr⟩

theorem decreaseFold_snd (A : BuchiAutomaton) (O : IntSet) (acc : RankFunc × IntSet)
    (hO : O.Nodup) (q : Nat) :
    q ∈ (O.foldl (decreaseStep A) acc).2 ↔
      q ∈ acc.2 ∨ (q ∈ O ∧ ¬ (RankFunc.get acc.1 q > 0 ∧ q ∉ A.finals)) := by
  induction O generalizing acc with
  | nil => simp
  | cons o os ih =>
    rw [List.nodup_cons] at hO
    simp only [List.foldl_cons]
    rw [ih _ hO.2, decreaseStep_snd]
    have hget : ∀ x, x ∈ os → RankFunc.get (decreaseStep A acc o).1 x = RankFunc.get acc.1 x := by
      intro x hx
      rw [decreaseStep_get, if_neg]
      rintro ⟨e, _⟩
      subst e
      exact hO.1 hx
    constructor
    · rintro (h | ⟨hm, hc⟩)
      · split at h
        · exact Or.inl h
        · rename_i hcond
          rw [mem_setInsert] at h
          rcases h with e | h
          · subst e
            exact Or.inr ⟨List.mem_cons_self _ _, hcond⟩
          · exact Or.inl h
      · rw [hget q hm] at hc
        exact Or.inr ⟨List.mem_cons_of_mem _ hm, hc⟩
    · rintro (h | ⟨hm, hc⟩)
      · left
        split
        · exact h
        · rw [mem_setInsert]; exact Or.inr h
      · rcases List.mem_cons.mp hm with e | hm
        · subst e
          left
          rw [if_neg hc, mem_setInsert]
          exact Or.inl rfl
        · right
          rw [hget q hm]
          exact ⟨hm, hc⟩

/-! ## C2: the rank invariants along the reduced tight step -/

theorem nextIndex_range (state : StateSch) (hodd : state.f.getMaxRank % 2 = 1)
    (hi : state.i % 2 = 0 ∧ 0 ≤ state.i ∧ state.i ≤ state.f.getMaxRank - 1) :
    nextIndex state % 2 = 0 ∧ 0 ≤ nextIndex state ∧
      nextIndex state ≤ state.f.getMaxRank - 1 := by
  unfold nextIndex
  split
  · have h0 : (0 : Int) ≤ state.i + 2 := by omega
    have h1 : (0 : Int) ≤ state.f.getMaxRank + 1 := by omega
    rw [Int.tmod_eq_emod h0 h1]
    by_cases e : state.i + 2 = state.f.getMaxRank + 1
    · rw [e, Int.emod_self]
      omega
    · have hlt : state.i + 2 < state.f.getMaxRank + 1 := by omega
      rw [Int.emod_eq_of_lt h0 hlt]
      omega
  · exact hi

theorem mainSucc_inv (A : BuchiAutomaton) (opt : ComplOptions) (state : StateSch)
    (symbol : Nat) (hcut : opt.cutPoint = true) (hinv : RankInv A state)
    (ht : (ceilRank A state symbol).isTightRank = true)
    (hm : (ceilRank A state symbol).getMaxRank = state.f.getMaxRank) :
    RankInv A (mainSucc A opt state symbol (succSet A state.S symbol)
      (ceilRank A state symbol)) := by
  obtain ⟨_, _, hodd, hi, _, _⟩ := hinv
  have hr := nextIndex_range state hodd hi
  unfold mainSucc
  simp only [hcut, if_true]
  refine ⟨rfl, ht, ?_, ?_, ?_, ?_⟩
  · show (ceilRank A state symbol).getMaxRank % 2 = 1
    rw [hm]; exact hodd
  · show nextIndex state % 2 = 0 ∧ 0 ≤ nextIndex state ∧
      nextIndex state ≤ (ceilRank A state symbol).getMaxRank - 1
    rw [hm]; exact hr
  · intro o ho
    simp only at ho
    split at ho
    · exact ho
    · exact ((mem_setIntersection _ _ o).mp ho).2
  · intro q hq hf
    exact ceilRank_even A state symbol q hq hf

theorem decreased_inv (A : BuchiAutomaton) (m : StateSch) (hinv : RankInv A m)
    (hwf : RankFunc.WF m.f) (hO : m.O.Nodup) :
    RankInv A (decreased A m) ∧ (decreased A m).f.getMaxRank = m.f.getMaxRank := by
  obtain ⟨_, htight, hodd, hi, hsub, hfin⟩ := hinv
  have hkeyget : ∀ o ∈ m.O, o ∈ RankFunc.keys m.f ∧ RankFunc.get m.f o = m.i :=
    fun o ho => (mem_inverseRank m.f hwf m.i o).mp (hsub o ho)
  have hgwf : RankFunc.WF (decreaseO A m.f m.O).1 := decreaseFold_WF A m.O _ hwf
  have hgkeys : ∀ q, q ∈ RankFunc.keys (decreaseO A m.f m.O).1 ↔ q ∈ RankFunc.keys m.f := by
    intro q
    rw [decreaseO_eq, decreaseFold_keys]
    constructor
    · rintro (h | h)
      · exact (hkeyget q h).1
      · exact h
    · intro h; exact Or.inr h
  have hgget : ∀ q, RankFunc.get (decreaseO A m.f m.O).1 q
      = if q ∈ m.O ∧ RankFunc.get m.f q > 0 ∧ q ∉ A.finals then RankFunc.get m.f q - 1
        else RankFunc.get m.f q := by
    intro q
    rw [decreaseO_eq, decreaseFold_get A m.O _ hO q]
  have hdom : ∀ kv ∈ (decreaseO A m.f m.O).1, ∃ kv' ∈ m.f, kv.2 ≤ kv'.2 := by
    rintro ⟨k, v⟩ hkv
    have h1 := (mem_iff_get _ hgwf k v).mp hkv
    refine ⟨(k, RankFunc.get m.f k), (mem_iff_get _ hwf k _).mpr ⟨(hgkeys k).mp h1.1, rfl⟩, ?_⟩
    show v ≤ RankFunc.get m.f k
    rw [← h1.2]
    exact decreaseO_get_le A m.f m.O k
  have hoddmem : ∀ kv ∈ m.f, kv.2 % 2 = 1 → ∃ kv' ∈ (decreaseO A m.f m.O).1, kv'.2 = kv.2 := by
    rintro ⟨k, v⟩ hkv hv
    have h1 := (mem_iff_get _ hwf k v).mp hkv
    refine ⟨(k, v), (mem_iff_get _ hgwf k v).mpr ⟨(hgkeys k).mpr h1.1, ?_⟩, rfl⟩
    rw [hgget k, if_neg, h1.2]
    rintro ⟨hk, _⟩
    have := (hkeyget k hk).2
    rw [h1.2] at this
    have hv' : v % 2 = 1 := hv
    omega
  have hmaxeq := getMaxRank_eq_of_lowered m.f _ hdom hoddmem hodd
  refine ⟨⟨rfl, isTightRank_of_lowered m.f _ hdom hoddmem htight, ?_, ?_, ?_, ?_⟩, hmaxeq⟩
  · show (decreaseO A m.f m.O).1.getMaxRank % 2 = 1
    rw [hmaxeq]; exact hodd
  · show m.i % 2 = 0 ∧ 0 ≤ m.i ∧ m.i ≤ (decreaseO A m.f m.O).1.getMaxRank - 1
    rw [hmaxeq]; exact hi
  · intro o ho
    have ho' : o ∈ (decreaseO A m.f m.O).2 := ho
    rw [decreaseO_eq, decreaseFold_snd A m.O _ hO o] at ho'
    rcases ho' with h | ⟨hmem, hc⟩
    · simp at h
    · show o ∈ RankFunc.inverseRank (decreaseO A m.f m.O).1 m.i
      rw [mem_inverseRank _ hgwf]
      refine ⟨(hgkeys o).mpr (hkeyget o hmem).1, ?_⟩
      rw [hgget o, if_neg (fun hh => hc hh.2)]
      exact (hkeyget o hmem).2
  · intro q hq hf
    show RankFunc.get (decreaseO A m.f m.O).1 q % 2 = 0
    rw [decreaseO_get_final A m.f m.O q hf]
    exact hfin q hq hf

theorem ceilRank_WF (A : BuchiAutomaton) (state : StateSch) (symbol : Nat) :
    RankFunc.WF (ceilRank A state symbol) := sngMap_WF _ _

theorem inverseRank_nodup (f : RankFunc) (h : RankFunc.WF f) (i : Int) :
    (RankFunc.inverseRank f i).Nodup := by
  unfold RankFunc.inverseRank
  unfold RankFunc.WF at h
  have h1 : ((f.filter (fun kv => decide (kv.2 = i))).map Prod.fst).Pairwise (· < ·) :=
    (List.Pairwise.sublist ((List.filter_sublist f).map Prod.fst) h)
  exact h1.imp (fun hlt => Nat.ne_of_lt hlt)

theorem mainSucc_O_nodup (A : BuchiAutomaton) (opt : ComplOptions) (state : StateSch)
    (symbol : Nat) (hcut : opt.cutPoint = true) :
    (mainSucc A opt state symbol (succSet A state.S symbol) (ceilRank A state symbol)).O.Nodup := by
  unfold mainSucc
  simp only [hcut, if_true]
  split
  · exact inverseRank_nodup _ (ceilRank_WF A state symbol) _
  · unfold setIntersection
    exact (IntSet.WF.nodup (succSet_WF A state.O symbol)).filter _

/-- C2. With `cutPoint` enabled, if a tight macrostate satisfies the rank
invariants (r tight, max r odd, i even with 0 ≤ i ≤ max r − 1,
O ⊆ inverseRank(r, i), accepting states of S ranked evenly), then every
successor returned by `succSetSchTightReduced` satisfies them too and has the
same maximal rank. -/
theorem reduced_step_preserves_invariants (A : BuchiAutomaton) (opt : ComplOptions)
    (rankBound : IntSet → Int) (tightSucc : TightEnum) (cache : RankCache)
    (state : StateSch) (symbol : Nat) (reachCons : Nat → Int) (maxReach : IntSet → Int)
    (dirRel oddRel : BackRel) (eta4 : Bool)
    (hcut : opt.cutPoint = true) (hinv : RankInv A state) (x : StateSch)
    (hx : x ∈ (succSetSchTightReduced A opt rankBound tightSucc cache state symbol reachCons
      maxReach dirRel oddRel eta4).1) :
    RankInv A x ∧ x.f.getMaxRank = state.f.getMaxRank := by
  obtain ⟨_, _, ht, hm, hcase⟩ := mem_succSetSchTightReduced A opt rankBound tightSucc cache
    state symbol reachCons maxReach dirRel oddRel eta4 x hx
  have hmain := mainSucc_inv A opt state symbol hcut hinv ht hm
  rcases hcase with h | ⟨_, _, h⟩
  · subst h
    refine ⟨hmain, ?_⟩
    rw [mainSucc_f]; exact hm
  · subst h
    have hwf : RankFunc.WF (mainSucc A opt state symbol (succSet A state.S symbol)
        (ceilRank A state symbol)).f := by
      rw [mainSucc_f]; exact ceilRank_WF A state symbol
    have hd := decreased_inv A _ hmain hwf (mainSucc_O_nodup A opt state symbol hcut)
    refine ⟨hd.1, ?_⟩
    rw [hd.2, mainSucc_f]; exact hm

theorem reduced_step_preserves_invariants_witness :
    plainOpt.cutPoint = true ∧ RankInv loopAut loopState ∧
    loopSuccLow ∈ (succSetSchTightReduced loopAut plainOpt (fun _ => 2) noRanks [] loopState 0
      (fun _ => 0) (fun _ => 4) [] [] false).1 ∧
    RankInv loopAut loopSuccLow ∧ loopSuccLow.f.getMaxRank = loopState.f.getMaxRank :=
  ⟨rfl, by unfold RankInv; decide, by decide,
    reduced_step_preserves_invariants loopAut plainOpt (fun _ => 2) noRanks [] loopState 0
      (fun _ => 0) (fun _ => 4) [] [] false rfl (by unfold RankInv; decide) loopSuccLow
      (by decide)⟩

/-! ## The `int` expressions of the rank-bound guard -/

/-- An exact value inside the range of `int` is its own machine value. -/
theorem wrapInt_eq (x : Int) (h1 : -(2 ^ 31 : Int) ≤ x) (h2 : x < 2 ^ 31) : wrapInt x = x := by
  unfold wrapInt
  omega

/-- The machine value of `bound*2-1` is the exact value for the bounds from
−2^30 + 1 to 2^30. -/
theorem doubleBound_eq (b : Int) (h1 : -(2 ^ 30 : Int) < b) (h2 : b ≤ 2 ^ 30) :
    doubleBound b = b * 2 - 1 := by
  unfold doubleBound wrapInt
  omega

/-- Above −2^30 the machine value of `bound*2-1` never exceeds the exact
value. -/
theorem doubleBound_le (b : Int) (h1 : -(2 ^ 30 : Int) < b) : doubleBound b ≤ b * 2 - 1 := by
  unfold doubleBound wrapInt
  omega

/-- For the bounds from 2^30 + 1 to 2^31 − 1 the machine value of `bound*2-1`
is negative. -/
theorem doubleBound_neg (b : Int) (h1 : (2 ^ 30 : Int) < b) (h2 : b < 2 ^ 31) :
    doubleBound b < 0 := by
  unfold doubleBound wrapInt
  omega

/-! ## C3: the rank bound along the reduced tight step -/

theorem getMaxRank_le_of_forall (f : RankFunc) (b : Int) (hb : 0 ≤ b)
    (h : ∀ kv ∈ f, kv.2 ≤ b) : f.getMaxRank ≤ b := by
  rcases getMaxRank_attained f with e | ⟨kv, hkv, e⟩
  · rw [e]; exact hb
  · rw [← e]; exact h kv hkv

theorem mem_mapAssign (m : RankFunc) (k : Nat) (v : Int) (kv : Nat × Int)
    (h : kv ∈ mapAssign m k v) : kv = (k, v) ∨ kv ∈ m := by
  induction m with
  | nil => simpa [mapAssign] using h
  | cons e rest ih =>
    obtain ⟨k', v'⟩ := e
    unfold mapAssign at h
    split at h
    · rcases List.mem_cons.mp h with h | h
      · exact Or.inl h
      · exact Or.inr h
    · split at h
      · rcases List.mem_cons.mp h with h | h
        · exact Or.inl h
        · exact Or.inr (List.mem_cons_of_mem _ h)
      · rcases List.mem_cons.mp h with h | h
        · exact Or.inr (h ▸ List.mem_cons_self _ _)
        · rcases ih h with h | h
          · exact Or.inl h
          · exact Or.inr (List.mem_cons_of_mem _ h)

theorem get_le_getMaxRank (m : RankFunc) (q : Nat) : RankFunc.get m q ≤ m.getMaxRank := by
  have aux : ∀ (l : RankFunc), RankFunc.get l q = 0 ∨ (q, RankFunc.get l q) ∈ l := by
    intro l
    induction l with
    | nil => exact Or.inl rfl
    | cons e rest ih =>
      obtain ⟨k, v⟩ := e
      simp only [RankFunc.get]
      split
      · rename_i h; subst h; exact Or.inr (List.mem_cons_self _ _)
      · rcases ih with h | h
        · exact Or.inl h
        · exact Or.inr (List.mem_cons_of_mem _ h)
  rcases aux m with h | h
  · rw [h]; exact getMaxRank_nonneg m
  · exact le_getMaxRank m _ h

theorem getMaxRank_mapAssign_le (m : RankFunc) (k : Nat) (v : Int)
    (hv : v ≤ m.getMaxRank) : RankFunc.getMaxRank (mapAssign m k v) ≤ m.getMaxRank := by
  apply getMaxRank_le_of_forall _ _ (getMaxRank_nonneg m)
  intro kv hkv
  rcases mem_mapAssign m k v kv hkv with h | h
  · rw [h]; exact hv
  · exact le_getMaxRank m kv h

theorem decreaseStep_getMaxRank_le (A : BuchiAutomaton) (acc : RankFunc × IntSet) (o : Nat) :
    (decreaseStep A acc o).1.getMaxRank ≤ acc.1.getMaxRank := by
  have h1 : (if o ∈ RankFunc.keys acc.1 then acc.1 else mapAssign acc.1 o 0).getMaxRank
      ≤ acc.1.getMaxRank := by
    split
    · exact le_refl _
    · exact getMaxRank_mapAssign_le _ _ _ (getMaxRank_nonneg _)
  unfold decreaseStep
  simp only
  by_cases hc : RankFunc.get (if o ∈ RankFunc.keys acc.1 then acc.1 else mapAssign acc.1 o 0) o > 0
      ∧ o ∉ A.finals
  · rw [if_pos hc]
    refine le_trans (getMaxRank_mapAssign_le _ _ _ ?_) h1
    have := get_le_getMaxRank
      (if o ∈ RankFunc.keys acc.1 then acc.1 else mapAssign acc.1 o 0) o
    omega
  · rw [if_neg hc]
    exact h1

theorem decreaseO_getMaxRank_le (A : BuchiAutomaton) (f : RankFunc) (O : IntSet) :
    (decreaseO A f O).1.getMaxRank ≤ f.getMaxRank := by
  rw [decreaseO_eq]
  have aux : ∀ (l : IntSet) (acc : RankFunc × IntSet),
      (l.foldl (decreaseStep A) acc).1.getMaxRank ≤ acc.1.getMaxRank := by
    intro l
    induction l with
    | nil => intro acc; simp
    | cons o os ih =>
      intro acc
      simp only [List.foldl_cons]
      exact le_trans (ih _) (decreaseStep_getMaxRank_le A acc o)
  exact aux O _

/-- C3. For every rank-bound table whose entries for S and S' = δ(S, a) lie
above −2^30 (from −2^30 downwards the `int` expression `bound*2-1` of the guard
overflows), every successor ⟨S', O', r', i', true⟩ returned by
`succSetSchTightReduced` has max r' ≤ 2·rankBound(S') − 1; and a successor is
returned only if the source macrostate has max r ≤ 2·rankBound(S) − 1. -/
theorem reduced_step_rank_bound (A : BuchiAutomaton) (opt : ComplOptions)
    (rankBound : IntSet → Int) (tightSucc : TightEnum) (cache : RankCache)
    (state : StateSch) (symbol : Nat) (reachCons : Nat → Int) (maxReach : IntSet → Int)
    (dirRel oddRel : BackRel) (eta4 : Bool) (x : StateSch)
    (hS : -(2 ^ 30 : Int) < rankBound state.S)
    (hS' : -(2 ^ 30 : Int) < rankBound (succSet A state.S symbol))
    (hx : x ∈ (succSetSchTightReduced A opt rankBound tightSucc cache state symbol reachCons
      maxReach dirRel oddRel eta4).1) :
    x.tight = true ∧ x.f.getMaxRank ≤ 2 * rankBound x.S - 1 ∧
      state.f.getMaxRank ≤ 2 * rankBound state.S - 1 := by
  obtain ⟨hb1, hb2, _, hm, hcase⟩ := mem_succSetSchTightReduced A opt rankBound tightSucc cache
    state symbol reachCons maxReach dirRel oddRel eta4 x hx
  have hd1 := doubleBound_le (rankBound state.S) hS
  have hd2 := doubleBound_le (rankBound (succSet A state.S symbol)) hS'
  rcases hcase with h | ⟨_, _, h⟩
  · subst h
    rw [mainSucc_S, mainSucc_f, mainSucc_tight, hm]
    exact ⟨rfl, by omega, by omega⟩
  · subst h
    have hle := decreaseO_getMaxRank_le A
      (mainSucc A opt state symbol (succSet A state.S symbol) (ceilRank A state symbol)).f
      (mainSucc A opt state symbol (succSet A state.S symbol) (ceilRank A state symbol)).O
    refine ⟨rfl, ?_, by omega⟩
    show (decreaseO A _ _).1.getMaxRank ≤ 2 * rankBound (mainSucc A opt state symbol
      (succSet A state.S symbol) (ceilRank A state symbol)).S - 1
    rw [mainSucc_S]
    refine le_trans hle ?_
    rw [mainSucc_f, hm]
    omega

theorem reduced_step_rank_bound_witness :
    -(2 ^ 30 : Int) < (fun _ => (2 : Int)) loopState.S ∧
    -(2 ^ 30 : Int) < (fun _ => (2 : Int)) (succSet loopAut loopState.S 0) ∧
    loopSuccLow ∈ (succSetSchTightReduced loopAut plainOpt (fun _ => 2) noRanks [] loopState 0
      (fun _ => 0) (fun _ => 4) [] [] false).1 ∧
    loopSuccLow.tight = true ∧
    loopSuccLow.f.getMaxRank ≤ 2 * (fun _ => (2 : Int)) loopSuccLow.S - 1 ∧
    loopState.f.getMaxRank ≤ 2 * (fun _ => (2 : Int)) loopState.S - 1 :=
  ⟨by decide, by decide, by decide,
    reduced_step_rank_bound loopAut plainOpt (fun _ => 2) noRanks [] loopState 0
      (fun _ => 0) (fun _ => 4) [] [] false loopSuccLow (by decide) (by decide) (by decide)⟩

/-- With the rank bound −2^30 the `int` expression `bound*2-1` wraps to
2^31 − 1, the guard of `succSetSchTightReduced` passes and a successor of
maximal rank 3 is returned; with the rank bound 2^30 + 1 it wraps to
−2^31 + 1 and nothing is returned. -/
theorem reduced_guard_wraps :
    doubleBound (-(2 ^ 30)) = 2 ^ 31 - 1 ∧
    loopSuccLow ∈ (succSetSchTightReduced loopAut plainOpt (fun _ => -(2 ^ 30)) noRanks []
      loopState 0 (fun _ => 0) (fun _ => 4) [] [] false).1 ∧
    loopSuccLow.f.getMaxRank = 3 ∧
    doubleBound (2 ^ 30 + 1) = -(2 ^ 31) + 1 ∧
    (succSetSchTightReduced loopAut plainOpt (fun _ => 2 ^ 30 + 1) noRanks []
      loopState 0 (fun _ => 0) (fun _ => 4) [] [] false).1 = [] :=
  ⟨by decide, by decide, by decide, by decide, by decide⟩

/-! ## C4: the breakpoint update of the tight successor -/

theorem optionFold_none {α β : Type} (g : α → β → Option α) (l : List β) :
    l.foldl (fun acc st => acc.bind (fun a => g a st)) none = none := by
  induction l with
  | nil => rfl
  | cons x xs ih => simpa using ih

theorem tightStep_sprime (A : BuchiAutomaton) (f : RankFunc) (symbol : Nat)
    (reachCons : Nat → Int) (acc acc1 : SuccAcc) (st : Nat)
    (h : tightStep A f symbol reachCons acc st = some acc1) :
    acc1.sprime = setInsertAll (A.trans st symbol) acc.sprime := by
  unfold tightStep at h
  simp only at h
  split at h
  · exact absurd h (by simp)
  · split at h
    · exact absurd h (by simp)
    · simp only [Option.some.injEq] at h
      rw [← h]

theorem tightFold_sprime (A : BuchiAutomaton) (f : RankFunc) (symbol : Nat)
    (reachCons : Nat → Int) (S : IntSet) (acc res : SuccAcc)
    (h : S.foldl (fun acc st => acc.bind (fun a => tightStep A f symbol reachCons a st))
      (some acc) = some res) :
    res.sprime = S.foldl (fun ret st => setInsertAll (A.trans st symbol) ret) acc.sprime := by
  induction S generalizing acc with
  | nil =>
    simp only [List.foldl_nil, Option.some.injEq] at h
    rw [← h]; rfl
  | cons s ss ih =>
    simp only [List.foldl_cons, Option.some_bind] at h
    cases hs : tightStep A f symbol reachCons acc s with
    | none =>
      rw [hs, optionFold_none] at h
      exact absurd h (by simp)
    | some acc1 =>
      rw [hs] at h
      rw [ih acc1 h, tightStep_sprime A f symbol reachCons acc acc1 s hs]
      rfl

theorem tightLoop_sprime (A : BuchiAutomaton) (state : StateSch) (symbol : Nat)
    (reachCons : Nat → Int) (acc : SuccAcc)
    (h : tightLoop A state symbol reachCons = some acc) :
    acc.sprime = succSet A state.S symbol := by
  unfold tightLoop at h
  rw [tightFold_sprime A state.f symbol reachCons state.S _ acc h]
  rfl

theorem legacy_tightStep_sprime (A : BuchiAutomaton) (f : RankFunc) (symbol : Nat)
    (acc acc1 : SuccAcc) (st : Nat)
    (h : Legacy.tightStep A f symbol acc st = some acc1) :
    acc1.sprime = setInsertAll (A.trans st symbol) acc.sprime := by
  unfold Legacy.tightStep at h
  simp only at h
  split at h
  · exact absurd h (by simp)
  · split at h
    · exact absurd h (by simp)
    · simp only [Option.some.injEq] at h
      rw [← h]

theorem legacy_tightFold_sprime (A : BuchiAutomaton) (f : RankFunc) (symbol : Nat)
    (S : IntSet) (acc res : SuccAcc)
    (h : S.foldl (fun acc st => acc.bind (fun a => Legacy.tightStep A f symbol a st))
      (some acc) = some res) :
    res.sprime = S.foldl (fun ret st => setInsertAll (A.trans st symbol) ret) acc.sprime := by
  induction S generalizing acc with
  | nil =>
    simp only [List.foldl_nil, Option.some.injEq] at h
    rw [← h]; rfl
  | cons s ss ih =>
    simp only [List.foldl_cons, Option.some_bind] at h
    cases hs : Legacy.tightStep A f symbol acc s with
    | none =>
      rw [hs, optionFold_none] at h
      exact absurd h (by simp)
    | some acc1 =>
      rw [hs] at h
      rw [ih acc1 h, legacy_tightStep_sprime A f symbol acc acc1 s hs]
      rfl

theorem legacy_tightLoop_sprime (A : BuchiAutomaton) (state : StateSch) (symbol : Nat)
    (acc : SuccAcc) (h : Legacy.tightLoop A state symbol = some acc) :
    acc.sprime = succSet A state.S symbol := by
  unfold Legacy.tightLoop at h
  rw [legacy_tightFold_sprime A state.f symbol state.S _ acc h]
  rfl

theorem mem_insertNew_foldl {α β : Type} [DecidableEq α] (g : β → α) (l : List β)
    (init : List α) (x : α) :
    x ∈ l.foldl (fun ret r => insertNew ret (g r)) init ↔ x ∈ init ∨ ∃ r ∈ l, x = g r := by
  induction l generalizing init with
  | nil => simp
  | cons r rs ih =>
    simp only [List.foldl_cons, ih, mem_insertNew, List.mem_cons]
    constructor
    · rintro ((h | h) | ⟨r', hr', h⟩)
      · exact Or.inl h
      · exact Or.inr ⟨r, Or.inl rfl, h⟩
      · exact Or.inr ⟨r', Or.inr hr', h⟩
    · rintro (h | ⟨r', hr' | hr', h⟩)
      · exact Or.inl (Or.inl h)
      · subst hr'; exact Or.inl (Or.inr h)
      · exact Or.inr ⟨r', hr', h⟩

/-- The successors of both tight successor functions are cut-point successors
over `δ(S, a)`. -/
theorem mem_succSetSchTight_cutSucc (A : BuchiAutomaton) (rankBound : IntSet → Int)
    (tightSucc : TightEnum) (cache : RankCache) (state : StateSch) (symbol : Nat)
    (reachCons : Nat → Int) (maxReach : IntSet → Int) (dirRel oddRel : BackRel)
    (x : StateSch)
    (hx : x ∈ (succSetSchTight A rankBound tightSucc cache state symbol reachCons maxReach
        dirRel oddRel).1 ∨ x ∈ Legacy.succSetSchTight A state symbol) :
    ∃ r, x = cutSucc A state symbol (succSet A state.S symbol) r := by
  rcases hx with hx | hx
  · unfold succSetSchTight at hx
    cases hl : tightLoop A state symbol reachCons with
    | none => rw [hl] at hx; simp at hx
    | some acc =>
      rw [hl] at hx
      simp only at hx
      split at hx
      · simp at hx
      · rw [List.mem_map] at hx
        obtain ⟨r, _, e⟩ := hx
        rw [tightLoop_sprime A state symbol reachCons acc hl] at e
        exact ⟨r, e.symm⟩
  · unfold Legacy.succSetSchTight at hx
    cases hl : Legacy.tightLoop A state symbol with
    | none => rw [hl] at hx; simp at hx
    | some acc =>
      rw [hl] at hx
      simp only at hx
      rw [mem_insertNew_foldl] at hx
      rcases hx with hx | ⟨r, _, e⟩
      · simp at hx
      · rw [legacy_tightLoop_sprime A state symbol acc hl] at e
        exact ⟨r, e⟩

/-- C4. For a tight macrostate ⟨S, O, r, i, true⟩ whose breakpoint index and
maximal rank lie in the range where the `int` expressions `i + 2` and
`max r + 1` do not overflow (0 ≤ i, i + 2 < 2^31, max r + 1 < 2^31), every
successor ⟨S', O', r', i', t'⟩ that `succSetSchTight` (in `src/Complement` and
in the earlier `src/BuchiAutomatonSpec.cpp`) returns has t' = true and
S' = δ(S, a); if O = ∅ then i' = (i + 2) mod (max r + 1), which is the value
of the `int` expression `(i + 2) % (max r + 1)`, and O' = inverseRank(r', i');
otherwise i' = i and O' = δ(O, a) ∩ inverseRank(r', i'). -/
theorem tight_successor_breakpoint (A : BuchiAutomaton) (rankBound : IntSet → Int)
    (tightSucc : TightEnum) (cache : RankCache) (state : StateSch) (symbol : Nat)
    (reachCons : Nat → Int) (maxReach : IntSet → Int) (dirRel oddRel : BackRel)
    (x : StateSch) (hi : 0 ≤ state.i) (hi2 : state.i + 2 < 2 ^ 31)
    (hm : state.f.getMaxRank + 1 < 2 ^ 31)
    (hx : x ∈ (succSetSchTight A rankBound tightSucc cache state symbol reachCons maxReach
        dirRel oddRel).1 ∨ x ∈ Legacy.succSetSchTight A state symbol) :
    x.tight = true ∧ x.S = succSet A state.S symbol ∧
    (state.O = [] →
      x.i = (state.i + 2) % (state.f.getMaxRank + 1) ∧
      x.i = Int.tmod (wrapInt (state.i + 2)) (wrapInt (state.f.getMaxRank + 1)) ∧
      x.O = x.f.inverseRank x.i) ∧
    (state.O ≠ [] →
      x.i = state.i ∧
        x.O = setIntersection (succSet A state.O symbol) (x.f.inverseRank x.i)) := by
  obtain ⟨r, e⟩ := mem_succSetSchTight_cutSucc A rankBound tightSucc cache state symbol
    reachCons maxReach dirRel oddRel x hx
  subst e
  have hmax := getMaxRank_nonneg state.f
  refine ⟨rfl, rfl, ?_, ?_⟩
  · intro hO
    have hlen : state.O.length = 0 := by rw [hO]; rfl
    have e1 : nextIndex state = (state.i + 2) % (state.f.getMaxRank + 1) := by
      unfold nextIndex
      rw [if_pos hlen, Int.tmod_eq_emod (by omega) (by omega)]
    have e2 : (cutSucc A state symbol (succSet A state.S symbol) r).i = nextIndex state := rfl
    have e3 : (cutSucc A state symbol (succSet A state.S symbol) r).O
        = if state.O.length = 0 then r.inverseRank (nextIndex state)
          else setIntersection (if state.O.length = 0 then [] else succSet A state.O symbol)
            (r.inverseRank (nextIndex state)) := rfl
    have e4 : nextIndex state
        = Int.tmod (wrapInt (state.i + 2)) (wrapInt (state.f.getMaxRank + 1)) := by
      rw [wrapInt_eq _ (by omega) hi2, wrapInt_eq _ (by omega) hm]
      unfold nextIndex
      rw [if_pos hlen]
    refine ⟨e2.trans e1, e2.trans e4, ?_⟩
    rw [e3, if_pos hlen]
    rfl
  · intro hO
    have hlen : ¬ state.O.length = 0 := fun h => hO (List.length_eq_zero.mp h)
    have e1 : nextIndex state = state.i := by
      unfold nextIndex
      rw [if_neg hlen]
    have e2 : (cutSucc A state symbol (succSet A state.S symbol) r).i = nextIndex state := rfl
    have e3 : (cutSucc A state symbol (succSet A state.S symbol) r).O
        = if state.O.length = 0 then r.inverseRank (nextIndex state)
          else setIntersection (if state.O.length = 0 then [] else succSet A state.O symbol)
            (r.inverseRank (nextIndex state)) := rfl
    refine ⟨e2.trans e1, ?_⟩
    rw [e3, if_neg hlen, if_neg hlen]
    rfl

theorem tight_successor_breakpoint_witness :
    (idQuery.O = [] ∧ (0 : Int) ≤ idQuery.i ∧ idQuery.i + 2 < 2 ^ 31 ∧
      idQuery.f.getMaxRank + 1 < 2 ^ 31 ∧
      idPending ∈ (succSetSchTight idAut (fun _ => 1) tightSuccFromRankConstr [] idQuery 0
        (fun _ => 0) (fun _ => 3) [] []).1 ∧
      idPending ∈ Legacy.succSetSchTight idAut idQuery 0 ∧
      idPending.i = (idQuery.i + 2) % (idQuery.f.getMaxRank + 1) ∧ idPending.i = 2 ∧
      idPending.O = idPending.f.inverseRank idPending.i ∧ idPending.O = [1]) ∧
    (idLate.O = [] ∧ (0 : Int) ≤ idLate.i ∧ idLate.i + 2 < 2 ^ 31 ∧
      idLate.f.getMaxRank + 1 < 2 ^ 31 ∧
      idQuery ∈ (succSetSchTight idAut (fun _ => 1) tightSuccFromRankConstr [] idLate 0
        (fun _ => 0) (fun _ => 3) [] []).1 ∧
      idQuery ∈ Legacy.succSetSchTight idAut idLate 0 ∧
      idQuery.i = (idLate.i + 2) % (idLate.f.getMaxRank + 1) ∧ idQuery.i = 0 ∧
      idQuery.O = idQuery.f.inverseRank idQuery.i) ∧
    (loopState.O ≠ [] ∧ (0 : Int) ≤ loopState.i ∧ loopState.i + 2 < 2 ^ 31 ∧
      loopState.f.getMaxRank + 1 < 2 ^ 31 ∧
      loopState ∈ (succSetSchTight loopAut (fun _ => 2) tightSuccFromRankConstr [] loopState 0
        (fun _ => 0) (fun _ => 4) [] []).1 ∧
      loopState ∈ Legacy.succSetSchTight loopAut loopState 0 ∧
      loopState.tight = true ∧ loopState.S = succSet loopAut loopState.S 0 ∧
      loopState.i = loopState.i ∧
      loopState.O = setIntersection (succSet loopAut loopState.O 0)
        (loopState.f.inverseRank loopState.i)) :=
  ⟨⟨by decide, by decide, by decide, by decide, by decide, by decide,
      ((tight_successor_breakpoint idAut (fun _ => 1) tightSuccFromRankConstr [] idQuery 0
        (fun _ => 0) (fun _ => 3) [] [] idPending (by decide) (by decide) (by decide)
        (Or.inl (by decide))).2.2.1 rfl).1,
      by decide,
      ((tight_successor_breakpoint idAut (fun _ => 1) tightSuccFromRankConstr [] idQuery 0
        (fun _ => 0) (fun _ => 3) [] [] idPending (by decide) (by decide) (by decide)
        (Or.inr (by decide))).2.2.1 rfl).2.2,
      by decide⟩,
    ⟨by decide, by decide, by decide, by decide, by decide, by decide,
      ((tight_successor_breakpoint idAut (fun _ => 1) tightSuccFromRankConstr [] idLate 0
        (fun _ => 0) (fun _ => 3) [] [] idQuery (by decide) (by decide) (by decide)
        (Or.inl (by decide))).2.2.1 rfl).1,
      by decide,
      ((tight_successor_breakpoint idAut (fun _ => 1) tightSuccFromRankConstr [] idLate 0
        (fun _ => 0) (fun _ => 3) [] [] idQuery (by decide) (by decide) (by decide)
        (Or.inr (by decide))).2.2.1 rfl).2.2⟩,
    ⟨by decide, by decide, by decide, by decide, by decide, by decide,
      (tight_successor_breakpoint loopAut (fun _ => 2) tightSuccFromRankConstr [] loopState 0
        (fun _ => 0) (fun _ => 4) [] [] loopState (by decide) (by decide) (by decide)
        (Or.inl (by decide))).1,
      (tight_successor_breakpoint loopAut (fun _ => 2) tightSuccFromRankConstr [] loopState 0
        (fun _ => 0) (fun _ => 4) [] [] loopState (by decide) (by decide) (by decide)
        (Or.inl (by decide))).2.1,
      rfl,
      ((tight_successor_breakpoint loopAut (fun _ => 2) tightSuccFromRankConstr [] loopState 0
        (fun _ => 0) (fun _ => 4) [] [] loopState (by decide) (by decide) (by decide)
        (Or.inr (by decide))).2.2.2 (by decide)).2⟩⟩

/-! ## C5: the KV successor -/

theorem kvFold_snd (A : BuchiAutomaton) (f : RankFunc) (symbol : Nat) (S : IntSet)
    (acc : (Nat → Int) × IntSet) :
    (S.foldl (kvStep A f symbol) acc).2
      = S.foldl (fun ret st => setInsertAll (A.trans st symbol) ret) acc.2 := by
  induction S generalizing acc with
  | nil => simp
  | cons s ss ih =>
    simp only [List.foldl_cons, ih]
    rfl

theorem kvLoop_snd (A : BuchiAutomaton) (state : StateKV) (symbol : Nat) :
    (kvLoop A state symbol).2 = succSet A state.S symbol := by
  unfold kvLoop succSet
  rw [kvFold_snd]

theorem kvFold_le (A : BuchiAutomaton) (f : RankFunc) (symbol : Nat) (S : IntSet)
    (acc : (Nat → Int) × IntSet) (q : Nat) :
    (S.foldl (kvStep A f symbol) acc).1 q ≤ acc.1 q := by
  induction S generalizing acc with
  | nil => simp
  | cons s ss ih =>
    simp only [List.foldl_cons]
    exact le_trans (ih _) (lowerCeilings_le _ _ _ _)

theorem kvFold_le_of_mem (A : BuchiAutomaton) (f : RankFunc) (symbol : Nat) (S : IntSet)
    (acc : (Nat → Int) × IntSet) (p q : Nat) (hp : p ∈ S) (hq : q ∈ A.trans p symbol) :
    (S.foldl (kvStep A f symbol) acc).1 q ≤ f.get p := by
  induction S generalizing acc with
  | nil => simp at hp
  | cons s ss ih =>
    simp only [List.foldl_cons]
    rcases List.mem_cons.mp hp with h | h
    · subst h
      exact le_trans (kvFold_le A f symbol ss _ q) (lowerCeilings_le_of_mem _ _ _ _ hq)
    · exact ih _ h

theorem kvFold_ge (A : BuchiAutomaton) (f : RankFunc) (symbol : Nat) (S : IntSet)
    (acc : (Nat → Int) × IntSet) (q : Nat) (v : Int) (h0 : v ≤ acc.1 q)
    (h : ∀ p ∈ S, q ∈ A.trans p symbol → v ≤ f.get p) :
    v ≤ (S.foldl (kvStep A f symbol) acc).1 q := by
  induction S generalizing acc with
  | nil => simpa using h0
  | cons s ss ih =>
    simp only [List.foldl_cons]
    apply ih
    · show v ≤ lowerCeilings acc.1 (A.trans s symbol) (f.get s) q
      rw [lowerCeilings_eq]
      split
      · rename_i hm
        exact le_min h0 (h s (List.mem_cons_self _ _) hm)
      · exact h0
    · intro p hp hq
      exact h p (List.mem_cons_of_mem _ hp) hq

theorem evenCeilings_ge (A : BuchiAutomaton) (mr : Nat → Int) (sprime : IntSet) (q : Nat)
    (v : Int) (h0 : v ≤ mr q) (hev : q ∈ A.finals → v % 2 = 0) :
    v ≤ evenCeilings A mr sprime q := by
  unfold evenCeilings
  induction sprime generalizing mr with
  | nil => simpa using h0
  | cons s ss ih =>
    simp only [List.foldl_cons]
    apply ih
    split
    · rename_i hc
      unfold vecSet
      split
      · rename_i e
        subst e
        have h1 := hev hc.1
        have h2 := hc.2
        rw [Ne, tmod_two_eq_zero_iff] at h2
        omega
      · exact h0
    · exact h0

theorem mem_countUp_zero (inc : Nat) (hinc : 0 < inc) (hi v : Int) :
    v ∈ countUp 0 inc hi ↔ 0 ≤ v ∧ v ≤ hi ∧ v % (inc : Int) = 0 := by
  unfold countUp
  split
  · rename_i hlt
    simp only [List.not_mem_nil, false_iff]
    push_cast at hlt
    omega
  · rename_i hge
    push_cast at hge
    simp only [List.mem_map, List.mem_range, Nat.sub_zero, Nat.zero_add]
    constructor
    · rintro ⟨k, hk, rfl⟩
      have h1 : k * inc ≤ hi.toNat := by
        have := Nat.div_mul_le_self hi.toNat inc
        have h2 : k ≤ hi.toNat / inc := by omega
        calc k * inc ≤ (hi.toNat / inc) * inc := Nat.mul_le_mul_right _ h2
          _ ≤ hi.toNat := this
      refine ⟨by positivity, ?_, ?_⟩
      · have : ((k * inc : Nat) : Int) ≤ (hi.toNat : Int) := by exact_mod_cast h1
        rw [Int.toNat_of_nonneg (by omega)] at this
        exact this
      · push_cast
        exact Int.mul_emod_left _ _
    · rintro ⟨h1, h2, h3⟩
      refine ⟨(v / inc).toNat, ?_, ?_⟩
      · have hd : v / (inc : Int) ≤ hi / (inc : Int) :=
          Int.ediv_le_ediv (by exact_mod_cast hinc) h2
        have hnn : 0 ≤ v / (inc : Int) := Int.ediv_nonneg h1 (by positivity)
        have hc : ((hi.toNat / inc : Nat) : Int) = hi / (inc : Int) := by
          push_cast
          rw [Int.toNat_of_nonneg (by omega)]
        have : ((v / (inc : Int)).toNat : Int) ≤ ((hi.toNat / inc : Nat) : Int) := by
          rw [Int.toNat_of_nonneg hnn, hc]; exact hd
        have : (v / (inc : Int)).toNat ≤ hi.toNat / inc := by exact_mod_cast this
        omega
      · have hnn : 0 ≤ v / (inc : Int) := Int.ediv_nonneg h1 (by positivity)
        push_cast
        rw [Int.toNat_of_nonneg hnn]
        exact Int.ediv_mul_cancel (Int.dvd_of_emod_eq_zero h3)

theorem countUp_nodup (lo inc : Nat) (hinc : 0 < inc) (hi : Int) :
    (countUp lo inc hi).Nodup := by
  unfold countUp
  split
  · exact List.nodup_nil
  · apply List.Nodup.map _ (List.nodup_range _)
    intro a b hab
    have hab' : lo + a * inc = lo + b * inc := by
      have h1 : ((lo + a * inc : Nat) : Int) = ((lo + b * inc : Nat) : Int) := hab
      exact_mod_cast h1
    have : a * inc = b * inc := by omega
    exact Nat.eq_of_mul_eq_mul_right hinc this

theorem mem_fromRankConstr_cons (c : List (Nat × Int)) (cs : RankConstr) (r : RankFunc) :
    r ∈ fromRankConstr (c :: cs) ↔ ∃ p ∈ c, ∃ r0 ∈ fromRankConstr cs, r = p :: r0 := by
  simp only [fromRankConstr, List.mem_flatMap, List.mem_map]
  constructor
  · rintro ⟨p, hp, r0, hr0, e⟩
    exact ⟨p, hp, r0, hr0, e.symm⟩
  · rintro ⟨p, hp, r0, hr0, e⟩
    exact ⟨p, hp, r0, hr0, e.symm⟩

/-- The enumeration over per-state value lists `g st`: exactly the maps over
`states` taking at each state one of its listed values. -/
theorem mem_fromRankConstr_map (g : Nat → List Int) (states : IntSet) (r : RankFunc) :
    r ∈ fromRankConstr (states.map (fun st => (g st).map (fun i => (st, i)))) ↔
      r.map Prod.fst = states ∧ ∀ kv ∈ r, kv.2 ∈ g kv.1 := by
  induction states generalizing r with
  | nil =>
    simp only [List.map_nil, fromRankConstr, List.mem_singleton]
    constructor
    · rintro rfl; simp
    · rintro ⟨h, _⟩; exact List.map_eq_nil_iff.mp h
  | cons s ss ih =>
    rw [List.map_cons, mem_fromRankConstr_cons]
    constructor
    · rintro ⟨p, hp, r0, hr0, rfl⟩
      rw [List.mem_map] at hp
      obtain ⟨i, hi, rfl⟩ := hp
      obtain ⟨h1, h2⟩ := (ih r0).mp hr0
      refine ⟨by simp [h1], ?_⟩
      intro kv hkv
      rcases List.mem_cons.mp hkv with e | hkv
      · rw [e]; exact hi
      · exact h2 kv hkv
    · rintro ⟨h1, h2⟩
      cases r with
      | nil => simp at h1
      | cons p r0 =>
        simp only [List.map_cons, List.cons.injEq] at h1
        refine ⟨p, ?_, r0, (ih r0).mpr ⟨h1.2, fun kv hkv => h2 kv (List.mem_cons_of_mem _ hkv)⟩, rfl⟩
        rw [List.mem_map]
        refine ⟨p.2, ?_, ?_⟩
        · have := h2 p (List.mem_cons_self _ _)
          rw [h1.1] at this
          exact this
        · rw [← h1.1]

theorem fromRankConstr_nodup (cs : RankConstr) (h : ∀ c ∈ cs, c.Nodup) :
    (fromRankConstr cs).Nodup := by
  induction cs with
  | nil => simp [fromRankConstr]
  | cons c cs ih =>
    have hc := h c (List.mem_cons_self _ _)
    have hcs := ih (fun c' hc' => h c' (List.mem_cons_of_mem _ hc'))
    simp only [fromRankConstr]
    rw [List.nodup_flatMap]
    refine ⟨?_, ?_⟩
    · intro p _
      exact hcs.map (fun a b hab => (List.cons.inj hab).2)
    · refine hc.pairwise_of_forall_ne ?_
      intro p _ q _ hpq
      intro x hx1 hx2
      rw [List.mem_map] at hx1 hx2
      obtain ⟨r1, _, e1⟩ := hx1
      obtain ⟨r2, _, e2⟩ := hx2
      rw [← e2] at e1
      exact hpq (List.cons.inj e1).1

theorem insertNew_nodup {α : Type} [DecidableEq α] (l : List α) (x : α) (h : l.Nodup) :
    (insertNew l x).Nodup := by
  unfold insertNew
  split
  · exact h
  · rename_i hx
    rw [List.nodup_append]
    refine ⟨h, List.nodup_singleton x, ?_⟩
    intro a ha hb
    rw [List.mem_singleton] at hb
    subst hb
    exact hx ha

theorem insertNew_foldl_nodup {α β : Type} [DecidableEq α] (g : β → α) (l : List β)
    (init : List α) (h : init.Nodup) :
    (l.foldl (fun ret r => insertNew ret (g r)) init).Nodup := by
  induction l generalizing init with
  | nil => simpa using h
  | cons r rs ih =>
    simp only [List.foldl_cons]
    exact ih _ (insertNew_nodup init (g r) h)

theorem mem_getKVRanks (A : BuchiAutomaton) (state : StateKV) (symbol : Nat) (r' : RankFunc) :
    r' ∈ getKVRanks A (evenCeilings A (kvLoop A state symbol).1 (succSet A state.S symbol))
        (succSet A state.S symbol) ↔ KVCeil A state symbol r' := by
  unfold getKVRanks rankConstr
  rw [mem_fromRankConstr_map
    (fun st => countUp 0 (if st ∈ A.finals then 2 else 1)
      (evenCeilings A (kvLoop A state symbol).1 (succSet A state.S symbol) st))]
  have hinc : ∀ st : Nat, 0 < (if st ∈ A.finals then 2 else 1 : Nat) := by
    intro st; split <;> omega
  constructor
  · rintro ⟨hk, hv⟩
    have hwf : RankFunc.WF r' := by
      unfold RankFunc.WF
      rw [hk]
      exact succSet_WF A state.S symbol
    refine ⟨hk, ?_, ?_⟩
    · intro q hq
      have hmem : (q, RankFunc.get r' q) ∈ r' :=
        (mem_iff_get r' hwf q _).mpr ⟨by rw [RankFunc.keys, hk]; exact hq, rfl⟩
      have h1 := hv _ hmem
      rw [mem_countUp_zero _ (hinc q)] at h1
      have h2 := evenCeilings_le A (kvLoop A state symbol).1 (succSet A state.S symbol) q
      refine ⟨h1.1, ?_, ?_⟩
      · have h3 := kvFold_le A state.f symbol state.S
          (fun _ => 2 * (A.states.length : Int), []) q
        exact le_trans h1.2.1 (le_trans h2 h3)
      · intro p hp hqp
        have h3 := kvFold_le_of_mem A state.f symbol state.S
          (fun _ => 2 * (A.states.length : Int), []) p q hp hqp
        exact le_trans h1.2.1 (le_trans h2 h3)
    · intro q hq hf
      have hmem : (q, RankFunc.get r' q) ∈ r' :=
        (mem_iff_get r' hwf q _).mpr ⟨by rw [RankFunc.keys, hk]; exact hq, rfl⟩
      have h1 := hv _ hmem
      rw [mem_countUp_zero _ (hinc q)] at h1
      have h2 := h1.2.2
      simp only [hf, if_true] at h2
      exact_mod_cast h2
  · rintro ⟨hk, hb, he⟩
    have hwf : RankFunc.WF r' := by
      unfold RankFunc.WF
      have hk' : r'.map Prod.fst = succSet A state.S symbol := hk
      rw [hk']
      exact succSet_WF A state.S symbol
    refine ⟨hk, ?_⟩
    rintro ⟨k, v⟩ hkv
    obtain ⟨hkeys, hget⟩ := (mem_iff_get r' hwf k v).mp hkv
    have hq : k ∈ succSet A state.S symbol := by rw [← hk]; exact hkeys
    obtain ⟨h0, h1, h2⟩ := hb k hq
    rw [hget] at h0 h1 h2
    show v ∈ countUp 0 (if k ∈ A.finals then 2 else 1) _
    rw [mem_countUp_zero _ (hinc k)]
    refine ⟨h0, ?_, ?_⟩
    · apply evenCeilings_ge
      · exact kvFold_ge A state.f symbol state.S _ k v h1 h2
      · intro hf
        have := he k hq hf
        rw [hget] at this
        exact this
    · by_cases hf : k ∈ A.finals
      · have := he k hq hf
        rw [hget] at this
        simp only [hf, if_true]
        exact_mod_cast this
      · simp only [hf, if_false]
        simp

theorem mem_succSetKV (A : BuchiAutomaton) (state : StateKV) (symbol : Nat) (x : StateKV) :
    x ∈ succSetKV A state symbol ↔
      ∃ r', KVCeil A state symbol r' ∧
        x = kvSucc (succSet A state.S symbol)
          (if state.O.length = 0 then succSet A state.S symbol else succSet A state.O symbol)
          r' := by
  unfold succSetKV
  simp only
  rw [mem_insertNew_foldl, kvLoop_snd]
  constructor
  · rintro (h | ⟨r, hr, e⟩)
    · simp at h
    · exact ⟨r, (mem_getKVRanks A state symbol r).mp hr, e⟩
  · rintro ⟨r, hr, e⟩
    exact Or.inr ⟨r, (mem_getKVRanks A state symbol r).mpr hr, e⟩

/-- C5. Every element ⟨S', O', r'⟩ of `succSetKV` on ⟨S, O, r⟩ and a has
S' = δ(S, a), r' defined exactly on S' with 0 ≤ r'(q') ≤ 2|Q| and
r'(q') ≤ r(p) for every predecessor p ∈ S of q', r'(q') even on accepting
q', and O' = (S' if O = ∅, else δ(O, a)) minus the states of odd r'-rank. The
result holds no macrostate twice, and when S' is non-empty every rank
function over S' meeting these ceilings and the evenness constraint is the
rank of exactly one returned successor. -/
theorem kv_successor (A : BuchiAutomaton) (state : StateKV) (symbol : Nat) :
    (∀ x ∈ succSetKV A state symbol,
      x.S = succSet A state.S symbol ∧ KVCeil A state symbol x.f ∧
        x.O = setDifference (if state.O = [] then x.S else succSet A state.O symbol)
          x.f.getOddStates) ∧
    (succSetKV A state symbol).Nodup ∧
    (succSet A state.S symbol ≠ [] → ∀ r', KVCeil A state symbol r' →
      ∃! x, x ∈ succSetKV A state symbol ∧ x.f = r') := by
  refine ⟨?_, ?_, ?_⟩
  · intro x hx
    obtain ⟨r', hr', e⟩ := (mem_succSetKV A state symbol x).mp hx
    subst e
    refine ⟨rfl, hr', ?_⟩
    show setDifference _ _ = setDifference _ _
    by_cases hO : state.O = []
    · have hlen : state.O.length = 0 := by rw [hO]; rfl
      rw [if_pos hlen, if_pos hO]
      rfl
    · have hlen : ¬ state.O.length = 0 := fun h => hO (List.length_eq_zero.mp h)
      rw [if_neg hlen, if_neg hO]
      rfl
  · unfold succSetKV
    exact insertNew_foldl_nodup _ _ _ List.nodup_nil
  · intro _ r' hr'
    refine ⟨kvSucc (succSet A state.S symbol)
      (if state.O.length = 0 then succSet A state.S symbol else succSet A state.O symbol) r',
      ⟨(mem_succSetKV A state symbol _).mpr ⟨r', hr', rfl⟩, rfl⟩, ?_⟩
    rintro y ⟨hy, hyf⟩
    obtain ⟨r2, _, e⟩ := (mem_succSetKV A state symbol y).mp hy
    subst e
    have : r2 = r' := hyf
    rw [this]

set_option maxRecDepth 100000 in
theorem kv_successor_witness :
    loopKVSucc ∈ succSetKV loopAut loopKV 0 ∧
    succSet loopAut loopKV.S 0 ≠ [] ∧ KVCeil loopAut loopKV 0 loopKVSucc.f ∧
    (loopKVSucc.S = succSet loopAut loopKV.S 0 ∧ KVCeil loopAut loopKV 0 loopKVSucc.f ∧
      loopKVSucc.O = setDifference
        (if loopKV.O = [] then loopKVSucc.S else succSet loopAut loopKV.O 0)
        loopKVSucc.f.getOddStates) ∧
    (∃! x, x ∈ succSetKV loopAut loopKV 0 ∧ x.f = loopKVSucc.f) :=
  ⟨by decide, by decide, by unfold KVCeil; decide,
    (kv_successor loopAut loopKV 0).1 loopKVSucc (by decide),
    (kv_successor loopAut loopKV 0).2.2 (by decide) loopKVSucc.f (by unfold KVCeil; decide)⟩

/-! ## C10: the cache lookup -/

theorem assocFind_assocAssign {κ β : Type} [DecidableEq κ] (m : List (κ × β)) (k k' : κ)
    (v : β) : assocFind (assocAssign m k v) k' = if k' = k then some v else assocFind m k' := by
  induction m with
  | nil =>
    simp only [assocAssign, assocFind]
    by_cases e : k = k'
    · subst e; simp
    · have : ¬ k' = k := fun h => e h.symm
      simp [e, this]
  | cons kv rest ih =>
    obtain ⟨k0, v0⟩ := kv
    unfold assocAssign
    by_cases h0 : k0 = k
    · subst h0
      simp only [if_true, assocFind]
      by_cases e : k0 = k'
      · subst e; simp
      · have : ¬ k' = k0 := fun h => e h.symm
        simp [e, this]
    · simp only [h0, if_false, assocFind, ih]
      by_cases e : k0 = k'
      · subst e
        simp [h0]
      · simp [e]

theorem assocGet_eq_find {κ β : Type} [DecidableEq κ] (m : List (κ × List β)) (k : κ) :
    assocGet m k = (assocFind m k).getD [] := by
  induction m with
  | nil => rfl
  | cons kv rest ih =>
    obtain ⟨k0, v0⟩ := kv
    simp only [assocGet, assocFind]
    split
    · rfl
    · exact ih

theorem find?_split {α : Type} (p : α → Bool) (l : List α) (x : α)
    (h : l.find? p = some x) :
    ∃ pre post, l = pre ++ x :: post ∧ (∀ y ∈ pre, p y = false) ∧ p x = true := by
  induction l with
  | nil => simp at h
  | cons a as ih =>
    rw [List.find?_cons] at h
    cases hpa : p a with
    | true =>
      rw [hpa] at h
      simp only [Option.some.injEq] at h
      subst h
      exact ⟨[], as, rfl, by simp, hpa⟩
    | false =>
      rw [hpa] at h
      obtain ⟨pre, post, e, hpre, hx⟩ := ih h
      refine ⟨a :: pre, post, by rw [e]; rfl, ?_, hx⟩
      intro y hy
      rcases List.mem_cons.mp hy with e' | hy
      · rw [e']; exact hpa
      · exact hpre y hy

theorem getRankSuccCache_absent (cache : RankCache) (out : List RankFunc) (state : StateSch)
    (symbol : Nat)
    (h : assocFind cache (state.S, symbol, state.f.getMaxRank) = none) :
    getRankSuccCache cache out state symbol
      = (false, out, assocAssign cache (state.S, symbol, state.f.getMaxRank) []) := by
  unfold getRankSuccCache
  simp only [h]

theorem getRankSuccCache_miss (cache : RankCache) (out : List RankFunc) (state : StateSch)
    (symbol : Nat) (items : List (RankFunc × List RankFunc))
    (h : assocFind cache (state.S, symbol, state.f.getMaxRank) = some items)
    (hf : items.find? (fun item => state.f.isAllLeq item.1) = none) :
    getRankSuccCache cache out state symbol = (false, out, cache) := by
  unfold getRankSuccCache
  simp only [h, hf]

theorem getRankSuccCache_hit (cache : RankCache) (out : List RankFunc) (state : StateSch)
    (symbol : Nat) (items : List (RankFunc × List RankFunc)) (item : RankFunc × List RankFunc)
    (h : assocFind cache (state.S, symbol, state.f.getMaxRank) = some items)
    (hf : items.find? (fun item => state.f.isAllLeq item.1) = some item) :
    getRankSuccCache cache out state symbol = (true, item.2, cache) := by
  unfold getRankSuccCache
  simp only [h, hf]

/-- C10. `getRankSuccCache(out, ⟨S, O, f, i, t⟩, a)` returns true exactly when
the cache holds under the key (S, a, max f) a pair (r0, succs) with f ≤ r0
pointwise. On true, `out` becomes the `succs` of the first such pair in
insertion order and the cache is unchanged. On false, `out` is unchanged, every
other key keeps its entry, and the key (S, a, max f) is present afterwards with
the list it had before, the empty list if it was absent. -/
theorem rank_cache_lookup (cache : RankCache) (out : List RankFunc) (state : StateSch)
    (symbol : Nat) :
    ((getRankSuccCache cache out state symbol).1 = true ↔
      ∃ items, assocFind cache (state.S, symbol, state.f.getMaxRank) = some items ∧
        ∃ item ∈ items, state.f.isAllLeq item.1 = true) ∧
    ((getRankSuccCache cache out state symbol).1 = true →
      (∃ items pre item post,
        assocFind cache (state.S, symbol, state.f.getMaxRank) = some items ∧
        items = pre ++ item :: post ∧ (∀ p ∈ pre, state.f.isAllLeq p.1 = false) ∧
        state.f.isAllLeq item.1 = true ∧
        (getRankSuccCache cache out state symbol).2.1 = item.2) ∧
      (getRankSuccCache cache out state symbol).2.2 = cache) ∧
    ((getRankSuccCache cache out state symbol).1 = false →
      (getRankSuccCache cache out state symbol).2.1 = out ∧
      (∀ k, k ≠ (state.S, symbol, state.f.getMaxRank) →
        assocFind (getRankSuccCache cache out state symbol).2.2 k = assocFind cache k) ∧
      assocFind (getRankSuccCache cache out state symbol).2.2
          (state.S, symbol, state.f.getMaxRank)
        = some (assocGet cache (state.S, symbol, state.f.getMaxRank))) := by
  cases hfind : assocFind cache (state.S, symbol, state.f.getMaxRank) with
  | none =>
    rw [getRankSuccCache_absent cache out state symbol hfind]
    refine ⟨?_, ?_, ?_⟩
    · constructor
      · intro h; exact absurd h (by simp)
      · rintro ⟨items, h, _⟩; exact absurd h (by simp)
    · intro h; exact absurd h (by simp)
    · intro _
      refine ⟨rfl, ?_, ?_⟩
      · intro k hk
        show assocFind (assocAssign cache _ []) k = assocFind cache k
        rw [assocFind_assocAssign, if_neg hk]
      · show assocFind (assocAssign cache _ []) _ = _
        rw [assocFind_assocAssign, if_pos rfl, assocGet_eq_find, hfind]
        rfl
  | some items =>
    cases hf : items.find? (fun item => state.f.isAllLeq item.1) with
    | none =>
      rw [getRankSuccCache_miss cache out state symbol items hfind hf]
      have hnone : ∀ item ∈ items, state.f.isAllLeq item.1 = false := by
        intro item hitem
        have := List.find?_eq_none.mp hf item hitem
        simpa using this
      refine ⟨?_, ?_, ?_⟩
      · constructor
        · intro h; exact absurd h (by simp)
        · rintro ⟨items', h, item, hitem, hle⟩
          simp only [Option.some.injEq] at h
          subst h
          rw [hnone item hitem] at hle
          exact absurd hle (by simp)
      · intro h; exact absurd h (by simp)
      · intro _
        refine ⟨rfl, fun k _ => rfl, ?_⟩
        show assocFind cache _ = _
        rw [assocGet_eq_find, hfind]
        rfl
    | some item =>
      rw [getRankSuccCache_hit cache out state symbol items item hfind hf]
      obtain ⟨pre, post, e, hpre, hp⟩ := find?_split _ items item hf
      refine ⟨?_, ?_, ?_⟩
      · constructor
        · intro _
          exact ⟨items, rfl, item, by rw [e]; simp, hp⟩
        · intro _; rfl
      · intro _
        exact ⟨⟨items, pre, item, post, rfl, e, hpre, hp, rfl⟩, rfl⟩
      · intro h; exact absurd h (by simp)

theorem rank_cache_lookup_witness :
    (getRankSuccCache idCache [] idQuery 0).1 = true ∧
    ((∃ items pre item post,
        assocFind idCache (idQuery.S, 0, idQuery.f.getMaxRank) = some items ∧
        items = pre ++ item :: post ∧ (∀ p ∈ pre, idQuery.f.isAllLeq p.1 = false) ∧
        idQuery.f.isAllLeq item.1 = true ∧
        (getRankSuccCache idCache [] idQuery 0).2.1 = item.2) ∧
      (getRankSuccCache idCache [] idQuery 0).2.2 = idCache) :=
  ⟨by decide, (rank_cache_lookup idCache [] idQuery 0).2.1 (by decide)⟩

/-! ## C9: a cache hit of the baseline tight successor -/

/-- C9. On `idAut`, after `succSetSchTight` has stored the entry of the parent
rank (3, 3, 1) under the key (S, a, 3), the call on the pointwise smaller
rank (3, 2, 1) hits that entry and returns no successor, while the same call
started with an empty cache returns the successor of rank (3, 2, 1). -/
theorem cache_hit_differs_from_fresh :
    idCache = [(([0, 1, 2], 0, 3), [(idParent.f, [[(0, 3), (1, 3), (2, 1)]])])] ∧
    idQuery.f.isAllLeq idParent.f = true ∧
    (getRankSuccCache idCache [] idQuery 0).1 = true ∧
    (succSetSchTight idAut (fun _ => 0) tightSuccFromRankConstr idCache idQuery 0 (fun _ => 0)
      (fun _ => 3) [] []).1 = [] ∧
    (succSetSchTight idAut (fun _ => 0) tightSuccFromRankConstr [] idQuery 0 (fun _ => 0)
      (fun _ => 3) [] []).1
      = [{ S := [0, 1, 2], O := [1], f := [(0, 3), (1, 2), (2, 1)], i := 2, tight := true }] := by
  refine ⟨by decide, by decide, by decide, by decide, by decide⟩

/-! ## Bounded loops -/

theorem whileLoop_inv {σ : Type} (cond : σ → Bool) (body : σ → σ) (Inv : σ → Prop)
    (hstep : ∀ s, Inv s → cond s = true → Inv (body s)) :
    ∀ (fuel : Nat) (s s' : σ), Inv s → whileLoop cond body fuel s = some s' →
      Inv s' ∧ cond s' = false := by
  intro fuel
  induction fuel with
  | zero =>
    intro s s' hs h
    unfold whileLoop at h
    cases hc : cond s with
    | true => rw [hc] at h; simp at h
    | false =>
      rw [hc] at h
      simp only [Bool.false_eq_true, if_false, Option.some.injEq] at h
      subst h
      exact ⟨hs, hc⟩
  | succ n ih =>
    intro s s' hs h
    unfold whileLoop at h
    cases hc : cond s with
    | true =>
      rw [hc] at h
      simp only [if_true] at h
      exact ih (body s) s' (hstep s hs hc) h
    | false =>
      rw [hc] at h
      simp only [Bool.false_eq_true, if_false, Option.some.injEq] at h
      subst h
      exact ⟨hs, hc⟩

theorem whileLoop_terminates {σ : Type} (cond : σ → Bool) (body : σ → σ) (Inv : σ → Prop)
    (μ : σ → Nat) (hstep : ∀ s, Inv s → cond s = true → Inv (body s))
    (hdec : ∀ s, Inv s → cond s = true → μ (body s) < μ s) :
    ∀ (fuel : Nat) (s : σ), Inv s → μ s ≤ fuel → ∃ s', whileLoop cond body fuel s = some s' := by
  intro fuel
  induction fuel with
  | zero =>
    intro s hs hμ
    unfold whileLoop
    cases hc : cond s with
    | true =>
      have := hdec s hs hc
      omega
    | false => exact ⟨s, by simp⟩
  | succ n ih =>
    intro s hs hμ
    unfold whileLoop
    cases hc : cond s with
    | true =>
      simp only [if_true]
      have := hdec s hs hc
      exact ih (body s) (hstep s hs hc) (by omega)
    | false => exact ⟨s, by simp⟩

theorem assocGet_assocAssign {κ β : Type} [DecidableEq κ] (m : List (κ × List β)) (k k' : κ)
    (v : List β) : assocGet (assocAssign m k v) k' = if k' = k then v else assocGet m k' := by
  rw [assocGet_eq_find, assocFind_assocAssign, assocGet_eq_find]
  split <;> rfl

/-! ## C8: the waiting part is the subset construction -/

theorem nfaSymStep_comst (A : BuchiAutomaton) (st : StateSch) (s : Search StateSch) (a : Nat)
    (ht : st.tight = false) :
    (nfaSymStep A st s a).comst
      = if waiting (succSet A st.S a) ∈ s.comst then s.comst
        else s.comst ++ [waiting (succSet A st.S a)] := by
  unfold nfaSymStep
  simp only [ht, if_true]
  by_cases h : waiting (succSet A st.S a) ∈ s.comst
  · simp [h]
  · simp [h, insertNew]

theorem nfaSymStep_stack (A : BuchiAutomaton) (st : StateSch) (s : Search StateSch) (a : Nat)
    (ht : st.tight = false) :
    (nfaSymStep A st s a).stack
      = if waiting (succSet A st.S a) ∈ s.comst then s.stack
        else waiting (succSet A st.S a) :: s.stack := by
  unfold nfaSymStep
  simp only [ht, if_true]
  by_cases h : waiting (succSet A st.S a) ∈ s.comst
  · simp [h]
  · simp [h]

theorem nfaSymStep_mp (A : BuchiAutomaton) (st : StateSch) (s : Search StateSch) (a : Nat)
    (ht : st.tight = false) :
    (nfaSymStep A st s a).mp = assocAssign s.mp (st, a) [waiting (succSet A st.S a)] := by
  unfold nfaSymStep
  simp only [ht, if_true]
  by_cases h : waiting (succSet A st.S a) ∈ s.comst
  · simp [h, insertNew]
  · simp [h, insertNew]

theorem nfaSymStep_finals (A : BuchiAutomaton) (st : StateSch) (s : Search StateSch) (a : Nat) :
    (nfaSymStep A st s a).finals = s.finals := by
  unfold nfaSymStep
  by_cases ht : st.tight = false
  · simp only [ht, if_true]
    by_cases h : waiting (succSet A st.S a) ∈ s.comst
    · simp [h]
    · simp [h]
  · simp [ht]

theorem nfaFold_step (A : BuchiAutomaton) (start : IntSet) (st : StateSch)
    (s1 : Search StateSch) (done : List Nat) (s' : Search StateSch) (a : Nat)
    (ht : st.tight = false) (hst : ∃ T, Reach A start T ∧ st = waiting T)
    (ha : a ∈ A.alphabet) (h : NfaFold A start st s1 done s') :
    NfaFold A start st s1 (done ++ [a]) (nfaSymStep A st s' a) := by
  obtain ⟨T, hT, hstT⟩ := hst
  have hS : st.S = T := by rw [hstT]; rfl
  have hnt : ∃ T', Reach A start T' ∧ waiting (succSet A st.S a) = waiting T' :=
    ⟨succSet A T a, Reach.step T a hT ha, by rw [hS]⟩
  have hc := nfaSymStep_comst A st s' a ht
  have hs := nfaSymStep_stack A st s' a ht
  have hm := nfaSymStep_mp A st s' a ht
  have hcm : ∀ x, x ∈ (nfaSymStep A st s' a).comst ↔
      x ∈ s'.comst ∨ x = waiting (succSet A st.S a) := by
    intro x
    rw [hc]
    split
    · rename_i hin
      constructor
      · intro hx; exact Or.inl hx
      · rintro (hx | hx)
        · exact hx
        · rw [hx]; exact hin
    · simp
  have hsm : ∀ x, x ∈ (nfaSymStep A st s' a).stack ↔
      x ∈ s'.stack ∨ (x = waiting (succSet A st.S a) ∧
        waiting (succSet A st.S a) ∉ s'.comst) := by
    intro x
    rw [hs]
    split
    · rename_i hin
      constructor
      · intro hx; exact Or.inl hx
      · rintro (hx | ⟨_, hx⟩)
        · exact hx
        · exact absurd hin hx
    · rename_i hin
      simp only [List.mem_cons]
      constructor
      · rintro (hx | hx)
        · exact Or.inr ⟨hx, hin⟩
        · exact Or.inl hx
      · rintro (hx | ⟨hx, _⟩)
        · exact Or.inr hx
        · exact Or.inl hx
  refine ⟨?_, ?_, ?_, ?_, ?_, ?_, ?_, ?_⟩
  · intro x hx
    rcases (hcm x).mp hx with hx | hx
    · exact h.sound x hx
    · rw [hx]; exact hnt
  · intro x hx
    exact (hcm x).mpr (Or.inl (h.mono x hx))
  · intro x hx
    exact (hsm x).mpr (Or.inl (h.stack_mono x hx))
  · intro x hx
    rcases (hsm x).mp hx with hx | ⟨hx, _⟩
    · exact (hcm x).mpr (Or.inl (h.stack_sub x hx))
    · exact (hcm x).mpr (Or.inr hx)
  · intro x hx hnx
    rcases (hcm x).mp hx with hx | hx
    · exact (hsm x).mpr (Or.inl (h.fresh x hx hnx))
    · by_cases hin : waiting (succSet A st.S a) ∈ s'.comst
      · rw [← hx] at hin
        exact (hsm x).mpr (Or.inl (h.fresh x hin hnx))
      · exact (hsm x).mpr (Or.inr ⟨hx, hin⟩)
  · intro b hb
    rw [hm, assocGet_assocAssign]
    rcases List.mem_append.mp hb with hb | hb
    · refine ⟨(hcm _).mpr (Or.inl (h.done_ok b hb).1), ?_⟩
      split
      · rename_i e
        have : b = a := (Prod.mk.inj e).2
        rw [this]
      · exact (h.done_ok b hb).2
    · rw [List.mem_singleton] at hb
      subst hb
      exact ⟨(hcm _).mpr (Or.inr rfl), by rw [if_pos rfl]⟩
  · intro x b hx
    rw [hm, assocGet_assocAssign, if_neg]
    · exact h.other x b hx
    · intro e
      exact hx (Prod.mk.inj e).1
  · rw [nfaSymStep_finals]
    exact h.finals_eq

theorem nfaFold_all (A : BuchiAutomaton) (start : IntSet) (st : StateSch)
    (s1 : Search StateSch) (ht : st.tight = false)
    (hst : ∃ T, Reach A start T ∧ st = waiting T) :
    ∀ (l done : List Nat) (s' : Search StateSch), (∀ a ∈ l, a ∈ A.alphabet) →
      NfaFold A start st s1 done s' →
      NfaFold A start st s1 (done ++ l) (l.foldl (nfaSymStep A st) s') := by
  intro l
  induction l with
  | nil => intro done s' _ h; simpa using h
  | cons a as ih =>
    intro done s' hl h
    simp only [List.foldl_cons]
    have := ih (done ++ [a]) (nfaSymStep A st s' a)
      (fun b hb => hl b (List.mem_cons_of_mem _ hb))
      (nfaFold_step A start st s1 done s' a ht hst (hl a (List.mem_cons_self _ _)) h)
    simpa using this

theorem nfaBody_inv (A : BuchiAutomaton) (start : IntSet) (s : Search StateSch)
    (h : NfaInv A start s) (hc : decide (s.stack.length > 0) = true) :
    NfaInv A start (nfaBody A s) := by
  unfold nfaBody
  cases hstack : s.stack with
  | nil => rw [hstack] at hc; simp at hc
  | cons st rest =>
    simp only
    have hstmem : st ∈ s.comst := h.stack_sub st (by rw [hstack]; exact List.mem_cons_self _ _)
    have hst := h.sound st hstmem
    have ht : st.tight = false := by
      obtain ⟨T, _, e⟩ := hst
      rw [e]; rfl
    have hnf : isSchFinal st = false := by
      unfold isSchFinal
      rw [ht]; rfl
    rw [hnf]
    simp only [Bool.false_eq_true, if_false]
    have h0 : NfaFold A start st
        { stack := rest, comst := s.comst, finals := s.finals, mp := s.mp } []
        { stack := rest, comst := s.comst, finals := s.finals, mp := s.mp } :=
      ⟨h.sound, fun x hx => hx, fun x hx => hx,
        fun x hx => h.stack_sub x (by rw [hstack]; exact List.mem_cons_of_mem _ hx),
        fun x hx hnx => absurd hx hnx, fun a ha => absurd ha (List.not_mem_nil a),
        fun x a _ => rfl, rfl⟩
    have hf := nfaFold_all A start st _ ht hst A.alphabet [] _ (fun a ha => ha) h0
    simp only [List.nil_append] at hf
    refine ⟨hf.stack_sub, hf.sound, hf.mono _ h.init_mem, ?_, ?_⟩
    · intro x hx hnx a ha
      by_cases e : x = st
      · rw [e]; exact hf.done_ok a ha
      · have hxold : x ∈ s.comst := by
          by_contra hno
          exact hnx (hf.fresh x hx hno)
        have hxrest : x ∉ rest := fun hr => hnx (hf.stack_mono x hr)
        have hxstack : x ∉ s.stack := by
          rw [hstack]
          intro hm
          rcases List.mem_cons.mp hm with hm | hm
          · exact e hm
          · exact hxrest hm
        have := h.closed x hxold hxstack a ha
        refine ⟨hf.mono _ this.1, ?_⟩
        rw [hf.other x a e]
        exact this.2
    · rw [hf.finals_eq]
      exact h.no_final

theorem nfaInit_inv (A : BuchiAutomaton) (start : IntSet) : NfaInv A start (nfaInit start) := by
  refine ⟨?_, ?_, ?_, ?_, rfl⟩
  · intro x hx; exact hx
  · intro x hx
    simp only [nfaInit, List.mem_singleton] at hx
    exact ⟨start, Reach.base, hx⟩
  · simp [nfaInit]
  · intro x hx hnx
    exact absurd hx hnx

theorem nfa_complete (A : BuchiAutomaton) (start : IntSet) (s : Search StateSch)
    (h : NfaInv A start s) (hempty : s.stack = []) (T : IntSet) (hT : Reach A start T) :
    waiting T ∈ s.comst := by
  induction hT with
  | base => exact h.init_mem
  | step T a _ ha ih =>
    have := (h.closed (waiting T) ih (by rw [hempty]; exact List.not_mem_nil _) a ha).1
    exact this

/-! ## Termination of the waiting-part search -/

theorem mem_succSet (A : BuchiAutomaton) (states : IntSet) (symbol : Nat) (q : Nat) :
    q ∈ succSet A states symbol ↔ ∃ p ∈ states, q ∈ A.trans p symbol := by
  unfold succSet
  have aux : ∀ (l : IntSet) (init : IntSet),
      q ∈ l.foldl (fun ret st => setInsertAll (A.trans st symbol) ret) init ↔
        q ∈ init ∨ ∃ p ∈ l, q ∈ A.trans p symbol := by
    intro l
    induction l with
    | nil => intro init; simp
    | cons s ss ih =>
      intro init
      simp only [List.foldl_cons, ih, mem_setInsertAll, List.mem_cons]
      constructor
      · rintro ((h | h) | ⟨p, hp, h⟩)
        · exact Or.inr ⟨s, Or.inl rfl, h⟩
        · exact Or.inl h
        · exact Or.inr ⟨p, Or.inr hp, h⟩
      · rintro (h | ⟨p, hp | hp, h⟩)
        · exact Or.inl (Or.inr h)
        · subst hp; exact Or.inl (Or.inl h)
        · exact Or.inr ⟨p, hp, h⟩
  rw [aux]
  simp

theorem reach_in_universe (A : BuchiAutomaton) (start : IntSet) (hA : A.WF) (T : IntSet)
    (hT : Reach A start T) : waiting T ∈ nfaUniverse A start := by
  unfold nfaUniverse
  cases hT with
  | base => exact List.mem_cons_self _ _
  | step T' a _ _ =>
    apply List.mem_cons_of_mem
    rw [List.mem_map]
    refine ⟨succSet A T' a, ?_, rfl⟩
    rw [List.mem_sublists]
    have hwf := succSet_WF A T' a
    apply List.sublist_of_subperm_of_sorted _ hwf hA.1
    apply List.subperm_of_subset (IntSet.WF.nodup hwf)
    intro q hq
    obtain ⟨p, _, hp⟩ := (mem_succSet A T' a q).mp hq
    exact hA.2 p a q hp

theorem nfaSymStep_nodup (A : BuchiAutomaton) (st : StateSch) (s : Search StateSch) (a : Nat)
    (h : s.comst.Nodup) : (nfaSymStep A st s a).comst.Nodup := by
  unfold nfaSymStep
  by_cases ht : st.tight = false
  · simp only [ht, if_true]
    by_cases hin : waiting (succSet A st.S a) ∈ s.comst
    · simpa [hin] using h
    · simp only [hin, not_false_eq_true, if_true]
      exact insertNew_nodup _ _ h
  · simpa [ht] using h

theorem nfaSymStep_count (A : BuchiAutomaton) (st : StateSch) (s : Search StateSch) (a : Nat) :
    (nfaSymStep A st s a).comst.length + s.stack.length
      = s.comst.length + (nfaSymStep A st s a).stack.length ∧
    s.comst.length ≤ (nfaSymStep A st s a).comst.length := by
  by_cases ht : st.tight = false
  · rw [nfaSymStep_comst A st s a ht, nfaSymStep_stack A st s a ht]
    by_cases hin : waiting (succSet A st.S a) ∈ s.comst
    · rw [if_pos hin, if_pos hin]
      exact ⟨rfl, le_refl _⟩
    · rw [if_neg hin, if_neg hin]
      simp only [List.length_append, List.length_cons, List.length_nil]
      omega
  · unfold nfaSymStep
    simp [ht]

theorem nfaFold_count (A : BuchiAutomaton) (st : StateSch) (l : List Nat)
    (s : Search StateSch) (h : s.comst.Nodup) :
    (l.foldl (nfaSymStep A st) s).comst.Nodup ∧
    (l.foldl (nfaSymStep A st) s).comst.length + s.stack.length
      = s.comst.length + (l.foldl (nfaSymStep A st) s).stack.length ∧
    s.comst.length ≤ (l.foldl (nfaSymStep A st) s).comst.length := by
  induction l generalizing s with
  | nil => exact ⟨h, rfl, le_refl _⟩
  | cons a as ih =>
    simp only [List.foldl_cons]
    have h1 := ih (nfaSymStep A st s a) (nfaSymStep_nodup A st s a h)
    have h2 := nfaSymStep_count A st s a
    exact ⟨h1.1, by omega, by omega⟩

theorem nfaBody_count (A : BuchiAutomaton) (s : Search StateSch) (st : StateSch)
    (rest : List StateSch) (hstack : s.stack = st :: rest) (h : s.comst.Nodup) :
    (nfaBody A s).comst.Nodup ∧
    (nfaBody A s).comst.length + rest.length
      = s.comst.length + (nfaBody A s).stack.length ∧
    s.comst.length ≤ (nfaBody A s).comst.length := by
  unfold nfaBody
  rw [hstack]
  simp only
  exact nfaFold_count A st A.alphabet _ h

theorem nfa_terminates (A : BuchiAutomaton) (start : IntSet) (hA : A.WF) :
    ∃ s, whileLoop (fun s => decide (s.stack.length > 0)) (nfaBody A)
      (2 * (nfaUniverse A start).length) (nfaInit start) = some s := by
  apply whileLoop_terminates (fun s => decide (s.stack.length > 0)) (nfaBody A)
    (fun s => NfaInv A start s ∧ s.comst.Nodup) (nfaMeasure A start)
  · rintro s ⟨h1, h2⟩ hc
    refine ⟨nfaBody_inv A start s h1 hc, ?_⟩
    cases hstack : s.stack with
    | nil => rw [hstack] at hc; simp at hc
    | cons st rest => exact (nfaBody_count A s st rest hstack h2).1
  · rintro s ⟨h1, h2⟩ hc
    cases hstack : s.stack with
    | nil => rw [hstack] at hc; simp at hc
    | cons st rest =>
      obtain ⟨hnd, hcount, hmono⟩ := nfaBody_count A s st rest hstack h2
      have hinv := nfaBody_inv A start s h1 hc
      have hsub : (nfaBody A s).comst ⊆ nfaUniverse A start := by
        intro x hx
        obtain ⟨T, hT, e⟩ := hinv.sound x hx
        rw [e]
        exact reach_in_universe A start hA T hT
      have hle : (nfaBody A s).comst.length ≤ (nfaUniverse A start).length :=
        (List.subperm_of_subset hnd hsub).length_le
      unfold nfaMeasure
      rw [hstack]
      simp only [List.length_cons]
      omega
  · exact ⟨nfaInit_inv A start, by simp [nfaInit]⟩
  · unfold nfaMeasure nfaInit nfaUniverse
    simp only [List.length_cons, List.length_singleton, List.length_nil]
    omega

/-- C8. Whenever `complementSchNFA(start)` returns, the automaton has the only
initial state ⟨start, ∅, empty rank, 0, false⟩, its states are exactly the
macrostates ⟨T, ∅, empty rank, 0, false⟩ with T reachable from `start` by
repeatedly applying `succSet` over alphabet symbols, the transition from each
state ⟨T, …⟩ on each symbol a is the singleton {⟨δ(T, a), ∅, empty rank, 0,
false⟩}, and the accepting set is empty; and on a well-formed automaton the
search returns within 2·(2^|Q| + 1) rounds. -/
theorem waiting_part_subset_construction (A : BuchiAutomaton) (start : IntSet) :
    (∀ fuel aut, complementSchNFA A start fuel = some aut →
      aut.initials = [waiting start] ∧
      (∀ x, x ∈ aut.states ↔ ∃ T, Reach A start T ∧ x = waiting T) ∧
      (∀ x ∈ aut.states, ∀ a ∈ A.alphabet,
        assocGet aut.trans (x, a) = [waiting (succSet A x.S a)]) ∧
      aut.finals = [] ∧ aut.alphabet = A.alphabet) ∧
    (A.WF → ∃ aut, complementSchNFA A start (2 * (nfaUniverse A start).length) = some aut) := by
  refine ⟨?_, ?_⟩
  · intro fuel aut h
    unfold complementSchNFA at h
    rw [Option.map_eq_some'] at h
    obtain ⟨s, hs, e⟩ := h
    have hres := whileLoop_inv (fun s => decide (s.stack.length > 0)) (nfaBody A)
      (NfaInv A start) (nfaBody_inv A start) fuel (nfaInit start) s (nfaInit_inv A start) hs
    have hinv := hres.1
    have hc := hres.2
    have hempty : s.stack = [] := by
      simp only [decide_eq_false_iff_not, not_lt, Nat.le_zero] at hc
      exact List.length_eq_zero.mp hc
    subst e
    refine ⟨rfl, ?_, ?_, hinv.no_final, rfl⟩
    · intro x
      constructor
      · intro hx; exact hinv.sound x hx
      · rintro ⟨T, hT, rfl⟩
        exact nfa_complete A start s hinv hempty T hT
    · intro x hx a ha
      exact (hinv.closed x hx (by rw [hempty]; exact List.not_mem_nil _) a ha).2
  · intro hA
    obtain ⟨s, hs⟩ := nfa_terminates A start hA
    unfold complementSchNFA
    rw [hs]
    exact ⟨_, rfl⟩

theorem scenario2_WF : scenario2.WF := by
  refine ⟨by unfold IntSet.WF; decide, ?_⟩
  intro q a q' h
  simp only [scenario2] at h ⊢
  split at h
  · simpa using h
  · split at h
    · simp only [List.mem_singleton] at h
      simp [h]
    · split at h
      · simp only [List.mem_singleton] at h
        simp [h]
      · simp at h

theorem waiting_part_subset_construction_witness :
    complementSchNFA scenario2 [0] 3 = some scenario2Waiting ∧ scenario2.WF ∧
    (scenario2Waiting.initials = [waiting [0]] ∧
      (∀ x, x ∈ scenario2Waiting.states ↔ ∃ T, Reach scenario2 [0] T ∧ x = waiting T) ∧
      (∀ x ∈ scenario2Waiting.states, ∀ a ∈ scenario2.alphabet,
        assocGet scenario2Waiting.trans (x, a) = [waiting (succSet scenario2 x.S a)]) ∧
      scenario2Waiting.finals = [] ∧ scenario2Waiting.alphabet = scenario2.alphabet) ∧
    (∃ aut, complementSchNFA scenario2 [0] (2 * (nfaUniverse scenario2 [0]).length)
      = some aut) :=
  ⟨by decide, scenario2_WF,
    (waiting_part_subset_construction scenario2 [0]).1 3 scenario2Waiting (by decide),
    (waiting_part_subset_construction scenario2 [0]).2 scenario2_WF⟩

/-! ## Searches that only grow -/

theorem grows_refl {σ : Type} (s : Search σ) : Grows s s :=
  ⟨fun _ h => h, fun _ h => h, fun _ h hn => absurd h hn, fun _ h => Or.inl h, rfl⟩

theorem grows_trans {σ : Type} {s s' s'' : Search σ} (h1 : Grows s s') (h2 : Grows s' s'') :
    Grows s s'' := by
  refine ⟨fun x h => h2.mono x (h1.mono x h), fun x h => h2.stack_mono x (h1.stack_mono x h),
    ?_, ?_, by rw [h2.finals_eq, h1.finals_eq]⟩
  · intro x hx hnx
    by_cases hm : x ∈ s'.comst
    · exact h2.stack_mono x (h1.fresh x hm hnx)
    · exact h2.fresh x hx hm
  · intro x hx
    rcases h2.stack_new x hx with h | h
    · rcases h1.stack_new x h with h' | h'
      · exact Or.inl h'
      · exact Or.inr (h2.mono x h')
    · exact Or.inr h

theorem grows_pushNew {σ : Type} [DecidableEq σ] (s : Search σ) (x : σ) :
    Grows s (pushNew s x) := by
  unfold pushNew
  by_cases h : x ∈ s.comst
  · simp only [h, not_true_eq_false, if_false]
    exact grows_refl s
  · simp only [h, not_false_eq_true, if_true]
    refine ⟨?_, ?_, ?_, ?_, rfl⟩
    · intro y hy
      exact (mem_insertNew _ _ _).mpr (Or.inl hy)
    · intro y hy
      exact List.mem_cons_of_mem _ hy
    · intro y hy hny
      rcases (mem_insertNew _ _ _).mp hy with h' | h'
      · exact absurd h' hny
      · rw [h']; exact List.mem_cons_self _ _
    · intro y hy
      rcases List.mem_cons.mp hy with h' | h'
      · exact Or.inr ((mem_insertNew _ _ _).mpr (Or.inr h'))
      · exact Or.inl h'

theorem grows_setMp {σ : Type} (s : Search σ) (mp : List ((σ × Nat) × List σ)) :
    Grows s { s with mp := mp } :=
  ⟨fun _ h => h, fun _ h => h, fun _ h hn => absurd h hn, fun _ h => Or.inl h, rfl⟩

theorem grows_visitSuccs {σ : Type} [DecidableEq σ] (succ : List σ) (s : Search σ) :
    Grows s (visitSuccs succ s).2 ∧ ∀ x ∈ succ, x ∈ (visitSuccs succ s).2.comst := by
  unfold visitSuccs
  have aux : ∀ (l : List σ) (acc : List σ × Search σ),
      Grows acc.2 (l.foldl (fun acc x => (insertNew acc.1 x, pushNew acc.2 x)) acc).2 ∧
      ∀ x ∈ l, x ∈ (l.foldl (fun acc x => (insertNew acc.1 x, pushNew acc.2 x)) acc).2.comst := by
    intro l
    induction l with
    | nil => intro acc; exact ⟨grows_refl _, fun x hx => absurd hx (List.not_mem_nil x)⟩
    | cons y ys ih =>
      intro acc
      simp only [List.foldl_cons]
      have h1 := ih (insertNew acc.1 y, pushNew acc.2 y)
      have h2 := grows_pushNew acc.2 y
      refine ⟨grows_trans h2 h1.1, ?_⟩
      intro x hx
      rcases List.mem_cons.mp hx with e | hx
      · subst e
        apply h1.1.mono
        unfold pushNew
        by_cases hm : x ∈ acc.2.comst
        · simp [hm]
        · simp only [hm, not_false_eq_true, if_true]
          exact (mem_insertNew _ _ _).mpr (Or.inr rfl)
      · exact h1.2 x hx
  exact aux succ ([], s)

theorem grows_foldl {σ : Type} (step : Search σ → Nat → Search σ)
    (h : ∀ s a, Grows s (step s a)) (l : List Nat) (s : Search σ) :
    Grows s (l.foldl step s) := by
  induction l generalizing s with
  | nil => exact grows_refl s
  | cons a as ih =>
    simp only [List.foldl_cons]
    exact grows_trans (h s a) (ih _)

/-! ## The search of `complementKV` -/

theorem grows_kvSymStep (A : BuchiAutomaton) (st : StateKV) (s : Search StateKV) (sym : Nat) :
    Grows s (kvSymStep A st s sym) := by
  unfold kvSymStep
  exact grows_trans (grows_visitSuccs (succSetKV A st sym) s).1 (grows_setMp _ _)

theorem kvBody_inv (A : BuchiAutomaton) (s : Search StateKV) (h : KVInv s)
    (hc : decide (s.stack.length > 0) = true) : KVInv (kvBody A s) := by
  unfold kvBody
  cases hstack : s.stack with
  | nil => rw [hstack] at hc; simp at hc
  | cons st rest =>
    simp only
    have hg := grows_foldl (kvSymStep A st) (grows_kvSymStep A st) A.alphabet
      { stack := rest, comst := s.comst
        finals := if isKVFinal st then insertNew s.finals st else s.finals, mp := s.mp }
    have hstmem : st ∈ s.comst := h.stack_sub st (by rw [hstack]; exact List.mem_cons_self _ _)
    refine ⟨?_, ?_, ?_⟩
    · intro x hx
      rcases hg.stack_new x hx with h' | h'
      · exact hg.mono x (h.stack_sub x (by rw [hstack]; exact List.mem_cons_of_mem _ h'))
      · exact h'
    · intro x hx
      rw [hg.finals_eq] at hx
      simp only at hx
      split at hx
      · rename_i hfin
        rcases (mem_insertNew _ _ _).mp hx with h' | h'
        · exact ⟨hg.mono x (h.finals_sound x h').1, (h.finals_sound x h').2⟩
        · subst h'
          refine ⟨hg.mono x hstmem, ?_⟩
          unfold isKVFinal at hfin
          simp only [decide_eq_true_eq] at hfin
          exact List.length_eq_zero.mp hfin
      · exact ⟨hg.mono x (h.finals_sound x hx).1, (h.finals_sound x hx).2⟩
    · intro x hx hnx hO
      rw [hg.finals_eq]
      simp only
      have hxold : x ∈ s.comst := by
        by_contra hno
        exact hnx (hg.fresh x hx hno)
      have hxrest : x ∉ rest := fun hr => hnx (hg.stack_mono x hr)
      by_cases e : x = st
      · subst e
        have hfin : isKVFinal x = true := by
          unfold isKVFinal
          rw [hO]; rfl
        rw [hfin]
        simp only [if_true]
        exact (mem_insertNew _ _ _).mpr (Or.inr rfl)
      · have hxs : x ∉ s.stack := by
          rw [hstack]
          intro hm
          rcases List.mem_cons.mp hm with hm | hm
          · exact e hm
          · exact hxrest hm
        have := h.finals_complete x hxold hxs hO
        split
        · exact (mem_insertNew _ _ _).mpr (Or.inl this)
        · exact this

theorem kvInit_inv (A : BuchiAutomaton) : KVInv (kvInit A).1 := by
  unfold kvInit
  simp only
  have aux : ∀ (l : List RankFunc) (acc : Search StateKV × List StateKV),
      (∀ x ∈ acc.1.stack, x ∈ acc.1.comst) → (∀ x ∈ acc.1.comst, x ∈ acc.1.stack) →
      acc.1.finals = [] →
      KVInv (l.foldl
        (fun acc r =>
          ({ acc.1 with stack := ({ S := A.initials, O := [], f := r } : StateKV) :: acc.1.stack
                        comst := insertNew acc.1.comst { S := A.initials, O := [], f := r } },
            insertNew acc.2 ({ S := A.initials, O := [], f := r } : StateKV))) acc).1 := by
    intro l
    induction l with
    | nil =>
      intro acc h1 h2 h3
      refine ⟨h1, ?_, ?_⟩
      · intro x hx
        simp only [List.foldl_nil] at hx
        rw [h3] at hx
        exact absurd hx (List.not_mem_nil x)
      · intro x hx hnx
        exact absurd (h2 x hx) hnx
    | cons r rs ih =>
      intro acc h1 h2 h3
      simp only [List.foldl_cons]
      apply ih
      · intro x hx
        rcases List.mem_cons.mp hx with e | hx
        · exact (mem_insertNew _ _ _).mpr (Or.inr e)
        · exact (mem_insertNew _ _ _).mpr (Or.inl (h1 x hx))
      · intro x hx
        rcases (mem_insertNew _ _ _).mp hx with hx | e
        · exact List.mem_cons_of_mem _ (h2 x hx)
        · rw [e]; exact List.mem_cons_self _ _
      · exact h3
  exact aux _ _ (fun x hx => hx) (fun x hx => hx) rfl

theorem complementKV_finals (A : BuchiAutomaton) (fuel : Nat) (aut : MacroAut StateKV)
    (h : complementKV A fuel = some aut) (x : StateKV) :
    x ∈ aut.finals ↔ x ∈ aut.states ∧ x.O = [] := by
  unfold complementKV at h
  rw [Option.map_eq_some'] at h
  obtain ⟨s, hs, e⟩ := h
  have hres := whileLoop_inv (fun s => decide (s.stack.length > 0)) (kvBody A) KVInv
    (kvBody_inv A) fuel (kvInit A).1 s (kvInit_inv A) hs
  have hinv := hres.1
  have hc := hres.2
  have hempty : s.stack = [] := by
    simp only [decide_eq_false_iff_not, not_lt, Nat.le_zero] at hc
    exact List.length_eq_zero.mp hc
  subst e
  constructor
  · intro hx; exact hinv.finals_sound x hx
  · rintro ⟨hx, hO⟩
    exact hinv.finals_complete x hx (by rw [hempty]; exact List.not_mem_nil _) hO


/-! ## C6: acceptance in the reduced Schewe output -/

theorem installSink_fold (l : List (IntSet × Nat)) (acc : SinkAcc) (x : StateSch) :
    (x ∈ (l.foldl installSink acc).finals ↔
      x ∈ acc.finals ∨ ∃ k, k < l.length ∧ x = waiting [acc.newState + k]) ∧
    (x ∈ (l.foldl installSink acc).comst ↔
      x ∈ acc.comst ∨ ∃ k, k < l.length ∧ x = waiting [acc.newState + k]) := by
  induction l generalizing acc with
  | nil => simp
  | cons pr ps ih =>
    simp only [List.foldl_cons, List.length_cons]
    have h := ih (installSink acc pr)
    have hf : (installSink acc pr).finals = insertNew acc.finals (waiting [acc.newState]) := rfl
    have hc : (installSink acc pr).comst = insertNew acc.comst (waiting [acc.newState]) := rfl
    have hn : (installSink acc pr).newState = acc.newState + 1 := rfl
    rw [hf, hc, hn] at h
    simp only [mem_insertNew] at h
    constructor
    · rw [h.1]
      constructor
      · rintro ((h1 | h1) | ⟨k, hk, h1⟩)
        · exact Or.inl h1
        · exact Or.inr ⟨0, by omega, by rw [h1]; rfl⟩
        · exact Or.inr ⟨k + 1, by omega, by rw [h1]; congr 2; omega⟩
      · rintro (h1 | ⟨k, hk, h1⟩)
        · exact Or.inl (Or.inl h1)
        · cases k with
          | zero => exact Or.inl (Or.inr (by rw [h1]; rfl))
          | succ k => exact Or.inr ⟨k, by omega, by rw [h1]; congr 2; omega⟩
    · rw [h.2]
      constructor
      · rintro ((h1 | h1) | ⟨k, hk, h1⟩)
        · exact Or.inl h1
        · exact Or.inr ⟨0, by omega, by rw [h1]; rfl⟩
        · exact Or.inr ⟨k + 1, by omega, by rw [h1]; congr 2; omega⟩
      · rintro (h1 | ⟨k, hk, h1⟩)
        · exact Or.inl (Or.inl h1)
        · cases k with
          | zero => exact Or.inl (Or.inr (by rw [h1]; rfl))
          | succ k => exact Or.inr ⟨k, by omega, by rw [h1]; congr 2; omega⟩

theorem counted_refl {σ : Type} (s : Search σ) : Counted s s :=
  ⟨fun h => h, rfl, le_refl _⟩

theorem counted_trans {σ : Type} {s s' s'' : Search σ} (h1 : Counted s s')
    (h2 : Counted s' s'') : Counted s s'' :=
  ⟨fun h => h2.nodup (h1.nodup h), by have := h1.count; have := h2.count; omega,
    le_trans h1.mono h2.mono⟩

theorem counted_pushNew {σ : Type} [DecidableEq σ] (s : Search σ) (x : σ) :
    Counted s (pushNew s x) := by
  unfold pushNew
  by_cases h : x ∈ s.comst
  · simp only [h, not_true_eq_false, if_false]
    exact counted_refl s
  · simp only [h, not_false_eq_true, if_true]
    have e : insertNew s.comst x = s.comst ++ [x] := by
      unfold insertNew
      rw [if_neg h]
    refine ⟨fun hn => insertNew_nodup _ _ hn, ?_, ?_⟩
    · simp only [e, List.length_append, List.length_cons, List.length_nil]
      omega
    · simp only [e, List.length_append, List.length_cons, List.length_nil]
      omega

theorem counted_setMp {σ : Type} (s : Search σ) (mp : List ((σ × Nat) × List σ)) :
    Counted s { s with mp := mp } :=
  ⟨fun h => h, rfl, le_refl _⟩

theorem counted_visitSuccs {σ : Type} [DecidableEq σ] (succ : List σ) (s : Search σ) :
    Counted s (visitSuccs succ s).2 := by
  unfold visitSuccs
  have aux : ∀ (l : List σ) (acc : List σ × Search σ),
      Counted acc.2 (l.foldl (fun acc x => (insertNew acc.1 x, pushNew acc.2 x)) acc).2 := by
    intro l
    induction l with
    | nil => intro acc; exact counted_refl _
    | cons y ys ih =>
      intro acc
      simp only [List.foldl_cons]
      exact counted_trans (counted_pushNew acc.2 y) (ih (insertNew acc.1 y, pushNew acc.2 y))
  exact aux succ ([], s)

theorem counted_foldl {σ : Type} (step : Search σ → Nat → Search σ)
    (h : ∀ s a, Counted s (step s a)) (l : List Nat) (s : Search σ) :
    Counted s (l.foldl step s) := by
  induction l generalizing s with
  | nil => exact counted_refl s
  | cons a as ih =>
    simp only [List.foldl_cons]
    exact counted_trans (h s a) (ih _)

/-- A search whose rounds pop one macrostate and push only newly visited ones,
all within a finite universe, ends within twice the size of the universe plus
the initial height of the stack. -/
theorem search_terminates {σ : Type} (body : Search σ → Search σ) (Inv : Search σ → Prop)
    (U : List σ)
    (hInv : ∀ s, Inv s → decide (s.stack.length > 0) = true → Inv (body s))
    (hU : ∀ s, Inv s → ∀ x ∈ s.comst, x ∈ U)
    (hcount : ∀ s st rest, Inv s → s.stack = st :: rest →
      Counted { s with stack := rest } (body s))
    (s0 : Search σ) (h0 : Inv s0) (hn0 : s0.comst.Nodup) :
    ∃ s', whileLoop (fun s => decide (s.stack.length > 0)) body
      (2 * U.length + s0.stack.length) s0 = some s' := by
  apply whileLoop_terminates (fun s => decide (s.stack.length > 0)) body
    (fun s => Inv s ∧ s.comst.Nodup) (fun s => 2 * (U.length - s.comst.length) + s.stack.length)
  · rintro s ⟨h1, h2⟩ hc
    refine ⟨hInv s h1 hc, ?_⟩
    cases hstack : s.stack with
    | nil => rw [hstack] at hc; simp at hc
    | cons st rest => exact (hcount s st rest h1 hstack).nodup h2
  · rintro s ⟨h1, h2⟩ hc
    cases hstack : s.stack with
    | nil => rw [hstack] at hc; simp at hc
    | cons st rest =>
      have hcnt := hcount s st rest h1 hstack
      have hnd := hcnt.nodup h2
      have hle : (body s).comst.length ≤ U.length :=
        (List.subperm_of_subset hnd (hU (body s) (hInv s h1 hc))).length_le
      have h3 := hcnt.count
      have h4 := hcnt.mono
      simp only [List.length_cons] at h3 h4 ⊢
      omega
  · exact ⟨h0, hn0⟩
  · omega

theorem counted_kvBody (A : BuchiAutomaton) (s : Search StateKV) (st : StateKV)
    (rest : List StateKV) (hstack : s.stack = st :: rest) :
    Counted { s with stack := rest } (kvBody A s) := by
  unfold kvBody
  rw [hstack]
  simp only
  have h := counted_foldl (kvSymStep A st)
    (fun s a => counted_trans (counted_visitSuccs (succSetKV A st a) s) (counted_setMp _ _))
    A.alphabet
    { stack := rest, comst := s.comst
      finals := if isKVFinal st then insertNew s.finals st else s.finals, mp := s.mp }
  exact ⟨h.nodup, h.count, h.mono⟩

theorem sorted_subset_mem_sublists (L T : IntSet) (hL : IntSet.WF L) (hT : IntSet.WF T)
    (hsub : ∀ q ∈ T, q ∈ L) : T ∈ L.sublists := by
  rw [List.mem_sublists]
  apply List.sublist_of_subperm_of_sorted _ hT hL
  exact List.subperm_of_subset (IntSet.WF.nodup hT) hsub

theorem succSet_mem_sublists (A : BuchiAutomaton) (hA : A.WF) (T : IntSet) (a : Nat) :
    succSet A T a ∈ A.states.sublists := by
  apply sorted_subset_mem_sublists _ _ hA.1 (succSet_WF A T a)
  intro q hq
  obtain ⟨p, _, hp⟩ := (mem_succSet A T a q).mp hq
  exact hA.2 p a q hp

theorem mem_kvUniverse (A : BuchiAutomaton) (x : StateKV) :
    x ∈ kvUniverse A ↔
      (x.S = A.initials ∨ x.S ∈ A.states.sublists) ∧ x.O ∈ A.states.sublists ∧
        x.f ∈ getKVRanks A (fun _ => 2 * (A.states.length : Int)) x.S := by
  unfold kvUniverse
  simp only [List.mem_flatMap, List.mem_map, List.mem_cons]
  constructor
  · rintro ⟨S, hS, O, hO, r, hr, rfl⟩
    refine ⟨?_, hO, hr⟩
    rcases hS with h | h
    · exact Or.inl h
    · exact Or.inr h
  · rintro ⟨hS, hO, hr⟩
    refine ⟨x.S, ?_, x.O, hO, x.f, hr, rfl⟩
    rcases hS with h | h
    · exact Or.inl h
    · exact Or.inr h

theorem kvCeil_mem_ranks (A : BuchiAutomaton) (state : StateKV) (symbol : Nat) (r' : RankFunc)
    (h : KVCeil A state symbol r') :
    r' ∈ getKVRanks A (fun _ => 2 * (A.states.length : Int)) (succSet A state.S symbol) := by
  obtain ⟨hk, hb, he⟩ := h
  unfold getKVRanks rankConstr
  rw [mem_fromRankConstr_map
    (fun st => countUp 0 (if st ∈ A.finals then 2 else 1) (2 * (A.states.length : Int)))]
  have hwf : RankFunc.WF r' := by
    unfold RankFunc.WF
    have hk' : r'.map Prod.fst = succSet A state.S symbol := hk
    rw [hk']
    exact succSet_WF A state.S symbol
  refine ⟨hk, ?_⟩
  rintro ⟨k, v⟩ hkv
  obtain ⟨hkeys, hget⟩ := (mem_iff_get r' hwf k v).mp hkv
  have hq : k ∈ succSet A state.S symbol := by rw [← hk]; exact hkeys
  obtain ⟨h0, h1, _⟩ := hb k hq
  rw [hget] at h0 h1
  have hinc : 0 < (if k ∈ A.finals then 2 else 1 : Nat) := by split <;> omega
  show v ∈ countUp 0 (if k ∈ A.finals then 2 else 1) _
  rw [mem_countUp_zero _ hinc]
  refine ⟨h0, h1, ?_⟩
  by_cases hf : k ∈ A.finals
  · have := he k hq hf
    rw [hget] at this
    simp only [hf, if_true]
    exact_mod_cast this
  · simp only [hf, if_false]
    simp

theorem succSetKV_in_universe (A : BuchiAutomaton) (hA : A.WF) (st : StateKV) (a : Nat)
    (y : StateKV) (hy : y ∈ succSetKV A st a) : y ∈ kvUniverse A := by
  obtain ⟨r', hr', e⟩ := (mem_succSetKV A st a y).mp hy
  rw [mem_kvUniverse, e]
  refine ⟨Or.inr (succSet_mem_sublists A hA st.S a), ?_, kvCeil_mem_ranks A st a r' hr'⟩
  show setDifference _ _ ∈ A.states.sublists
  rw [List.mem_sublists]
  have hsub : (if st.O.length = 0 then succSet A st.S a else succSet A st.O a)
      ∈ A.states.sublists := by
    split
    · exact succSet_mem_sublists A hA st.S a
    · exact succSet_mem_sublists A hA st.O a
  rw [List.mem_sublists] at hsub
  exact (List.filter_sublist _).trans hsub

theorem visitSuccs_comst {σ : Type} [DecidableEq σ] (succ : List σ) (s : Search σ) (x : σ)
    (hx : x ∈ (visitSuccs succ s).2.comst) : x ∈ s.comst ∨ x ∈ succ := by
  unfold visitSuccs at hx
  have aux : ∀ (l : List σ) (acc : List σ × Search σ),
      x ∈ (l.foldl (fun acc x => (insertNew acc.1 x, pushNew acc.2 x)) acc).2.comst →
      x ∈ acc.2.comst ∨ x ∈ l := by
    intro l
    induction l with
    | nil => intro acc h; exact Or.inl h
    | cons y ys ih =>
      intro acc h
      simp only [List.foldl_cons] at h
      rcases ih _ h with h1 | h1
      · have h2 : x ∈ (pushNew acc.2 y).comst := h1
        unfold pushNew at h2
        by_cases hm : y ∈ acc.2.comst
        · simp only [hm, not_true_eq_false, if_false] at h2
          exact Or.inl h2
        · simp only [hm, not_false_eq_true, if_true] at h2
          rcases (mem_insertNew _ _ _).mp h2 with h3 | h3
          · exact Or.inl h3
          · exact Or.inr (h3 ▸ List.mem_cons_self _ _)
      · exact Or.inr (List.mem_cons_of_mem _ h1)
  exact aux succ ([], s) hx

theorem kvBody_universe (A : BuchiAutomaton) (hA : A.WF) (s : Search StateKV)
    (h : ∀ x ∈ s.comst, x ∈ kvUniverse A) : ∀ x ∈ (kvBody A s).comst, x ∈ kvUniverse A := by
  unfold kvBody
  cases hstack : s.stack with
  | nil => exact h
  | cons st rest =>
    simp only
    have aux : ∀ (l : List Nat) (s1 : Search StateKV),
        (∀ x ∈ s1.comst, x ∈ kvUniverse A) →
        ∀ x ∈ (l.foldl (kvSymStep A st) s1).comst, x ∈ kvUniverse A := by
      intro l
      induction l with
      | nil => intro s1 h1; exact h1
      | cons a as ih =>
        intro s1 h1
        simp only [List.foldl_cons]
        apply ih
        intro x hx
        have hx' : x ∈ (visitSuccs (succSetKV A st a) s1).2.comst := hx
        rcases visitSuccs_comst _ _ x hx' with h2 | h2
        · exact h1 x h2
        · exact succSetKV_in_universe A hA st a x h2
    exact aux A.alphabet _ h

/-! ## C7: acceptance in the KV output -/

theorem kvInit_universe (A : BuchiAutomaton) :
    (∀ x ∈ (kvInit A).1.comst, x ∈ kvUniverse A) ∧ (kvInit A).1.comst.Nodup := by
  unfold kvInit
  simp only
  have aux : ∀ (l : List RankFunc) (acc : Search StateKV × List StateKV),
      (∀ r ∈ l, r ∈ getKVRanks A (fun _ => 2 * (A.states.length : Int)) A.initials) →
      (∀ x ∈ acc.1.comst, x ∈ kvUniverse A) → acc.1.comst.Nodup →
      (∀ x ∈ (l.foldl
        (fun acc r =>
          ({ acc.1 with stack := ({ S := A.initials, O := [], f := r } : StateKV) :: acc.1.stack
                        comst := insertNew acc.1.comst { S := A.initials, O := [], f := r } },
            insertNew acc.2 ({ S := A.initials, O := [], f := r } : StateKV))) acc).1.comst,
        x ∈ kvUniverse A) ∧
      (l.foldl
        (fun acc r =>
          ({ acc.1 with stack := ({ S := A.initials, O := [], f := r } : StateKV) :: acc.1.stack
                        comst := insertNew acc.1.comst { S := A.initials, O := [], f := r } },
            insertNew acc.2 ({ S := A.initials, O := [], f := r } : StateKV))) acc).1.comst.Nodup := by
    intro l
    induction l with
    | nil => intro acc _ h1 h2; exact ⟨h1, h2⟩
    | cons r rs ih =>
      intro acc hl h1 h2
      simp only [List.foldl_cons]
      apply ih
      · intro r' hr'; exact hl r' (List.mem_cons_of_mem _ hr')
      · intro x hx
        rcases (mem_insertNew _ _ _).mp hx with hx | e
        · exact h1 x hx
        · rw [e, mem_kvUniverse]
          exact ⟨Or.inl rfl, by simp, hl r (List.mem_cons_self _ _)⟩
      · exact insertNew_nodup _ _ h2
  exact aux _ _ (fun r hr => hr) (fun x hx => absurd hx (List.not_mem_nil x)) List.nodup_nil

theorem kv_terminates (A : BuchiAutomaton) (hA : A.WF) :
    ∃ s, whileLoop (fun s => decide (s.stack.length > 0)) (kvBody A)
      (2 * (kvUniverse A).length + (kvInit A).1.stack.length) (kvInit A).1 = some s :=
  search_terminates (kvBody A) (fun s => ∀ x ∈ s.comst, x ∈ kvUniverse A) (kvUniverse A)
    (fun s h _ => kvBody_universe A hA s h) (fun _ h => h)
    (fun s st rest _ hstack => counted_kvBody A s st rest hstack)
    (kvInit A).1 (kvInit_universe A).1 (kvInit_universe A).2

/-- C7. Whenever `complementKV` returns, a macrostate ⟨S, O, r⟩ belongs to the
accepting set of the returned automaton if and only if it is a state of that
automaton and O = ∅; and on a well-formed automaton the search returns
within twice the number of KV macrostates over Q plus the number of initial
macrostates. -/
theorem kv_acceptance (A : BuchiAutomaton) :
    (∀ fuel aut, complementKV A fuel = some aut →
      ∀ x, x ∈ aut.finals ↔ x ∈ aut.states ∧ x.O = []) ∧
    (A.WF → ∃ aut, complementKV A
      (2 * (kvUniverse A).length + (kvInit A).1.stack.length) = some aut) := by
  refine ⟨fun fuel aut h x => complementKV_finals A fuel aut h x, ?_⟩
  intro hA
  obtain ⟨s, hs⟩ := kv_terminates A hA
  unfold complementKV
  rw [hs]
  exact ⟨_, rfl⟩

theorem oneAut_WF : oneAut.WF := by
  refine ⟨by unfold IntSet.WF; decide, ?_⟩
  intro q a q' h
  simp only [oneAut] at h ⊢
  split at h
  · simpa using h
  · simp at h

theorem kv_acceptance_witness :
    complementKV oneAut 6 = some oneAutKV ∧ oneAut.WF ∧
    (oneKV [] 1 ∈ oneAutKV.finals ↔ oneKV [] 1 ∈ oneAutKV.states ∧ (oneKV [] 1).O = []) ∧
    (∃ aut, complementKV oneAut
      (2 * (kvUniverse oneAut).length + (kvInit oneAut).1.stack.length) = some aut) :=
  ⟨by decide, oneAut_WF,
    (kv_acceptance oneAut).1 6 oneAutKV (by decide) (oneKV [] 1),
    (kv_acceptance oneAut).2 oneAut_WF⟩

/-! ## The gate of the rank cache in `getSchRanksTightReduced` -/

/-- C11. When `succEmptyCheck` is off, or `|S| > CacheMaxState`, or
`max r > CacheMaxRank`, the function `getSchRanksTightReduced` leaves the rank
cache as it was, its result depends neither on the cache nor on the
enumerator, and the result is `[m]` if `m` is tight with `max m = max r` and
the empty list otherwise, where `m` is defined exactly on the states of
`S'` and assigns every state of `S'` its ceiling. -/
theorem cache_gate_closed (A : BuchiAutomaton) (opt : ComplOptions) (tightSucc : TightEnum)
    (cache : RankCache) (max : Nat → Int) (states : IntSet) (symbol : Nat)
    (macrostate : StateSch) (reachCons : Nat → Int) (reachMax : Int)
    (dirRel oddRel : BackRel)
    (hgate : opt.succEmptyCheck = false ∨ opt.CacheMaxState < macrostate.S.length ∨
      opt.CacheMaxRank < macrostate.f.getMaxRank) :
    (getSchRanksTightReduced A opt tightSucc cache max states symbol macrostate reachCons
      reachMax dirRel oddRel).2 = cache ∧
    (getSchRanksTightReduced A opt tightSucc cache max states symbol macrostate reachCons
      reachMax dirRel oddRel).1 =
      (if (sngMap max states).isTightRank = true ∧
          (sngMap max states).getMaxRank = macrostate.f.getMaxRank
        then [sngMap max states] else []) ∧
    (∀ q ∈ states, (sngMap max states).get q = max q) ∧
    (∀ q, q ∈ (sngMap max states).keys ↔ q ∈ states) ∧
    (∀ (tightSucc2 : TightEnum) (cache2 : RankCache),
      (getSchRanksTightReduced A opt tightSucc2 cache2 max states symbol macrostate reachCons
        reachMax dirRel oddRel).1 =
      (getSchRanksTightReduced A opt tightSucc cache max states symbol macrostate reachCons
        reachMax dirRel oddRel).1) := by
  have hres : ∀ (ts : TightEnum) (c : RankCache),
      rankSetSize opt ts c (states.map (singleConst A max)) (states.map max) symbol
        macrostate reachCons reachMax dirRel oddRel = (1, c) := by
    intro ts c
    unfold rankSetSize
    rw [if_neg]
    rintro ⟨h1, h2, h3⟩
    rcases hgate with h | h | h
    · rw [h] at h1
      exact absurd h1 (by decide)
    · omega
    · omega
  have hout : ∀ (ts : TightEnum) (c : RankCache),
      getSchRanksTightReduced A opt ts c max states symbol macrostate reachCons
        reachMax dirRel oddRel =
      ((if (sngMap max states).isTightRank = true ∧
          (sngMap max states).getMaxRank = macrostate.f.getMaxRank
        then [sngMap max states] else []), c) := by
    intro ts c
    unfold getSchRanksTightReduced
    simp only [hres ts c]
    by_cases hc : (sngMap max states).isTightRank = true ∧
        (sngMap max states).getMaxRank = macrostate.f.getMaxRank
    · rw [if_pos hc, if_pos ⟨hc.1, hc.2, by decide⟩]
    · rw [if_neg hc, if_neg]
      rintro ⟨h1, h2, _⟩
      exact hc ⟨h1, h2⟩
  refine ⟨by rw [hout], by rw [hout], ?_, ?_, ?_⟩
  · intro q hq
    rw [get_sngMap, if_pos hq]
  · intro q
    exact keys_sngMap max states q
  · intro ts2 c2
    rw [hout, hout]

theorem cache_gate_closed_witness :
    (plainOpt.succEmptyCheck = false ∨ plainOpt.CacheMaxState < loopState.S.length ∨
      plainOpt.CacheMaxRank < loopState.f.getMaxRank) ∧
    (getSchRanksTightReduced loopAut plainOpt noRanks idCache (fun q => loopState.f.get q)
      [0, 1, 2, 3] 0 loopState (fun _ => 0) 4 [] []).2 = idCache ∧
    (getSchRanksTightReduced loopAut plainOpt noRanks idCache (fun q => loopState.f.get q)
      [0, 1, 2, 3] 0 loopState (fun _ => 0) 4 [] []).1 = [loopState.f] :=
  ⟨by decide,
    (cache_gate_closed loopAut plainOpt noRanks idCache (fun q => loopState.f.get q)
      [0, 1, 2, 3] 0 loopState (fun _ => 0) 4 [] [] (by decide)).1,
    by decide⟩

/-! ## The `eta4` switch of `succSetSchTightReduced` -/

/-- Membership in the result of one round of the loop over `ret`, exactly. -/
theorem mem_retAllStep_iff (A : BuchiAutomaton) (opt : ComplOptions) (state : StateSch)
    (eta4 : Bool) (retAll : List StateSch) (st x : StateSch) :
    x ∈ retAllStep A opt state eta4 retAll st ↔
      x ∈ retAll ∨ x = st ∨
        (¬ (eta4 = true ∧ (setIntersection st.S A.finals).length = 0) ∧
          state.O.length ≠ 0 ∧ (opt.cutPoint = true → st.i ≠ 0 ∨ st.O.length = 0) ∧
          x = decreased A st) := by
  unfold retAllStep
  simp only
  by_cases h1 : eta4 = true ∧ (setIntersection st.S A.finals).length = 0
  · rw [if_pos h1, mem_insertNew]
    constructor
    · rintro (h | h)
      · exact Or.inl h
      · exact Or.inr (Or.inl h)
    · rintro (h | h | ⟨h, _⟩)
      · exact Or.inl h
      · exact Or.inr h
      · exact absurd h1 h
  · rw [if_neg h1]
    by_cases h2 : state.O.length = 0
    · rw [if_pos h2, mem_insertNew]
      constructor
      · rintro (h | h)
        · exact Or.inl h
        · exact Or.inr (Or.inl h)
      · rintro (h | h | ⟨_, h, _⟩)
        · exact Or.inl h
        · exact Or.inr h
        · exact absurd h2 h
    · rw [if_neg h2]
      by_cases h3 : opt.cutPoint = true
      · rw [if_pos h3]
        by_cases h4 : st.i ≠ 0 ∨ st.O.length = 0
        · rw [if_pos h4, mem_insertNew, mem_insertNew]
          constructor
          · rintro ((h | h) | h)
            · exact Or.inl h
            · exact Or.inr (Or.inl h)
            · exact Or.inr (Or.inr ⟨h1, h2, fun _ => h4, h⟩)
          · rintro (h | h | ⟨_, _, _, h⟩)
            · exact Or.inl (Or.inl h)
            · exact Or.inl (Or.inr h)
            · exact Or.inr h
        · rw [if_neg h4, mem_insertNew]
          constructor
          · rintro (h | h)
            · exact Or.inl h
            · exact Or.inr (Or.inl h)
          · rintro (h | h | ⟨_, _, h, _⟩)
            · exact Or.inl h
            · exact Or.inr h
            · exact absurd (h h3) h4
      · rw [if_neg h3, mem_insertNew, mem_insertNew]
        constructor
        · rintro ((h | h) | h)
          · exact Or.inl h
          · exact Or.inr (Or.inl h)
          · exact Or.inr (Or.inr ⟨h1, h2, fun h => absurd h h3, h⟩)
        · rintro (h | h | ⟨_, _, _, h⟩)
          · exact Or.inl (Or.inl h)
          · exact Or.inl (Or.inr h)
          · exact Or.inr h

/-- Membership in the result of the loop over `ret`, exactly. -/
theorem mem_retAll_foldl_iff (A : BuchiAutomaton) (opt : ComplOptions) (state : StateSch)
    (eta4 : Bool) (ret : List StateSch) (retAll : List StateSch) (x : StateSch) :
    x ∈ ret.foldl (retAllStep A opt state eta4) retAll ↔
      x ∈ retAll ∨ ∃ st ∈ ret, x = st ∨
        (¬ (eta4 = true ∧ (setIntersection st.S A.finals).length = 0) ∧
          state.O.length ≠ 0 ∧ (opt.cutPoint = true → st.i ≠ 0 ∨ st.O.length = 0) ∧
          x = decreased A st) := by
  induction ret generalizing retAll with
  | nil => simp
  | cons r rs ih =>
    rw [List.foldl_cons, ih, mem_retAllStep_iff]
    constructor
    · rintro ((h | h) | ⟨st, hst, h⟩)
      · exact Or.inl h
      · exact Or.inr ⟨r, List.mem_cons_self _ _, h⟩
      · exact Or.inr ⟨st, List.mem_cons_of_mem _ hst, h⟩
    · rintro (h | ⟨st, hst, h⟩)
      · exact Or.inl (Or.inl h)
      · rcases List.mem_cons.mp hst with e | hst
        · subst e
          exact Or.inl (Or.inr h)
        · exact Or.inr ⟨st, hst, h⟩

/-- The loop over `ret` returns nothing only for an empty `ret`. -/
theorem retAll_foldl_eq_nil (A : BuchiAutomaton) (opt : ComplOptions) (state : StateSch)
    (eta4 : Bool) (ret : List StateSch) :
    ret.foldl (retAllStep A opt state eta4) [] = [] ↔ ret = [] := by
  constructor
  · intro h
    cases ret with
    | nil => rfl
    | cons x xs =>
      have hx : x ∈ (x :: xs).foldl (retAllStep A opt state eta4) [] :=
        (mem_retAll_foldl_iff A opt state eta4 (x :: xs) [] x).mpr
          (Or.inr ⟨x, List.mem_cons_self _ _, Or.inl rfl⟩)
      rw [h] at hx
      exact absurd hx (List.not_mem_nil x)
  · intro h
    rw [h]
    rfl

/-- C17. With `eta4` enabled, a successor set `S'` without accepting state
makes `succSetSchTightReduced` return nothing but the successor on the ceiling
rank (no successor with decremented ranks is generated); and for every input
each successor returned with `eta4` enabled is also returned with `eta4`
disabled, the cache afterwards being the same. -/
theorem eta4_prunes (A : BuchiAutomaton) (opt : ComplOptions)
    (rankBound : IntSet → Int) (tightSucc : TightEnum) (cache : RankCache)
    (state : StateSch) (symbol : Nat) (reachCons : Nat → Int) (maxReach : IntSet → Int)
    (dirRel oddRel : BackRel) :
    ((∀ q ∈ succSet A state.S symbol, q ∉ A.finals) →
      (succSetSchTightReduced A opt rankBound tightSucc cache state symbol reachCons
        maxReach dirRel oddRel true).1 = [] ∨
      (succSetSchTightReduced A opt rankBound tightSucc cache state symbol reachCons
        maxReach dirRel oddRel true).1 =
        [mainSucc A opt state symbol (succSet A state.S symbol) (ceilRank A state symbol)]) ∧
    (∀ x ∈ (succSetSchTightReduced A opt rankBound tightSucc cache state symbol reachCons
        maxReach dirRel oddRel true).1,
      x ∈ (succSetSchTightReduced A opt rankBound tightSucc cache state symbol reachCons
        maxReach dirRel oddRel false).1) ∧
    (succSetSchTightReduced A opt rankBound tightSucc cache state symbol reachCons
        maxReach dirRel oddRel true).2 =
      (succSetSchTightReduced A opt rankBound tightSucc cache state symbol reachCons
        maxReach dirRel oddRel false).2 := by
  refine ⟨?_, ?_, ?_⟩
  · intro hfin
    unfold succSetSchTightReduced
    simp only
    split
    · exact Or.inl rfl
    · have hinter : ∀ r : RankFunc,
          (setIntersection (mainSucc A opt state symbol (succLoop A state symbol).sprime r).S
            A.finals).length = 0 := by
        intro r
        rw [mainSucc_S, succLoop_sprime, List.length_eq_zero, List.eq_nil_iff_forall_not_mem]
        intro q hq
        rw [mem_setIntersection] at hq
        exact hfin q hq.1 hq.2
      unfold getSchRanksTightReduced
      simp only
      split
      · right
        simp only [List.map_cons, List.map_nil, List.foldl_cons, List.foldl_nil]
        unfold retAllStep
        simp only
        rw [if_pos ⟨trivial, hinter _⟩]
        unfold ceilRank
        rw [succLoop_sprime]
        simp [insertNew]
      · left
        rfl
  · intro x hx
    unfold succSetSchTightReduced at hx ⊢
    simp only at hx ⊢
    split at hx
    · simp at hx
    · rename_i hb
      rw [if_neg hb]
      rw [mem_retAll_foldl_iff] at hx ⊢
      rcases hx with h | ⟨st, hst, h⟩
      · exact Or.inl h
      · refine Or.inr ⟨st, hst, ?_⟩
        rcases h with h | ⟨_, h2, h3, h4⟩
        · exact Or.inl h
        · exact Or.inr ⟨by simp, h2, h3, h4⟩
  · unfold succSetSchTightReduced
    simp only
    split <;> rfl

theorem eta4_prunes_witness :
    (∀ q ∈ succSet idAut idPending.S 0, q ∉ idAut.finals) ∧
    (succSetSchTightReduced idAut plainOpt (fun _ => 3) noRanks [] idPending 0
      (fun _ => 0) (fun _ => 3) [] [] true).1 =
      [mainSucc idAut plainOpt idPending 0 (succSet idAut idPending.S 0)
        (ceilRank idAut idPending 0)] ∧
    (succSetSchTightReduced idAut plainOpt (fun _ => 3) noRanks [] idPending 0
      (fun _ => 0) (fun _ => 3) [] [] false).1 =
      [idPending, { idPending with O := [], f := [(0, 3), (1, 1), (2, 1)] }] :=
  ⟨by decide,
    ((eta4_prunes idAut plainOpt (fun _ => 3) noRanks [] idPending 0
      (fun _ => 0) (fun _ => 3) [] []).1 (by decide)).resolve_left (by decide),
    by decide⟩

/-! ## The O-set of the successor on the ceiling rank -/

theorem decreaseFold_snd_WF (A : BuchiAutomaton) (O : IntSet) (acc : RankFunc × IntSet)
    (h : IntSet.WF acc.2) : IntSet.WF (O.foldl (decreaseStep A) acc).2 := by
  induction O generalizing acc with
  | nil => simpa using h
  | cons o os ih =>
    simp only [List.foldl_cons]
    apply ih
    rw [decreaseStep_snd]
    split
    · exact h
    · exact setInsert_WF o acc.2 h

/-- Two sorted sets with the same elements are the same list. -/
theorem IntSet.WF.ext {s t : IntSet} (hs : IntSet.WF s) (ht : IntSet.WF t)
    (h : ∀ q, q ∈ s ↔ q ∈ t) : s = t := by
  unfold IntSet.WF at hs ht
  exact List.eq_of_perm_of_sorted ((List.perm_ext_iff_of_nodup hs.nodup ht.nodup).mpr h) hs ht

/-- When the loop over the O-set leaves the rank function as it was, nothing
was decremented and the new O-set is the old one. -/
theorem decreaseO_unchanged (A : BuchiAutomaton) (f : RankFunc) (O : IntSet)
    (hO : IntSet.WF O) (h : (decreaseO A f O).1 = f) : (decreaseO A f O).2 = O := by
  rw [decreaseO_eq] at h ⊢
  have hnil : IntSet.WF (f, ([] : IntSet)).2 := List.Pairwise.nil
  apply IntSet.WF.ext (decreaseFold_snd_WF A O (f, []) hnil) hO
  intro q
  rw [decreaseFold_snd A O _ hO.nodup q]
  constructor
  · rintro (hq | ⟨hq, _⟩)
    · simp at hq
    · exact hq
  · intro hq
    refine Or.inr ⟨hq, ?_⟩
    intro hc
    have hg := decreaseFold_get A O (f, []) hO.nodup q
    rw [if_pos ⟨hq, hc⟩, h] at hg
    simp only at hg
    omega

theorem setDifference_WF (a b : IntSet) (h : IntSet.WF a) : IntSet.WF (setDifference a b) := by
  unfold IntSet.WF setDifference at *
  exact h.filter _

theorem setIntersection_WF (a b : IntSet) (h : IntSet.WF a) :
    IntSet.WF (setIntersection a b) := by
  unfold IntSet.WF setIntersection at *
  exact h.filter _

/-- The O-set of the main successor of a macrostate with pending states is
sorted. -/
theorem mainSucc_O_WF (A : BuchiAutomaton) (opt : ComplOptions) (state : StateSch)
    (symbol : Nat) (sprime : IntSet) (r : RankFunc) (hO : state.O.length ≠ 0) :
    IntSet.WF (mainSucc A opt state symbol sprime r).O := by
  unfold mainSucc
  simp only [if_neg hO]
  split
  · exact setIntersection_WF _ _ (succSet_WF A state.O symbol)
  · exact setDifference_WF _ _ (succSet_WF A state.O symbol)

/-- The main successor on the ceiling rank is returned whenever
`succSetSchTightReduced` returns anything. -/
theorem mainSucc_mem_of_ne_nil (A : BuchiAutomaton) (opt : ComplOptions)
    (rankBound : IntSet → Int) (tightSucc : TightEnum) (cache : RankCache)
    (state : StateSch) (symbol : Nat) (reachCons : Nat → Int) (maxReach : IntSet → Int)
    (dirRel oddRel : BackRel) (eta4 : Bool)
    (h : (succSetSchTightReduced A opt rankBound tightSucc cache state symbol reachCons
      maxReach dirRel oddRel eta4).1 ≠ []) :
    mainSucc A opt state symbol (succSet A state.S symbol) (ceilRank A state symbol) ∈
      (succSetSchTightReduced A opt rankBound tightSucc cache state symbol reachCons
        maxReach dirRel oddRel eta4).1 := by
  unfold succSetSchTightReduced at h ⊢
  simp only at h ⊢
  split
  · rename_i hg
    rw [if_pos hg] at h
    exact absurd rfl h
  · rename_i hg
    rw [if_neg hg] at h
    rw [Ne, retAll_foldl_eq_nil, List.map_eq_nil_iff] at h
    obtain ⟨r, hr⟩ := List.exists_mem_of_ne_nil _ h
    obtain ⟨e, _, _⟩ := getSchRanksTightReduced_out _ _ _ _ _ _ _ _ _ _ _ _ r hr
    have e1 : r = ceilRank A state symbol := e
    rw [mem_retAll_foldl_iff]
    refine Or.inr ⟨mainSucc A opt state symbol (succLoop A state symbol).sprime r,
      List.mem_map.mpr ⟨r, hr, rfl⟩, Or.inl ?_⟩
    rw [succLoop_sprime, e1]

/-- C16. Whenever `succSetSchTightReduced` returns a successor, it returns one
that carries the ceiling rank `r'`; and every returned successor that carries
`r'` is tight over S' = δ(S, a) and has, with `cutPoint` disabled, the index
`i' = 0` and the O-set `(S' if O = ∅, else δ(O, a))` without the states of odd
rank under `r'`; with `cutPoint` enabled its index is `(i + 2) % (max r + 1)`
if `O = ∅` and `i` otherwise, and its O-set is `inverseRank(r', i')` if `O = ∅`
and `δ(O, a) ∩ inverseRank(r', i')` otherwise. -/
theorem odd_complement_O_set (A : BuchiAutomaton) (opt : ComplOptions)
    (rankBound : IntSet → Int) (tightSucc : TightEnum) (cache : RankCache)
    (state : StateSch) (symbol : Nat) (reachCons : Nat → Int) (maxReach : IntSet → Int)
    (dirRel oddRel : BackRel) (eta4 : Bool) :
    ((succSetSchTightReduced A opt rankBound tightSucc cache state symbol reachCons
        maxReach dirRel oddRel eta4).1 ≠ [] →
      ∃ x ∈ (succSetSchTightReduced A opt rankBound tightSucc cache state symbol reachCons
        maxReach dirRel oddRel eta4).1, x.f = ceilRank A state symbol) ∧
    (∀ x ∈ (succSetSchTightReduced A opt rankBound tightSucc cache state symbol reachCons
        maxReach dirRel oddRel eta4).1, x.f = ceilRank A state symbol →
      x.S = succSet A state.S symbol ∧ x.tight = true ∧
      (opt.cutPoint = false →
        x.i = 0 ∧
        x.O = setDifference
          (if state.O = [] then succSet A state.S symbol else succSet A state.O symbol)
          x.f.getOddStates) ∧
      (opt.cutPoint = true →
        x.i = (if state.O = [] then Int.tmod (state.i + 2) (state.f.getMaxRank + 1)
          else state.i) ∧
        x.O = if state.O = [] then x.f.inverseRank x.i
          else setIntersection (succSet A state.O symbol) (x.f.inverseRank x.i))) := by
  refine ⟨?_, ?_⟩
  · intro hne
    exact ⟨_, mainSucc_mem_of_ne_nil A opt rankBound tightSucc cache state symbol reachCons
      maxReach dirRel oddRel eta4 hne, mainSucc_f _ _ _ _ _ _⟩
  intro x hx hf
  have hmain : x = mainSucc A opt state symbol (succSet A state.S symbol)
      (ceilRank A state symbol) := by
    obtain ⟨_, _, _, _, hcase⟩ := mem_succSetSchTightReduced A opt rankBound tightSucc cache
      state symbol reachCons maxReach dirRel oddRel eta4 x hx
    rcases hcase with h | ⟨hO, _, h⟩
    · exact h
    · rw [h] at hf ⊢
      unfold decreased at hf ⊢
      simp only at hf
      have h2 := decreaseO_unchanged A _ _
        (mainSucc_O_WF A opt state symbol (succSet A state.S symbol)
          (ceilRank A state symbol) hO)
        (hf.trans (mainSucc_f A opt state symbol _ _).symm)
      have h3 := hf.trans (mainSucc_f A opt state symbol (succSet A state.S symbol)
        (ceilRank A state symbol)).symm
      have h4 := mainSucc_tight A opt state symbol (succSet A state.S symbol)
        (ceilRank A state symbol)
      rw [h2, h3, ← h4]
  have hlen : state.O.length = 0 ↔ state.O = [] := List.length_eq_zero
  subst hmain
  refine ⟨mainSucc_S _ _ _ _ _ _, mainSucc_tight _ _ _ _ _ _, ?_, ?_⟩
  · intro hc
    unfold mainSucc
    simp only [hc, hlen]
    refine ⟨rfl, ?_⟩
    by_cases h0 : state.O = []
    · simp [h0]
    · simp [h0]
  · intro hc
    unfold mainSucc nextIndex
    simp only [hc, hlen]
    by_cases h0 : state.O = []
    · simp [h0]
    · simp [h0]

theorem odd_complement_O_set_witness :
    (idPending ∈ (succSetSchTightReduced idAut plainOpt (fun _ => 2) noRanks [] idQuery 0
        (fun _ => 0) (fun _ => 3) [] [] false).1 ∧
      idPending.f = ceilRank idAut idQuery 0 ∧ idQuery.O = [] ∧
      idPending.i = Int.tmod (idQuery.i + 2) (idQuery.f.getMaxRank + 1) ∧
      idPending.O = idPending.f.inverseRank idPending.i) ∧
    (loopState ∈ (succSetSchTightReduced loopAut plainOpt (fun _ => 2) noRanks [] loopState 0
        (fun _ => 0) (fun _ => 4) [] [] false).1 ∧
      loopState.f = ceilRank loopAut loopState 0 ∧ loopState.O ≠ [] ∧
      loopState.i = loopState.i ∧
      loopState.O = setIntersection (succSet loopAut loopState.O 0)
        (loopState.f.inverseRank loopState.i)) ∧
    (oddOpt.cutPoint = false ∧
      idOddSucc ∈ (succSetSchTightReduced idAut oddOpt (fun _ => 2) noRanks [] idQuery 0
        (fun _ => 0) (fun _ => 3) [] [] false).1 ∧
      idOddSucc.f = ceilRank idAut idQuery 0 ∧
      idOddSucc.i = 0 ∧
      idOddSucc.O = setDifference (succSet idAut idQuery.S 0) idOddSucc.f.getOddStates) ∧
    (loopOddSucc ∈ (succSetSchTightReduced loopAut oddOpt (fun _ => 2) noRanks []
        loopLate 0 (fun _ => 0) (fun _ => 4) [] [] false).1 ∧
      loopOddSucc.f = ceilRank loopAut loopLate 0 ∧ loopLate.O ≠ [] ∧
      loopOddSucc.i = 0 ∧
      loopOddSucc.O = setDifference (succSet loopAut loopLate.O 0)
        loopOddSucc.f.getOddStates) :=
  ⟨⟨by decide, by decide, by decide,
      (((odd_complement_O_set idAut plainOpt (fun _ => 2) noRanks [] idQuery 0
        (fun _ => 0) (fun _ => 3) [] [] false).2 idPending (by decide) (by decide)).2.2.2
          rfl).1.trans (by decide),
      (((odd_complement_O_set idAut plainOpt (fun _ => 2) noRanks [] idQuery 0
        (fun _ => 0) (fun _ => 3) [] [] false).2 idPending (by decide) (by decide)).2.2.2
          rfl).2.trans (by decide)⟩,
    ⟨by decide, by decide, by decide, rfl,
      (((odd_complement_O_set loopAut plainOpt (fun _ => 2) noRanks [] loopState 0
        (fun _ => 0) (fun _ => 4) [] [] false).2 loopState (by decide) (by decide)).2.2.2
          rfl).2.trans (by decide)⟩,
    ⟨rfl, by decide, by decide,
      (((odd_complement_O_set idAut oddOpt (fun _ => 2) noRanks [] idQuery 0
        (fun _ => 0) (fun _ => 3) [] [] false).2 idOddSucc (by decide) (by decide)).2.2.1
          rfl).1,
      (((odd_complement_O_set idAut oddOpt (fun _ => 2) noRanks [] idQuery 0
        (fun _ => 0) (fun _ => 3) [] [] false).2 idOddSucc (by decide) (by decide)).2.2.1
          rfl).2.trans (by decide)⟩,
    ⟨by decide, by decide, by decide,
      (((odd_complement_O_set loopAut oddOpt (fun _ => 2) noRanks [] loopLate 0
        (fun _ => 0) (fun _ => 4) [] [] false).2 loopOddSucc (by decide) (by decide)).2.2.1
          rfl).1,
      (((odd_complement_O_set loopAut oddOpt (fun _ => 2) noRanks [] loopLate 0
        (fun _ => 0) (fun _ => 4) [] [] false).2 loopOddSucc (by decide) (by decide)).2.2.1
          rfl).2.trans (by decide)⟩⟩

/-! ## The macrostates of the waiting part -/

/-- The macrostates of the automaton returned by `complementSchNFA` are the
waiting macrostates over the sets reachable from `start`. -/
theorem complementSchNFA_states (A : BuchiAutomaton) (start : IntSet) (fuel : Nat)
    (aut : MacroAut StateSch) (h : complementSchNFA A start fuel = some aut) (x : StateSch) :
    x ∈ aut.states ↔ ∃ T, Reach A start T ∧ x = waiting T := by
  unfold complementSchNFA at h
  rw [Option.map_eq_some'] at h
  obtain ⟨s, hs, e⟩ := h
  have hres := whileLoop_inv (fun s => decide (s.stack.length > 0)) (nfaBody A)
    (NfaInv A start) (nfaBody_inv A start) fuel (nfaInit start) s (nfaInit_inv A start) hs
  have hinv := hres.1
  have hc := hres.2
  have hempty : s.stack = [] := by
    simp only [decide_eq_false_iff_not, not_lt, Nat.le_zero] at hc
    exact List.length_eq_zero.mp hc
  subst e
  constructor
  · intro hx
    exact hinv.sound x hx
  · rintro ⟨T, hT, e⟩
    rw [e]
    exact nfa_complete A start s hinv hempty T hT

/-- On an automaton in which every state has a successor on every symbol, the
sets reachable from a non-empty set of states are non-empty sets of states. -/
theorem reach_nonempty (A : BuchiAutomaton) (start : IntSet) (hA : A.WF)
    (hstart : start ≠ []) (hsub : ∀ q ∈ start, q ∈ A.states)
    (htotal : ∀ q ∈ A.states, ∀ a ∈ A.alphabet, A.trans q a ≠ [])
    (T : IntSet) (hT : Reach A start T) : T ≠ [] ∧ ∀ q ∈ T, q ∈ A.states := by
  induction hT with
  | base => exact ⟨hstart, hsub⟩
  | step T a _ ha ih =>
    constructor
    · obtain ⟨p, hp⟩ := List.exists_mem_of_ne_nil T ih.1
      obtain ⟨q, hq⟩ := List.exists_mem_of_ne_nil _ (htotal p (ih.2 p hp) a ha)
      have hmem : q ∈ succSet A T a := (mem_succSet A T a q).mpr ⟨p, hp, hq⟩
      intro hnil
      rw [hnil] at hmem
      exact List.not_mem_nil _ hmem
    · intro q hq
      obtain ⟨p, _, hp⟩ := (mem_succSet A T a q).mp hq
      exact hA.2 p a q hp

/-- C14. On a well-formed automaton in which every state has at least one
successor on every alphabet symbol, and for a non-empty start set of states of
the automaton, every macrostate ⟨T, ∅, empty rank, 0, false⟩ of the waiting
part returned by `complementSchNFA` has `T ≠ ∅`. -/
theorem waiting_macrostates_nonempty (A : BuchiAutomaton) (start : IntSet) (hA : A.WF)
    (hstart : start ≠ []) (hsub : ∀ q ∈ start, q ∈ A.states)
    (htotal : ∀ q ∈ A.states, ∀ a ∈ A.alphabet, A.trans q a ≠ [])
    (fuel : Nat) (aut : MacroAut StateSch) (h : complementSchNFA A start fuel = some aut)
    (x : StateSch) (hx : x ∈ aut.states) : x.S ≠ [] := by
  obtain ⟨T, hT, e⟩ := (complementSchNFA_states A start fuel aut h x).mp hx
  rw [e]
  exact (reach_nonempty A start hA hstart hsub htotal T hT).1

theorem waiting_macrostates_nonempty_witness :
    scenario2.WF ∧ ([0] : IntSet) ≠ [] ∧ (∀ q ∈ ([0] : IntSet), q ∈ scenario2.states) ∧
    (∀ q ∈ scenario2.states, ∀ a ∈ scenario2.alphabet, scenario2.trans q a ≠ []) ∧
    complementSchNFA scenario2 [0] 3 = some scenario2Waiting ∧
    waiting [0, 1] ∈ scenario2Waiting.states ∧ (waiting [0, 1]).S ≠ [] :=
  ⟨scenario2_WF, by decide, by decide, by decide, by decide, by decide,
    waiting_macrostates_nonempty scenario2 [0] scenario2_WF (by decide) (by decide)
      (by decide) 3 scenario2Waiting (by decide) (waiting [0, 1]) (by decide)⟩

/-- C14, as stated, fails on the automaton `deadAut`, whose only state has no
successor: the search started in the non-empty set {0} returns a waiting part
that contains the macrostate over the empty set. -/
theorem waiting_macrostates_nonempty_counterexample :
    ¬ (∀ (A : BuchiAutomaton) (start : IntSet), start ≠ [] →
      ∀ (fuel : Nat) (aut : MacroAut StateSch), complementSchNFA A start fuel = some aut →
        ∀ x ∈ aut.states, x.S ≠ []) := by
  intro h
  have hrun : complementSchNFA deadAut [0] 2 =
      some { states := [waiting [0], waiting []], finals := [], initials := [waiting [0]],
             trans := [((waiting [0], 0), [waiting []]), ((waiting [], 0), [waiting []])],
             alphabet := [0] } := by decide
  exact h deadAut [0] (by decide) 2 _ hrun (waiting []) (by decide) rfl

/-! ## The state invariant of the KV construction -/

/-- A rank function holds, for each of its keys, the pair of the key and the
rank read at it. -/
theorem get_mem_of_key (f : RankFunc) (q : Nat) (h : q ∈ f.keys) : (q, f.get q) ∈ f := by
  induction f with
  | nil => simp [RankFunc.keys] at h
  | cons kv rest ih =>
    obtain ⟨k, v⟩ := kv
    simp only [RankFunc.get]
    by_cases e : k = q
    · rw [if_pos e, e]
      exact List.mem_cons_self _ _
    · rw [if_neg e]
      simp only [RankFunc.keys, List.map_cons, List.mem_cons] at h
      rcases h with h | h
      · exact absurd h.symm e
      · exact List.mem_cons_of_mem _ (ih h)

theorem mem_getOddStates (f : RankFunc) (h : RankFunc.WF f) (q : Nat) :
    q ∈ f.getOddStates ↔ q ∈ f.keys ∧ f.get q % 2 = 1 := by
  unfold RankFunc.getOddStates
  simp only [List.mem_map, List.mem_filter, decide_eq_true_eq, Prod.exists]
  constructor
  · rintro ⟨a, b, ⟨hm, hb⟩, rfl⟩
    have := (mem_iff_get f h a b).mp hm
    exact ⟨this.1, by rw [this.2]; exact hb⟩
  · rintro ⟨hk, hg⟩
    exact ⟨q, f.get q, ⟨(mem_iff_get f h q (f.get q)).mpr ⟨hk, rfl⟩, hg⟩, rfl⟩

/-- The KV successors of a macrostate with O ⊆ S keep the state invariant. -/
theorem succSetKV_stateInv (A : BuchiAutomaton) (st : StateKV) (a : Nat) (y : StateKV)
    (hst : ∀ q ∈ st.O, q ∈ st.S) (hy : y ∈ succSetKV A st a) : KVStateInv A y := by
  obtain ⟨r', ⟨hk, hb, he⟩, e⟩ := (mem_succSetKV A st a y).mp hy
  have hwf : RankFunc.WF r' := by
    unfold RankFunc.WF
    have hk' : r'.map Prod.fst = succSet A st.S a := hk
    rw [hk']
    exact succSet_WF A st.S a
  subst e
  have hO : ∀ q ∈ (kvSucc (succSet A st.S a)
      (if st.O.length = 0 then succSet A st.S a else succSet A st.O a) r').O,
      q ∈ succSet A st.S a ∧ q ∉ r'.getOddStates := by
    intro q hq
    have hq' := (mem_setDifference _ _ q).mp hq
    refine ⟨?_, hq'.2⟩
    have h1 := hq'.1
    split at h1
    · exact h1
    · obtain ⟨p, hp, hpq⟩ := (mem_succSet A st.O a q).mp h1
      exact (mem_succSet A st.S a q).mpr ⟨p, hst p hp, hpq⟩
  refine ⟨hk, ?_, he, ?_, ?_⟩
  · intro q hq
    exact ⟨(hb q hq).1, (hb q hq).2.1⟩
  · intro q hq
    exact (hO q hq).1
  · intro q hq
    obtain ⟨h1, h2⟩ := hO q hq
    rw [mem_getOddStates r' hwf] at h2
    have h3 : q ∈ r'.keys := by rw [hk]; exact h1
    have h4 : (kvSucc (succSet A st.S a)
      (if st.O.length = 0 then succSet A st.S a else succSet A st.O a) r').f = r' := rfl
    rw [h4]
    have h5 : ¬ r'.get q % 2 = 1 := fun h => h2 ⟨h3, h⟩
    omega

/-- The initial macrostates of `complementKV` have the state invariant. -/
theorem kvInitial_stateInv (A : BuchiAutomaton) (r : RankFunc)
    (hr : r ∈ getKVRanks A (fun _ => 2 * (A.states.length : Int)) A.initials) :
    KVStateInv A { S := A.initials, O := [], f := r } := by
  unfold getKVRanks rankConstr at hr
  rw [mem_fromRankConstr_map
    (fun st => countUp 0 (if st ∈ A.finals then 2 else 1) (2 * (A.states.length : Int)))] at hr
  obtain ⟨hk, hv⟩ := hr
  have hinc : ∀ st : Nat, 0 < (if st ∈ A.finals then 2 else 1 : Nat) := by
    intro st; split <;> omega
  have hval : ∀ q ∈ A.initials, r.get q ∈
      countUp 0 (if q ∈ A.finals then 2 else 1) (2 * (A.states.length : Int)) := by
    intro q hq
    have hq' : q ∈ r.keys := by
      unfold RankFunc.keys
      rw [hk]
      exact hq
    exact hv (q, r.get q) (get_mem_of_key r q hq')
  refine ⟨hk, ?_, ?_, ?_, ?_⟩
  · intro q hq
    have h1 := (mem_countUp_zero _ (hinc q) _ _).mp (hval q hq)
    exact ⟨h1.1, h1.2.1⟩
  · intro q hq hf
    have h1 := (mem_countUp_zero _ (hinc q) _ _).mp (hval q hq)
    have h2 := h1.2.2
    rw [if_pos hf] at h2
    push_cast at h2
    exact h2
  · intro q hq
    exact absurd hq (List.not_mem_nil q)
  · intro q hq
    exact absurd hq (List.not_mem_nil q)

theorem kvBody_stateInv (A : BuchiAutomaton) (s : Search StateKV)
    (h : KVInv s ∧ ∀ x ∈ s.comst, KVStateInv A x)
    (hc : decide (s.stack.length > 0) = true) :
    KVInv (kvBody A s) ∧ ∀ x ∈ (kvBody A s).comst, KVStateInv A x := by
  refine ⟨kvBody_inv A s h.1 hc, ?_⟩
  unfold kvBody
  cases hstack : s.stack with
  | nil => exact h.2
  | cons st rest =>
    simp only
    have hst : KVStateInv A st :=
      h.2 st (h.1.stack_sub st (by rw [hstack]; exact List.mem_cons_self _ _))
    have aux : ∀ (l : List Nat) (s1 : Search StateKV),
        (∀ x ∈ s1.comst, KVStateInv A x) →
        ∀ x ∈ (l.foldl (kvSymStep A st) s1).comst, KVStateInv A x := by
      intro l
      induction l with
      | nil => intro s1 h1; exact h1
      | cons a as ih =>
        intro s1 h1
        simp only [List.foldl_cons]
        apply ih
        intro x hx
        have hx' : x ∈ (visitSuccs (succSetKV A st a) s1).2.comst := hx
        rcases visitSuccs_comst _ _ x hx' with h2 | h2
        · exact h1 x h2
        · exact succSetKV_stateInv A st a x hst.2.2.2.1 h2
    exact aux A.alphabet _ h.2

theorem kvInit_stateInv (A : BuchiAutomaton) : ∀ x ∈ (kvInit A).1.comst, KVStateInv A x := by
  unfold kvInit
  simp only
  have aux : ∀ (l : List RankFunc) (acc : Search StateKV × List StateKV),
      (∀ r ∈ l, r ∈ getKVRanks A (fun _ => 2 * (A.states.length : Int)) A.initials) →
      (∀ x ∈ acc.1.comst, KVStateInv A x) →
      (∀ x ∈ (l.foldl
        (fun acc r =>
          ({ acc.1 with stack := ({ S := A.initials, O := [], f := r } : StateKV) :: acc.1.stack
                        comst := insertNew acc.1.comst { S := A.initials, O := [], f := r } },
            insertNew acc.2 ({ S := A.initials, O := [], f := r } : StateKV))) acc).1.comst,
        KVStateInv A x) := by
    intro l
    induction l with
    | nil => intro acc _ h1; exact h1
    | cons r rs ih =>
      intro acc hl h1
      simp only [List.foldl_cons]
      apply ih
      · intro r' hr'; exact hl r' (List.mem_cons_of_mem _ hr')
      · intro x hx
        rcases (mem_insertNew _ _ _).mp hx with hx | e
        · exact h1 x hx
        · rw [e]
          exact kvInitial_stateInv A r (hl r (List.mem_cons_self _ _))
  exact aux _ _ (fun r hr => hr) (fun x hx => absurd hx (List.not_mem_nil x))

/-- C15. Whenever `complementKV` returns, every macrostate ⟨S, O, r⟩ of the
returned automaton has r defined exactly on S, 0 ≤ r(q) ≤ 2|Q| for every
q ∈ S, r(q) even for every accepting q ∈ S, O ⊆ S, and every state of O of
even rank; and on a well-formed automaton the search returns within twice the
number of KV macrostates over Q plus the number of initial macrostates. -/
theorem kv_state_invariant (A : BuchiAutomaton) :
    (∀ fuel aut, complementKV A fuel = some aut → ∀ x ∈ aut.states,
      x.f.keys = x.S ∧
      (∀ q ∈ x.S, 0 ≤ x.f.get q ∧ x.f.get q ≤ 2 * (A.states.length : Int)) ∧
      (∀ q ∈ x.S, q ∈ A.finals → x.f.get q % 2 = 0) ∧
      (∀ q ∈ x.O, q ∈ x.S) ∧
      (∀ q ∈ x.O, x.f.get q % 2 = 0)) ∧
    (A.WF → ∃ aut, complementKV A
      (2 * (kvUniverse A).length + (kvInit A).1.stack.length) = some aut) := by
  refine ⟨?_, ?_⟩
  · intro fuel aut h x hx
    unfold complementKV at h
    rw [Option.map_eq_some'] at h
    obtain ⟨s, hs, e⟩ := h
    have hres := whileLoop_inv (fun s => decide (s.stack.length > 0)) (kvBody A)
      (fun s => KVInv s ∧ ∀ x ∈ s.comst, KVStateInv A x)
      (kvBody_stateInv A) fuel (kvInit A).1 s ⟨kvInit_inv A, kvInit_stateInv A⟩ hs
    subst e
    exact hres.1.2 x hx
  · intro hA
    obtain ⟨s, hs⟩ := kv_terminates A hA
    unfold complementKV
    rw [hs]
    exact ⟨_, rfl⟩

theorem kv_state_invariant_witness :
    complementKV oneAut 6 = some oneAutKV ∧ oneKV [0] 2 ∈ oneAutKV.states ∧ oneAut.WF ∧
    ((oneKV [0] 2).f.keys = (oneKV [0] 2).S ∧
      (∀ q ∈ (oneKV [0] 2).S, 0 ≤ (oneKV [0] 2).f.get q ∧
        (oneKV [0] 2).f.get q ≤ 2 * (oneAut.states.length : Int)) ∧
      (∀ q ∈ (oneKV [0] 2).S, q ∈ oneAut.finals → (oneKV [0] 2).f.get q % 2 = 0) ∧
      (∀ q ∈ (oneKV [0] 2).O, q ∈ (oneKV [0] 2).S) ∧
      (∀ q ∈ (oneKV [0] 2).O, (oneKV [0] 2).f.get q % 2 = 0)) ∧
    (∃ aut, complementKV oneAut
      (2 * (kvUniverse oneAut).length + (kvInit oneAut).1.stack.length) = some aut) :=
  ⟨by decide, by decide, oneAut_WF,
    (kv_state_invariant oneAut).1 6 oneAutKV (by decide) (oneKV [0] 2) (by decide),
    (kv_state_invariant oneAut).2 oneAut_WF⟩

/-! ## Back-relations -/

theorem length_vecPush {α : Type} (l : List (List α)) (i : Nat) (x : α) :
    (vecPush l i x).length = l.length := by
  induction l generalizing i with
  | nil => rfl
  | cons y ys ih =>
    cases i with
    | zero => rfl
    | succ j => simp [vecPush, ih]

theorem getD_vecPush {α : Type} (l : List (List α)) (i : Nat) (x : α) (j : Nat) :
    (vecPush l i x).getD j [] =
      if j = i ∧ i < l.length then l.getD i [] ++ [x] else l.getD j [] := by
  induction l generalizing i j with
  | nil => simp [vecPush]
  | cons y ys ih =>
    cases i with
    | zero =>
      cases j with
      | zero => simp [vecPush]
      | succ k => simp [vecPush]
    | succ i' =>
      cases j with
      | zero => simp [vecPush]
      | succ k =>
        simp only [vecPush, List.getD_cons_succ, ih, List.length_cons, Nat.succ_lt_succ_iff,
          Nat.succ.injEq]

theorem sum_length_vecPush {α : Type} (l : List (List α)) (i : Nat) (x : α)
    (h : i < l.length) :
    ((vecPush l i x).map List.length).sum = (l.map List.length).sum + 1 := by
  induction l generalizing i with
  | nil => simp at h
  | cons y ys ih =>
    cases i with
    | zero => simp [vecPush]; omega
    | succ j =>
      simp only [List.length_cons, Nat.succ_lt_succ_iff] at h
      simp only [vecPush, List.map_cons, List.sum_cons, ih j h]
      omega

theorem length_backRelStep (bRel : BackRel) (p : Nat × Nat) :
    (backRelStep bRel p).length = bRel.length := by
  unfold backRelStep
  split
  · rfl
  · split <;> exact length_vecPush _ _ _

/-- The entries of the lists after the loop of `createBackRel` over `rel`,
started with the vector `acc`. -/
theorem mem_backRel_fold (rel : List (Nat × Nat)) (acc : BackRel)
    (hrel : ∀ p ∈ rel, p.1 < acc.length ∧ p.2 < acc.length) (q : Nat) (e : Nat × Bool) :
    e ∈ (rel.foldl backRelStep acc).getD q [] ↔
      e ∈ acc.getD q [] ∨ ∃ p ∈ rel, p.1 ≠ p.2 ∧
        ((p.1 ≤ p.2 ∧ q = p.2 ∧ e = (p.1, false)) ∨ (p.2 < p.1 ∧ q = p.1 ∧ e = (p.2, true))) := by
  induction rel generalizing acc with
  | nil => simp
  | cons p ps ih =>
    have hp := hrel p (List.mem_cons_self _ _)
    have hps : ∀ p' ∈ ps, p'.1 < (backRelStep acc p).length ∧
        p'.2 < (backRelStep acc p).length := by
      intro p' hp'
      rw [length_backRelStep]
      exact hrel p' (List.mem_cons_of_mem _ hp')
    rw [List.foldl_cons, ih _ hps]
    have hstep : e ∈ (backRelStep acc p).getD q [] ↔
        e ∈ acc.getD q [] ∨ (p.1 ≠ p.2 ∧
          ((p.1 ≤ p.2 ∧ q = p.2 ∧ e = (p.1, false)) ∨
            (p.2 < p.1 ∧ q = p.1 ∧ e = (p.2, true)))) := by
      unfold backRelStep
      by_cases h1 : p.1 = p.2
      · rw [if_pos h1]
        simp [h1]
      · rw [if_neg h1]
        by_cases h2 : p.1 ≤ p.2
        · rw [if_pos h2, getD_vecPush]
          by_cases h3 : q = p.2
          · rw [if_pos ⟨h3, hp.2⟩, List.mem_append, List.mem_singleton, h3]
            constructor
            · rintro (h | h)
              · exact Or.inl h
              · exact Or.inr ⟨h1, Or.inl ⟨h2, rfl, h⟩⟩
            · rintro (h | ⟨_, ⟨_, _, h⟩ | ⟨h, _⟩⟩)
              · exact Or.inl h
              · exact Or.inr h
              · omega
          · rw [if_neg (fun h => h3 h.1)]
            constructor
            · intro h; exact Or.inl h
            · rintro (h | ⟨_, ⟨_, h, _⟩ | ⟨h, _⟩⟩)
              · exact h
              · exact absurd h h3
              · omega
        · rw [if_neg h2, getD_vecPush]
          by_cases h3 : q = p.1
          · rw [if_pos ⟨h3, hp.1⟩, List.mem_append, List.mem_singleton, h3]
            constructor
            · rintro (h | h)
              · exact Or.inl h
              · exact Or.inr ⟨h1, Or.inr ⟨by omega, rfl, h⟩⟩
            · rintro (h | ⟨_, ⟨h, _⟩ | ⟨_, _, h⟩⟩)
              · exact Or.inl h
              · exact absurd h h2
              · exact Or.inr h
          · rw [if_neg (fun h => h3 h.1)]
            constructor
            · intro h; exact Or.inl h
            · rintro (h | ⟨_, ⟨h, _⟩ | ⟨_, h, _⟩⟩)
              · exact h
              · exact absurd h h2
              · exact absurd h h3
    rw [hstep]
    constructor
    · rintro ((h | h) | ⟨p', hp', h⟩)
      · exact Or.inl h
      · exact Or.inr ⟨p, List.mem_cons_self _ _, h⟩
      · exact Or.inr ⟨p', List.mem_cons_of_mem _ hp', h⟩
    · rintro (h | ⟨p', hp', h⟩)
      · exact Or.inl (Or.inl h)
      · rcases List.mem_cons.mp hp' with e' | hp''
        · subst e'
          exact Or.inl (Or.inr h)
        · exact Or.inr ⟨p', hp'', h⟩

/-- The number of entries after the loop of `createBackRel` over `rel`. -/
theorem count_backRel_fold (rel : List (Nat × Nat)) (acc : BackRel)
    (hrel : ∀ p ∈ rel, p.1 < acc.length ∧ p.2 < acc.length) :
    (rel.foldl backRelStep acc).length = acc.length ∧
    (((rel.foldl backRelStep acc).map List.length).sum =
      (acc.map List.length).sum + (rel.filter (fun p => decide (p.1 ≠ p.2))).length) := by
  induction rel generalizing acc with
  | nil => simp
  | cons p ps ih =>
    have hp := hrel p (List.mem_cons_self _ _)
    have hps : ∀ p' ∈ ps, p'.1 < (backRelStep acc p).length ∧
        p'.2 < (backRelStep acc p).length := by
      intro p' hp'
      rw [length_backRelStep]
      exact hrel p' (List.mem_cons_of_mem _ hp')
    rw [List.foldl_cons]
    obtain ⟨h1, h2⟩ := ih _ hps
    rw [h1, h2, length_backRelStep]
    refine ⟨rfl, ?_⟩
    unfold backRelStep
    by_cases e : p.1 = p.2
    · rw [if_pos e, List.filter_cons_of_neg (by simpa using e)]
    · rw [if_neg e, List.filter_cons_of_pos (by simpa using e), List.length_cons]
      by_cases h3 : p.1 ≤ p.2
      · rw [if_pos h3, sum_length_vecPush _ _ _ hp.2]
        omega
      · rw [if_neg h3, sum_length_vecPush _ _ _ hp.1]
        omega

/-- C19. For a relation `rel` over the states `0..n−1`, `createBackRel(rel)`
is a vector of `n` lists in which `(p, false)` occurs in list `q` iff `p < q`
and `(p, q) ∈ rel`, and `(p, true)` occurs in list `q` iff `p < q` and
`(q, p) ∈ rel`; every entry of list `q` names a state below `q`, and the total
number of entries is the number of non-reflexive pairs of `rel`. -/
theorem back_relation (A : BuchiAutomaton) (rel : List (Nat × Nat))
    (hrel : ∀ p ∈ rel, p.1 < A.states.length ∧ p.2 < A.states.length) :
    (createBackRel A rel).length = A.states.length ∧
    (∀ q p, (p, false) ∈ (createBackRel A rel).getD q [] ↔ p < q ∧ (p, q) ∈ rel) ∧
    (∀ q p, (p, true) ∈ (createBackRel A rel).getD q [] ↔ p < q ∧ (q, p) ∈ rel) ∧
    (∀ q, ∀ e ∈ (createBackRel A rel).getD q [], e.1 < q) ∧
    ((createBackRel A rel).map List.length).sum =
      (rel.filter (fun p => decide (p.1 ≠ p.2))).length := by
  have hrel' : ∀ p ∈ rel, p.1 < (List.replicate A.states.length ([] : List (Nat × Bool))).length ∧
      p.2 < (List.replicate A.states.length ([] : List (Nat × Bool))).length := by
    intro p hp
    rw [List.length_replicate]
    exact hrel p hp
  have hempty : ∀ q, (List.replicate A.states.length ([] : List (Nat × Bool))).getD q [] = [] := by
    intro q
    rw [List.getD_eq_getElem?_getD, List.getElem?_replicate]
    split <;> rfl
  have hmem : ∀ q e, e ∈ (createBackRel A rel).getD q [] ↔ ∃ p ∈ rel, p.1 ≠ p.2 ∧
      ((p.1 ≤ p.2 ∧ q = p.2 ∧ e = (p.1, false)) ∨ (p.2 < p.1 ∧ q = p.1 ∧ e = (p.2, true))) := by
    intro q e
    unfold createBackRel
    rw [mem_backRel_fold rel _ hrel' q e, hempty]
    simp
  obtain ⟨hlen, hsum⟩ := count_backRel_fold rel _ hrel'
  refine ⟨?_, ?_, ?_, ?_, ?_⟩
  · unfold createBackRel
    rw [hlen, List.length_replicate]
  · intro q p
    rw [hmem]
    constructor
    · rintro ⟨⟨a, b⟩, hab, hne, ⟨hle, hq, he⟩ | ⟨_, _, he⟩⟩
      · simp only [Prod.mk.injEq, and_true] at he
        simp only at hne hle hq
        subst he hq
        exact ⟨by omega, hab⟩
      · simp at he
    · rintro ⟨hlt, hmem'⟩
      exact ⟨(p, q), hmem', by simp; omega, Or.inl ⟨by simp; omega, rfl, rfl⟩⟩
  · intro q p
    rw [hmem]
    constructor
    · rintro ⟨⟨a, b⟩, hab, hne, ⟨_, _, he⟩ | ⟨hlt, hq, he⟩⟩
      · simp at he
      · simp only [Prod.mk.injEq, and_true] at he
        simp only at hne hlt hq
        subst he hq
        exact ⟨hlt, hab⟩
    · rintro ⟨hlt, hmem'⟩
      exact ⟨(q, p), hmem', by simp; omega, Or.inr ⟨hlt, rfl, rfl⟩⟩
  · intro q e he
    rw [hmem] at he
    obtain ⟨p, _, hne, ⟨hle, hq, he⟩ | ⟨hlt, hq, he⟩⟩ := he
    · rw [he, hq]
      show p.1 < p.2
      omega
    · rw [he, hq]
      exact hlt
  · unfold createBackRel
    rw [hsum]
    simp

theorem back_relation_witness :
    (∀ p ∈ [(0, 0), (0, 1), (2, 1), (1, 2)], p.1 < idAut.states.length ∧
      p.2 < idAut.states.length) ∧
    createBackRel idAut [(0, 0), (0, 1), (2, 1), (1, 2)] =
      [[], [(0, false)], [(1, true), (1, false)]] ∧
    ((createBackRel idAut [(0, 0), (0, 1), (2, 1), (1, 2)]).map List.length).sum =
      ([(0, 0), (0, 1), (2, 1), (1, 2)].filter (fun p => decide (p.1 ≠ p.2))).length :=
  ⟨by decide, by decide,
    (back_relation idAut [(0, 0), (0, 1), (2, 1), (1, 2)] (by decide)).2.2.2.2⟩

/-! ## Exit codes of the command line -/

/-- The exit codes of `main` on well-formed arguments and an input file that
opens: 2 when the construction raises `bad_alloc`, otherwise 1 when an output
file was requested and cannot be opened, otherwise 0; and 1 on arguments that
are neither `prog INPUT` nor `prog INPUT -o OUTPUT`. -/
theorem main_exit_codes (argv : List String) (inputOpens badAlloc outputOpens : Bool) :
    (¬ (argv.length = 2 ∨ (argv.length = 4 ∧ argv.getD 2 "" = "-o")) →
      main argv inputOpens badAlloc outputOpens = 1) ∧
    ((argv.length = 2 ∨ (argv.length = 4 ∧ argv.getD 2 "" = "-o")) →
      (badAlloc = true → main argv true badAlloc outputOpens = 2) ∧
      (badAlloc = false → argv.length = 4 → argv.getD 3 "" ≠ "" → outputOpens = false →
        main argv true badAlloc outputOpens = 1) ∧
      (badAlloc = false → outputOpens = true → main argv true badAlloc outputOpens = 0) ∧
      (badAlloc = false → argv.length = 2 → main argv true badAlloc outputOpens = 0)) := by
  refine ⟨?_, ?_⟩
  · intro h
    unfold main
    rw [if_neg h]
  · intro h
    unfold main
    rw [if_pos h]
    refine ⟨?_, ?_, ?_, ?_⟩
    · intro hb
      simp [hb]
    · intro hb h4 ho hout
      have h2 : ¬ argv.length = 2 := by omega
      simp only [hb, h2, hout, if_true, if_false, Bool.false_eq_true, Bool.not_false]
      rw [if_pos ho]
    · intro hb hout
      simp [hb, hout]
    · intro hb h2
      simp [hb, h2]

/-- C20. The exit code of `main` when the input file cannot be opened: on
arguments of the form `prog INPUT` or `prog INPUT -o OUTPUT` the block guarded
by `if(os)` is skipped and `main` returns 0, not 1, whatever the other two
events are. -/
theorem main_unopened_input (prog input output : String) (badAlloc outputOpens : Bool) :
    main [prog, input] false badAlloc outputOpens = 0 ∧
    main [prog, input, "-o", output] false badAlloc outputOpens = 0 ∧
    main ["prog", "INPUT"] false false true ≠ 1 := by
  refine ⟨?_, ?_, ?_⟩
  · simp [main]
  · simp [main]
  · simp [main]

/-! ## The transitions returned by the baseline driver -/

theorem pushSuccs_mp (succ : List StateSch) (s : Search StateSch) :
    (pushSuccs succ s).mp = s.mp := by
  unfold pushSuccs
  induction succ generalizing s with
  | nil => rfl
  | cons x xs ih =>
    rw [List.foldl_cons, ih]
    unfold pushNew
    split <;> rfl

/-- A round of the loop of `complementSch` leaves the local `mp` as it was. -/
theorem schBody_mp (A : BuchiAutomaton) (env : ReducedEnv) (s : SchSearch) :
    (schBody A env s).search.mp = s.search.mp := by
  unfold schBody
  cases hstack : s.search.stack with
  | nil => rfl
  | cons st rest =>
    simp only
    have aux : ∀ (l : List Nat) (s1 : SchSearch),
        (l.foldl (schTightStep A env st) s1).search.mp = s1.search.mp := by
      intro l
      induction l with
      | nil => intro s1; rfl
      | cons a as ih =>
        intro s1
        rw [List.foldl_cons, ih]
        unfold schTightStep
        exact pushSuccs_mp _ _
    split
    · rw [aux]
    · cases A.alphabet with
      | nil => rfl
      | cons sym syms =>
        unfold schEntryStep
        exact pushSuccs_mp _ _

/-- Whenever `complementSch` returns, the returned automaton has no
transition. -/
theorem complementSch_trans (A : BuchiAutomaton) (env : ReducedEnv) (fuel : Nat)
    (aut : MacroAut StateSch) (h : complementSch A env fuel = some aut) : aut.trans = [] := by
  unfold complementSch at h
  split at h
  · simp at h
  · split at h
    · simp at h
    · simp only at h
      rw [Option.map_eq_some'] at h
      obtain ⟨s, hs, e⟩ := h
      have hres := whileLoop_inv (fun s => decide (s.search.stack.length > 0)) (schBody A env)
        (fun s => s.search.mp = [])
        (fun s hinv _ => (schBody_mp A env s).trans hinv) fuel _ s rfl hs
      subst e
      exact hres.1

/-- C13. The automaton returned by `complementSch` has no transition at all,
for every automaton, analyses and bound on the rounds: the loop stores the
successors in `mpVect` and the result is built from `mp`, which is never
written. On the automaton of scenario 2 the driver returns `scenario2Baseline`:
the waiting macrostate {0} has no successor on a although δ({0}, a) = {0, 1},
and the explored tight macrostate ⟨{0, 1}, ∅, (1, 0), 0⟩ has no successor on a
although `succSetSchTight` returns one for it. -/
theorem baseline_driver_drops_transitions :
    (∀ (A : BuchiAutomaton) (env : ReducedEnv) (fuel : Nat),
      ((complementSch A env fuel).map (fun aut => aut.trans)).getD [] = []) ∧
    complementSch scenario2 scenario2Env 6 = some scenario2Baseline ∧
    waiting [0] ∈ scenario2Baseline.states ∧
    waiting (succSet scenario2 [0] 0) ∉ assocGet scenario2Baseline.trans (waiting [0], 0) ∧
    ({ S := [0, 1], O := [], f := [(0, 1), (1, 0)], i := 0, tight := true } : StateSch)
      ∈ scenario2Baseline.states ∧
    (succSetSchTight scenario2 scenario2Env.rankBound scenario2Env.tightSucc []
      { S := [0, 1], O := [], f := [(0, 1), (1, 0)], i := 0, tight := true } 0
      scenario2Env.reachCons scenario2Env.maxReach [] []).1 =
      [{ S := [0, 1], O := [1], f := [(0, 1), (1, 0)], i := 0, tight := true }] ∧
    assocGet scenario2Baseline.trans
      ({ S := [0, 1], O := [], f := [(0, 1), (1, 0)], i := 0, tight := true }, 0) = [] := by
  refine ⟨?_, by decide, by decide, by decide, by decide, by decide, by decide⟩
  intro A env fuel
  cases h : complementSch A env fuel with
  | none => rfl
  | some aut => exact complementSch_trans A env fuel aut h

/-! ## The semideterministic clamp of `getRankBound` -/

theorem rnkmap_le_three (opt : ComplOptions) (env : BoundEnv) (nfaSchewe : MacroAut StateSch)
    (hsd : sdFlag opt env = true) (s : StateSch) : rnkmap opt env nfaSchewe s ≤ 3 := by
  unfold rnkmap
  split
  · rw [hsd]
    have aux : ∀ (l : List (List Nat)) (r : Int), r ≤ 3 →
        l.foldl (rnkmapStep env true) r ≤ 3 := by
      intro l
      induction l with
      | nil => intro r hr; exact hr
      | cons sub subs ih =>
        intro r _
        rw [List.foldl_cons]
        apply ih
        unfold rnkmapStep
        simp only [if_true]
        exact min_le_right _ _
    exact aux _ 0 (by decide)
  · decide

theorem initMaxFnc_le (A : BuchiAutomaton) (inf : Int) (maxReachSize : IntSet → Int)
    (minReachSize : Nat → Int) (rnk : StateSch → Int) (act : StateSch) (b : Int)
    (hb : 0 ≤ b) (hrnk : rnk act ≤ b) :
    initMaxFnc A inf maxReachSize minReachSize rnk act ≤ b := by
  unfold initMaxFnc
  simp only
  split
  · exact hb
  · exact le_trans (min_le_right _ _) hrnk

theorem updMaxFnc_le (slignore : List StateSch) (a : LabelState) (sts : List LabelState) :
    updMaxFnc slignore a sts ≤ a.label := by
  unfold updMaxFnc
  exact min_le_left _ _

theorem propagateRound_le (upd : LabelState → List LabelState → Int)
    (hupd : ∀ a sts, upd a sts ≤ a.label) (nfaSchewe : MacroAut StateSch)
    (labels : List (StateSch × Int)) (round : List StateSch) (b : Int)
    (h : ∀ e ∈ labels, e.2 ≤ b) : ∀ e ∈ propagateRound upd nfaSchewe labels round, e.2 ≤ b := by
  intro e he
  unfold propagateRound at he
  rw [List.mem_map] at he
  obtain ⟨e0, he0, rfl⟩ := he
  split
  · exact le_trans (hupd _ _) (h e0 he0)
  · exact h e0 he0

theorem propagateGraphValues_le (upd : LabelState → List LabelState → Int)
    (hupd : ∀ a sts, upd a sts ≤ a.label) (init : StateSch → Int)
    (schedule : List (List StateSch)) (nfaSchewe : MacroAut StateSch) (b : Int)
    (hinit : ∀ s, init s ≤ b) :
    ∀ e ∈ propagateGraphValues upd init schedule nfaSchewe, e.2 ≤ b := by
  unfold propagateGraphValues
  have aux : ∀ (l : List (List StateSch)) (labels : List (StateSch × Int)),
      (∀ e ∈ labels, e.2 ≤ b) →
      ∀ e ∈ l.foldl (propagateRound upd nfaSchewe) labels, e.2 ≤ b := by
    intro l
    induction l with
    | nil => intro labels h; exact h
    | cons r rs ih =>
      intro labels h
      rw [List.foldl_cons]
      exact ih _ (propagateRound_le upd hupd nfaSchewe labels r b h)
  apply aux
  intro e he
  rw [List.mem_map] at he
  obtain ⟨s, _, rfl⟩ := he
  exact hinit s

theorem mem_assocAssign {κ β : Type} [DecidableEq κ] (m : List (κ × β)) (k : κ) (v : β)
    (e : κ × β) (h : e ∈ assocAssign m k v) : e ∈ m ∨ e = (k, v) := by
  induction m with
  | nil =>
    simp only [assocAssign, List.mem_singleton] at h
    exact Or.inr h
  | cons kv rest ih =>
    obtain ⟨k', v'⟩ := kv
    unfold assocAssign at h
    split at h
    · rcases List.mem_cons.mp h with h | h
      · exact Or.inr h
      · exact Or.inl (List.mem_cons_of_mem _ h)
    · rcases List.mem_cons.mp h with h | h
      · exact Or.inl (by rw [h]; exact List.mem_cons_self _ _)
      · rcases ih h with h | h
        · exact Or.inl (List.mem_cons_of_mem _ h)
        · exact Or.inr h

/-- C18. When `semidetOpt` is set and the automaton is semideterministic, in
`getRankBound` every value of `rnkmap` is at most 3, the initial bound of every
macrostate is at most 3, the update function never returns more than the
current bound of its macrostate, and every bound in the returned table is at
most 3. -/
theorem semidet_clamp (A : BuchiAutomaton) (opt : ComplOptions) (env : BoundEnv)
    (nfaSchewe : MacroAut StateSch) (slignore : List StateSch) (maxReachSize : IntSet → Int)
    (minReachSize : Nat → Int)
    (hopt : opt.semidetOpt = true) (hsemi : env.semiDet = true) :
    (∀ s, rnkmap opt env nfaSchewe s ≤ 3) ∧
    (∀ act, initMaxFnc A env.inf maxReachSize minReachSize (rnkmap opt env nfaSchewe) act ≤ 3) ∧
    (∀ a sts, updMaxFnc slignore a sts ≤ a.label) ∧
    (∀ e ∈ getRankBound A opt env nfaSchewe slignore maxReachSize minReachSize,
      e.2.bound ≤ 3) := by
  have hsd : sdFlag opt env = true := by
    unfold sdFlag
    rw [hopt, hsemi]
    rfl
  have hinit : ∀ act,
      initMaxFnc A env.inf maxReachSize minReachSize (rnkmap opt env nfaSchewe) act ≤ 3 :=
    fun act => initMaxFnc_le A env.inf maxReachSize minReachSize _ act 3 (by decide)
      (rnkmap_le_three opt env nfaSchewe hsd act)
  refine ⟨rnkmap_le_three opt env nfaSchewe hsd, hinit, updMaxFnc_le slignore, ?_⟩
  unfold getRankBound
  simp only
  have hprop := propagateGraphValues_le (updMaxFnc slignore) (updMaxFnc_le slignore)
    (initMaxFnc A env.inf maxReachSize minReachSize (rnkmap opt env nfaSchewe))
    env.schedule nfaSchewe 3 hinit
  have aux : ∀ (l : List (StateSch × Int)) (ret : List (IntSet × RankBound)),
      (∀ t ∈ l, t.2 ≤ 3) → (∀ e ∈ ret, e.2.bound ≤ 3) →
      ∀ e ∈ l.foldl
        (fun ret t => assocAssign ret t.1.S ({ bound := t.2, stateBound := [] } : RankBound))
        ret, e.2.bound ≤ 3 := by
    intro l
    induction l with
    | nil => intro ret _ h; exact h
    | cons t ts ih =>
      intro ret hl h
      rw [List.foldl_cons]
      apply ih _ (fun t' ht' => hl t' (List.mem_cons_of_mem _ ht'))
      intro e he
      rcases mem_assocAssign _ _ _ e he with he | he
      · exact h e he
      · rw [he]
        exact hl t (List.mem_cons_self _ _)
  exact aux _ [] hprop (fun e he => absurd he (List.not_mem_nil e))

set_option maxRecDepth 100000 in
theorem semidet_clamp_witness :
    semidetOptions.semidetOpt = true ∧ clampEnv.semiDet = true ∧
    getRankBound deadAut semidetOptions clampEnv wideWaiting [] (fun _ => 5) (fun _ => 0) =
      [([0, 1, 2, 3, 4], { bound := 3, stateBound := [] })] ∧
    getRankBound deadAut plainOpt clampEnv wideWaiting [] (fun _ => 5) (fun _ => 0) =
      [([0, 1, 2, 3, 4], { bound := 5, stateBound := [] })] ∧
    (∀ e ∈ getRankBound deadAut semidetOptions clampEnv wideWaiting [] (fun _ => 5)
      (fun _ => 0), e.2.bound ≤ 3) :=
  ⟨rfl, rfl, by decide, by decide,
    (semidet_clamp deadAut semidetOptions clampEnv wideWaiting [] (fun _ => 5) (fun _ => 0)
      rfl rfl).2.2.2⟩

/-! ## The self-loop sinks of the reduced Schewe output -/

theorem mem_pairInsert (x : IntSet × Nat) (l : List (IntSet × Nat)) (y : IntSet × Nat)
    (h : y ∈ pairInsert x l) : y = x ∨ y ∈ l := by
  induction l with
  | nil =>
    simp only [pairInsert, List.mem_singleton] at h
    exact Or.inl h
  | cons z zs ih =>
    unfold pairInsert at h
    split at h
    · rcases List.mem_cons.mp h with h | h
      · exact Or.inl h
      · exact Or.inr h
    · split at h
      · rcases List.mem_cons.mp h with h | h
        · exact Or.inr (by rw [h]; exact List.mem_cons_self _ _)
        · rcases ih h with h | h
          · exact Or.inl h
          · exact Or.inr (List.mem_cons_of_mem _ h)
      · exact Or.inr h

theorem waiting_inj (S T : IntSet) : waiting S = waiting T ↔ S = T := by
  unfold waiting
  constructor
  · intro h
    injection h
  · intro h
    rw [h]

theorem installSink_newState (l : List (IntSet × Nat)) (acc : SinkAcc) :
    (l.foldl installSink acc).newState = acc.newState + l.length := by
  induction l generalizing acc with
  | nil => rfl
  | cons p ps ih =>
    rw [List.foldl_cons, ih, List.length_cons]
    show acc.newState + 1 + ps.length = acc.newState + (ps.length + 1)
    omega

/-- On an automaton with numbered states, the sets reachable from the initial
states hold states below `n` only. -/
theorem reach_numbered (A : BuchiAutomaton) (hA : A.Numbered) (T : IntSet)
    (hT : Reach A A.initials T) : ∀ q ∈ T, q < A.states.length := by
  have hlt : ∀ q, q ∈ A.states → q < A.states.length := by
    intro q hq
    rw [hA.1] at hq
    simpa using hq
  intro q hq
  apply hlt
  cases hT with
  | base => exact hA.2.2 q hq
  | step T' a _ _ =>
    obtain ⟨p, _, hp⟩ := (mem_succSet A T' a q).mp hq
    exact hA.2.1 p a q hp

/-- No sink macrostate is a macrostate of the waiting part. -/
theorem sink_not_waiting (A : BuchiAutomaton) (hA : A.Numbered) (fuel : Nat)
    (comp : MacroAut StateSch) (hcomp : complementSchNFA A A.initials fuel = some comp)
    (x : StateSch) (hx : x ∈ comp.states) (k : Nat) (hk : A.states.length ≤ k) :
    x.S ≠ [k] := by
  obtain ⟨T, hT, e⟩ := (complementSchNFA_states A A.initials fuel comp hcomp x).mp hx
  rw [e]
  intro h
  have h1 : T = [k] := h
  have h2 := reach_numbered A hA T hT k (by rw [h1]; exact List.mem_singleton.mpr rfl)
  omega

theorem scenario2_numbered : scenario2.Numbered :=
  ⟨rfl, scenario2_WF.2, by decide⟩

/-- The first loop of `succSetSchTight` and `succSetSchTightOpt` ends in the
early `return ret` as soon as some state of S has rank 0 with a positive
`reachCons`, or a non-zero rank without successor. -/
theorem tightFold_none (A : BuchiAutomaton) (f : RankFunc) (symbol : Nat)
    (reachCons : Nat → Int) (S : IntSet) (acc : Option SuccAcc) (q : Nat) (hq : q ∈ S)
    (h : (f.get q = 0 ∧ reachCons q > 0) ∨ (A.trans q symbol = [] ∧ f.get q ≠ 0)) :
    S.foldl (fun acc st => acc.bind (fun a => tightStep A f symbol reachCons a st)) acc
      = none := by
  induction S generalizing acc with
  | nil => exact absurd hq (List.not_mem_nil q)
  | cons s ss ih =>
    rw [List.foldl_cons]
    cases acc with
    | none => exact optionFold_none _ ss
    | some acc0 =>
      rcases List.mem_cons.mp hq with e | hq'
      · subst e
        have hstep : tightStep A f symbol reachCons acc0 q = none := by
          unfold tightStep
          simp only
          rcases h with h | h
          · rw [if_pos h]
          · by_cases h1 : f.get q = 0 ∧ reachCons q > 0
            · rw [if_pos h1]
            · rw [if_neg h1, if_pos ⟨by rw [h.1]; rfl, h.2⟩]
        rw [Option.some_bind, hstep]
        exact optionFold_none _ ss
      · exact ih _ hq'

/-- C21. For a tight macrostate ⟨S, O, r, i, true⟩ and a symbol a,
`succSetSchTightOpt` and the baseline `succSetSchTight` return the empty list,
and leave the rank cache as it was, whenever some q ∈ S has δ(q, a) = ∅ and
r(q) ≠ 0, or has r(q) = 0 and reachCons(q) > 0. -/
theorem tight_step_rejection (A : BuchiAutomaton) (rankBound : IntSet → Int)
    (tightSucc tightSuccPure : TightEnum) (cache : RankCache) (state : StateSch) (symbol : Nat)
    (reachCons : Nat → Int) (maxReach : IntSet → Int) (dirRel oddRel : BackRel)
    (h : ∃ q ∈ state.S, (A.trans q symbol = [] ∧ state.f.get q ≠ 0) ∨
      (state.f.get q = 0 ∧ reachCons q > 0)) :
    succSetSchTightOpt A rankBound tightSuccPure cache state symbol reachCons maxReach
      dirRel oddRel = ([], cache) ∧
    succSetSchTight A rankBound tightSucc cache state symbol reachCons maxReach
      dirRel oddRel = ([], cache) := by
  obtain ⟨q, hq, hc⟩ := h
  have hloop : tightLoop A state symbol reachCons = none := by
    unfold tightLoop
    exact tightFold_none A state.f symbol reachCons state.S _ q hq hc.symm
  constructor
  · unfold succSetSchTightOpt
    rw [hloop]
  · unfold succSetSchTight
    rw [hloop]

theorem tight_step_rejection_witness :
    (∃ q ∈ zeroState.S, (loopAut.trans q 0 = [] ∧ zeroState.f.get q ≠ 0) ∨
      (zeroState.f.get q = 0 ∧ (fun _ => (1 : Int)) q > 0)) ∧
    succSetSchTightOpt loopAut (fun _ => 2) tightSuccFromRankConstr [] zeroState 0 (fun _ => 1)
      (fun _ => 4) [] [] = ([], []) ∧
    succSetSchTight loopAut (fun _ => 2) tightSuccFromRankConstr [] zeroState 0 (fun _ => 1)
      (fun _ => 4) [] [] = ([], []) ∧
    (succSetSchTightOpt loopAut (fun _ => 2) tightSuccFromRankConstr [] zeroState 0
      (fun _ => 0) (fun _ => 4) [] []).1 ≠ [] :=
  ⟨by decide,
    (tight_step_rejection loopAut (fun _ => 2) tightSuccFromRankConstr tightSuccFromRankConstr
      [] zeroState 0 (fun _ => 1) (fun _ => 4) [] [] (by decide)).1,
    (tight_step_rejection loopAut (fun _ => 2) tightSuccFromRankConstr tightSuccFromRankConstr
      [] zeroState 0 (fun _ => 1) (fun _ => 4) [] [] (by decide)).2,
    by decide⟩

/-! ## Rejection in the reduced tight successor function -/

/-- With the cache check switched off, or the macrostate outside the gate of
the cache, `getSchRanksTightReduced` returns the ceiling rank if it is tight
with the maximum of the parent rank, and nothing otherwise. -/
theorem cache_gate_result (A : BuchiAutomaton) (opt : ComplOptions) (tightSucc : TightEnum)
    (cache : RankCache) (max : Nat → Int) (states : IntSet) (symbol : Nat)
    (macrostate : StateSch) (reachCons : Nat → Int) (reachMax : Int)
    (dirRel oddRel : BackRel)
    (hgate : opt.succEmptyCheck = false ∨ opt.CacheMaxState < macrostate.S.length ∨
      opt.CacheMaxRank < macrostate.f.getMaxRank) :
    (getSchRanksTightReduced A opt tightSucc cache max states symbol macrostate reachCons
      reachMax dirRel oddRel).1 =
      (if (sngMap max states).isTightRank = true ∧
          (sngMap max states).getMaxRank = macrostate.f.getMaxRank
        then [sngMap max states] else []) := by
  have hres : rankSetSize opt tightSucc cache (states.map (singleConst A max))
      (states.map max) symbol macrostate reachCons reachMax dirRel oddRel = (1, cache) := by
    unfold rankSetSize
    rw [if_neg]
    rintro ⟨h1, h2, h3⟩
    rcases hgate with h | h | h
    · rw [h] at h1
      exact absurd h1 (by decide)
    · omega
    · omega
  unfold getSchRanksTightReduced
  simp only [hres]
  by_cases hc : (sngMap max states).isTightRank = true ∧
      (sngMap max states).getMaxRank = macrostate.f.getMaxRank
  · rw [if_pos hc, if_pos ⟨hc.1, hc.2, by decide⟩]
  · rw [if_neg hc, if_neg]
    rintro ⟨h1, h2, _⟩
    exact hc ⟨h1, h2⟩

/-- C22, as amended. The reduced variant `succSetSchTightReduced` does not
test the ranks of S against `reachCons` or against empty successor sets: it
returns no successor exactly when the `int` value of `rankBound(S)*2-1` or
of `rankBound(S')*2-1` is below max r, or `getSchRanksTightReduced` yields no
rank; with the cache check switched off it returns a successor exactly when
the rank-bound guard passes and the ceiling rank on S' is tight with maximum
max r. For rank bounds from −2^30 + 1 to 2^30 − 1, where the expression does
not overflow, the `int` value is 2·rankBound − 1; a rank bound of S from
2^30 + 1 to 2^31 − 1 makes it negative, and nothing is returned. -/
theorem reduced_rejection (A : BuchiAutomaton) (opt : ComplOptions)
    (rankBound : IntSet → Int) (tightSucc : TightEnum) (cache : RankCache)
    (state : StateSch) (symbol : Nat) (reachCons : Nat → Int) (maxReach : IntSet → Int)
    (dirRel oddRel : BackRel) (eta4 : Bool) :
    ((succSetSchTightReduced A opt rankBound tightSucc cache state symbol reachCons maxReach
        dirRel oddRel eta4).1 = [] ↔
      (doubleBound (rankBound state.S) < state.f.getMaxRank ∨
        doubleBound (rankBound (succSet A state.S symbol)) < state.f.getMaxRank ∨
        (getSchRanksTightReduced A opt tightSucc cache
          (evenCeilings A (succLoop A state symbol).maxRank (succSet A state.S symbol))
          (succSet A state.S symbol) symbol state reachCons
          (maxReach (succSet A state.S symbol)) dirRel oddRel).1 = [])) ∧
    (opt.succEmptyCheck = false →
      ((succSetSchTightReduced A opt rankBound tightSucc cache state symbol reachCons maxReach
          dirRel oddRel eta4).1 ≠ [] ↔
        (state.f.getMaxRank ≤ doubleBound (rankBound state.S) ∧
          state.f.getMaxRank ≤ doubleBound (rankBound (succSet A state.S symbol)) ∧
          (ceilRank A state symbol).isTightRank = true ∧
          (ceilRank A state symbol).getMaxRank = state.f.getMaxRank))) ∧
    (-(2 ^ 30 : Int) < rankBound state.S ∧ rankBound state.S < 2 ^ 30 ∧
      -(2 ^ 30 : Int) < rankBound (succSet A state.S symbol) ∧
      rankBound (succSet A state.S symbol) < 2 ^ 30 →
      ((succSetSchTightReduced A opt rankBound tightSucc cache state symbol reachCons maxReach
          dirRel oddRel eta4).1 = [] ↔
        (rankBound state.S * 2 - 1 < state.f.getMaxRank ∨
          rankBound (succSet A state.S symbol) * 2 - 1 < state.f.getMaxRank ∨
          (getSchRanksTightReduced A opt tightSucc cache
            (evenCeilings A (succLoop A state symbol).maxRank (succSet A state.S symbol))
            (succSet A state.S symbol) symbol state reachCons
            (maxReach (succSet A state.S symbol)) dirRel oddRel).1 = []))) ∧
    ((2 ^ 30 : Int) < rankBound state.S ∧ rankBound state.S < 2 ^ 31 →
      (succSetSchTightReduced A opt rankBound tightSucc cache state symbol reachCons maxReach
          dirRel oddRel eta4).1 = []) := by
  have hmain : (succSetSchTightReduced A opt rankBound tightSucc cache state symbol reachCons
        maxReach dirRel oddRel eta4).1 = [] ↔
      (doubleBound (rankBound state.S) < state.f.getMaxRank ∨
        doubleBound (rankBound (succSet A state.S symbol)) < state.f.getMaxRank ∨
        (getSchRanksTightReduced A opt tightSucc cache
          (evenCeilings A (succLoop A state symbol).maxRank (succSet A state.S symbol))
          (succSet A state.S symbol) symbol state reachCons
          (maxReach (succSet A state.S symbol)) dirRel oddRel).1 = []) := by
    unfold succSetSchTightReduced
    simp only [succLoop_sprime]
    by_cases hg : doubleBound (rankBound state.S) < state.f.getMaxRank ∨
        doubleBound (rankBound (succSet A state.S symbol)) < state.f.getMaxRank
    · rw [if_pos hg]
      constructor
      · intro _
        rcases hg with hg | hg
        · exact Or.inl hg
        · exact Or.inr (Or.inl hg)
      · intro _
        rfl
    · rw [if_neg hg]
      simp only
      rw [retAll_foldl_eq_nil, List.map_eq_nil_iff]
      constructor
      · intro h
        exact Or.inr (Or.inr h)
      · rintro (h | h | h)
        · exact absurd (Or.inl h) hg
        · exact absurd (Or.inr h) hg
        · exact h
  refine ⟨hmain, ?_, ?_, ?_⟩
  · intro hoff
    have hgate := cache_gate_result A opt tightSucc cache
      (evenCeilings A (succLoop A state symbol).maxRank (succSet A state.S symbol))
      (succSet A state.S symbol) symbol state reachCons (maxReach (succSet A state.S symbol))
      dirRel oddRel (Or.inl hoff)
    have hceil : sngMap (evenCeilings A (succLoop A state symbol).maxRank
        (succSet A state.S symbol)) (succSet A state.S symbol) = ceilRank A state symbol := by
      unfold ceilRank
      rw [succLoop_sprime]
    rw [hceil] at hgate
    rw [Ne, hmain, hgate]
    constructor
    · intro h
      rw [not_or, not_or, not_lt, not_lt] at h
      refine ⟨h.1, h.2.1, ?_⟩
      by_contra hc
      apply h.2.2
      rw [if_neg hc]
    · rintro ⟨h1, h2, h3, h4⟩
      rw [not_or, not_or, not_lt, not_lt]
      refine ⟨h1, h2, ?_⟩
      rw [if_pos ⟨h3, h4⟩]
      exact List.cons_ne_nil _ _
  · rintro ⟨h1, h2, h3, h4⟩
    rw [hmain, doubleBound_eq _ h1 (le_of_lt h2), doubleBound_eq _ h3 (le_of_lt h4)]
  · rintro ⟨h1, h2⟩
    rw [hmain]
    left
    have hneg := doubleBound_neg _ h1 h2
    have hpos := getMaxRank_nonneg state.f
    omega

theorem reduced_rejection_witness :
    plainOpt.succEmptyCheck = false ∧
    ((succSetSchTightReduced halfAut plainOpt (fun _ => 1) noRanks [] halfState 0 (fun _ => 0)
        (fun _ => 2) [] [] false).1 ≠ [] ↔
      (halfState.f.getMaxRank ≤ doubleBound ((fun _ => (1 : Int)) halfState.S) ∧
        halfState.f.getMaxRank ≤
          doubleBound ((fun _ => (1 : Int)) (succSet halfAut halfState.S 0)) ∧
        (ceilRank halfAut halfState 0).isTightRank = true ∧
        (ceilRank halfAut halfState 0).getMaxRank = halfState.f.getMaxRank)) ∧
    (succSetSchTightReduced halfAut plainOpt (fun _ => 1) noRanks [] halfState 0 (fun _ => 0)
        (fun _ => 2) [] [] false).1 =
      [{ S := [0], O := [], f := [(0, 1)], i := 0, tight := true }] ∧
    ((2 ^ 30 : Int) < (fun _ => (2 ^ 30 + 1 : Int)) halfState.S ∧
      (fun _ => (2 ^ 30 + 1 : Int)) halfState.S < 2 ^ 31) ∧
    (succSetSchTightReduced halfAut plainOpt (fun _ => 2 ^ 30 + 1) noRanks [] halfState 0
        (fun _ => 0) (fun _ => 2) [] [] false).1 = [] :=
  ⟨rfl,
    (reduced_rejection halfAut plainOpt (fun _ => 1) noRanks [] halfState 0 (fun _ => 0)
      (fun _ => 2) [] [] false).2.1 rfl,
    by decide,
    ⟨by decide, by decide⟩,
    (reduced_rejection halfAut plainOpt (fun _ => 2 ^ 30 + 1) noRanks [] halfState 0
      (fun _ => 0) (fun _ => 2) [] [] false).2.2.2 ⟨by decide, by decide⟩⟩

/-- C22, as stated, fails: on `halfAut` the state 1 of the macrostate
`halfState` has rank 1 and no successor, and on `loopAut` the state 1 of
`zeroState` has rank 0 with `reachCons` 1, yet `succSetSchTightReduced` returns
a successor in both cases. -/
theorem reduced_rejection_counterexample :
    (1 ∈ halfState.S ∧ halfAut.trans 1 0 = [] ∧ halfState.f.get 1 ≠ 0 ∧
      (succSetSchTightReduced halfAut plainOpt (fun _ => 1) noRanks [] halfState 0 (fun _ => 0)
        (fun _ => 2) [] [] false).1 =
        [{ S := [0], O := [], f := [(0, 1)], i := 0, tight := true }]) ∧
    (1 ∈ zeroState.S ∧ zeroState.f.get 1 = 0 ∧ (fun _ => (1 : Int)) 1 > 0 ∧
      (succSetSchTightReduced loopAut plainOpt (fun _ => 1) noRanks [] zeroState 0 (fun _ => 1)
        (fun _ => 2) [] [] false).1 =
        [{ S := [0, 1], O := [1], f := [(0, 1), (1, 0)], i := 0, tight := true }]) := by
  decide

/-! ## The rank bound of the baseline tight successor function -/

/-- C23. On `idAut` with every rank bound 1, the baseline `succSetSchTight`
returns for the macrostate of rank (3, 3, 1) a successor of maximal rank 3,
above 2·rankBound(S') − 1 = 1: its guard compares `rankBound > max r` where
`succSetSchTightOpt` and `succSetSchTightReduced` compare
`2·rankBound − 1 < max r`; both return nothing on this input, and the baseline
returns nothing when every rank bound is 4. -/
theorem baseline_rank_bound_exceeded :
    (succSetSchTight idAut (fun _ => 1) tightSuccFromRankConstr [] idParent 0 (fun _ => 0)
      (fun _ => 3) [] []).1 =
      [{ S := [0, 1, 2], O := [], f := [(0, 3), (1, 3), (2, 1)], i := 2, tight := true }] ∧
    RankFunc.getMaxRank [(0, 3), (1, 3), (2, 1)] = 3 ∧
    ¬ (RankFunc.getMaxRank [(0, 3), (1, 3), (2, 1)] ≤ 2 * (fun _ => (1 : Int)) [0, 1, 2] - 1) ∧
    (succSetSchTightOpt idAut (fun _ => 1) tightSuccFromRankConstr [] idParent 0 (fun _ => 0)
      (fun _ => 3) [] []).1 = [] ∧
    (succSetSchTightReduced idAut plainOpt (fun _ => 1) tightSuccFromRankConstr [] idParent 0
      (fun _ => 0) (fun _ => 3) [] [] false).1 = [] ∧
    (succSetSchTight idAut (fun _ => 4) tightSuccFromRankConstr [] idParent 0 (fun _ => 0)
      (fun _ => 3) [] []).1 = [] :=
  ⟨by decide, by decide, by decide, by decide, by decide, by decide⟩

/-! ## The update function of the rank-bound propagation -/

/-- The value `m` of `updMaxFnc`: at least 0 and at least the label of every
neighbour that is not skipped, and 0 or the label of such a neighbour. -/
theorem updMax_fold (slignore : List StateSch) (a : LabelState) (sts : List LabelState)
    (m0 : Int) :
    m0 ≤ sts.foldl
      (fun m tmp => if tmp.state.S = a.state.S ∧ a.state ∈ slignore then m else max m tmp.label)
      m0 ∧
    (∀ tmp ∈ sts, ¬ (tmp.state.S = a.state.S ∧ a.state ∈ slignore) →
      tmp.label ≤ sts.foldl
        (fun m tmp => if tmp.state.S = a.state.S ∧ a.state ∈ slignore then m
          else max m tmp.label) m0) ∧
    (sts.foldl
        (fun m tmp => if tmp.state.S = a.state.S ∧ a.state ∈ slignore then m
          else max m tmp.label) m0 = m0 ∨
      ∃ tmp ∈ sts, ¬ (tmp.state.S = a.state.S ∧ a.state ∈ slignore) ∧
        sts.foldl
          (fun m tmp => if tmp.state.S = a.state.S ∧ a.state ∈ slignore then m
            else max m tmp.label) m0 = tmp.label) := by
  induction sts generalizing m0 with
  | nil => simp
  | cons t ts ih =>
    simp only [List.foldl_cons]
    by_cases hs : t.state.S = a.state.S ∧ a.state ∈ slignore
    · simp only [if_pos hs]
      obtain ⟨h1, h2, h3⟩ := ih m0
      refine ⟨h1, ?_, ?_⟩
      · intro tmp htmp hns
        rcases List.mem_cons.mp htmp with e | htmp
        · subst e
          exact absurd hs hns
        · exact h2 tmp htmp hns
      · rcases h3 with h3 | ⟨tmp, htmp, hns, h3⟩
        · exact Or.inl h3
        · exact Or.inr ⟨tmp, List.mem_cons_of_mem _ htmp, hns, h3⟩
    · simp only [if_neg hs]
      obtain ⟨h1, h2, h3⟩ := ih (max m0 t.label)
      refine ⟨le_trans (le_max_left _ _) h1, ?_, ?_⟩
      · intro tmp htmp hns
        rcases List.mem_cons.mp htmp with e | htmp
        · subst e
          exact le_trans (le_max_right _ _) h1
        · exact h2 tmp htmp hns
      · rcases h3 with h3 | ⟨tmp, htmp, hns, h3⟩
        · rcases max_choice m0 t.label with hc | hc
          · exact Or.inl (h3.trans hc)
          · exact Or.inr ⟨t, List.mem_cons_self _ _, hs, h3.trans hc⟩
        · exact Or.inr ⟨tmp, List.mem_cons_of_mem _ htmp, hns, h3⟩

/-- C24, as amended. The update function of `getRankBound` maps a macrostate
with current bound b and neighbour bounds l1..lk to a value that is at most b,
that is at most 0 or at most the bound of some neighbour other than the
macrostate's own ignored self-loop, and that is at least min(b, li) for every
such neighbour: the bound is lowered to the maximum of the neighbours' bounds,
not to their minimum. -/
theorem update_rule_max (slignore : List StateSch) (a : LabelState) (sts : List LabelState) :
    updMaxFnc slignore a sts ≤ a.label ∧
    (updMaxFnc slignore a sts ≤ 0 ∨
      ∃ tmp ∈ sts, ¬ (tmp.state.S = a.state.S ∧ a.state ∈ slignore) ∧
        updMaxFnc slignore a sts ≤ tmp.label) ∧
    (∀ tmp ∈ sts, ¬ (tmp.state.S = a.state.S ∧ a.state ∈ slignore) →
      min a.label tmp.label ≤ updMaxFnc slignore a sts) := by
  obtain ⟨h1, h2, h3⟩ := updMax_fold slignore a sts 0
  unfold updMaxFnc
  simp only
  refine ⟨min_le_left _ _, ?_, ?_⟩
  · rcases h3 with h3 | ⟨tmp, htmp, hns, h3⟩
    · left
      rw [h3]
      exact min_le_right _ _
    · right
      refine ⟨tmp, htmp, hns, ?_⟩
      rw [h3]
      exact min_le_right _ _
  · intro tmp htmp hns
    exact le_min (min_le_left _ _) (le_trans (min_le_right _ _) (h2 tmp htmp hns))

/-- C24, as stated, fails: for a macrostate with bound 5 and two neighbours
with the bounds 1 and 3, none of them skipped, the update function returns 3,
above the minimum 1 of the neighbours' bounds. -/
theorem update_rule_max_counterexample :
    ¬ (∀ (slignore : List StateSch) (a : LabelState) (sts : List LabelState),
      ∀ tmp ∈ sts, ¬ (tmp.state.S = a.state.S ∧ a.state ∈ slignore) →
        updMaxFnc slignore a sts ≤ tmp.label) := by
  intro h
  have h1 := h [] { state := waiting [0], label := 5 }
    [{ state := waiting [1], label := 1 }, { state := waiting [2], label := 3 }]
    { state := waiting [1], label := 1 } (by decide) (by decide)
  exact absurd h1 (by decide)

theorem update_rule_max_witness :
    updMaxFnc [] { state := waiting [0], label := 5 }
      [{ state := waiting [1], label := 1 }, { state := waiting [2], label := 3 }] = 3 ∧
    min (5 : Int) 3 ≤ updMaxFnc [] { state := waiting [0], label := 5 }
      [{ state := waiting [1], label := 1 }, { state := waiting [2], label := 3 }] :=
  ⟨by decide,
    (update_rule_max [] { state := waiting [0], label := 5 }
      [{ state := waiting [1], label := 1 }, { state := waiting [2], label := 3 }]).2.2
      { state := waiting [2], label := 3 } (by decide) (by decide)⟩

/-! ## The classification of the components -/

theorem detInner_fold (scc : IntSet) (succs : IntSet) (c : Nat) (d : Bool) :
    (succs.foldl
      (fun acc succ =>
        if acc.2 = false then acc
        else if succ ∈ scc then
          if acc.1 > 0 then (acc.1, false) else (acc.1 + 1, true)
        else acc)
      (c, d)).2 = true ↔
    d = true ∧ (if c > 0 then (succs.filter (fun x => decide (x ∈ scc))).length = 0
      else (succs.filter (fun x => decide (x ∈ scc))).length ≤ 1) := by
  induction succs generalizing c d with
  | nil =>
    simp only [List.foldl_nil, List.filter_nil, List.length_nil]
    by_cases hc : c > 0 <;> simp [hc]
  | cons x xs ih =>
    simp only [List.foldl_cons]
    cases d with
    | false =>
      rw [if_pos rfl, ih]
      simp
    | true =>
      rw [if_neg (by decide)]
      by_cases hx : x ∈ scc
      · have hf : (List.filter (fun x => decide (x ∈ scc)) (x :: xs)).length =
            (List.filter (fun x => decide (x ∈ scc)) xs).length + 1 := by
          simp [List.filter_cons, hx]
        rw [if_pos hx, hf]
        by_cases hc : c > 0
        · rw [if_pos hc, ih]
          simp only [if_pos hc]
          constructor
          · rintro ⟨h, _⟩
            exact absurd h (by decide)
          · rintro ⟨_, h⟩
            omega
        · rw [if_neg hc, ih, if_pos (by omega), if_neg hc]
          constructor
          · rintro ⟨_, h⟩
            exact ⟨rfl, by omega⟩
          · rintro ⟨_, h⟩
            exact ⟨rfl, by omega⟩
      · have hf : (List.filter (fun x => decide (x ∈ scc)) (x :: xs)).length =
            (List.filter (fun x => decide (x ∈ scc)) xs).length := by
          simp [List.filter_cons, hx]
        rw [if_neg hx, hf]
        exact ih c true

/-- The inner loop of the determinism tests leaves `det` true exactly when at
most one of the successors lies in the component. -/
theorem detInner_iff (scc : IntSet) (succs : IntSet) :
    (detInner scc succs).2 = true ↔ (succs.filter (fun x => decide (x ∈ scc))).length ≤ 1 := by
  unfold detInner
  rw [detInner_fold]
  simp

/-- The component `scc` is deterministic: every state of it has, for every
alphabet symbol, at most one successor inside it. -/
theorem sccDet_iff (A : BuchiAutomaton) (scc : IntSet) :
    sccDet A scc = true ↔
      ∀ q ∈ scc, ∀ a ∈ A.alphabet,
        ((A.trans q a).filter (fun x => decide (x ∈ scc))).length ≤ 1 := by
  unfold sccDet
  have inner : ∀ (q : Nat) (l : List Nat) (d : Bool),
      l.foldl (fun det a => if det = false then det else (detInner scc (A.trans q a)).2) d
        = true ↔
      d = true ∧ ∀ a ∈ l, ((A.trans q a).filter (fun x => decide (x ∈ scc))).length ≤ 1 := by
    intro q l
    induction l with
    | nil => intro d; simp
    | cons a as ih =>
      intro d
      rw [List.foldl_cons, ih]
      cases d with
      | false => simp
      | true =>
        simp only [Bool.true_eq_false, if_false, detInner_iff, List.mem_cons, forall_eq_or_imp,
          true_and]
  have outer : ∀ (l : List Nat) (d : Bool),
      l.foldl
        (fun det state =>
          if det = false then det
          else A.alphabet.foldl
            (fun det a => if det = false then det else (detInner scc (A.trans state a)).2)
            det) d = true ↔
      d = true ∧ ∀ q ∈ l, ∀ a ∈ A.alphabet,
        ((A.trans q a).filter (fun x => decide (x ∈ scc))).length ≤ 1 := by
    intro l
    induction l with
    | nil => intro d; simp
    | cons q qs ih =>
      intro d
      rw [List.foldl_cons, ih]
      cases d with
      | false => simp
      | true =>
        simp only [Bool.true_eq_false, if_false, inner, List.mem_cons, forall_eq_or_imp,
          true_and]
  rw [outer]
  simp

/-- The determinism test of the merge step is the determinism of the
component it is made on. -/
theorem crossDet_iff (A : BuchiAutomaton) (scc : IntSet) :
    crossDet A scc = true ↔
      ∀ q ∈ scc, ∀ a ∈ A.alphabet,
        ((A.trans q a).filter (fun x => decide (x ∈ scc))).length ≤ 1 := by
  unfold crossDet
  have inner : ∀ (q : Nat) (l : List Nat) (d : Bool),
      l.foldl (fun det a => det && (detInner scc (A.trans q a)).2) d = true ↔
      d = true ∧ ∀ a ∈ l, ((A.trans q a).filter (fun x => decide (x ∈ scc))).length ≤ 1 := by
    intro q l
    induction l with
    | nil => intro d; simp
    | cons a as ih =>
      intro d
      rw [List.foldl_cons, ih, Bool.and_eq_true, detInner_iff]
      simp only [List.mem_cons, forall_eq_or_imp]
      tauto
  have outer : ∀ (l : List Nat) (d : Bool),
      l.foldl
        (fun det state =>
          A.alphabet.foldl (fun det a => det && (detInner scc (A.trans state a)).2) det) d
        = true ↔
      d = true ∧ ∀ q ∈ l, ∀ a ∈ A.alphabet,
        ((A.trans q a).filter (fun x => decide (x ∈ scc))).length ≤ 1 := by
    intro l
    induction l with
    | nil => intro d; simp
    | cons q qs ih =>
      intro d
      rw [List.foldl_cons, ih, inner]
      simp only [List.mem_cons, forall_eq_or_imp]
      tauto
  rw [outer]
  simp

theorem assocFind_mapInsertNew {κ β : Type} [DecidableEq κ] (m : List (κ × β)) (k k' : κ)
    (v : β) :
    assocFind (mapInsertNew m k v) k' =
      if (assocFind m k).isSome then assocFind m k'
      else if k' = k then some v else assocFind m k' := by
  unfold mapInsertNew
  split
  · rfl
  · rename_i hk
    have hnone : assocFind m k = none := by
      cases h : assocFind m k with
      | none => rfl
      | some x => rw [h] at hk; exact absurd rfl hk
    clear hk
    induction m with
    | nil =>
      simp only [List.nil_append, assocFind]
      by_cases e : k' = k
      · rw [if_pos e.symm, if_pos e]
      · rw [if_neg (fun h => e h.symm), if_neg e]
    | cons kv rest ih =>
      obtain ⟨k0, v0⟩ := kv
      have hnone' : (if k0 = k then some v0 else assocFind rest k) = none := hnone
      by_cases e0 : k0 = k
      · rw [if_pos e0] at hnone'
        exact absurd hnone' (by simp)
      · rw [if_neg e0] at hnone'
        show (if k0 = k' then some v0 else assocFind (rest ++ [(k, v)]) k') =
          if k' = k then some v else (if k0 = k' then some v0 else assocFind rest k')
        by_cases e1 : k0 = k'
        · have e2 : ¬ k' = k := fun e => e0 (e1.trans e)
          simp only [if_pos e1, if_neg e2]
        · simp only [if_neg e1]
          exact ih hnone'

/-- After the classification loop every component of the list carries the
type computed for it. -/
theorem typeOf_classifyAll (A : BuchiAutomaton) (sorted : List IntSet) (C : IntSet)
    (hC : C ∈ sorted) : assocFind (classifyAll A sorted) C = some (classify A C) := by
  unfold classifyAll
  have aux : ∀ (l : List IntSet) (tm : List (IntSet × SccType)),
      (∀ c t, assocFind tm c = some t → t = classify A c) →
      (C ∈ l ∨ (assocFind tm C).isSome) →
      assocFind (l.foldl (fun typeMap scc => mapInsertNew typeMap scc (classify A scc)) tm) C
        = some (classify A C) := by
    intro l
    induction l with
    | nil =>
      intro tm hval hin
      rcases hin with hin | hin
      · exact absurd hin (List.not_mem_nil C)
      · cases h : assocFind tm C with
        | none => rw [h] at hin; exact absurd hin (by simp)
        | some t =>
          simp only [List.foldl_nil]
          rw [h, hval C t h]
    | cons s ss ih =>
      intro tm hval hin
      rw [List.foldl_cons]
      apply ih
      · intro c t hct
        rw [assocFind_mapInsertNew] at hct
        split at hct
        · exact hval c t hct
        · split at hct
          · rename_i e
            simp only [Option.some.injEq] at hct
            rw [← hct, e]
          · exact hval c t hct
      · rcases hin with hin | hin
        · rcases List.mem_cons.mp hin with e | hin
          · right
            rw [assocFind_mapInsertNew]
            split
            · rename_i h; rw [e]; exact h
            · simp [e]
          · exact Or.inl hin
        · right
          rw [assocFind_mapInsertNew]
          split
          · exact hin
          · split
            · rfl
            · exact hin
  exact aux sorted [] (fun c t h => by simp [assocFind] at h) (Or.inl hC)

/-- C26. After the classification loop of `elevatorRank` and `elevatorStates`
every component C of the sorted list is typed D iff C is deterministic and
contains an accepting state, ND iff C is nondeterministic and contains no
accepting state, BOTH iff C is deterministic and contains no accepting state,
and BAD iff C is nondeterministic and contains an accepting state, where C is
deterministic iff every state of C has, for every alphabet symbol, at most one
successor inside C. -/
theorem scc_classification (A : BuchiAutomaton) (sorted : List IntSet) (C : IntSet)
    (hC : C ∈ sorted) :
    (sccDet A C = true ↔
      ∀ q ∈ C, ∀ a ∈ A.alphabet,
        ((A.trans q a).filter (fun x => decide (x ∈ C))).length ≤ 1) ∧
    (typeOf (classifyAll A sorted) C = SccType.D ↔
      sccDet A C = true ∧ ∃ q ∈ C, q ∈ A.finals) ∧
    (typeOf (classifyAll A sorted) C = SccType.ND ↔
      ¬ sccDet A C = true ∧ ¬ ∃ q ∈ C, q ∈ A.finals) ∧
    (typeOf (classifyAll A sorted) C = SccType.BOTH ↔
      sccDet A C = true ∧ ¬ ∃ q ∈ C, q ∈ A.finals) ∧
    (typeOf (classifyAll A sorted) C = SccType.BAD ↔
      ¬ sccDet A C = true ∧ ∃ q ∈ C, q ∈ A.finals) := by
  have ht : typeOf (classifyAll A sorted) C = classify A C := by
    unfold typeOf
    rw [typeOf_classifyAll A sorted C hC]
    rfl
  have hfin : (C.any (fun state => decide (state ∈ A.finals)) = true) ↔ ∃ q ∈ C, q ∈ A.finals := by
    simp [List.any_eq_true]
  refine ⟨sccDet_iff A C, ?_⟩
  rw [ht, ← hfin]
  unfold classify
  cases sccDet A C <;> cases C.any (fun state => decide (state ∈ A.finals)) <;> simp

theorem scc_classification_witness :
    [0] ∈ [[0], [1]] ∧
    typeOf (classifyAll scenario2 [[0], [1]]) [0] = SccType.BOTH ∧
    typeOf (classifyAll scenario2 [[0], [1]]) [1] = SccType.D ∧
    typeOf (classifyAll badAut [[0], [1, 2]]) [1, 2] = SccType.BAD ∧
    (typeOf (classifyAll scenario2 [[0], [1]]) [0] = SccType.BOTH ↔
      sccDet scenario2 [0] = true ∧ ¬ ∃ q ∈ [0], q ∈ scenario2.finals) :=
  ⟨by decide, by decide, by decide, by decide,
    (scc_classification scenario2 [[0], [1]] [0] (by decide)).2.2.2.1⟩

/-! ## Propagation of BAD -/

theorem typeOf_assign (tm : List (IntSet × SccType)) (k c : IntSet) (t : SccType) :
    typeOf (assocAssign tm k t) c = if c = k then t else typeOf tm c := by
  unfold typeOf
  rw [assocFind_assocAssign]
  split <;> rfl

theorem typeOf_markBad (sorted : List IntSet) (k : Nat) (tm : List (IntSet × SccType))
    (c : IntSet) :
    typeOf (markBad sorted k tm) c =
      if c ∈ sorted.take k then SccType.BAD else typeOf tm c := by
  unfold markBad
  have aux : ∀ (l : List IntSet) (tm : List (IntSet × SccType)),
      typeOf (l.foldl (fun tm c => assocAssign tm c SccType.BAD) tm) c =
        if c ∈ l then SccType.BAD else typeOf tm c := by
    intro l
    induction l with
    | nil => intro tm; simp
    | cons x xs ih =>
      intro tm
      rw [List.foldl_cons, ih, typeOf_assign]
      by_cases h1 : c ∈ xs
      · rw [if_pos h1, if_pos (List.mem_cons_of_mem _ h1)]
      · rw [if_neg h1]
        by_cases h2 : c = x
        · rw [if_pos h2, if_pos (by rw [h2]; exact List.mem_cons_self _ _)]
        · rw [if_neg h2, if_neg]
          intro h
          rcases List.mem_cons.mp h with h | h
          · exact h2 h
          · exact h1 h
  exact aux _ tm

theorem mem_take_iff_index {α : Type} (l : List α) (m : Nat) (c : α) :
    c ∈ l.take m ↔ ∃ k, k < m ∧ l[k]? = some c := by
  rw [List.mem_iff_getElem?]
  constructor
  · rintro ⟨k, hk⟩
    rw [List.getElem?_take] at hk
    by_cases h : k < m
    · rw [if_pos h] at hk
      exact ⟨k, h, hk⟩
    · rw [if_neg h] at hk
      simp at hk
  · rintro ⟨k, h, hk⟩
    refine ⟨k, ?_⟩
    rw [List.getElem?_take, if_pos h]
    exact hk

theorem lt_length_of_getElem? {α : Type} (l : List α) (k : Nat) (c : α)
    (hk : l[k]? = some c) : k < l.length := by
  by_contra h
  rw [List.getElem?_eq_none (by omega)] at hk
  simp at hk

theorem adjacentRepeats_get (l : List IntSet) (h : AdjacentRepeats l) (i j k : Nat)
    (c : IntSet) (hik : i ≤ k) (hkj : k ≤ j) (hi : l[i]? = some c) (hj : l[j]? = some c) :
    l[k]? = some c := by
  have hjlt : j < l.length := lt_length_of_getElem? _ _ _ hj
  have hilt : i < l.length := by omega
  have hklt : k < l.length := by omega
  have h1 := h ⟨i, hilt⟩ ⟨j, hjlt⟩ ⟨k, hklt⟩ hik hkj
  rw [List.getElem?_eq_getElem hilt] at hi
  rw [List.getElem?_eq_getElem hjlt] at hj
  simp only [Option.some.injEq] at hi hj
  simp only [List.get_eq_getElem] at h1
  rw [List.getElem?_eq_getElem hklt, h1 (hi.trans hj.symm), hi]

/-- The loop that propagates BAD back, started at an index `i` within the
list, returns; afterwards a component is typed BAD iff it was typed BAD before
or some component after it, up to the index `i`, was; every other component
keeps its type. -/
theorem badLoop_spec (sorted : List IntSet) (hadj : AdjacentRepeats sorted) (i : Nat)
    (tm : List (IntSet × SccType)) (hi : i < sorted.length) :
    ∃ tm', badLoop sorted i tm = some tm' ∧
      ∀ k c, sorted[k]? = some c →
        (typeOf tm' c = SccType.BAD ↔
          typeOf tm c = SccType.BAD ∨
            ∃ (j : Nat) (c' : IntSet), k < j ∧ j ≤ i ∧ sorted[j]? = some c' ∧ typeOf tm c' = SccType.BAD) ∧
        (typeOf tm' c ≠ SccType.BAD → typeOf tm' c = typeOf tm c) := by
  induction i with
  | zero =>
    unfold badLoop
    obtain ⟨c0, hc0⟩ : ∃ c0, sorted[0]? = some c0 :=
      ⟨sorted.get ⟨0, hi⟩, List.getElem?_eq_getElem hi⟩
    rw [hc0]
    have hsame : ∀ (tm' : List (IntSet × SccType)), tm' = tm →
        ∀ k c, sorted[k]? = some c →
        (typeOf tm' c = SccType.BAD ↔
          typeOf tm c = SccType.BAD ∨
            ∃ (j : Nat) (c' : IntSet), k < j ∧ j ≤ 0 ∧ sorted[j]? = some c' ∧ typeOf tm c' = SccType.BAD) ∧
        (typeOf tm' c ≠ SccType.BAD → typeOf tm' c = typeOf tm c) := by
      intro tm' e k c _
      rw [e]
      refine ⟨?_, fun _ => rfl⟩
      constructor
      · intro h; exact Or.inl h
      · rintro (h | ⟨j, _, h1, h2, _⟩)
        · exact h
        · omega
    simp only
    split
    · exact ⟨_, rfl, hsame _ (by simp [markBad])⟩
    · exact ⟨_, rfl, hsame _ rfl⟩
  | succ i ih =>
    unfold badLoop
    obtain ⟨c1, hc1⟩ : ∃ c1, sorted[i + 1]? = some c1 :=
      ⟨sorted.get ⟨i + 1, hi⟩, List.getElem?_eq_getElem hi⟩
    rw [hc1]
    simp only
    by_cases hb : typeOf tm c1 = SccType.BAD
    · rw [if_pos hb]
      refine ⟨_, rfl, ?_⟩
      intro k c hk
      rw [typeOf_markBad]
      by_cases hmem : c ∈ sorted.take (i + 1)
      · rw [if_pos hmem]
        refine ⟨?_, fun h => absurd rfl h⟩
        constructor
        · intro _
          obtain ⟨k', hk'lt, hk'⟩ := (mem_take_iff_index sorted (i + 1) c).mp hmem
          by_cases hlt : k < i + 1
          · exact Or.inr ⟨i + 1, c1, hlt, le_refl _, hc1, hb⟩
          · left
            have h3 := adjacentRepeats_get sorted hadj k' k (i + 1) c (by omega) (by omega)
              hk' hk
            rw [hc1] at h3
            simp only [Option.some.injEq] at h3
            rw [← h3]
            exact hb
        · intro _
          rfl
      · rw [if_neg hmem]
        refine ⟨?_, fun _ => rfl⟩
        constructor
        · intro h; exact Or.inl h
        · rintro (h | ⟨j, _, h1, h2, _⟩)
          · exact h
          · exact absurd ((mem_take_iff_index sorted (i + 1) c).mpr ⟨k, by omega, hk⟩) hmem
    · rw [if_neg hb]
      obtain ⟨tm', hrun, hspec⟩ := ih (by omega)
      refine ⟨tm', hrun, ?_⟩
      intro k c hk
      obtain ⟨h1, h2⟩ := hspec k c hk
      refine ⟨?_, h2⟩
      rw [h1]
      constructor
      · rintro (h | ⟨j, c', hj1, hj2, hj3, hj4⟩)
        · exact Or.inl h
        · exact Or.inr ⟨j, c', hj1, by omega, hj3, hj4⟩
      · rintro (h | ⟨j, c', hj1, hj2, hj3, hj4⟩)
        · exact Or.inl h
        · by_cases e : j = i + 1
          · rw [e, hc1] at hj3
            simp only [Option.some.injEq] at hj3
            rw [← hj3] at hj4
            exact absurd hj4 hb
          · exact Or.inr ⟨j, c', hj1, by omega, hj3, hj4⟩

theorem unsignedPred_eq (n : Nat) (h1 : 1 ≤ n) (h2 : n ≤ 2 ^ 32) : unsignedPred n = n - 1 := by
  unfold unsignedPred
  norm_num at h2 ⊢
  omega

/-- C28. On sorted components c0..c(n−1) with 1 ≤ n ≤ 2^32, equal components
standing next to each other (so in particular on components that are pairwise
different), the BAD-propagation step of `elevatorRank` and `elevatorStates`
returns, and afterwards the component ci is typed BAD if and only if some cj
with j ≥ i was classified BAD, and every other component keeps its classified
type. -/
theorem bad_propagation (A : BuchiAutomaton) (sorted : List IntSet)
    (hn : 1 ≤ sorted.length) (hlen : sorted.length ≤ 2 ^ 32)
    (hadj : AdjacentRepeats sorted) :
    ∃ tm, propagateBad sorted (classifyAll A sorted) = some tm ∧
      ∀ (i : Nat) (c : IntSet), sorted[i]? = some c →
        (typeOf tm c = SccType.BAD ↔
          ∃ (j : Nat) (c' : IntSet), i ≤ j ∧ sorted[j]? = some c' ∧
            classify A c' = SccType.BAD) ∧
        (typeOf tm c ≠ SccType.BAD → typeOf tm c = classify A c) := by
  have hcls : ∀ (k : Nat) (c : IntSet), sorted[k]? = some c →
      typeOf (classifyAll A sorted) c = classify A c := by
    intro k c hk
    unfold typeOf
    rw [typeOf_classifyAll A sorted c (List.getElem?_mem hk)]
    rfl
  unfold propagateBad
  rw [unsignedPred_eq _ hn hlen]
  obtain ⟨tm, hrun, hspec⟩ := badLoop_spec sorted hadj (sorted.length - 1)
    (classifyAll A sorted) (by omega)
  refine ⟨tm, hrun, ?_⟩
  intro i c hi
  obtain ⟨h1, h2⟩ := hspec i c hi
  refine ⟨?_, ?_⟩
  · rw [h1]
    constructor
    · rintro (h | ⟨j, c', hj1, _, hj3, hj4⟩)
      · exact ⟨i, c, le_refl _, hi, by rw [← hcls i c hi]; exact h⟩
      · exact ⟨j, c', by omega, hj3, by rw [← hcls j c' hj3]; exact hj4⟩
    · rintro ⟨j, c', hj1, hj3, hj4⟩
      by_cases e : j = i
      · left
        rw [e, hi] at hj3
        simp only [Option.some.injEq] at hj3
        rw [hcls i c hi, hj3]
        exact hj4
      · right
        have hjlt := lt_length_of_getElem? _ _ _ hj3
        exact ⟨j, c', by omega, by omega, hj3, by rw [hcls j c' hj3]; exact hj4⟩
  · intro h
    rw [h2 h, hcls i c hi]

theorem bad_propagation_witness :
    1 ≤ [[0], [0], [1, 2]].length ∧ [[0], [0], [1, 2]].length ≤ 2 ^ 32 ∧
    AdjacentRepeats [[0], [0], [1, 2]] ∧
    classifyAll badAut [[0], [0], [1, 2]] = [([0], SccType.BOTH), ([1, 2], SccType.BAD)] ∧
    propagateBad [[0], [0], [1, 2]] (classifyAll badAut [[0], [0], [1, 2]]) =
      some [([0], SccType.BAD), ([1, 2], SccType.BAD)] ∧
    (∃ tm, propagateBad [[0], [0], [1, 2]] (classifyAll badAut [[0], [0], [1, 2]]) = some tm ∧
      ∀ (i : Nat) (c : IntSet), [[0], [0], [1, 2]][i]? = some c →
        (typeOf tm c = SccType.BAD ↔
          ∃ (j : Nat) (c' : IntSet), i ≤ j ∧ [[0], [0], [1, 2]][j]? = some c' ∧
            classify badAut c' = SccType.BAD) ∧
        (typeOf tm c ≠ SccType.BAD → typeOf tm c = classify badAut c)) :=
  ⟨by decide, by decide, by decide, by decide, by decide,
    bad_propagation badAut [[0], [0], [1, 2]] (by decide) (by decide) (by decide)⟩

/-! ## Topological sort, merge step and rank assignment on concrete automata -/

/-- C27. On the automaton `forkAut` (state 0 leads to state 1 on both symbols;
its components are {0} and {1}) `topologicalSort`, given the components in the
order {0}, {1}, returns the list {0}, {1}, {1}: the component {1} is pushed
once for each of the two transitions that enter it, because `visited[scc]` is
tested before the loops over the states and symbols and not before each
recursive call. Given the components in the order {1}, {0} the same call
returns {0}, {1}. -/
theorem topological_sort_repeats :
    forkAut.states = [0, 1] ∧ forkAut.trans 0 0 = [1] ∧ forkAut.trans 0 1 = [1] ∧
    forkAut.trans 1 0 = [] ∧ forkAut.trans 1 1 = [] ∧
    topologicalSort forkAut [[0], [1]] 5 = some [[0], [1], [1]] ∧
    ((topologicalSort forkAut [[0], [1]] 5).map (fun sorted => sorted.count [1])) = some 2 ∧
    topologicalSort forkAut [[1], [0]] 5 = some [[0], [1]] :=
  ⟨by decide, by decide, by decide, by decide, by decide, by decide, by decide, by decide⟩

theorem crossDet_eq_sccDet (A : BuchiAutomaton) (X : IntSet) : crossDet A X = sccDet A X := by
  have h1 := crossDet_iff A X
  have h2 := sccDet_iff A X
  cases hc : crossDet A X <;> cases hs : sccDet A X
  · rfl
  · exact absurd (h1.mpr (h2.mp hs)) (by rw [hc]; decide)
  · exact absurd (h2.mpr (h1.mp hc)) (by rw [hs]; decide)
  · rfl

/-- C29. The determinism test of the merge step of `elevatorRank` counts, for
a state of the preceding component X and a symbol, the successors inside X
only: it is the test of the classification and it never looks at the current
partition. On the automaton of scenario 2 (components {0} of type BOTH and
{1} of type D, state 0 has the two 0-successors 0 and 1 within {0} ∪ {1}) the
merge step returns the single partition {0, 1} of type D, for both orders in
which the components can be given to `topologicalSort`. -/
theorem merge_ignores_cross_transitions :
    (∀ (A : BuchiAutomaton) (X : IntSet), crossDet A X = sccDet A X) ∧
    topologicalSort scenario2 [[0], [1]] 5 = some [[0], [1]] ∧
    topologicalSort scenario2 [[1], [0]] 5 = some [[0], [1]] ∧
    classifyAll scenario2 [[0], [1]] = [([0], SccType.BOTH), ([1], SccType.D)] ∧
    ((scenario2.trans 0 0).filter (fun x => decide (x ∈ setInsertAll [0] [1]))).length = 2 ∧
    elevatorPartition scenario2 [[0], [1]] = some [([0, 1], SccType.D)] ∧
    elevatorNewRank scenario2 [[0], [1]] 5 = some [(0, 2), (1, 2)] :=
  ⟨crossDet_eq_sccDet, by decide, by decide, by decide, by decide, by decide, by decide⟩

/-- C30. On the automaton `liftAut` (components {0} of type D, {1} and {2} of
type BOTH; state 0 enters {1} on both symbols), with the components given in
the order {0}, {1}, {2}, the sorted list repeats {1}, the merge step produces
the partitions ({2}, BOTH), ({1}, BOTH), ({0, 1}, D), and the rank assignment
leaves state 1 of the D partition {0, 1} with the odd rank 3 given to it for
the partition {1}: `newRank.insert` keeps the first rank of a state. -/
theorem rank_assignment_overlap :
    topologicalSort liftAut [[0], [1], [2]] 5 = some [[0], [1], [1], [2]] ∧
    elevatorPartition liftAut [[0], [1], [1], [2]] =
      some [([2], SccType.BOTH), ([1], SccType.BOTH), ([0, 1], SccType.D)] ∧
    elevatorNewRank liftAut [[0], [1], [2]] 5 = some [(2, 2), (1, 3), (0, 4)] ∧
    1 ∈ ([0, 1] : IntSet) ∧
    ((elevatorNewRank liftAut [[0], [1], [2]] 5).bind (fun m => assocFind m 1)) = some 3 ∧
    elevatorNewRank liftAut [[2], [1], [0]] 5 = some [(2, 2), (0, 4), (1, 4)] :=
  ⟨by decide, by decide, by decide, by decide, by decide, by decide⟩

/-! ## The accepting self-loop test -/

theorem succPow_cycle (A : BuchiAutomaton) (T : IntSet) (a i j : Nat) (hij : i ≤ j)
    (h : succPow A T a (j + 1) = succPow A T a i) :
    ∀ k, i ≤ k → ∃ i', i ≤ i' ∧ i' ≤ j ∧ succPow A T a k = succPow A T a i' := by
  intro k
  induction k with
  | zero =>
    intro hk
    exact ⟨0, hk, Nat.zero_le _, rfl⟩
  | succ k ih =>
    intro hk
    by_cases hle : i ≤ k
    · obtain ⟨i', h1, h2, h3⟩ := ih hle
      have hstep : succPow A T a (k + 1) = succPow A T a (i' + 1) := by
        show succSet A (succPow A T a k) a = succSet A (succPow A T a i') a
        rw [h3]
      by_cases hlt : i' < j
      · exact ⟨i' + 1, by omega, by omega, hstep⟩
      · have e : i' = j := by omega
        rw [e] at hstep
        exact ⟨i, le_refl _, hij, hstep.trans h⟩
    · have e : i = k + 1 := by omega
      exact ⟨i, le_refl _, hij, by rw [e]⟩

theorem succPow_mem_sublists (A : BuchiAutomaton) (hA : A.WF) (T : IntSet) (a i : Nat)
    (hi : 1 ≤ i) : succPow A T a i ∈ A.states.sublists := by
  cases i with
  | zero => omega
  | succ i => exact succSet_mem_sublists A hA _ a

theorem slInv_init (A : BuchiAutomaton) (st a : Nat) :
    SlInv A st a { stack := [succSet A [st] a], comst := [succSet A [st] a], found := false } := by
  refine ⟨1, le_refl _, ?_, ?_, List.nodup_singleton _, Or.inl ⟨rfl, rfl⟩⟩
  · intro X
    simp only [List.mem_singleton]
    constructor
    · intro h
      exact ⟨1, le_refl _, le_refl _, h⟩
    · rintro ⟨i, h1, h2, h3⟩
      have e : i = 1 := by omega
      rw [e] at h3
      exact h3
  · intro i h1 h2
    omega

theorem slInv_step (A : BuchiAutomaton) (st a : Nat) (s : SlSearch) (h : SlInv A st a s)
    (hc : (decide (s.stack.length > 0) && !s.found) = true) : SlInv A st a (slBody A st a s) := by
  obtain ⟨j, hj, hcom, hbefore, hnd, hcase⟩ := h
  simp only [Bool.and_eq_true, decide_eq_true_eq, Bool.not_eq_true'] at hc
  rcases hcase with ⟨hf, hs⟩ | ⟨hf, _⟩ | ⟨_, hs, _⟩
  · unfold slBody
    rw [hs]
    simp only
    by_cases hmem : st ∈ succPow A [st] a j
    · rw [if_pos hmem]
      exact ⟨j, hj, hcom, hbefore, hnd, Or.inr (Or.inl ⟨rfl, hmem⟩)⟩
    · rw [if_neg hmem]
      by_cases hseen : succSet A (succPow A [st] a j) a ∈ s.comst
      · rw [if_neg (fun hn => hn hseen)]
        exact ⟨j, hj, hcom, hbefore, hnd, Or.inr (Or.inr ⟨rfl, rfl, hmem, hseen⟩)⟩
      · rw [if_pos hseen]
        refine ⟨j + 1, by omega, ?_, ?_, insertNew_nodup _ _ hnd, Or.inl ⟨rfl, rfl⟩⟩
        · intro X
          simp only [mem_insertNew, hcom]
          constructor
          · rintro (⟨i, h1, h2, h3⟩ | h)
            · exact ⟨i, h1, by omega, h3⟩
            · exact ⟨j + 1, by omega, le_refl _, h⟩
          · rintro ⟨i, h1, h2, h3⟩
            by_cases e : i = j + 1
            · right
              rw [h3, e]
              rfl
            · left
              exact ⟨i, h1, by omega, h3⟩
        · intro i h1 h2
          by_cases e : i = j
          · rw [e]
            exact hmem
          · exact hbefore i h1 (by omega)
  · rw [hf] at hc
    exact absurd hc.2 (by decide)
  · rw [hs] at hc
    simp at hc

theorem slInv_comst_le (A : BuchiAutomaton) (hA : A.WF) (st a : Nat) (s : SlSearch)
    (h : SlInv A st a s) : s.comst.length ≤ A.states.sublists.length := by
  obtain ⟨j, _, hcom, _, hnd, _⟩ := h
  apply (List.subperm_of_subset hnd _).length_le
  intro X hX
  obtain ⟨i, h1, _, h3⟩ := (hcom X).mp hX
  rw [h3]
  exact succPow_mem_sublists A hA _ a i h1

theorem slMeasure_step (A : BuchiAutomaton) (hA : A.WF) (st a : Nat) (s : SlSearch)
    (h : SlInv A st a s) (hc : (decide (s.stack.length > 0) && !s.found) = true) :
    slMeasure A (slBody A st a s) < slMeasure A s := by
  have hnext := slInv_comst_le A hA st a _ (slInv_step A st a s h hc)
  obtain ⟨j, hj, hcom, hbefore, hnd, hcase⟩ := h
  simp only [Bool.and_eq_true, decide_eq_true_eq, Bool.not_eq_true'] at hc
  rcases hcase with ⟨hf, hs⟩ | ⟨hf, _⟩ | ⟨_, hs, _⟩
  · unfold slMeasure
    unfold slBody at hnext ⊢
    rw [hs] at hnext ⊢
    simp only at hnext ⊢
    by_cases hmem : st ∈ succPow A [st] a j
    · rw [if_pos hmem]
      simp
    · rw [if_neg hmem] at hnext ⊢
      by_cases hseen : succSet A (succPow A [st] a j) a ∈ s.comst
      · rw [if_neg (fun hn => hn hseen)]
        simp
      · rw [if_pos hseen] at hnext ⊢
        simp only at hnext ⊢
        have hlen : (insertNew s.comst (succSet A (succPow A [st] a j) a)).length =
            s.comst.length + 1 := by
          unfold insertNew
          rw [if_neg hseen]
          simp
        rw [hlen] at hnext ⊢
        simp only [List.length_singleton]
        omega
  · rw [hf] at hc
    exact absurd hc.2 (by decide)
  · rw [hs] at hc
    simp at hc

/-- The inner search of `acceptSl` returns on a well-formed automaton, and it
reports `true` exactly when some δ({st}, a^k) with k ≥ 1 contains `st`. -/
theorem slReturns_spec (A : BuchiAutomaton) (hA : A.WF) (st a fuel : Nat)
    (hfuel : 2 * A.states.sublists.length ≤ fuel) :
    ∃ b, slReturns A st a fuel = some b ∧
      (b = true ↔ ∃ k, 1 ≤ k ∧ st ∈ succPow A [st] a k) := by
  have hinit := slInv_init A st a
  have hpos : 1 ≤ A.states.sublists.length :=
    List.length_pos_of_mem (succSet_mem_sublists A hA [st] a)
  obtain ⟨s', hrun⟩ := whileLoop_terminates
    (fun s : SlSearch => decide (s.stack.length > 0) && !s.found) (slBody A st a)
    (SlInv A st a) (slMeasure A) (slInv_step A st a) (slMeasure_step A hA st a) fuel _ hinit
    (by
      unfold slMeasure
      simp only [List.length_singleton]
      omega)
  obtain ⟨hinv, hcond⟩ := whileLoop_inv
    (fun s : SlSearch => decide (s.stack.length > 0) && !s.found) (slBody A st a)
    (SlInv A st a) (slInv_step A st a) fuel _ s' hinit hrun
  refine ⟨s'.found, ?_, ?_⟩
  · unfold slReturns
    rw [hrun]
    rfl
  · obtain ⟨j, hj, hcom, hbefore, _, hcase⟩ := hinv
    rcases hcase with ⟨hf, hs⟩ | ⟨hf, hmem⟩ | ⟨hf, _, hnot, hseen⟩
    · rw [hf, hs] at hcond
      simp at hcond
    · rw [hf]
      exact ⟨fun _ => ⟨j, hj, hmem⟩, fun _ => rfl⟩
    · rw [hf]
      constructor
      · intro h
        exact absurd h (by decide)
      · rintro ⟨k, hk, hmemk⟩
        exfalso
        obtain ⟨i, h1, h2, h3⟩ := (hcom _).mp hseen
        have hall : ∀ m, 1 ≤ m → m ≤ j → st ∉ succPow A [st] a m := by
          intro m hm1 hm2
          by_cases e : m = j
          · rw [e]
            exact hnot
          · exact hbefore m hm1 (by omega)
        by_cases hki : i ≤ k
        · obtain ⟨i', hi1, hi2, hi3⟩ := succPow_cycle A [st] a i j h2 h3 k hki
          rw [hi3] at hmemk
          exact hall i' (by omega) hi2 hmemk
        · exact hall k hk (by omega) hmemk

theorem slSymbol_spec (A : BuchiAutomaton) (a fuel : Nat) (R : Nat → Prop) (rel : IntSet)
    (h : ∀ st ∈ rel, ∃ b, slReturns A st a fuel = some b ∧ (b = true ↔ R st)) :
    ∃ b, slSymbol A rel a fuel = some b ∧ (b = true ↔ ∃ st ∈ rel, R st) := by
  unfold slSymbol
  have aux : ∀ (l : IntSet) (b0 : Bool),
      (∀ st ∈ l, ∃ b, slReturns A st a fuel = some b ∧ (b = true ↔ R st)) →
      ∃ b, l.foldl
          (fun acc st =>
            match acc with
            | none => none
            | some true => some true
            | some false => slReturns A st a fuel)
          (some b0) = some b ∧ (b = true ↔ b0 = true ∨ ∃ st ∈ l, R st) := by
    intro l
    induction l with
    | nil =>
      intro b0 _
      exact ⟨b0, rfl, by simp⟩
    | cons x xs ih =>
      intro b0 hl
      rw [List.foldl_cons]
      have hxs : ∀ st ∈ xs, ∃ b, slReturns A st a fuel = some b ∧ (b = true ↔ R st) :=
        fun st hst => hl st (List.mem_cons_of_mem _ hst)
      cases b0 with
      | true =>
        obtain ⟨b, hb1, hb2⟩ := ih true hxs
        refine ⟨b, hb1, ?_⟩
        rw [hb2]
        simp
      | false =>
        obtain ⟨bx, hbx1, hbx2⟩ := hl x (List.mem_cons_self _ _)
        simp only
        rw [hbx1]
        obtain ⟨b, hb1, hb2⟩ := ih bx hxs
        refine ⟨b, hb1, ?_⟩
        rw [hb2, hbx2]
        simp
  obtain ⟨b, hb1, hb2⟩ := aux rel false h
  exact ⟨b, hb1, by rw [hb2]; simp⟩

theorem mem_acceptRel (A : BuchiAutomaton) (S : IntSet) (q : Nat) :
    q ∈ S.foldl (fun r st => if st ∈ A.finals then setInsert st r else r) [] ↔
      q ∈ S ∧ q ∈ A.finals := by
  have aux : ∀ (l : IntSet) (r0 : IntSet),
      q ∈ l.foldl (fun r st => if st ∈ A.finals then setInsert st r else r) r0 ↔
        q ∈ r0 ∨ (q ∈ l ∧ q ∈ A.finals) := by
    intro l
    induction l with
    | nil => intro r0; simp
    | cons x xs ih =>
      intro r0
      rw [List.foldl_cons, ih]
      by_cases hx : x ∈ A.finals
      · rw [if_pos hx, mem_setInsert, List.mem_cons]
        constructor
        · rintro ((h | h) | h)
          · exact Or.inr ⟨Or.inl h, h ▸ hx⟩
          · exact Or.inl h
          · exact Or.inr ⟨Or.inr h.1, h.2⟩
        · rintro (h | ⟨h | h, hf⟩)
          · exact Or.inl (Or.inr h)
          · exact Or.inl (Or.inl h)
          · exact Or.inr ⟨h, hf⟩
      · rw [if_neg hx, List.mem_cons]
        constructor
        · rintro (h | h)
          · exact Or.inl h
          · exact Or.inr ⟨Or.inr h.1, h.2⟩
        · rintro (h | ⟨h | h, hf⟩)
          · exact Or.inl h
          · exact absurd (h ▸ hf) hx
          · exact Or.inr ⟨h, hf⟩
  rw [aux]
  simp

/-- C25. On a well-formed automaton, with enough rounds for the searches,
`acceptSl(S, [a])` returns, and it returns true if and only if some accepting
state q of S has a k ≥ 1 with q ∈ δ({q}, a^k); so it is false when S is empty
or has no accepting state. -/
theorem accept_self_loop (A : BuchiAutomaton) (hA : A.WF) (state : StateSch) (a fuel : Nat)
    (hfuel : 2 * A.states.sublists.length ≤ fuel) :
    ∃ b, acceptSl A state [a] fuel = some b ∧
      (b = true ↔
        ∃ q ∈ state.S, q ∈ A.finals ∧ ∃ k, 1 ≤ k ∧ q ∈ succPow A [q] a k) := by
  unfold acceptSl
  by_cases hS : state.S.length = 0
  · rw [if_pos hS]
    refine ⟨false, rfl, ?_⟩
    have hnil : state.S = [] := List.length_eq_zero.mp hS
    rw [hnil]
    simp
  · rw [if_neg hS]
    simp only
    by_cases hrel :
        (state.S.foldl (fun r st => if st ∈ A.finals then setInsert st r else r) []).length = 0
    · rw [if_pos hrel]
      refine ⟨false, rfl, ?_⟩
      have hnil := List.length_eq_zero.mp hrel
      constructor
      · intro h
        exact absurd h (by decide)
      · rintro ⟨q, hq, hf, _⟩
        have := (mem_acceptRel A state.S q).mpr ⟨hq, hf⟩
        rw [hnil] at this
        simp at this
    · rw [if_neg hrel]
      obtain ⟨b, hb1, hb2⟩ := slSymbol_spec A a fuel
        (fun st => ∃ k, 1 ≤ k ∧ st ∈ succPow A [st] a k)
        (state.S.foldl (fun r st => if st ∈ A.finals then setInsert st r else r) [])
        (fun st _ => slReturns_spec A hA st a fuel hfuel)
      refine ⟨b, ?_, ?_⟩
      · simp only [List.foldl_cons, List.foldl_nil]
        rw [hb1]
        cases b <;> simp [setInsert]
      · rw [hb2]
        constructor
        · rintro ⟨q, hq, hk⟩
          have := (mem_acceptRel A state.S q).mp hq
          exact ⟨q, this.1, this.2, hk⟩
        · rintro ⟨q, hq, hf, hk⟩
          exact ⟨q, (mem_acceptRel A state.S q).mpr ⟨hq, hf⟩, hk⟩

theorem accept_self_loop_witness :
    scenario2.WF ∧ 2 * scenario2.states.sublists.length ≤ 8 ∧
    acceptSl scenario2 (waiting [0, 1]) [0] 8 = some true ∧
    acceptSl scenario2 (waiting [0]) [0] 8 = some false ∧
    (∃ b, acceptSl scenario2 (waiting [0, 1]) [0] 8 = some b ∧
      (b = true ↔
        ∃ q ∈ (waiting [0, 1]).S, q ∈ scenario2.finals ∧
          ∃ k, 1 ≤ k ∧ q ∈ succPow scenario2 [q] 0 k)) :=
  ⟨scenario2_WF, by decide, by decide, by decide,
    accept_self_loop scenario2 scenario2_WF (waiting [0, 1]) 0 8 (by decide)⟩

theorem twinAut_succPow (k : Nat) : succPow twinAut [1] 0 (k + 1) = [0] := by
  induction k with
  | zero => decide
  | succ k ih =>
    show succSet twinAut (succPow twinAut [1] 0 (k + 1)) 0 = [0]
    rw [ih]
    decide

/-- On `twinAut` with S = {0, 1}, both states accepting, `acceptSl(S, [a])` is
true although no a-path from the accepting state 1 returns to it: the loop
over the accepting states is left at the first state that has a return path,
here state 0. -/
theorem accept_self_loop_counterexample :
    acceptSl twinAut (waiting [0, 1]) [0] 8 = some true ∧
    ¬ (∀ q ∈ (waiting [0, 1]).S, q ∈ twinAut.finals →
        ∃ k, 1 ≤ k ∧ q ∈ succPow twinAut [q] 0 k) := by
  refine ⟨by decide, ?_⟩
  intro h
  obtain ⟨k, hk, hmem⟩ := h 1 (by decide) (by decide)
  obtain ⟨m, rfl⟩ : ∃ m, k = m + 1 := ⟨k - 1, by omega⟩
  rw [twinAut_succPow] at hmem
  exact absurd hmem (by decide)

/-! ## The rank assignment on disjoint partitions -/

theorem assocFind_insertAll (l : IntSet) (v : Nat) (m : List (Nat × Nat)) (q : Nat) :
    assocFind (l.foldl (fun m state => mapInsertNew m state v) m) q =
      if (assocFind m q).isSome then assocFind m q
      else if q ∈ l then some v else none := by
  induction l generalizing m with
  | nil =>
    simp only [List.foldl_nil, List.not_mem_nil, if_false]
    cases h : assocFind m q <;> simp
  | cons x xs ih =>
    rw [List.foldl_cons, ih, assocFind_mapInsertNew]
    cases hq : assocFind m q with
    | some r =>
      by_cases hx : (assocFind m x).isSome = true
      · simp [hx, hq]
      · by_cases e : q = x
        · rw [e] at hq
          rw [hq] at hx
          simp at hx
        · simp [hx, hq, e]
    | none =>
      by_cases e : q = x
      · have hx : (assocFind m x).isSome = false := by
          rw [← e, hq]
          rfl
        simp [hx, e]
      · by_cases hx : (assocFind m x).isSome = true
        · simp [hx, hq, e]
        · simp [hx, hq, e]

/-- One round of the rank assignment on a partition that is not BAD: the
states of the partition are inserted with a rank `v` not below the counter, of
the parity of the partition type, and the counter becomes `v + 1`. -/
theorem rankStep_eq (c : Nat) (m : List (Nat × Nat)) (p : IntSet × SccType)
    (hp : p.2 ≠ SccType.BAD) :
    ∃ v, c ≤ v ∧ (p.2 = SccType.D → v % 2 = 0) ∧ (p.2 = SccType.ND → v % 2 = 1) ∧
      rankStep (c, m) p = (v + 1, p.1.foldl (fun m state => mapInsertNew m state v) m) := by
  unfold rankStep
  by_cases h1 : p.2 = SccType.D ∧ c % 2 = 1
  · refine ⟨c + 1, by omega, fun _ => by omega, fun h => ?_, ?_⟩
    · rw [h1.1] at h
      exact absurd h (by decide)
    · simp only [if_pos h1]
  · by_cases h2 : p.2 = SccType.ND ∧ c % 2 = 0
    · refine ⟨c + 1, by omega, fun h => ?_, fun _ => by omega, ?_⟩
      · rw [h2.1] at h
        exact absurd h (by decide)
      · simp only [if_neg h1, if_pos h2]
    · refine ⟨c, le_refl _, fun h => ?_, fun h => ?_, ?_⟩
      · have : ¬ c % 2 = 1 := fun hc => h1 ⟨h, hc⟩
        omega
      · have : ¬ c % 2 = 0 := fun hc => h2 ⟨h, hc⟩
        omega
      · simp only [if_neg h1, if_neg h2, if_neg hp]

theorem rankStep_bad (acc : Nat × List (Nat × Nat)) (p : IntSet × SccType)
    (hp : p.2 = SccType.BAD) : rankStep acc p = acc := by
  unfold rankStep
  rw [if_neg, if_neg, if_pos hp]
  · intro h
    rw [hp] at h
    exact absurd h.1 (by decide)
  · intro h
    rw [hp] at h
    exact absurd h.1 (by decide)

/-- The loop of the rank assignment, from the counter `c` and the map `m`, on
a list of pairwise disjoint partitions none of whose states is in `m`. -/
theorem rankFold_disjoint (ps : List (IntSet × SccType)) :
    ∀ (c : Nat) (m : List (Nat × Nat)),
      ps.Pairwise (fun p p' => ∀ q ∈ p.1, q ∉ p'.1) →
      (∀ p ∈ ps, ∀ q ∈ p.1, assocFind m q = none) →
      c ≤ (ps.foldl rankStep (c, m)).1 ∧
      (∀ q r, assocFind m q = some r → assocFind (ps.foldl rankStep (c, m)).2 q = some r) ∧
      (∀ q r, assocFind (ps.foldl rankStep (c, m)).2 q = some r →
        assocFind m q = some r ∨ (c ≤ r ∧ r < (ps.foldl rankStep (c, m)).1)) ∧
      (∀ q, (∀ p ∈ ps, p.2 ≠ SccType.BAD → q ∉ p.1) →
        assocFind (ps.foldl rankStep (c, m)).2 q = assocFind m q) ∧
      (∀ p ∈ ps, p.2 ≠ SccType.BAD → ∀ q ∈ p.1,
        ∃ r, assocFind (ps.foldl rankStep (c, m)).2 q = some r ∧ c ≤ r ∧
          r < (ps.foldl rankStep (c, m)).1 ∧
          (p.2 = SccType.D → r % 2 = 0) ∧ (p.2 = SccType.ND → r % 2 = 1)) ∧
      (∀ (i j : Nat) (p p' : IntSet × SccType), i < j → ps[i]? = some p → ps[j]? = some p' →
        p.2 ≠ SccType.BAD → p'.2 ≠ SccType.BAD →
        ∀ q ∈ p.1, ∀ q' ∈ p'.1, ∀ r r',
          assocFind (ps.foldl rankStep (c, m)).2 q = some r →
          assocFind (ps.foldl rankStep (c, m)).2 q' = some r' → r < r') := by
  induction ps with
  | nil =>
    intro c m _ _
    refine ⟨le_refl _, fun _ _ h => h, fun _ _ h => Or.inl h, fun _ _ => rfl, ?_, ?_⟩
    · intro p hp
      simp at hp
    · intro i j p p' _ hi
      simp at hi
  | cons p0 rest ih =>
    intro c m hdisj hfresh
    rw [List.pairwise_cons] at hdisj
    rw [List.foldl_cons]
    have hfresh_rest : ∀ p ∈ rest, ∀ q ∈ p.1, assocFind m q = none :=
      fun p hp => hfresh p (List.mem_cons_of_mem _ hp)
    by_cases hbad : p0.2 = SccType.BAD
    · rw [rankStep_bad (c, m) p0 hbad]
      obtain ⟨h1, h2, h3, h4, h5, h6⟩ := ih c m hdisj.2 hfresh_rest
      refine ⟨h1, h2, h3, ?_, ?_, ?_⟩
      · intro q hq
        exact h4 q (fun p hp => hq p (List.mem_cons_of_mem _ hp))
      · intro p hp hnb q hq
        rcases List.mem_cons.mp hp with e | hp'
        · rw [e] at hnb
          exact absurd hbad hnb
        · exact h5 p hp' hnb q hq
      · intro i j p p' hij hi hj hnb hnb'
        cases i with
        | zero =>
          simp only [List.getElem?_cons_zero, Option.some.injEq] at hi
          rw [← hi] at hnb
          exact absurd hbad hnb
        | succ i =>
          cases j with
          | zero => omega
          | succ j =>
            simp only [List.getElem?_cons_succ] at hi hj
            exact h6 i j p p' (by omega) hi hj hnb hnb'
    · obtain ⟨v, hv1, hvD, hvND, hstep⟩ := rankStep_eq c m p0 hbad
      rw [hstep]
      have hm1 : ∀ q, assocFind (p0.1.foldl (fun m state => mapInsertNew m state v) m) q =
          if (assocFind m q).isSome then assocFind m q
          else if q ∈ p0.1 then some v else none := assocFind_insertAll p0.1 v m
      have hfresh1 : ∀ p ∈ rest, ∀ q ∈ p.1,
          assocFind (p0.1.foldl (fun m state => mapInsertNew m state v) m) q = none := by
        intro p hp q hq
        rw [hm1, hfresh_rest p hp q hq]
        have hnot : q ∉ p0.1 := fun hq0 => hdisj.1 p hp q hq0 hq
        simp [hnot]
      obtain ⟨h1, h2, h3, h4, h5, h6⟩ := ih (v + 1) _ hdisj.2 hfresh1
      have hhead : ∀ q ∈ p0.1,
          assocFind (rest.foldl rankStep
            (v + 1, p0.1.foldl (fun m state => mapInsertNew m state v) m)).2 q = some v := by
        intro q hq
        apply h2
        rw [hm1, hfresh p0 (List.mem_cons_self _ _) q hq]
        simp [hq]
      refine ⟨by omega, ?_, ?_, ?_, ?_, ?_⟩
      · intro q r hqr
        apply h2
        rw [hm1, hqr]
        simp
      · intro q r hqr
        rcases h3 q r hqr with h | ⟨h, h'⟩
        · rw [hm1] at h
          cases hq : assocFind m q with
          | some r0 =>
            rw [hq] at h
            simp only [Option.isSome_some, if_true, Option.some.injEq] at h
            left
            rw [h]
          | none =>
            rw [hq] at h
            right
            by_cases hmem : q ∈ p0.1
            · simp only [Option.isSome_none, Bool.false_eq_true, if_false, if_pos hmem,
                Option.some.injEq] at h
              omega
            · simp [hmem] at h
        · right
          omega
      · intro q hq
        rw [h4 q (fun p hp => hq p (List.mem_cons_of_mem _ hp)), hm1]
        have hnot : q ∉ p0.1 := hq p0 (List.mem_cons_self _ _) hbad
        cases hq' : assocFind m q <;> simp [hnot]
      · intro p hp hnb q hq
        rcases List.mem_cons.mp hp with e | hp'
        · rw [e] at hq ⊢
          exact ⟨v, hhead q hq, hv1, by omega, hvD, hvND⟩
        · obtain ⟨r, hr1, hr2, hr3, hr4, hr5⟩ := h5 p hp' hnb q hq
          exact ⟨r, hr1, by omega, hr3, hr4, hr5⟩
      · intro i j p p' hij hi hj hnb hnb' q hq q' hq' r r' hr hr'
        cases j with
        | zero => omega
        | succ j =>
          simp only [List.getElem?_cons_succ] at hj
          cases i with
          | zero =>
            simp only [List.getElem?_cons_zero, Option.some.injEq] at hi
            rw [← hi] at hq
            rw [hhead q hq] at hr
            simp only [Option.some.injEq] at hr
            obtain ⟨r2, hr21, hr22, _⟩ := h5 p' (List.getElem?_mem hj) hnb' q' hq'
            rw [hr21] at hr'
            simp only [Option.some.injEq] at hr'
            omega
          | succ i =>
            simp only [List.getElem?_cons_succ] at hi
            exact h6 i j p p' (by omega) hi hj hnb hnb' q hq q' hq' r r' hr hr'

/-- The rank assignment of `elevatorRank` on a list of pairwise disjoint
partitions: the states of a D partition get an even rank, those of an ND
partition an odd rank, those of a BOTH partition a rank, those of a BAD
partition none; every rank is at least 2, and the ranks of a partition that is
not BAD are above those of every such partition listed before it. -/
theorem assignRanks_disjoint (ps : List (IntSet × SccType))
    (hdisj : ps.Pairwise (fun p p' => ∀ q ∈ p.1, q ∉ p'.1)) :
    (∀ p ∈ ps, p.2 ≠ SccType.BAD → ∀ q ∈ p.1,
      ∃ r, assocFind (assignRanks ps) q = some r ∧ 2 ≤ r ∧
        (p.2 = SccType.D → r % 2 = 0) ∧ (p.2 = SccType.ND → r % 2 = 1)) ∧
    (∀ p ∈ ps, p.2 = SccType.BAD → ∀ q ∈ p.1, assocFind (assignRanks ps) q = none) ∧
    (∀ q r, assocFind (assignRanks ps) q = some r → 2 ≤ r) ∧
    (∀ (i j : Nat) (p p' : IntSet × SccType), i < j → ps[i]? = some p → ps[j]? = some p' →
      p.2 ≠ SccType.BAD → p'.2 ≠ SccType.BAD →
      ∀ q ∈ p.1, ∀ q' ∈ p'.1, ∀ r r',
        assocFind (assignRanks ps) q = some r → assocFind (assignRanks ps) q' = some r' →
        r < r') := by
  obtain ⟨_, _, h3, h4, h5, h6⟩ := rankFold_disjoint ps 2 [] hdisj (fun _ _ _ _ => rfl)
  unfold assignRanks
  refine ⟨?_, ?_, ?_, h6⟩
  · intro p hp hnb q hq
    obtain ⟨r, hr1, hr2, _, hr4, hr5⟩ := h5 p hp hnb q hq
    exact ⟨r, hr1, hr2, hr4, hr5⟩
  · intro p hp hb q hq
    rw [h4 q]
    · rfl
    · intro p' hp' hnb' hq'
      have hne : p' ≠ p := fun e => hnb' (e ▸ hb)
      obtain ⟨i, hi⟩ := List.mem_iff_getElem?.mp hp
      obtain ⟨j, hj⟩ := List.mem_iff_getElem?.mp hp'
      have hpw := List.pairwise_iff_getElem.mp hdisj
      have hilt : i < ps.length := lt_length_of_getElem? _ _ _ hi
      have hjlt : j < ps.length := lt_length_of_getElem? _ _ _ hj
      rw [List.getElem?_eq_getElem hilt] at hi
      rw [List.getElem?_eq_getElem hjlt] at hj
      simp only [Option.some.injEq] at hi hj
      rcases Nat.lt_trichotomy i j with h | h | h
      · have := hpw i j hilt hjlt h
        rw [hi, hj] at this
        exact this q hq hq'
      · apply hne
        rw [← hi, ← hj]
        simp only [h]
      · have := hpw j i hjlt hilt h
        rw [hi, hj] at this
        exact this q hq' hq
  · intro q r hqr
    rcases h3 q r hqr with h | h
    · simp [assocFind] at h
    · exact h.1

/-! ## The exact value of the propagation update -/

/-- C35. The update function `updMaxFnc` of `getRankBound`, `getMaxReachSize`
and `getMinReachSize` (the three lambdas have the same body) maps a macrostate
a with a non-negative label b and the neighbour list sts to min(b, m), where m
is the maximum of 0 and the labels of the neighbours that are not skipped, a
neighbour being skipped exactly when it has the S of a and a is in the ignore
set; so the result never exceeds b, and it is 0 when every neighbour is
skipped or sts is empty. -/
theorem update_exact_value (slignore : List StateSch) (a : LabelState)
    (sts : List LabelState) (hb : 0 ≤ a.label) :
    (∃ m : Int, updMaxFnc slignore a sts = min a.label m ∧ 0 ≤ m ∧
      (∀ tmp ∈ sts, ¬ (tmp.state.S = a.state.S ∧ a.state ∈ slignore) → tmp.label ≤ m) ∧
      (m = 0 ∨ ∃ tmp ∈ sts, ¬ (tmp.state.S = a.state.S ∧ a.state ∈ slignore) ∧
        m = tmp.label)) ∧
    updMaxFnc slignore a sts ≤ a.label ∧
    ((∀ tmp ∈ sts, tmp.state.S = a.state.S ∧ a.state ∈ slignore) →
      updMaxFnc slignore a sts = 0) ∧
    (sts = [] → updMaxFnc slignore a sts = 0) := by
  obtain ⟨h1, h2, h3⟩ := updMax_fold slignore a sts 0
  have hall : (∀ tmp ∈ sts, tmp.state.S = a.state.S ∧ a.state ∈ slignore) →
      updMaxFnc slignore a sts = 0 := by
    intro hskip
    unfold updMaxFnc
    simp only
    rcases h3 with h3 | ⟨tmp, htmp, hns, _⟩
    · rw [h3]
      exact min_eq_right hb
    · exact absurd (hskip tmp htmp) hns
  refine ⟨⟨_, rfl, h1, h2, h3⟩, ?_, hall, ?_⟩
  · unfold updMaxFnc
    exact min_le_left _ _
  · intro hnil
    apply hall
    rw [hnil]
    intro tmp htmp
    simp at htmp

theorem update_exact_value_witness :
    (0 : Int) ≤ (5 : Int) ∧
    updMaxFnc [waiting [0]] { state := waiting [0], label := 5 }
      [{ state := waiting [0], label := 4 }, { state := waiting [1], label := 3 },
        { state := waiting [2], label := 1 }] = 3 ∧
    updMaxFnc [waiting [0]] { state := waiting [0], label := 5 }
      [{ state := waiting [0], label := 4 }] = 0 ∧
    updMaxFnc [waiting [0]] { state := waiting [0], label := 5 }
      [{ state := waiting [0], label := 4 }, { state := waiting [1], label := 3 },
        { state := waiting [2], label := 1 }] ≤ 5 :=
  ⟨by decide, by decide, by decide,
    (update_exact_value [waiting [0]] { state := waiting [0], label := 5 }
      [{ state := waiting [0], label := 4 }, { state := waiting [1], label := 3 },
        { state := waiting [2], label := 1 }] (by decide)).2.1⟩

/-! ## The rank constraint -/

theorem sizeCeilToInt_eq (size : Nat) (h : size < 2 ^ 30) :
    sizeCeilToInt size = 2 * (size : Int) - 1 := by
  unfold sizeCeilToInt
  norm_num at h ⊢
  split <;> omega

theorem evenCeilings_minus_one (A : BuchiAutomaton) (sprime : IntSet) (q : Nat)
    (hq : q ∈ sprime) (hf : q ∈ A.finals) :
    evenCeilings A (fun _ => -1) sprime q = -2 := by
  have h1 := evenCeilings_le A (fun _ => -1) sprime q
  have h2 := evenCeilings_even A (fun _ => -1) sprime q hq hf
  have h3 := evenCeilings_ge A (fun _ => -1) sprime q (-2) (by norm_num) (fun _ => by norm_num)
  simp only at h1
  omega

theorem fromRankConstr_nil_mem (cs : RankConstr) (h : [] ∈ cs) : fromRankConstr cs = [] := by
  induction cs with
  | nil => simp at h
  | cons c cs ih =>
    rcases List.mem_cons.mp h with e | h'
    · rw [← e]
      rfl
    · simp only [fromRankConstr, ih h']
      simp

/-- C40. When the target macrostate S' = δ(S, a) is non-empty and contains
accepting states only, the ceiling computed from the unsigned expression
2·|S' \ F| − 1 and converted to `int` is −1 (the unsigned value is 2^64 − 1),
the ceiling of every state of S' is lowered to −2, `rankConstr` (of either
source file) offers no value to any state of S', and the earlier
`succSetSchStart` returns no macrostate. For sizes below 2^30 the converted
value is 2·size − 1. -/
theorem all_accepting_no_tight_entry (A : BuchiAutomaton) (state : IntSet) (symbol : Nat)
    (hne : succSet A state symbol ≠ [])
    (hacc : ∀ q ∈ succSet A state symbol, q ∈ A.finals) :
    (2 * (setDifference (succSet A state symbol) A.finals).length + 2 ^ 64 - 1) % 2 ^ 64
      = 2 ^ 64 - 1 ∧
    sizeCeilToInt (setDifference (succSet A state symbol) A.finals).length = -1 ∧
    (∀ q ∈ succSet A state symbol,
      evenCeilings A
        (fun _ => sizeCeilToInt (setDifference (succSet A state symbol) A.finals).length)
        (succSet A state symbol) q = -2) ∧
    (∀ c ∈ Legacy.rankConstr A
        (evenCeilings A
          (fun _ => sizeCeilToInt (setDifference (succSet A state symbol) A.finals).length)
          (succSet A state symbol)) (succSet A state symbol), c = []) ∧
    (∀ c ∈ rankConstr A
        (evenCeilings A
          (fun _ => sizeCeilToInt (setDifference (succSet A state symbol) A.finals).length)
          (succSet A state symbol)) (succSet A state symbol), c = []) ∧
    Legacy.succSetSchStart A state symbol = [] ∧
    (∀ size : Nat, size < 2 ^ 30 → sizeCeilToInt size = 2 * (size : Int) - 1) := by
  have hdiff : setDifference (succSet A state symbol) A.finals = [] := by
    apply List.eq_nil_iff_forall_not_mem.mpr
    intro q hq
    rw [mem_setDifference] at hq
    exact hq.2 (hacc q hq.1)
  have hceil : sizeCeilToInt (setDifference (succSet A state symbol) A.finals).length = -1 := by
    rw [hdiff]
    decide
  have hlow : ∀ q ∈ succSet A state symbol,
      evenCeilings A
        (fun _ => sizeCeilToInt (setDifference (succSet A state symbol) A.finals).length)
        (succSet A state symbol) q = -2 := by
    intro q hq
    rw [hceil]
    exact evenCeilings_minus_one A _ q hq (hacc q hq)
  have hleg : ∀ c ∈ Legacy.rankConstr A
        (evenCeilings A
          (fun _ => sizeCeilToInt (setDifference (succSet A state symbol) A.finals).length)
          (succSet A state symbol)) (succSet A state symbol), c = [] := by
    intro c hc
    unfold Legacy.rankConstr at hc
    rw [List.mem_map] at hc
    obtain ⟨q, hq, rfl⟩ := hc
    rw [hlow q hq]
    have : countUp (if q ∈ A.finals then 2 else 1) (if q ∈ A.finals then 2 else 1) (-2) = [] := by
      unfold countUp
      rw [if_pos (by
        have : (0 : Int) ≤ ((if q ∈ A.finals then 2 else 1 : Nat) : Int) := Int.natCast_nonneg _
        omega)]
    rw [this]
    rfl
  refine ⟨?_, hceil, hlow, hleg, ?_, ?_, sizeCeilToInt_eq⟩
  · rw [hdiff]
    decide
  · intro c hc
    unfold rankConstr at hc
    rw [List.mem_map] at hc
    obtain ⟨q, hq, rfl⟩ := hc
    rw [hlow q hq]
    have : countUp 0 (if q ∈ A.finals then 2 else 1) (-2) = [] := by
      unfold countUp
      rw [if_pos (by norm_num)]
    rw [this]
    rfl
  · unfold Legacy.succSetSchStart
    simp only
    have hmem : [] ∈ Legacy.rankConstr A
        (evenCeilings A
          (fun _ => sizeCeilToInt (setDifference (succSet A state symbol) A.finals).length)
          (succSet A state symbol)) (succSet A state symbol) := by
      obtain ⟨q, hq⟩ := List.exists_mem_of_ne_nil _ hne
      have hin : (fun st =>
          (countUp (if st ∈ A.finals then 2 else 1) (if st ∈ A.finals then 2 else 1)
            (evenCeilings A
              (fun _ => sizeCeilToInt (setDifference (succSet A state symbol) A.finals).length)
              (succSet A state symbol) st)).map (fun i => (st, i))) q ∈
          Legacy.rankConstr A
            (evenCeilings A
              (fun _ => sizeCeilToInt
                (setDifference (succSet A state symbol) A.finals).length)
              (succSet A state symbol)) (succSet A state symbol) :=
        List.mem_map_of_mem _ hq
      rw [hleg _ hin] at hin
      exact hin
    rw [fromRankConstr_nil_mem _ hmem]
    rfl

theorem all_accepting_no_tight_entry_witness :
    succSet accAut [0] 0 ≠ [] ∧ (∀ q ∈ succSet accAut [0] 0, q ∈ accAut.finals) ∧
    succSet accAut [0] 0 = [0] ∧
    Legacy.succSetSchStart accAut [0] 0 = [] ∧
    Legacy.succSetSchStart scenario2 [0] 1 =
      [{ S := [0], O := [], f := [(0, 1)], i := 0, tight := true }] :=
  ⟨by decide, by decide, by decide,
    (all_accepting_no_tight_entry accAut [0] 0 (by decide) (by decide)).2.2.2.2.2.1,
    by decide⟩

/-! ## The update of the rank bounds by the elevator ranks -/

theorem boundEntry_assign (rb : List (IntSet × RankBound)) (S T : IntSet) (v : RankBound) :
    boundEntry (assocAssign rb S v) T = if T = S then v else boundEntry rb T := by
  unfold boundEntry
  rw [assocFind_assocAssign]
  split <;> rfl

theorem boundEntry_touch (rb : List (IntSet × RankBound)) (S T : IntSet) :
    boundEntry (touchBound rb S) T = boundEntry rb T := by
  unfold touchBound
  by_cases h : (assocFind rb S).isSome = true
  · rw [if_pos h]
  · rw [if_neg h, boundEntry_assign]
    by_cases e : T = S
    · rw [if_pos e, e]
      unfold boundEntry
      cases hf : assocFind rb S with
      | none => rfl
      | some v => rw [hf] at h; simp at h
    · rw [if_neg e]

theorem boundEntry_touch_fold (states : List StateSch) (rb : List (IntSet × RankBound))
    (T : IntSet) :
    boundEntry (states.foldl (fun rb macrostate => touchBound rb macrostate.S) rb) T =
      boundEntry rb T := by
  induction states generalizing rb with
  | nil => rfl
  | cons m ms ih => rw [List.foldl_cons, ih, boundEntry_touch]

theorem maxStep_bad (newRank : List (Nat × Nat)) (l : IntSet) (acc : MaxAcc)
    (h : acc.bad = true) : l.foldl (maxStep newRank) acc = acc := by
  induction l with
  | nil => rfl
  | cons x xs ih =>
    rw [List.foldl_cons]
    have : maxStep newRank acc x = acc := by
      unfold maxStep
      rw [if_pos h]
    rw [this, ih]

/-- The loop over the states of a macrostate in the update of `elevatorRank`,
from locals with `bad` not set: `bad` is set iff some state has no elevator
rank; otherwise every state has a rank not above `max`, and `max` is the value
before the loop or the rank of a state, the latter when `first` was set. -/
theorem maxStep_fold (newRank : List (Nat × Nat)) (l : IntSet) :
    ∀ acc : MaxAcc, acc.bad = false →
      ((l.foldl (maxStep newRank) acc).bad = true ↔ ∃ q ∈ l, assocFind newRank q = none) ∧
      ((l.foldl (maxStep newRank) acc).bad = false →
        (∀ q ∈ l, ∃ r, assocFind newRank q = some r ∧ r ≤ (l.foldl (maxStep newRank) acc).max) ∧
        (acc.first = false → acc.max ≤ (l.foldl (maxStep newRank) acc).max) ∧
        ((acc.first = false ∧ (l.foldl (maxStep newRank) acc).max = acc.max) ∨ l = [] ∨
          ∃ q ∈ l, assocFind newRank q = some (l.foldl (maxStep newRank) acc).max)) := by
  induction l with
  | nil =>
    intro acc hacc
    simp only [List.foldl_nil]
    refine ⟨?_, ?_⟩
    · rw [hacc]
      simp
    · intro _
      refine ⟨?_, fun _ => le_refl _, Or.inr (Or.inl trivial)⟩
      intro q hq
      simp at hq
  | cons x xs ih =>
    intro acc hacc
    rw [List.foldl_cons]
    cases hx : assocFind newRank x with
    | none =>
      have hstep : maxStep newRank acc x = { acc with bad := true } := by
        unfold maxStep
        rw [if_neg (by rw [hacc]; decide), hx]
      rw [hstep, maxStep_bad newRank xs _ rfl]
      refine ⟨?_, ?_⟩
      · constructor
        · intro _
          exact ⟨x, List.mem_cons_self _ _, hx⟩
        · intro _
          rfl
      · intro h
        simp at h
    | some r =>
      by_cases hfirst : acc.first = true
      · have hstep : maxStep newRank acc x = { first := false, max := r, bad := false } := by
          unfold maxStep
          rw [if_neg (by rw [hacc]; decide), hx]
          simp only
          rw [if_pos hfirst]
        rw [hstep]
        obtain ⟨h1, h2⟩ := ih { first := false, max := r, bad := false } rfl
        refine ⟨?_, ?_⟩
        · rw [h1]
          constructor
          · rintro ⟨q, hq, hn⟩
            exact ⟨q, List.mem_cons_of_mem _ hq, hn⟩
          · rintro ⟨q, hq, hn⟩
            rcases List.mem_cons.mp hq with e | hq'
            · rw [e, hx] at hn
              simp at hn
            · exact ⟨q, hq', hn⟩
        · intro hb
          obtain ⟨h3, h4, h5⟩ := h2 hb
          have h4' := h4 rfl
          refine ⟨?_, ?_, ?_⟩
          · intro q hq
            rcases List.mem_cons.mp hq with e | hq'
            · rw [e]
              exact ⟨r, hx, h4'⟩
            · exact h3 q hq'
          · intro hf
            rw [hf] at hfirst
            exact absurd hfirst (by decide)
          · right
            right
            rcases h5 with ⟨_, h5⟩ | h5 | ⟨q, hq, h5⟩
            · exact ⟨x, List.mem_cons_self _ _, by rw [h5]; exact hx⟩
            · rw [h5]
              exact ⟨x, List.mem_cons_self _ _, hx⟩
            · exact ⟨q, List.mem_cons_of_mem _ hq, h5⟩
      · have hf : acc.first = false := by
          cases h : acc.first
          · rfl
          · exact absurd h hfirst
        by_cases hgt : r > acc.max
        · have hstep : maxStep newRank acc x = { acc with max := r } := by
            unfold maxStep
            rw [if_neg (by rw [hacc]; decide), hx]
            simp only
            rw [if_neg hfirst, if_pos hgt]
          rw [hstep]
          obtain ⟨h1, h2⟩ := ih { acc with max := r } hacc
          refine ⟨?_, ?_⟩
          · rw [h1]
            constructor
            · rintro ⟨q, hq, hn⟩
              exact ⟨q, List.mem_cons_of_mem _ hq, hn⟩
            · rintro ⟨q, hq, hn⟩
              rcases List.mem_cons.mp hq with e | hq'
              · rw [e, hx] at hn
                simp at hn
              · exact ⟨q, hq', hn⟩
          · intro hb
            obtain ⟨h3, h4, h5⟩ := h2 hb
            have h4' : r ≤ (xs.foldl (maxStep newRank) { acc with max := r }).max := h4 hf
            refine ⟨?_, ?_, ?_⟩
            · intro q hq
              rcases List.mem_cons.mp hq with e | hq'
              · rw [e]
                exact ⟨r, hx, h4'⟩
              · exact h3 q hq'
            · intro _
              omega
            · right
              right
              rcases h5 with ⟨_, h5⟩ | h5 | ⟨q, hq, h5⟩
              · exact ⟨x, List.mem_cons_self _ _, by rw [h5]; exact hx⟩
              · rw [h5]
                exact ⟨x, List.mem_cons_self _ _, hx⟩
              · exact ⟨q, List.mem_cons_of_mem _ hq, h5⟩
        · have hstep : maxStep newRank acc x = acc := by
            unfold maxStep
            rw [if_neg (by rw [hacc]; decide), hx]
            simp only
            rw [if_neg hfirst, if_neg hgt]
          rw [hstep]
          obtain ⟨h1, h2⟩ := ih acc hacc
          refine ⟨?_, ?_⟩
          · rw [h1]
            constructor
            · rintro ⟨q, hq, hn⟩
              exact ⟨q, List.mem_cons_of_mem _ hq, hn⟩
            · rintro ⟨q, hq, hn⟩
              rcases List.mem_cons.mp hq with e | hq'
              · rw [e, hx] at hn
                simp at hn
              · exact ⟨q, hq', hn⟩
          · intro hb
            obtain ⟨h3, h4, h5⟩ := h2 hb
            have h4' := h4 hf
            refine ⟨?_, h4, ?_⟩
            · intro q hq
              rcases List.mem_cons.mp hq with e | hq'
              · rw [e]
                exact ⟨r, hx, by omega⟩
              · exact h3 q hq'
            · rcases h5 with ⟨_, h5⟩ | h5 | ⟨q, hq, h5⟩
              · exact Or.inl ⟨hf, h5⟩
              · left
                rw [h5]
                exact ⟨hf, rfl⟩
              · exact Or.inr (Or.inr ⟨q, List.mem_cons_of_mem _ hq, h5⟩)

/-- The value the update loop of `elevatorRank` gives to a bound `b` of the
macrostate `S`. -/
theorem elevUpdateOne_bound (newRank : List (Nat × Nat)) (rb : List (IntSet × RankBound))
    (m : StateSch) (T : IntSet) :
    (T ≠ m.S → boundEntry (elevUpdateOne newRank rb m) T = boundEntry rb T) ∧
    (m.S = [] → boundEntry (elevUpdateOne newRank rb m) T = boundEntry rb T) ∧
    (m.S ≠ [] → 0 ≤ (boundEntry rb m.S).bound → (boundEntry rb m.S).bound < 2 ^ 31 →
      (boundEntry (elevUpdateOne newRank rb m) m.S).bound =
        if (m.S.foldl (maxStep newRank) { first := true, max := 0, bad := false }).bad then
          (boundEntry rb m.S).bound
        else min (boundEntry rb m.S).bound
          ((m.S.foldl (maxStep newRank) { first := true, max := 0, bad := false }).max : Int)) := by
  refine ⟨?_, ?_, ?_⟩
  · intro hT
    unfold elevUpdateOne
    split
    · simp only
      split
      · rfl
      · split
        · rw [boundEntry_assign, if_neg hT, boundEntry_touch]
        · rw [boundEntry_touch]
    · rfl
  · intro hnil
    unfold elevUpdateOne
    rw [if_neg (by rw [hnil]; simp)]
  · intro hne hb0 hb1
    unfold elevUpdateOne
    have hlen : m.S.length > 0 := List.length_pos.mpr hne
    rw [if_pos hlen]
    simp only
    by_cases hbad :
        (m.S.foldl (maxStep newRank) { first := true, max := 0, bad := false }).bad = true
    · rw [if_pos hbad, if_pos hbad]
    · rw [if_neg hbad, if_neg hbad]
      have hu : intToUnsigned (boundEntry (touchBound rb m.S) m.S).bound =
          (boundEntry rb m.S).bound.toNat := by
        rw [boundEntry_touch]
        unfold intToUnsigned
        rw [Int.emod_eq_of_lt hb0 (by norm_num at hb1 ⊢; omega)]
      rw [hu]
      split
      · rename_i hgt
        rw [boundEntry_assign, if_pos rfl]
        simp only
        have hlt : ((m.S.foldl (maxStep newRank)
            { first := true, max := 0, bad := false }).max : Int) < (boundEntry rb m.S).bound := by
          omega
        rw [min_eq_right (le_of_lt hlt)]
        unfold unsignedToInt
        have hsmall : (m.S.foldl (maxStep newRank)
            { first := true, max := 0, bad := false }).max % 2 ^ 32 =
            (m.S.foldl (maxStep newRank) { first := true, max := 0, bad := false }).max := by
          apply Nat.mod_eq_of_lt
          norm_num at hb1 ⊢
          omega
        rw [hsmall, if_pos (by norm_num at hb1 ⊢; omega)]
      · rename_i hle
        rw [boundEntry_touch]
        have hge : (boundEntry rb m.S).bound ≤ ((m.S.foldl (maxStep newRank)
            { first := true, max := 0, bad := false }).max : Int) := by
          omega
        rw [min_eq_left hge]

theorem elevUpdate_fold (newRank : List (Nat × Nat)) (S : IntSet) (hne : S ≠ [])
    (states : List StateSch) :
    ∀ rb : List (IntSet × RankBound), 0 ≤ (boundEntry rb S).bound →
      (boundEntry rb S).bound < 2 ^ 31 →
      (boundEntry (states.foldl (elevUpdateOne newRank) rb) S).bound =
        if (∃ m ∈ states, m.S = S) ∧
            (S.foldl (maxStep newRank) { first := true, max := 0, bad := false }).bad = false then
          min (boundEntry rb S).bound
            ((S.foldl (maxStep newRank) { first := true, max := 0, bad := false }).max : Int)
        else (boundEntry rb S).bound := by
  induction states with
  | nil =>
    intro rb _ _
    simp
  | cons m ms ih =>
    intro rb hb0 hb1
    rw [List.foldl_cons]
    obtain ⟨h1, _, h3⟩ := elevUpdateOne_bound newRank rb m S
    by_cases e : m.S = S
    · have hval := (elevUpdateOne_bound newRank rb m m.S).2.2 (by rw [e]; exact hne)
        (by rw [e]; exact hb0) (by rw [e]; exact hb1)
      rw [e] at hval
      by_cases hbad :
          (S.foldl (maxStep newRank) { first := true, max := 0, bad := false }).bad = true
      · rw [if_pos hbad] at hval
        rw [ih _ (by rw [hval]; exact hb0) (by rw [hval]; exact hb1), hval]
        rw [if_neg (by rw [hbad]; simp), if_neg (by rw [hbad]; simp)]
      · have hbad' : (S.foldl (maxStep newRank)
            { first := true, max := 0, bad := false }).bad = false := by
          cases h : (S.foldl (maxStep newRank) { first := true, max := 0, bad := false }).bad
          · rfl
          · exact absurd h hbad
        rw [if_neg hbad] at hval
        have hmax0 : (0 : Int) ≤ ((S.foldl (maxStep newRank)
            { first := true, max := 0, bad := false }).max : Int) := Int.natCast_nonneg _
        rw [ih _ (by rw [hval]; exact le_min hb0 hmax0)
          (by rw [hval]; exact lt_of_le_of_lt (min_le_left _ _) hb1), hval]
        have hR : (∃ m' ∈ m :: ms, m'.S = S) ∧
            (S.foldl (maxStep newRank) { first := true, max := 0, bad := false }).bad = false :=
          ⟨⟨m, List.mem_cons_self _ _, e⟩, hbad'⟩
        rw [if_pos hR]
        by_cases hex : ∃ m' ∈ ms, m'.S = S
        · rw [if_pos ⟨hex, hbad'⟩, min_assoc, min_self]
        · rw [if_neg (fun h => hex h.1)]
    · have hsame := h1 (fun h => e h.symm)
      rw [ih _ (by rw [hsame]; exact hb0) (by rw [hsame]; exact hb1), hsame]
      have hiff : (∃ m' ∈ m :: ms, m'.S = S) ↔ ∃ m' ∈ ms, m'.S = S := by
        constructor
        · rintro ⟨m', hm', h⟩
          rcases List.mem_cons.mp hm' with e' | hm''
          · rw [e'] at h
            exact absurd h e
          · exact ⟨m', hm'', h⟩
        · rintro ⟨m', hm', h⟩
          exact ⟨m', List.mem_cons_of_mem _ hm', h⟩
      simp only [hiff]

theorem elevUpdate_fold_other (newRank : List (Nat × Nat)) (T : IntSet)
    (states : List StateSch) (h : ∀ m ∈ states, m.S = [] ∨ m.S ≠ T) :
    ∀ rb : List (IntSet × RankBound),
      boundEntry (states.foldl (elevUpdateOne newRank) rb) T = boundEntry rb T := by
  induction states with
  | nil =>
    intro rb
    rfl
  | cons m ms ih =>
    intro rb
    rw [List.foldl_cons, ih (fun m' hm' => h m' (List.mem_cons_of_mem _ hm'))]
    rcases h m (List.mem_cons_self _ _) with h1 | h1
    · exact (elevUpdateOne_bound newRank rb m T).2.1 h1
    · exact (elevUpdateOne_bound newRank rb m T).1 (fun e => h1 e.symm)

/-- C31. Let `elevatorRank` have computed the elevator ranks `newRank`, and
let S ≠ ∅ be the set of a macrostate of the waiting part whose bound b is a
non-negative `int`. If every state of S has an elevator rank, the bound of S
afterwards is min(b, M) for the largest rank M of a state of S; if some state
of S has none, the bound is unchanged. The bound of S never grows, and the
bound of the empty macrostate and of every set outside the waiting part is
unchanged. -/
theorem elevator_bound_update (A : BuchiAutomaton) (sccs : List IntSet) (fuel : Nat)
    (nfaSchewe : MacroAut StateSch) (rankBound : List (IntSet × RankBound))
    (newRank : List (Nat × Nat)) (hrank : elevatorNewRank A sccs fuel = some newRank)
    (m : StateSch) (hm : m ∈ nfaSchewe.states) (hne : m.S ≠ [])
    (hb0 : 0 ≤ (boundEntry rankBound m.S).bound)
    (hb1 : (boundEntry rankBound m.S).bound < 2 ^ 31) :
    ∃ rb, elevatorRank A sccs fuel nfaSchewe rankBound = some rb ∧
      ((∀ q ∈ m.S, (assocFind newRank q).isSome = true) →
        ∃ M : Nat, (∃ q ∈ m.S, assocFind newRank q = some M) ∧
          (∀ q ∈ m.S, ∃ r, assocFind newRank q = some r ∧ r ≤ M) ∧
          (boundEntry rb m.S).bound = min (boundEntry rankBound m.S).bound (M : Int)) ∧
      ((∃ q ∈ m.S, assocFind newRank q = none) →
        (boundEntry rb m.S).bound = (boundEntry rankBound m.S).bound) ∧
      (boundEntry rb m.S).bound ≤ (boundEntry rankBound m.S).bound ∧
      boundEntry rb [] = boundEntry rankBound [] ∧
      (∀ T, (∀ m' ∈ nfaSchewe.states, m'.S ≠ T) → boundEntry rb T = boundEntry rankBound T) := by
  refine ⟨elevatorUpdate newRank rankBound nfaSchewe.states, ?_, ?_, ?_, ?_, ?_, ?_⟩
  · unfold elevatorRank
    rw [hrank]
    rfl
  · intro hall
    obtain ⟨h1, h2⟩ := maxStep_fold newRank m.S { first := true, max := 0, bad := false } rfl
    have hbad : (m.S.foldl (maxStep newRank) { first := true, max := 0, bad := false }).bad
        = false := by
      cases h : (m.S.foldl (maxStep newRank) { first := true, max := 0, bad := false }).bad
      · rfl
      · obtain ⟨q, hq, hn⟩ := h1.mp h
        have := hall q hq
        rw [hn] at this
        simp at this
    obtain ⟨h3, _, h5⟩ := h2 hbad
    refine ⟨_, ?_, h3, ?_⟩
    · rcases h5 with ⟨hf, _⟩ | h5 | h5
      · exact absurd hf (by decide)
      · exact absurd h5 hne
      · exact h5
    · unfold elevatorUpdate
      rw [boundEntry_touch_fold, elevUpdate_fold newRank m.S hne _ rankBound hb0 hb1,
        if_pos ⟨⟨m, hm, rfl⟩, hbad⟩]
  · intro hnone
    have hbad := (maxStep_fold newRank m.S { first := true, max := 0, bad := false } rfl).1.mpr
      hnone
    unfold elevatorUpdate
    rw [boundEntry_touch_fold, elevUpdate_fold newRank m.S hne _ rankBound hb0 hb1,
      if_neg (by rw [hbad]; simp)]
  · unfold elevatorUpdate
    rw [boundEntry_touch_fold, elevUpdate_fold newRank m.S hne _ rankBound hb0 hb1]
    split
    · exact min_le_left _ _
    · exact le_refl _
  · unfold elevatorUpdate
    rw [boundEntry_touch_fold]
    apply elevUpdate_fold_other
    intro m' _
    by_cases h : m'.S = []
    · exact Or.inl h
    · exact Or.inr h
  · intro T hT
    unfold elevatorUpdate
    rw [boundEntry_touch_fold]
    apply elevUpdate_fold_other
    intro m' hm'
    exact Or.inr (hT m' hm')

theorem elevator_bound_update_witness :
    elevatorNewRank scenario2 [[0], [1]] 5 = some [(0, 2), (1, 2)] ∧
    waiting [0] ∈ scenario2Waiting.states ∧ (waiting [0]).S ≠ [] ∧
    0 ≤ (boundEntry scenario2Bounds (waiting [0]).S).bound ∧
    (boundEntry scenario2Bounds (waiting [0]).S).bound < 2 ^ 31 ∧
    (elevatorRank scenario2 [[0], [1]] 5 scenario2Waiting scenario2Bounds).map
      (fun rb => ((boundEntry rb [0]).bound, (boundEntry rb [0, 1]).bound)) = some (2, 1) ∧
    (∃ rb, elevatorRank scenario2 [[0], [1]] 5 scenario2Waiting scenario2Bounds = some rb ∧
      (boundEntry rb [0]).bound ≤ 3 ∧ boundEntry rb [] = boundEntry scenario2Bounds []) :=
  ⟨by decide, by decide, by decide, by decide, by decide, by decide,
    let ⟨rb, h1, _, _, h4, h5, _⟩ :=
      elevator_bound_update scenario2 [[0], [1]] 5 scenario2Waiting scenario2Bounds
        [(0, 2), (1, 2)] (by decide) (waiting [0]) (by decide) (by decide) (by decide)
        (by decide)
    ⟨rb, h1, h4, h5⟩⟩

/-! ## The indices of the backward loops -/

theorem unsignedPred_lt (n : Nat) (h : 1 ≤ n) : unsignedPred n < n := by
  unfold unsignedPred
  norm_num
  omega

theorem badLoop_isSome (sorted : List IntSet) (i : Nat) (tm : List (IntSet × SccType))
    (hi : i < sorted.length) : (badLoop sorted i tm).isSome = true := by
  induction i with
  | zero =>
    unfold badLoop
    rw [List.getElem?_eq_getElem hi]
    simp only
    split <;> rfl
  | succ i ih =>
    unfold badLoop
    rw [List.getElem?_eq_getElem hi]
    simp only
    split
    · rfl
    · exact ih (by omega)

theorem badLoop_none (sorted : List IntSet) (i : Nat) (tm : List (IntSet × SccType))
    (hi : sorted.length ≤ i) : badLoop sorted i tm = none := by
  cases i with
  | zero =>
    unfold badLoop
    rw [List.getElem?_eq_none hi]
  | succ i =>
    unfold badLoop
    rw [List.getElem?_eq_none hi]

theorem isSome_ite {α : Type} (c : Prop) [Decidable c] (x y : Option α)
    (hx : x.isSome = true) (hy : y.isSome = true) : (if c then x else y).isSome = true := by
  split
  · exact hx
  · exact hy

theorem mergeBody_isSome (A : BuchiAutomaton) (sorted : List IntSet) (i : Nat) (s : MergeState)
    (h1 : 1 ≤ i) (hi : i < sorted.length) : (mergeBody A sorted i s).isSome = true := by
  unfold mergeBody
  rw [List.getElem?_eq_getElem hi, List.getElem?_eq_getElem (show i - 1 < sorted.length by omega)]
  dsimp only
  repeat (first | rfl | apply isSome_ite)

theorem mergeLoop_isSome (A : BuchiAutomaton) (sorted : List IntSet) (i : Nat) :
    ∀ s : MergeState, i < sorted.length → (mergeLoop A sorted i s).isSome = true := by
  induction i with
  | zero =>
    intro s _
    rfl
  | succ i ih =>
    intro s hi
    unfold mergeLoop
    have hb := mergeBody_isSome A sorted (i + 1) s (by omega) hi
    cases hm : mergeBody A sorted (i + 1) s with
    | none => rw [hm] at hb; simp at hb
    | some s1 =>
      simp only
      split
      · rfl
      · exact ih s1 (by omega)

theorem mergeLoop_none (A : BuchiAutomaton) (sorted : List IntSet) (i : Nat) (s : MergeState)
    (h1 : 1 ≤ i) (hi : sorted.length ≤ i) : mergeLoop A sorted i s = none := by
  obtain ⟨k, rfl⟩ : ∃ k, i = k + 1 := ⟨i - 1, by omega⟩
  unfold mergeLoop
  have : mergeBody A sorted (k + 1) s = none := by
    unfold mergeBody
    rw [List.getElem?_eq_none hi]
  rw [this]

/-- C33. For a sorted component list of length n, the BAD-propagation loop
(of `elevatorRank` and `elevatorStates`) and the merge loop of `elevatorRank`
return without an access to `sortedComponents` past its end if and only if
n ≥ 1: for n ≥ 1 the unsigned start index is below n, and for n = 0 it wraps
to 2^32 − 1, where the first access of either loop is out of range. -/
theorem backward_loops_index_safety (A : BuchiAutomaton) (sorted : List IntSet)
    (typeMap : List (IntSet × SccType)) (s : MergeState) :
    ((propagateBad sorted typeMap).isSome = true ↔ 1 ≤ sorted.length) ∧
    ((mergeLoop A sorted (unsignedPred sorted.length) s).isSome = true ↔ 1 ≤ sorted.length) ∧
    (1 ≤ sorted.length → unsignedPred sorted.length < sorted.length) ∧
    (sorted.length = 0 →
      unsignedPred sorted.length = 2 ^ 32 - 1 ∧ sorted[unsignedPred sorted.length]? = none ∧
      propagateBad sorted typeMap = none ∧
      mergeLoop A sorted (unsignedPred sorted.length) s = none) := by
  have hzero : sorted.length = 0 →
      unsignedPred sorted.length = 2 ^ 32 - 1 ∧ sorted[unsignedPred sorted.length]? = none ∧
      propagateBad sorted typeMap = none ∧
      mergeLoop A sorted (unsignedPred sorted.length) s = none := by
    intro h0
    have hu : unsignedPred sorted.length = 2 ^ 32 - 1 := by
      rw [h0]
      decide
    refine ⟨hu, ?_, ?_, ?_⟩
    · exact List.getElem?_eq_none (by omega)
    · unfold propagateBad
      exact badLoop_none sorted _ typeMap (by omega)
    · exact mergeLoop_none A sorted _ s (by rw [hu]; norm_num) (by omega)
  refine ⟨?_, ?_, unsignedPred_lt sorted.length, hzero⟩
  · constructor
    · intro h
      by_contra hn
      have h0 : sorted.length = 0 := by omega
      rw [(hzero h0).2.2.1] at h
      simp at h
    · intro h
      unfold propagateBad
      exact badLoop_isSome sorted _ typeMap (unsignedPred_lt _ h)
  · constructor
    · intro h
      by_contra hn
      have h0 : sorted.length = 0 := by omega
      rw [(hzero h0).2.2.2] at h
      simp at h
    · intro h
      exact mergeLoop_isSome A sorted _ s (unsignedPred_lt _ h)

theorem backward_loops_index_safety_witness :
    1 ≤ ([[0], [1]] : List IntSet).length ∧
    unsignedPred ([[0], [1]] : List IntSet).length = 1 ∧
    elevatorPartition scenario2 [[0], [1]] = some [([0, 1], SccType.D)] ∧
    elevatorPartition scenario2 [] = none ∧
    (propagateBad [[0], [1]] (classifyAll scenario2 [[0], [1]])).isSome = true ∧
    unsignedPred ([[0], [1]] : List IntSet).length < ([[0], [1]] : List IntSet).length :=
  ⟨by decide, by decide, by decide, by decide,
    (backward_loops_index_safety scenario2 [[0], [1]] (classifyAll scenario2 [[0], [1]])
      { typeMap := [], partition := [], tmpComponent := ([], SccType.D), stop := false }).1.mpr
      (by decide),
    (backward_loops_index_safety scenario2 [[0], [1]] (classifyAll scenario2 [[0], [1]])
      { typeMap := [], partition := [], tmpComponent := ([], SccType.D), stop := false }).2.2.1
      (by decide)⟩

/-! ## Elevator ranks and the count of elevator states on concrete automata -/

theorem elevatorPartition_single (A : BuchiAutomaton) (c : IntSet) :
    elevatorPartition A [c] = some [([], SccType.D)] := by
  unfold elevatorPartition propagateBad
  have hu : unsignedPred [c].length = 0 := by
    show unsignedPred 1 = 0
    decide
  rw [hu]
  unfold badLoop
  simp only [List.getElem?_cons_zero]
  split <;> rfl

/-- C37. The merge step of `elevatorRank` makes a partition out of a
component only as the current component of a round, and the first component
of the sorted list is never the current one: when the last round closes the
partition instead of merging, or when the list has one component only, the
partition pushed after the loop is empty and the states of the first
component get no rank. On every automaton with a single component the
partition list is one empty partition; on `accAut` (component {0} of type D)
and `deadAut` (component {0} of type BOTH) no state gets a rank, and on
`forkAut` sorted as {0}, {1} (both of type BOTH) state 0 gets none. -/
theorem elevator_rank_misses_first_component :
    (∀ (A : BuchiAutomaton) (c : IntSet),
      elevatorPartition A [c] = some [([], SccType.D)]) ∧
    assignRanks [([], SccType.D)] = [] ∧
    topologicalSort accAut [[0]] 5 = some [[0]] ∧
    (propagateBad [[0]] (classifyAll accAut [[0]])).map (fun tm => typeOf tm [0]) =
      some SccType.D ∧
    elevatorNewRank accAut [[0]] 5 = some [] ∧
    (propagateBad [[0]] (classifyAll deadAut [[0]])).map (fun tm => typeOf tm [0]) =
      some SccType.BOTH ∧
    elevatorNewRank deadAut [[0]] 5 = some [] ∧
    topologicalSort forkAut [[1], [0]] 5 = some [[0], [1]] ∧
    (propagateBad [[0], [1]] (classifyAll forkAut [[0], [1]])).map
      (fun tm => (typeOf tm [0], typeOf tm [1])) = some (SccType.BOTH, SccType.BOTH) ∧
    elevatorPartition forkAut [[0], [1]] = some [([1], SccType.BOTH), ([], SccType.BOTH)] ∧
    elevatorNewRank forkAut [[1], [0]] 5 = some [(1, 2)] ∧
    (elevatorNewRank forkAut [[1], [0]] 5).bind (fun m => assocFind m 0) = none :=
  ⟨elevatorPartition_single, by decide, by decide, by decide, by decide, by decide, by decide,
    by decide, by decide, by decide, by decide, by decide⟩

/-- C38. On `forkAut` (two states, components {0} and {1}, neither BAD), with
the components given in the order {0}, {1}, `elevatorStates` returns 3: the
sorted list repeats the component {1} and the loop adds the size of every
entry of the list. Given the components in the order {1}, {0} it returns 2. -/
theorem elevator_states_overcount :
    forkAut.states.length = 2 ∧
    topologicalSort forkAut [[0], [1]] 5 = some [[0], [1], [1]] ∧
    (propagateBad [[0], [1], [1]] (classifyAll forkAut [[0], [1], [1]])).map
      (fun tm => (typeOf tm [0], typeOf tm [1])) = some (SccType.BOTH, SccType.BOTH) ∧
    elevatorStates forkAut [[0], [1]] 5 = some 3 ∧
    ¬ ((elevatorStates forkAut [[0], [1]] 5).getD 0 ≤ forkAut.states.length) ∧
    elevatorStates forkAut [[1], [0]] 5 = some 2 :=
  ⟨by decide, by decide, by decide, by decide, by decide, by decide⟩

/-! ## The number of rounds of the waiting-part search -/

theorem whileLoop_mono {σ : Type} (cond : σ → Bool) (body : σ → σ) (n k : Nat) :
    ∀ s s' : σ, whileLoop cond body n s = some s' → whileLoop cond body (n + k) s = some s' := by
  induction n with
  | zero =>
    intro s s' h
    rw [Nat.zero_add]
    unfold whileLoop at h
    cases hc : cond s with
    | true => rw [hc] at h; simp at h
    | false =>
      rw [hc] at h
      cases k with
      | zero =>
        unfold whileLoop
        rw [hc]
        exact h
      | succ k =>
        unfold whileLoop
        rw [hc]
        exact h
  | succ n ih =>
    intro s s' h
    have e : n + 1 + k = (n + k) + 1 := by omega
    rw [e]
    unfold whileLoop at h ⊢
    by_cases hc : cond s = true
    · rw [if_pos hc] at h ⊢
      exact ih _ _ h
    · rw [if_neg hc] at h ⊢
      exact h

theorem whileLoop_det {σ : Type} (cond : σ → Bool) (body : σ → σ) (n m : Nat) (s s1 s2 : σ)
    (h1 : whileLoop cond body n s = some s1) (h2 : whileLoop cond body m s = some s2) :
    s1 = s2 := by
  rcases Nat.le_total n m with h | h
  · have := whileLoop_mono cond body n (m - n) s s1 h1
    rw [show n + (m - n) = m by omega, h2] at this
    exact (Option.some.inj this).symm
  · have := whileLoop_mono cond body m (n - m) s s2 h2
    rw [show m + (n - m) = n by omega, h1] at this
    exact Option.some.inj this

/-- A loop whose every round raises the counter `φ` by one and that returns
`s'` from `s` makes exactly `φ s' - φ s` rounds. -/
theorem whileLoop_rounds {σ : Type} (cond : σ → Bool) (body : σ → σ) (Inv : σ → Prop)
    (φ : σ → Nat)
    (hstep : ∀ s, Inv s → cond s = true → Inv (body s) ∧ φ (body s) = φ s + 1) (n : Nat) :
    ∀ s s' : σ, Inv s → whileLoop cond body n s = some s' →
      ∃ r, r ≤ n ∧ φ s' = φ s + r ∧ whileLoop cond body r s = some s' := by
  induction n with
  | zero =>
    intro s s' _ h
    exact ⟨0, le_refl _, by
      unfold whileLoop at h
      cases hc : cond s with
      | true => rw [hc] at h; simp at h
      | false =>
        rw [hc] at h
        simp only [Bool.false_eq_true, if_false, Option.some.injEq] at h
        rw [h]
        rfl, h⟩
  | succ n ih =>
    intro s s' hs h
    unfold whileLoop at h
    cases hc : cond s with
    | true =>
      rw [hc] at h
      simp only [if_true] at h
      obtain ⟨hinv, hφ⟩ := hstep s hs hc
      obtain ⟨r, hr1, hr2, hr3⟩ := ih (body s) s' hinv h
      refine ⟨r + 1, by omega, by omega, ?_⟩
      unfold whileLoop
      rw [hc]
      exact hr3
    | false =>
      rw [hc] at h
      simp only [Bool.false_eq_true, if_false, Option.some.injEq] at h
      refine ⟨0, by omega, by rw [h]; rfl, ?_⟩
      unfold whileLoop
      rw [hc]
      simp [h]

theorem nfaBody_rounds (A : BuchiAutomaton) (start : IntSet) (s : Search StateSch)
    (h : (NfaInv A start s ∧ s.comst.Nodup) ∧ s.stack.length ≤ s.comst.length)
    (hc : decide (s.stack.length > 0) = true) :
    ((NfaInv A start (nfaBody A s) ∧ (nfaBody A s).comst.Nodup) ∧
      (nfaBody A s).stack.length ≤ (nfaBody A s).comst.length) ∧
    (nfaBody A s).comst.length - (nfaBody A s).stack.length =
      s.comst.length - s.stack.length + 1 := by
  obtain ⟨⟨h1, h2⟩, h3⟩ := h
  cases hstack : s.stack with
  | nil => rw [hstack] at hc; simp at hc
  | cons st rest =>
    obtain ⟨hnd, hcount, hmono⟩ := nfaBody_count A s st rest hstack h2
    rw [hstack] at h3
    simp only [List.length_cons] at h3 ⊢
    refine ⟨⟨⟨nfaBody_inv A start s h1 hc, hnd⟩, by omega⟩, by omega⟩

/-- C34. On a well-formed automaton (Q a `std::set`, δ within Q) and a start
set within Q, the search of `complementSchNFA` returns: it makes exactly as
many rounds as the returned automaton has macrostates, which are pairwise
different and at most 2^|Q|. Every round pops one macrostate and the search
ends with the empty stack, so each macrostate has been pushed exactly once. -/
theorem waiting_search_terminates (A : BuchiAutomaton) (hA : A.WF) (start : IntSet)
    (hstart : IntSet.WF start) (hsub : ∀ q ∈ start, q ∈ A.states) :
    ∃ aut, complementSchNFA A start (2 ^ A.states.length) = some aut ∧
      (∀ fuel, aut.states.length ≤ fuel → complementSchNFA A start fuel = some aut) ∧
      (∀ fuel, fuel < aut.states.length → complementSchNFA A start fuel = none) ∧
      aut.states.Nodup ∧ aut.states.length ≤ 2 ^ A.states.length := by
  obtain ⟨s, hs⟩ := nfa_terminates A start hA
  have hinit : (NfaInv A start (nfaInit start) ∧ (nfaInit start).comst.Nodup) ∧
      (nfaInit start).stack.length ≤ (nfaInit start).comst.length :=
    ⟨⟨nfaInit_inv A start, by simp [nfaInit]⟩, by simp [nfaInit]⟩
  have hres := whileLoop_inv (fun s => decide (s.stack.length > 0)) (nfaBody A)
    (fun s => (NfaInv A start s ∧ s.comst.Nodup) ∧ s.stack.length ≤ s.comst.length)
    (fun s h hc => (nfaBody_rounds A start s h hc).1) (2 * (nfaUniverse A start).length)
    (nfaInit start) s hinit hs
  have hinv : (NfaInv A start s ∧ s.comst.Nodup) ∧ s.stack.length ≤ s.comst.length := hres.1
  have hcond : decide (s.stack.length > 0) = false := hres.2
  have hempty : s.stack = [] := by
    simp only [decide_eq_false_iff_not, not_lt, Nat.le_zero] at hcond
    exact List.length_eq_zero.mp hcond
  have hrounds := whileLoop_rounds (fun s => decide (s.stack.length > 0)) (nfaBody A)
    (fun s => (NfaInv A start s ∧ s.comst.Nodup) ∧ s.stack.length ≤ s.comst.length)
    (fun s => s.comst.length - s.stack.length) (nfaBody_rounds A start)
  obtain ⟨r, _, hr2, hr3⟩ := hrounds _ _ s hinit hs
  have hr : r = s.comst.length := by
    have hr2' : s.comst.length - s.stack.length =
        (nfaInit start).comst.length - (nfaInit start).stack.length + r := hr2
    rw [hempty] at hr2'
    simp only [nfaInit, List.length_singleton, List.length_nil] at hr2'
    omega
  rw [hr] at hr3
  have hbound : s.comst.length ≤ 2 ^ A.states.length := by
    have hsubset : s.comst ⊆ A.states.sublists.map waiting := by
      intro x hx
      obtain ⟨T, hT, e⟩ := hinv.1.1.sound x hx
      rw [e]
      apply List.mem_map_of_mem
      cases hT with
      | base => exact sorted_subset_mem_sublists _ _ hA.1 hstart hsub
      | step T' a _ _ => exact succSet_mem_sublists A hA T' a
    have := (List.subperm_of_subset hinv.1.2 hsubset).length_le
    rw [List.length_map, List.length_sublists] at this
    exact this
  have hsome : ∀ fuel, s.comst.length ≤ fuel →
      whileLoop (fun s => decide (s.stack.length > 0)) (nfaBody A) fuel (nfaInit start)
        = some s := by
    intro fuel hf
    have := whileLoop_mono _ _ s.comst.length (fuel - s.comst.length) _ _ hr3
    rw [show s.comst.length + (fuel - s.comst.length) = fuel by omega] at this
    exact this
  refine ⟨{ states := s.comst, finals := s.finals, initials := [waiting start], trans := s.mp,
            alphabet := A.alphabet }, ?_, ?_, ?_, hinv.1.2, hbound⟩
  · unfold complementSchNFA
    rw [hsome _ hbound]
    rfl
  · intro fuel hf
    unfold complementSchNFA
    rw [hsome fuel hf]
    rfl
  · intro fuel hf
    unfold complementSchNFA
    cases hrun : whileLoop (fun s => decide (s.stack.length > 0)) (nfaBody A) fuel
        (nfaInit start) with
    | none => rfl
    | some s2 =>
      exfalso
      have e : s2 = s := whileLoop_det _ _ _ _ _ _ _ hrun hs
      rw [e] at hrun
      obtain ⟨r2, hr21, hr22, _⟩ := hrounds _ _ s hinit hrun
      have hr22' : s.comst.length - s.stack.length =
          (nfaInit start).comst.length - (nfaInit start).stack.length + r2 := hr22
      rw [hempty] at hr22'
      simp only [nfaInit, List.length_singleton, List.length_nil] at hr22'
      have hf' : fuel < s.comst.length := hf
      omega

theorem waiting_search_terminates_witness :
    scenario2.WF ∧ IntSet.WF scenario2.initials ∧
    (∀ q ∈ scenario2.initials, q ∈ scenario2.states) ∧
    complementSchNFA scenario2 scenario2.initials 2 = some scenario2Waiting ∧
    complementSchNFA scenario2 scenario2.initials 1 = none ∧
    scenario2Waiting.states.length = 2 ∧
    (∃ aut, complementSchNFA scenario2 scenario2.initials (2 ^ scenario2.states.length)
        = some aut ∧
      aut.states.Nodup ∧ aut.states.length ≤ 2 ^ scenario2.states.length) :=
  ⟨scenario2_WF, by unfold IntSet.WF; decide, by decide, by decide, by decide, by decide,
    let ⟨aut, h1, _, _, h4, h5⟩ :=
      waiting_search_terminates scenario2 scenario2_WF scenario2.initials
        (by unfold IntSet.WF; decide) (by decide)
    ⟨aut, h1, h4, h5⟩⟩

/-! ## The reduced tight step branches at most two ways -/

/-- The set `retAll` of `succSetSchTightReduced` is empty, or holds the
successor with the ceiling rank, or holds it and its variant with the ranks
of the O-states decremented. -/
theorem succSetSchTightReduced_shape (A : BuchiAutomaton) (opt : ComplOptions)
    (rankBound : IntSet → Int) (tightSucc : TightEnum) (cache : RankCache)
    (state : StateSch) (symbol : Nat) (reachCons : Nat → Int) (maxReach : IntSet → Int)
    (dirRel oddRel : BackRel) (eta4 : Bool) :
    (succSetSchTightReduced A opt rankBound tightSucc cache state symbol reachCons maxReach
      dirRel oddRel eta4).1 = [] ∨
    (succSetSchTightReduced A opt rankBound tightSucc cache state symbol reachCons maxReach
      dirRel oddRel eta4).1 =
      [mainSucc A opt state symbol (succSet A state.S symbol) (ceilRank A state symbol)] ∨
    ((succSetSchTightReduced A opt rankBound tightSucc cache state symbol reachCons maxReach
      dirRel oddRel eta4).1 =
      [mainSucc A opt state symbol (succSet A state.S symbol) (ceilRank A state symbol),
        decreased A
          (mainSucc A opt state symbol (succSet A state.S symbol) (ceilRank A state symbol))] ∧
      decreased A
          (mainSucc A opt state symbol (succSet A state.S symbol) (ceilRank A state symbol)) ≠
        mainSucc A opt state symbol (succSet A state.S symbol) (ceilRank A state symbol)) := by
  have hstep : ∀ st : StateSch,
      retAllStep A opt state eta4 [] st = [st] ∨
      (retAllStep A opt state eta4 [] st = [st, decreased A st] ∧ decreased A st ≠ st) := by
    intro st
    have hins : insertNew ([] : List StateSch) st = [st] := rfl
    have hins2 : insertNew [st] (decreased A st) = [st] ∨
        (insertNew [st] (decreased A st) = [st, decreased A st] ∧ decreased A st ≠ st) := by
      unfold insertNew
      by_cases h : decreased A st ∈ [st]
      · rw [if_pos h]
        exact Or.inl rfl
      · rw [if_neg h]
        exact Or.inr ⟨rfl, fun e => h (by rw [e]; exact List.mem_singleton.mpr rfl)⟩
    unfold retAllStep
    simp only [hins]
    split
    · exact Or.inl rfl
    · split
      · exact Or.inl rfl
      · split
        · split
          · exact hins2
          · exact Or.inl rfl
        · exact hins2
  unfold succSetSchTightReduced
  simp only
  split
  · exact Or.inl rfl
  · have hc : sngMap
        (evenCeilings A (succLoop A state symbol).maxRank (succLoop A state symbol).sprime)
        (succLoop A state symbol).sprime = ceilRank A state symbol := rfl
    unfold getSchRanksTightReduced
    simp only
    split
    · have hc' : sngMap
          (evenCeilings A (succLoop A state symbol).maxRank (succSet A state.S symbol))
          (succSet A state.S symbol) = ceilRank A state symbol := by
        unfold ceilRank
        rw [succLoop_sprime]
      simp only [List.map_cons, List.map_nil, List.foldl_cons, List.foldl_nil,
        succLoop_sprime, hc']
      right
      exact hstep _
    · exact Or.inl rfl

theorem setToVector_nil (lt : StateSch → StateSch → Bool) : setToVector lt [] = [] := rfl

theorem setToVector_single (lt : StateSch → StateSch → Bool) (x : StateSch) :
    setToVector lt [x] = [x] := rfl

theorem setToVector_pair (lt : StateSch → StateSch → Bool) (x y : StateSch) :
    setToVector lt [x, y] = if lt x y = true then [x, y] else [y, x] := by
  unfold setToVector
  simp only [List.insertionSort, List.orderedInsert]

/-- C36. For every tight macrostate, symbol, option record and cache,
`succSetSchTightReduced` returns at most two successors, pairwise different
and in increasing order (for every strict total order `lt` in the place of
the `operator<` of `StateSch`); the returned successors are those of the set
`retAll`, they share S' = δ(S, a) and the index i', and when two are returned
one of them carries the rank that gives every state of S' its ceiling, and the
rank of the other is pointwise below it. -/
theorem reduced_step_two_way (A : BuchiAutomaton) (opt : ComplOptions)
    (rankBound : IntSet → Int) (tightSucc : TightEnum) (cache : RankCache)
    (state : StateSch) (symbol : Nat) (reachCons : Nat → Int) (maxReach : IntSet → Int)
    (dirRel oddRel : BackRel) (eta4 : Bool) (lt : StateSch → StateSch → Bool)
    (htot : ∀ x y, x ≠ y → lt x y = true ∨ lt y x = true) :
    (setToVector lt (succSetSchTightReduced A opt rankBound tightSucc cache state symbol
      reachCons maxReach dirRel oddRel eta4).1).length ≤ 2 ∧
    (setToVector lt (succSetSchTightReduced A opt rankBound tightSucc cache state symbol
      reachCons maxReach dirRel oddRel eta4).1).Nodup ∧
    (setToVector lt (succSetSchTightReduced A opt rankBound tightSucc cache state symbol
      reachCons maxReach dirRel oddRel eta4).1).Pairwise (fun x y => lt x y = true) ∧
    (∀ x, x ∈ setToVector lt (succSetSchTightReduced A opt rankBound tightSucc cache state
        symbol reachCons maxReach dirRel oddRel eta4).1 ↔
      x ∈ (succSetSchTightReduced A opt rankBound tightSucc cache state symbol reachCons
        maxReach dirRel oddRel eta4).1) ∧
    (∀ x ∈ setToVector lt (succSetSchTightReduced A opt rankBound tightSucc cache state symbol
        reachCons maxReach dirRel oddRel eta4).1,
      x.S = succSet A state.S symbol ∧
      x.i = (mainSucc A opt state symbol (succSet A state.S symbol)
        (ceilRank A state symbol)).i) ∧
    ((setToVector lt (succSetSchTightReduced A opt rankBound tightSucc cache state symbol
        reachCons maxReach dirRel oddRel eta4).1).length = 2 →
      ∃ x ∈ setToVector lt (succSetSchTightReduced A opt rankBound tightSucc cache state symbol
          reachCons maxReach dirRel oddRel eta4).1,
        ∃ y ∈ setToVector lt (succSetSchTightReduced A opt rankBound tightSucc cache state
            symbol reachCons maxReach dirRel oddRel eta4).1,
          x ≠ y ∧
          (∀ q ∈ succSet A state.S symbol,
            y.f.get q = evenCeilings A (succLoop A state symbol).maxRank
              (succSet A state.S symbol) q) ∧
          (∀ q, x.f.get q ≤ y.f.get q)) := by
  have hsame : ∀ st : StateSch, (decreased A st).S = st.S ∧ (decreased A st).i = st.i :=
    fun st => ⟨rfl, rfl⟩
  rcases succSetSchTightReduced_shape A opt rankBound tightSucc cache state symbol reachCons
    maxReach dirRel oddRel eta4 with h | h | ⟨h, hne⟩
  · rw [h, setToVector_nil]
    refine ⟨by simp, List.nodup_nil, List.Pairwise.nil, fun _ => Iff.rfl, ?_, ?_⟩
    · intro x hx
      simp at hx
    · intro hlen
      simp at hlen
  · rw [h, setToVector_single]
    refine ⟨by simp, List.nodup_singleton _, List.pairwise_singleton _ _, fun _ => Iff.rfl,
      ?_, ?_⟩
    · intro x hx
      rw [List.mem_singleton] at hx
      rw [hx]
      exact ⟨mainSucc_S A opt state symbol _ _, rfl⟩
    · intro hlen
      simp at hlen
  · rw [h, setToVector_pair]
    have hceil : ∀ q ∈ succSet A state.S symbol,
        (mainSucc A opt state symbol (succSet A state.S symbol) (ceilRank A state symbol)).f.get q
          = evenCeilings A (succLoop A state symbol).maxRank (succSet A state.S symbol) q := by
      intro q hq
      rw [mainSucc_f]
      exact get_ceilRank A state symbol q hq
    have hle : ∀ q, (decreased A (mainSucc A opt state symbol (succSet A state.S symbol)
          (ceilRank A state symbol))).f.get q ≤
        (mainSucc A opt state symbol (succSet A state.S symbol)
          (ceilRank A state symbol)).f.get q := by
      intro q
      exact decreaseO_get_le A _ _ q
    have hmemS : ∀ x, (x = mainSucc A opt state symbol (succSet A state.S symbol)
          (ceilRank A state symbol) ∨
        x = decreased A (mainSucc A opt state symbol (succSet A state.S symbol)
          (ceilRank A state symbol))) →
        x.S = succSet A state.S symbol ∧
        x.i = (mainSucc A opt state symbol (succSet A state.S symbol)
          (ceilRank A state symbol)).i := by
      intro x hx
      rcases hx with e | e
      · rw [e]
        exact ⟨mainSucc_S A opt state symbol _ _, rfl⟩
      · rw [e, (hsame _).1, (hsame _).2]
        exact ⟨mainSucc_S A opt state symbol _ _, rfl⟩
    by_cases hlt : lt (mainSucc A opt state symbol (succSet A state.S symbol)
        (ceilRank A state symbol))
        (decreased A (mainSucc A opt state symbol (succSet A state.S symbol)
          (ceilRank A state symbol))) = true
    · rw [if_pos hlt]
      refine ⟨le_refl _, ?_, ?_, fun _ => Iff.rfl, ?_, ?_⟩
      · rw [List.nodup_cons]
        exact ⟨by rw [List.mem_singleton]; exact fun e => hne e.symm, List.nodup_singleton _⟩
      · rw [List.pairwise_cons]
        refine ⟨?_, List.pairwise_singleton _ _⟩
        intro x hx
        rw [List.mem_singleton] at hx
        rw [hx]
        exact hlt
      · intro x hx
        apply hmemS
        simpa using hx
      · intro _
        exact ⟨_, List.mem_cons_of_mem _ (List.mem_singleton.mpr rfl), _,
          List.mem_cons_self _ _, hne, hceil, hle⟩
    · rw [if_neg hlt]
      have hlt' := (htot _ _ hne).resolve_right hlt
      refine ⟨le_refl _, ?_, ?_, ?_, ?_, ?_⟩
      · rw [List.nodup_cons]
        exact ⟨by rw [List.mem_singleton]; exact hne, List.nodup_singleton _⟩
      · rw [List.pairwise_cons]
        refine ⟨?_, List.pairwise_singleton _ _⟩
        intro x hx
        rw [List.mem_singleton] at hx
        rw [hx]
        exact hlt'
      · intro x
        simp only [List.mem_cons, List.mem_singleton, List.not_mem_nil, or_false]
        exact Or.comm
      · intro x hx
        apply hmemS
        simp only [List.mem_cons, List.mem_singleton, List.not_mem_nil, or_false] at hx
        exact hx.symm
      · intro _
        exact ⟨_, List.mem_cons_self _ _, _,
          List.mem_cons_of_mem _ (List.mem_singleton.mpr rfl), hne, hceil, hle⟩

theorem shortOFirst_total (x y : StateSch) (h : x ≠ y) :
    shortOFirst x y = true ∨ shortOFirst y x = true := by
  unfold shortOFirst
  rcases Nat.le_total x.O.length y.O.length with h1 | h1
  · left
    simp [h, h1]
  · right
    simp [Ne.symm h, h1]

theorem reduced_step_two_way_witness :
    (∀ x y, x ≠ y → shortOFirst x y = true ∨ shortOFirst y x = true) ∧
    (succSetSchTightReduced loopAut plainOpt (fun _ => 2) noRanks [] loopState 0 (fun _ => 0)
      (fun _ => 4) [] [] false).1 = [loopState, loopSuccLow] ∧
    setToVector shortOFirst (succSetSchTightReduced loopAut plainOpt (fun _ => 2) noRanks []
      loopState 0 (fun _ => 0) (fun _ => 4) [] [] false).1 = [loopSuccLow, loopState] ∧
    (setToVector shortOFirst (succSetSchTightReduced loopAut plainOpt (fun _ => 2) noRanks []
      loopState 0 (fun _ => 0) (fun _ => 4) [] [] false).1).Pairwise
      (fun x y => shortOFirst x y = true) :=
  ⟨shortOFirst_total, by decide, by decide,
    (reduced_step_two_way loopAut plainOpt (fun _ => 2) noRanks [] loopState 0 (fun _ => 0)
      (fun _ => 4) [] [] false shortOFirst shortOFirst_total).2.2.1⟩

/-! ## The order of the pairs with a non-accepting self-loop -/

theorem lexLt_irrefl (a : List Nat) : lexLt a a = false := by
  induction a with
  | nil => rfl
  | cons x xs ih =>
    unfold lexLt
    simp [ih]

theorem lexLt_trans (a b c : List Nat) (h1 : lexLt a b = true) (h2 : lexLt b c = true) :
    lexLt a c = true := by
  induction a generalizing b c with
  | nil =>
    cases b with
    | nil => simp [lexLt] at h1
    | cons y ys =>
      cases c with
      | nil => simp [lexLt] at h2
      | cons z zs => rfl
  | cons x xs ih =>
    cases b with
    | nil => simp [lexLt] at h1
    | cons y ys =>
      cases c with
      | nil => simp [lexLt] at h2
      | cons z zs =>
        unfold lexLt at h1 h2 ⊢
        by_cases hxy : x < y
        · by_cases hyz : y < z
          · rw [if_pos (by omega)]
          · rw [if_neg hyz] at h2
            by_cases hzy : z < y
            · rw [if_pos hzy] at h2
              simp at h2
            · rw [if_pos (by omega)]
        · rw [if_neg hxy] at h1
          by_cases hyx : y < x
          · rw [if_pos hyx] at h1
            simp at h1
          · rw [if_neg hyx] at h1
            have e : x = y := by omega
            by_cases hyz : y < z
            · rw [if_pos (by omega)]
            · rw [if_neg hyz] at h2
              by_cases hzy : z < y
              · rw [if_pos hzy] at h2
                simp at h2
              · rw [if_neg hzy] at h2
                rw [if_neg (by omega), if_neg (by omega)]
                exact ih ys zs h1 h2

theorem lexLt_total (a b : List Nat) (h1 : lexLt a b = false) (h2 : lexLt b a = false) :
    a = b := by
  induction a generalizing b with
  | nil =>
    cases b with
    | nil => rfl
    | cons y ys => simp [lexLt] at h1
  | cons x xs ih =>
    cases b with
    | nil => simp [lexLt] at h2
    | cons y ys =>
      unfold lexLt at h1 h2
      by_cases hxy : x < y
      · rw [if_pos hxy] at h1
        simp at h1
      · rw [if_neg hxy] at h1
        by_cases hyx : y < x
        · rw [if_pos hyx] at h2
          simp at h2
        · rw [if_neg hyx] at h1 h2
          rw [if_neg hxy] at h2
          have e : x = y := by omega
          rw [e, ih ys h1 h2]

theorem pairLt_irrefl (p : IntSet × Nat) : pairLt p p = false := by
  unfold pairLt
  simp [lexLt_irrefl]

theorem pairLt_trans (p q r : IntSet × Nat) (h1 : pairLt p q = true) (h2 : pairLt q r = true) :
    pairLt p r = true := by
  unfold pairLt at h1 h2 ⊢
  simp only [Bool.or_eq_true, Bool.and_eq_true, Bool.not_eq_true', decide_eq_true_eq] at h1 h2 ⊢
  rcases h1 with h1 | ⟨h1, h1'⟩
  · rcases h2 with h2 | ⟨h2, _⟩
    · exact Or.inl (lexLt_trans _ _ _ h1 h2)
    · cases hqr : lexLt q.1 r.1 with
      | true => exact Or.inl (lexLt_trans _ _ _ h1 hqr)
      | false =>
        have e := lexLt_total _ _ hqr h2
        rw [← e]
        exact Or.inl h1
  · cases hpq : lexLt p.1 q.1 with
    | true =>
      rcases h2 with h2 | ⟨h2, _⟩
      · exact Or.inl (lexLt_trans _ _ _ hpq h2)
      · cases hqr : lexLt q.1 r.1 with
        | true => exact Or.inl (lexLt_trans _ _ _ hpq hqr)
        | false =>
          have e := lexLt_total _ _ hqr h2
          rw [← e]
          exact Or.inl hpq
    | false =>
      have e := lexLt_total _ _ hpq h1
      rcases h2 with h2 | ⟨h2, h2'⟩
      · rw [e]
        exact Or.inl h2
      · right
        rw [e]
        exact ⟨h2, by omega⟩

theorem pairInsert_sorted (x : IntSet × Nat) (l : List (IntSet × Nat))
    (h : l.Pairwise (fun p q => pairLt p q = true)) :
    (pairInsert x l).Pairwise (fun p q => pairLt p q = true) := by
  induction l with
  | nil => exact List.pairwise_singleton _ _
  | cons y ys ih =>
    rw [List.pairwise_cons] at h
    unfold pairInsert
    by_cases hxy : pairLt x y = true
    · rw [if_pos hxy, List.pairwise_cons]
      refine ⟨?_, List.pairwise_cons.mpr h⟩
      intro z hz
      rcases List.mem_cons.mp hz with e | hz'
      · rw [e]
        exact hxy
      · exact pairLt_trans _ _ _ hxy (h.1 z hz')
    · rw [if_neg hxy]
      by_cases hyx : pairLt y x = true
      · rw [if_pos hyx, List.pairwise_cons]
        refine ⟨?_, ih h.2⟩
        intro z hz
        rcases mem_pairInsert x ys z hz with e | hz'
        · rw [e]
          exact hyx
        · exact h.1 z hz'
      · rw [if_neg hyx]
        exact List.pairwise_cons.mpr h

theorem nodup_of_pairLt_sorted (l : List (IntSet × Nat))
    (h : l.Pairwise (fun p q => pairLt p q = true)) : l.Nodup := by
  apply List.Pairwise.imp _ h
  intro p q hpq e
  rw [e, pairLt_irrefl] at hpq
  simp at hpq

/-- An induction over the loop of `nfaSingleSlNoAccept`: a property of the
empty set that is kept by the insertion of the pair of every macrostate with a
self-loop on one symbol only holds of the result. -/
theorem nfaSingleSlNoAccept_ind (A : BuchiAutomaton) (nfaSchewe : MacroAut StateSch)
    (fuel : Nat) (Q : List (IntSet × Nat) → Prop) (h0 : Q [])
    (hstep : ∀ st ∈ nfaSchewe.states, ∀ l, Q l →
      (containsSelfLoop nfaSchewe st).length = 1 →
      Q (pairInsert (st.S, (containsSelfLoop nfaSchewe st).headD 0) l))
    (sl : List (IntSet × Nat)) (h : nfaSingleSlNoAccept A nfaSchewe fuel = some sl) : Q sl := by
  unfold nfaSingleSlNoAccept at h
  have aux : ∀ (l : List StateSch) (acc : Option (List (IntSet × Nat)))
      (sl : List (IntSet × Nat)),
      (∀ sl0, acc = some sl0 → Q sl0) →
      (∀ st ∈ l, st ∈ nfaSchewe.states) →
      l.foldl
        (fun acc st =>
          match acc with
          | none => none
          | some slNoAccept =>
            if st.tight then some slNoAccept
            else
              let alph := containsSelfLoop nfaSchewe st
              if alph.length = 1 then
                match acceptSl A st alph fuel with
                | none => none
                | some true => some slNoAccept
                | some false => some (pairInsert (st.S, alph.headD 0) slNoAccept)
              else some slNoAccept)
        acc = some sl → Q sl := by
    intro l
    induction l with
    | nil =>
      intro acc sl hacc _ hrun
      exact hacc sl hrun
    | cons st sts ih =>
      intro acc sl hacc hmem hrun
      rw [List.foldl_cons] at hrun
      refine ih _ sl ?_ (fun x hx => hmem x (List.mem_cons_of_mem _ hx)) hrun
      intro sl0 hsl0
      cases acc with
      | none => simp at hsl0
      | some l0 =>
        have hQ := hacc l0 rfl
        simp only at hsl0
        split at hsl0
        · rw [← Option.some.inj hsl0]
          exact hQ
        · split at hsl0
          · rename_i hlen
            split at hsl0
            · simp at hsl0
            · rw [← Option.some.inj hsl0]
              exact hQ
            · rw [← Option.some.inj hsl0]
              exact hstep st (hmem st (List.mem_cons_self _ _)) l0 hQ hlen
          · rw [← Option.some.inj hsl0]
            exact hQ
  exact aux nfaSchewe.states (some []) sl
    (fun sl0 e => by rw [← Option.some.inj e]; exact h0) (fun _ hx => hx) h

theorem nfaSingleSlNoAccept_nodup (A : BuchiAutomaton) (nfaSchewe : MacroAut StateSch)
    (fuel : Nat) (sl : List (IntSet × Nat))
    (h : nfaSingleSlNoAccept A nfaSchewe fuel = some sl) : sl.Nodup := by
  apply nodup_of_pairLt_sorted
  exact nfaSingleSlNoAccept_ind A nfaSchewe fuel
    (fun l => l.Pairwise (fun p q => pairLt p q = true)) List.Pairwise.nil
    (fun _ _ l hl _ => pairInsert_sorted _ l hl) sl h

theorem nfaSingleSlNoAccept_symbol (A : BuchiAutomaton) (nfaSchewe : MacroAut StateSch)
    (fuel : Nat) (sl : List (IntSet × Nat))
    (h : nfaSingleSlNoAccept A nfaSchewe fuel = some sl) :
    ∀ p ∈ sl, p.2 ∈ nfaSchewe.alphabet := by
  apply nfaSingleSlNoAccept_ind A nfaSchewe fuel
    (fun l => ∀ p ∈ l, p.2 ∈ nfaSchewe.alphabet) (fun p hp => by simp at hp) _ sl h
  intro st _ l hl hlen p hp
  rcases mem_pairInsert _ l p hp with e | hp'
  · rw [e]
    simp only
    have hmem : (containsSelfLoop nfaSchewe st).headD 0 ∈ containsSelfLoop nfaSchewe st := by
      cases hc : containsSelfLoop nfaSchewe st with
      | nil => rw [hc] at hlen; simp at hlen
      | cons a as => simp
    unfold containsSelfLoop at hmem
    exact (List.mem_filter.mp hmem).1
  · exact hl p hp'

/-! ## The numbers of the sink macrostates -/

theorem installSink_fold_slTrans_other (l : List (IntSet × Nat)) (acc : SinkAcc)
    (pr : IntSet × Nat) (h : pr ∉ l) :
    assocFind (l.foldl installSink acc).slTrans pr = assocFind acc.slTrans pr := by
  induction l generalizing acc with
  | nil => rfl
  | cons p ps ih =>
    rw [List.foldl_cons, ih _ (fun hp => h (List.mem_cons_of_mem _ hp))]
    show assocFind (assocAssign acc.slTrans p (waiting [acc.newState])) pr = _
    rw [assocFind_assocAssign, if_neg (fun e => h (by rw [e]; exact List.mem_cons_self _ _))]

/-- The sink recorded in `slTrans` for the pair number `j` carries the number
`newState + j`. -/
theorem installSink_fold_slTrans (l : List (IntSet × Nat)) (hnd : l.Nodup) (acc : SinkAcc)
    (j : Nat) (pr : IntSet × Nat) (hj : l[j]? = some pr) :
    assocFind (l.foldl installSink acc).slTrans pr = some (waiting [acc.newState + j]) := by
  induction l generalizing acc j with
  | nil => simp at hj
  | cons p ps ih =>
    rw [List.nodup_cons] at hnd
    rw [List.foldl_cons]
    cases j with
    | zero =>
      simp only [List.getElem?_cons_zero, Option.some.injEq] at hj
      rw [← hj, installSink_fold_slTrans_other ps _ p hnd.1]
      show assocFind (assocAssign acc.slTrans p (waiting [acc.newState])) p = _
      rw [assocFind_assocAssign, if_pos rfl]
      rfl
    | succ j =>
      simp only [List.getElem?_cons_succ] at hj
      rw [ih hnd.2 (installSink acc p) j hj]
      show some (waiting [acc.newState + 1 + j]) = some (waiting [acc.newState + (j + 1)])
      rw [Nat.add_assoc, Nat.add_comm 1 j]

theorem waiting_single_ne (k k' : Nat) (h : k ≠ k') : waiting [k] ≠ waiting [k'] := by
  intro e
  have := (waiting_inj _ _).mp e
  exact h (List.head_eq_of_cons_eq this)

theorem complementSchNFA_alphabet (A : BuchiAutomaton) (start : IntSet) (fuel : Nat)
    (aut : MacroAut StateSch) (h : complementSchNFA A start fuel = some aut) :
    aut.alphabet = A.alphabet := by
  unfold complementSchNFA at h
  rw [Option.map_eq_some'] at h
  obtain ⟨s, _, e⟩ := h
  rw [← e]

/-- C39. On an automaton with the states 0..n−1 (δ and I within them), for
the pairs (S, a) returned by `nfaSingleSlNoAccept`, which are pairwise
different: the sink that `complementSchReduced` records for the pair number j
is ⟨{n + j}, …⟩, the sink that `complementSchOpt` records for it is
⟨{t + j}, …⟩ for the size t of the transition map, and n ≤ t + j when the map
holds an entry for every pair of a state and a symbol; each sink is among the
states, no sink is a macrostate of the waiting part, and different pairs get
different sinks. -/
theorem sink_identifiers_fresh (A : BuchiAutomaton) (hA : A.Numbered) (env : ReducedEnv)
    (delay : Bool) (fuel : Nat) (comp : MacroAut StateSch) (slNonEmpty : List (IntSet × Nat))
    (transSize : Nat)
    (hcomp : complementSchNFA A A.initials fuel = some comp)
    (hsl : nfaSingleSlNoAccept A comp fuel = some slNonEmpty)
    (hsize : A.states.length * A.alphabet.length ≤ transSize) :
    slNonEmpty.Nodup ∧
    ∀ (j : Nat) (pr : IntSet × Nat), slNonEmpty[j]? = some pr →
      (assocFind (reducedInit A env delay comp slNonEmpty).1.slTrans pr =
          some (waiting [A.states.length + j]) ∧
        waiting [A.states.length + j] ∈ (reducedInit A env delay comp slNonEmpty).1.comst ∧
        waiting [A.states.length + j] ∉ comp.states) ∧
      (assocFind (optInit transSize env delay comp slNonEmpty).1.slTrans pr =
          some (waiting [transSize + j]) ∧
        A.states.length ≤ transSize + j ∧
        waiting [transSize + j] ∈ (optInit transSize env delay comp slNonEmpty).1.comst ∧
        waiting [transSize + j] ∉ comp.states) ∧
      (∀ (j' : Nat) (pr' : IntSet × Nat), slNonEmpty[j']? = some pr' → pr' ≠ pr →
        waiting [A.states.length + j'] ≠ waiting [A.states.length + j] ∧
        waiting [transSize + j'] ≠ waiting [transSize + j]) := by
  have hnd := nfaSingleSlNoAccept_nodup A comp fuel slNonEmpty hsl
  refine ⟨hnd, ?_⟩
  intro j pr hj
  have hjlt : j < slNonEmpty.length := lt_length_of_getElem? _ _ _ hj
  have halph : pr.2 ∈ A.alphabet := by
    have h1 := nfaSingleSlNoAccept_symbol A comp fuel slNonEmpty hsl pr (List.getElem?_mem hj)
    have h2 : comp.alphabet = A.alphabet := complementSchNFA_alphabet A A.initials fuel comp hcomp
    rw [h2] at h1
    exact h1
  have hn : A.states.length ≤ transSize := by
    have hpos : 1 ≤ A.alphabet.length := List.length_pos_of_mem halph
    calc A.states.length = A.states.length * 1 := (Nat.mul_one _).symm
      _ ≤ A.states.length * A.alphabet.length := Nat.mul_le_mul_left _ hpos
      _ ≤ transSize := hsize
  have hnot : ∀ k, A.states.length ≤ k → waiting [k] ∉ comp.states := by
    intro k hk hx
    exact sink_not_waiting A hA fuel comp hcomp _ hx k hk rfl
  refine ⟨⟨?_, ?_, hnot _ (by omega)⟩, ⟨?_, by omega, ?_, hnot _ (by omega)⟩, ?_⟩
  · unfold reducedInit
    exact installSink_fold_slTrans slNonEmpty hnd _ j pr hj
  · unfold reducedInit
    exact (installSink_fold slNonEmpty _ _).2.mpr (Or.inr ⟨j, hjlt, rfl⟩)
  · unfold optInit
    exact installSink_fold_slTrans slNonEmpty hnd _ j pr hj
  · unfold optInit
    exact (installSink_fold slNonEmpty _ _).2.mpr (Or.inr ⟨j, hjlt, rfl⟩)
  · intro j' pr' hj' hne
    have hjj : j' ≠ j := by
      intro e
      rw [e, hj] at hj'
      exact hne (Option.some.inj hj').symm
    exact ⟨waiting_single_ne _ _ (by omega), waiting_single_ne _ _ (by omega)⟩

theorem lateAut_numbered : lateAut.Numbered := by
  refine ⟨rfl, ?_, by decide⟩
  intro q a q' h
  simp only [lateAut] at h ⊢
  split at h
  · simp only [List.mem_singleton] at h
    simp [h]
  · simp at h

theorem sink_identifiers_fresh_witness :
    scenario2.Numbered ∧
    complementSchNFA scenario2 scenario2.initials 6 = some scenario2Waiting ∧
    nfaSingleSlNoAccept scenario2 scenario2Waiting 6 = some [([0], 1)] ∧
    scenario2.states.length * scenario2.alphabet.length ≤ 4 ∧
    ([([0], 1)] : List (IntSet × Nat))[0]? = some ([0], 1) ∧
    (assocFind (reducedInit scenario2 scenario2Env false scenario2Waiting [([0], 1)]).1.slTrans
        ([0], 1) = some (waiting [2]) ∧
      waiting [2] ∈ (reducedInit scenario2 scenario2Env false scenario2Waiting
        [([0], 1)]).1.comst ∧
      waiting [2] ∉ scenario2Waiting.states) ∧
    (assocFind (optInit 4 scenario2Env false scenario2Waiting [([0], 1)]).1.slTrans
        ([0], 1) = some (waiting [4]) ∧
      2 ≤ 4 + 0 ∧
      waiting [4] ∈ (optInit 4 scenario2Env false scenario2Waiting [([0], 1)]).1.comst ∧
      waiting [4] ∉ scenario2Waiting.states) :=
  ⟨scenario2_numbered, by decide, by decide, by decide, by decide,
    ((sink_identifiers_fresh scenario2 scenario2_numbered scenario2Env false 6 scenario2Waiting
      [([0], 1)] 4 (by decide) (by decide) (by decide)).2 0 ([0], 1) (by decide)).1,
    ((sink_identifiers_fresh scenario2 scenario2_numbered scenario2Env false 6 scenario2Waiting
      [([0], 1)] 4 (by decide) (by decide) (by decide)).2 0 ([0], 1) (by decide)).2.1⟩

/-- The bound on the size of the transition map is needed for the sinks of
`complementSchOpt`: on `lateAut` (states 0 and 1) with a transition map of one
entry the sink of the pair ({1}, 0) is the macrostate {1} of the waiting part
itself. -/
theorem opt_sink_needs_size :
    lateAut.Numbered ∧ lateAut.states.length = 2 ∧
    complementSchNFA lateAut lateAut.initials 4 =
      some { states := [waiting [1]], finals := [], initials := [waiting [1]],
             trans := [((waiting [1], 0), [waiting [1]])], alphabet := [0] } ∧
    nfaSingleSlNoAccept lateAut
      { states := [waiting [1]], finals := [], initials := [waiting [1]],
        trans := [((waiting [1], 0), [waiting [1]])], alphabet := [0] } 4 = some [([1], 0)] ∧
    (optInit 1 scenario2Env false
      { states := [waiting [1]], finals := [], initials := [waiting [1]],
        trans := [((waiting [1], 0), [waiting [1]])], alphabet := [0] }
      [([1], 0)]).1.slTrans = [(([1], 0), waiting [1])] ∧
    (optInit 1 scenario2Env false
      { states := [waiting [1]], finals := [], initials := [waiting [1]],
        trans := [((waiting [1], 0), [waiting [1]])], alphabet := [0] }
      [([1], 0)]).1.comst = [waiting [1]] ∧
    (reducedInit lateAut scenario2Env false
      { states := [waiting [1]], finals := [], initials := [waiting [1]],
        trans := [((waiting [1], 0), [waiting [1]])], alphabet := [0] }
      [([1], 0)]).1.comst = [waiting [1], waiting [2]] :=
  ⟨lateAut_numbered, by decide, by decide, by decide, by decide, by decide, by decide⟩

end BaInclusion
